import Mathlib

/-!
# Segment Tree Beats (`interval tree/segment_tree_beats.cpp`)

A shallow embedding of the `SegTreeBeats` structure: range add, range chmin,
range chmax and range sum over an array of 64-bit values, kept in an implicit
binary tree stored in a vector of `Node` records (root at index 1, children of
`p` at `2p` and `2p+1`).

Modelling conventions.

* `long long` values are `Int`.  The model describes the executions of the C++
  code that are free of signed overflow (overflow is undefined behaviour in
  C++); the two sentinels `LLONG_MIN` and `LLONG_MAX` keep their numeric values.
* `int` indices `l r L R` are `Int`, node positions `p` are `Nat`;
  `(l+r)>>1` is floor division by two, `p<<1` is `2*p`, `p<<1|1` is `2*p+1`.
* `vector<Node> st` is a `List Node`.  An access outside the vector is the
  fault `outOfBounds`.
* The recursive procedures take a fuel argument, one unit per nested call;
  running out of it is the fault `outOfFuel`.  The public entry points supply
  `st.size()` units, and the theorems about the recursive procedures hold for
  every fuel exceeding the width of the node range.

The structures `SegTreeChminSum` and `SegTreeAP` of `segment_tree_beat.cpp` are
embedded after `SegTreeBeats`, in the namespaces `ChminSum` and `AP`, under the same
conventions.
-/

namespace Beats

/-- The value of `LLONG_MIN`, the "minus infinity" sentinel. -/
def LLONG_MIN : Int := -9223372036854775808

/-- The value of `LLONG_MAX`, the "plus infinity" sentinel. -/
def LLONG_MAX : Int := 9223372036854775807

/-- The record `struct Node` with its default member initialisers. -/
structure Node where
  sum : Int := 0
  add : Int := 0
  max1 : Int := LLONG_MIN
  smax2 : Int := LLONG_MIN
  cnt_max : Int := 0
  min1 : Int := LLONG_MAX
  smin2 : Int := LLONG_MAX
  cnt_min : Int := 0
deriving DecidableEq, Repr

instance : Inhabited Node := ⟨{}⟩

/-- The ways a run of the code can fail to produce a result. -/
inductive Fault where
  | outOfBounds
  | outOfFuel
deriving DecidableEq, Repr

/-- Results of the stateful procedures. -/
abbrev Res (α : Type) := Except Fault α

/-- The object `struct SegTreeBeats`: the element count and the node vector. -/
structure SegTreeBeats where
  n : Int
  st : List Node
deriving DecidableEq, Repr

/-- Read of `st[p]`. -/
def rd (st : List Node) (p : Nat) : Res Node :=
  match st[p]? with
  | some x => .ok x
  | none => .error .outOfBounds

/-- Write `st[p] = x`. -/
def wr (st : List Node) (p : Nat) (x : Node) : Res (List Node) :=
  if p < st.length then .ok (st.set p x) else .error .outOfBounds

/-- Read of `a[l]` in the input vector, the index being an `int`. -/
def rdVal (a : List Int) (l : Int) : Res Int :=
  if 0 ≤ l then
    match a[l.toNat]? with
    | some v => .ok v
    | none => .error .outOfBounds
  else .error .outOfBounds

/-- The function `make_node`. -/
def make_node (v : Int) : Node :=
  { sum := v, add := 0, max1 := v, min1 := v,
    smax2 := LLONG_MIN, smin2 := LLONG_MAX, cnt_max := 1, cnt_min := 1 }

/-- The function `merge`. -/
def merge (L R : Node) : Node :=
  let x : Node := { add := 0, sum := L.sum + R.sum }
  let x : Node :=
    if L.max1 > R.max1 then
      { x with max1 := L.max1, cnt_max := L.cnt_max, smax2 := max L.smax2 R.max1 }
    else if L.max1 < R.max1 then
      { x with max1 := R.max1, cnt_max := R.cnt_max, smax2 := max R.smax2 L.max1 }
    else
      { x with max1 := L.max1, cnt_max := L.cnt_max + R.cnt_max, smax2 := max L.smax2 R.smax2 }
  if L.min1 < R.min1 then
    { x with min1 := L.min1, cnt_min := L.cnt_min, smin2 := min L.smin2 R.min1 }
  else if L.min1 > R.min1 then
    { x with min1 := R.min1, cnt_min := R.cnt_min, smin2 := min R.smin2 L.min1 }
  else
    { x with min1 := L.min1, cnt_min := L.cnt_min + R.cnt_min, smin2 := min L.smin2 R.smin2 }

/-- The body of `apply_add` on the record `x = st[p]`. -/
def Node.apply_add (x : Node) (v : Int) (len : Int) : Node :=
  let x := { x with sum := x.sum + v * len }
  let x := { x with max1 := x.max1 + v }
  let x := if x.smax2 ≠ LLONG_MIN then { x with smax2 := x.smax2 + v } else x
  let x := { x with min1 := x.min1 + v }
  let x := if x.smin2 ≠ LLONG_MAX then { x with smin2 := x.smin2 + v } else x
  { x with add := x.add + v }

/-- The body of `apply_chmin` on the record `a = st[p]`. -/
def Node.apply_chmin (a : Node) (x : Int) : Node :=
  let dec := a.max1 - x
  let a := { a with sum := a.sum - dec * a.cnt_max }
  let a := { a with max1 := x }
  if a.min1 = a.max1 + dec then { a with min1 := x } else a

/-- The body of `apply_chmax` on the record `a = st[p]`. -/
def Node.apply_chmax (a : Node) (x : Int) : Node :=
  let inc := x - a.min1
  let a := { a with sum := a.sum + inc * a.cnt_min }
  let a := { a with min1 := x }
  if a.max1 = a.min1 - inc then { a with max1 := x } else a

/-- The procedure `apply_add(p, v, len)`. -/
def apply_add (st : List Node) (p : Nat) (v : Int) (len : Int) : Res (List Node) := do
  let x ← rd st p
  wr st p (x.apply_add v len)

/-- The procedure `apply_chmin(p, x)`. -/
def apply_chmin (st : List Node) (p : Nat) (x : Int) : Res (List Node) := do
  let a ← rd st p
  wr st p (a.apply_chmin x)

/-- The procedure `apply_chmax(p, x)`. -/
def apply_chmax (st : List Node) (p : Nat) (x : Int) : Res (List Node) := do
  let a ← rd st p
  wr st p (a.apply_chmax x)

/-- The procedure `push(p, l, r)`. -/
def push (st : List Node) (p : Nat) (l r : Int) : Res (List Node) :=
  if l = r then .ok st else do
    let m := (l + r) / 2
    let lc := 2 * p
    let rc := 2 * p + 1
    let np ← rd st p
    let st ←
      (if np.add ≠ 0 then do
        let v := np.add
        let st ← wr st p { np with add := 0 }
        let st ← apply_add st lc v (m - l + 1)
        apply_add st rc v (r - m)
      else pure st)
    let capMax := (← rd st p).max1
    let st ← (if (← rd st lc).max1 > capMax then apply_chmin st lc capMax else pure st)
    let st ← (if (← rd st rc).max1 > capMax then apply_chmin st rc capMax else pure st)
    let capMin := (← rd st p).min1
    let st ← (if (← rd st lc).min1 < capMin then apply_chmax st lc capMin else pure st)
    let st ← (if (← rd st rc).min1 < capMin then apply_chmax st rc capMin else pure st)
    pure st

/-- The recursive `build(p, l, r, a)`. -/
def build_go : Nat → List Node → Nat → Int → Int → List Int → Res (List Node)
  | 0, _, _, _, _, _ => .error .outOfFuel
  | fuel + 1, st, p, l, r, a =>
    if l = r then do
      let v ← rdVal a l
      wr st p (make_node v)
    else do
      let m := (l + r) / 2
      let st ← build_go fuel st (2 * p) l m a
      let st ← build_go fuel st (2 * p + 1) (m + 1) r a
      let x ← rd st (2 * p)
      let y ← rd st (2 * p + 1)
      wr st p (merge x y)

/-- The procedure `init(n_)`: `st.assign(4*n+4, Node())`. -/
def init (n : Int) : SegTreeBeats :=
  { n := n, st := List.replicate (4 * n + 4).toNat {} }

/-- The public `build(a)`. -/
def build (a : List Int) : Res SegTreeBeats := do
  let t := init a.length
  let st ← build_go t.st.length t.st 1 0 (t.n - 1) a
  pure { t with st := st }

/-- The recursive `range_add(p, l, r, L, R, v)`. -/
def range_add_go : Nat → List Node → Nat → Int → Int → Int → Int → Int → Res (List Node)
  | 0, _, _, _, _, _, _, _ => .error .outOfFuel
  | fuel + 1, st, p, l, r, L, R, v =>
    if R < l ∨ r < L then .ok st
    else if L ≤ l ∧ r ≤ R then apply_add st p v (r - l + 1)
    else do
      let m := (l + r) / 2
      let st ← push st p l r
      let st ← range_add_go fuel st (2 * p) l m L R v
      let st ← range_add_go fuel st (2 * p + 1) (m + 1) r L R v
      let x ← rd st (2 * p)
      let y ← rd st (2 * p + 1)
      wr st p (merge x y)

/-- The recursive `range_chmin(p, l, r, L, R, x)`. -/
def range_chmin_go : Nat → List Node → Nat → Int → Int → Int → Int → Int → Res (List Node)
  | 0, _, _, _, _, _, _, _ => .error .outOfFuel
  | fuel + 1, st, p, l, r, L, R, x =>
    if R < l ∨ r < L then .ok st
    else do
      let np ← rd st p
      if x ≥ np.max1 then pure st
      else if L ≤ l ∧ r ≤ R ∧ x > np.smax2 then apply_chmin st p x
      else do
        let m := (l + r) / 2
        let st ← push st p l r
        let st ← range_chmin_go fuel st (2 * p) l m L R x
        let st ← range_chmin_go fuel st (2 * p + 1) (m + 1) r L R x
        let a ← rd st (2 * p)
        let b ← rd st (2 * p + 1)
        wr st p (merge a b)

/-- The recursive `range_chmax(p, l, r, L, R, x)`. -/
def range_chmax_go : Nat → List Node → Nat → Int → Int → Int → Int → Int → Res (List Node)
  | 0, _, _, _, _, _, _, _ => .error .outOfFuel
  | fuel + 1, st, p, l, r, L, R, x =>
    if R < l ∨ r < L then .ok st
    else do
      let np ← rd st p
      if x ≤ np.min1 then pure st
      else if L ≤ l ∧ r ≤ R ∧ x < np.smin2 then apply_chmax st p x
      else do
        let m := (l + r) / 2
        let st ← push st p l r
        let st ← range_chmax_go fuel st (2 * p) l m L R x
        let st ← range_chmax_go fuel st (2 * p + 1) (m + 1) r L R x
        let a ← rd st (2 * p)
        let b ← rd st (2 * p + 1)
        wr st p (merge a b)

/-- The recursive `range_sum(p, l, r, L, R)`; the node vector is returned too,
since `push` may change it. -/
def range_sum_go : Nat → List Node → Nat → Int → Int → Int → Int → Res (Int × List Node)
  | 0, _, _, _, _, _, _ => .error .outOfFuel
  | fuel + 1, st, p, l, r, L, R =>
    if R < l ∨ r < L then .ok (0, st)
    else if L ≤ l ∧ r ≤ R then do
      let np ← rd st p
      pure (np.sum, st)
    else do
      let m := (l + r) / 2
      let st ← push st p l r
      let (s1, st) ← range_sum_go fuel st (2 * p) l m L R
      let (s2, st) ← range_sum_go fuel st (2 * p + 1) (m + 1) r L R
      pure (s1 + s2, st)

/-- The public `range_add(L, R, v)`. -/
def range_add (t : SegTreeBeats) (L R v : Int) : Res SegTreeBeats := do
  let st ← range_add_go t.st.length t.st 1 0 (t.n - 1) L R v
  pure { t with st := st }

/-- The public `range_chmin(L, R, x)`. -/
def range_chmin (t : SegTreeBeats) (L R x : Int) : Res SegTreeBeats := do
  let st ← range_chmin_go t.st.length t.st 1 0 (t.n - 1) L R x
  pure { t with st := st }

/-- The public `range_chmax(L, R, x)`. -/
def range_chmax (t : SegTreeBeats) (L R x : Int) : Res SegTreeBeats := do
  let st ← range_chmax_go t.st.length t.st 1 0 (t.n - 1) L R x
  pure { t with st := st }

/-- The public `range_sum(L, R)`. -/
def range_sum (t : SegTreeBeats) (L R : Int) : Res (Int × SegTreeBeats) := do
  let (s, st) ← range_sum_go t.st.length t.st 1 0 (t.n - 1) L R
  pure (s, { t with st := st })

/-! ## The other structures of `segment_tree_beat.cpp`

`SegTreeChminSum` (range chmin, range sum) and `SegTreeAP` (range addition of an
arithmetic progression, range sum) follow the same conventions.  Their node
vectors are read and written through the two checked accesses below. -/

/-- Read of `st[p]` in a vector of records. -/
def vrd {α : Type} (st : List α) (p : Nat) : Res α :=
  match st[p]? with
  | some x => .ok x
  | none => .error .outOfBounds

/-- Write `st[p] = x` in a vector of records. -/
def vwr {α : Type} (st : List α) (p : Nat) (x : α) : Res (List α) :=
  if p < st.length then .ok (st.set p x) else .error .outOfBounds

namespace ChminSum

/-- The record `struct Node` of `SegTreeChminSum`; the defaults are the values the
constructor `Node(long long v = 0)` gives for `v = 0`. -/
structure Node where
  sum : Int := 0
  max1 : Int := 0
  smax2 : Int := LLONG_MIN
  cnt_max : Int := 1
deriving DecidableEq, Repr

instance : Inhabited Node := ⟨{}⟩

/-- The constructor `Node(v)`. -/
def make_node (v : Int) : Node := { sum := v, max1 := v, smax2 := LLONG_MIN, cnt_max := 1 }

/-- The object `struct SegTreeChminSum`: the element count and the node vector. -/
structure SegTreeChminSum where
  n : Int
  st : List Node
deriving DecidableEq, Repr

/-- The procedure `init(n_)`: `st.assign(4*n+4, Node())`. -/
def init (n : Int) : SegTreeChminSum :=
  { n := n, st := List.replicate (4 * n + 4).toNat (make_node 0) }

/-- The function `merge(L, R)`. -/
def merge (L R : Node) : Node :=
  if L.max1 > R.max1 then
    { sum := L.sum + R.sum, max1 := L.max1, cnt_max := L.cnt_max,
      smax2 := max L.smax2 R.max1 }
  else if L.max1 < R.max1 then
    { sum := L.sum + R.sum, max1 := R.max1, cnt_max := R.cnt_max,
      smax2 := max R.smax2 L.max1 }
  else
    { sum := L.sum + R.sum, max1 := L.max1, cnt_max := L.cnt_max + R.cnt_max,
      smax2 := max L.smax2 R.smax2 }

/-- The recursive `build(p, l, r, a)`. -/
def build_go : Nat → List Node → Nat → Int → Int → List Int → Res (List Node)
  | 0, _, _, _, _, _ => .error .outOfFuel
  | fuel + 1, st, p, l, r, a =>
    if l = r then do
      let v ← rdVal a l
      vwr st p (make_node v)
    else do
      let m := (l + r) / 2
      let st ← build_go fuel st (2 * p) l m a
      let st ← build_go fuel st (2 * p + 1) (m + 1) r a
      let x ← vrd st (2 * p)
      let y ← vrd st (2 * p + 1)
      vwr st p (merge x y)

/-- The public `build(a)`. -/
def build (a : List Int) : Res SegTreeChminSum := do
  let t := init a.length
  let st ← build_go t.st.length t.st 1 0 (t.n - 1) a
  pure { t with st := st }

/-- The procedure `apply_chmin(p, x)`: nothing when `x >= max1`, else the maxima
are lowered to `x`. -/
def apply_chmin (st : List Node) (p : Nat) (x : Int) : Res (List Node) := do
  let np ← vrd st p
  let old := np.max1
  if x ≥ old then pure st
  else vwr st p { np with sum := np.sum - (old - x) * np.cnt_max, max1 := x }

/-- The procedure `push(p)`: the cap of `p` is passed to the two children. -/
def push (st : List Node) (p : Nat) : Res (List Node) := do
  let lc := 2 * p
  let rc := 2 * p + 1
  let np ← vrd st p
  let cap := np.max1
  let c ← vrd st lc
  let st ← (if c.max1 > cap then apply_chmin st lc cap else pure st)
  let c ← vrd st rc
  let st ← (if c.max1 > cap then apply_chmin st rc cap else pure st)
  pure st

/-- The recursive `range_chmin(p, l, r, L, R, x)`. -/
def range_chmin_go : Nat → List Node → Nat → Int → Int → Int → Int → Int → Res (List Node)
  | 0, _, _, _, _, _, _, _ => .error .outOfFuel
  | fuel + 1, st, p, l, r, L, R, x =>
    if R < l ∨ r < L then .ok st
    else do
      let np ← vrd st p
      if x ≥ np.max1 then pure st
      else if L ≤ l ∧ r ≤ R ∧ x > np.smax2 then apply_chmin st p x
      else do
        let m := (l + r) / 2
        let st ← push st p
        let st ← range_chmin_go fuel st (2 * p) l m L R x
        let st ← range_chmin_go fuel st (2 * p + 1) (m + 1) r L R x
        let a ← vrd st (2 * p)
        let b ← vrd st (2 * p + 1)
        vwr st p (merge a b)

/-- The recursive `range_sum(p, l, r, L, R)`; the pushes on the way change the vector. -/
def range_sum_go : Nat → List Node → Nat → Int → Int → Int → Int → Res (Int × List Node)
  | 0, _, _, _, _, _, _ => .error .outOfFuel
  | fuel + 1, st, p, l, r, L, R =>
    if R < l ∨ r < L then .ok (0, st)
    else if L ≤ l ∧ r ≤ R then do
      let np ← vrd st p
      pure (np.sum, st)
    else do
      let m := (l + r) / 2
      let st ← push st p
      let (s1, st) ← range_sum_go fuel st (2 * p) l m L R
      let (s2, st) ← range_sum_go fuel st (2 * p + 1) (m + 1) r L R
      pure (s1 + s2, st)

/-- The public `range_chmin(L, R, x)`. -/
def range_chmin (t : SegTreeChminSum) (L R x : Int) : Res SegTreeChminSum := do
  let st ← range_chmin_go t.st.length t.st 1 0 (t.n - 1) L R x
  pure { t with st := st }

/-- The public `range_sum(L, R)`. -/
def range_sum (t : SegTreeChminSum) (L R : Int) : Res (Int × SegTreeChminSum) := do
  let (s, st) ← range_sum_go t.st.length t.st 1 0 (t.n - 1) L R
  pure (s, { t with st := st })

end ChminSum

namespace AP

/-- The record `struct Node { long long sum, add_i, add_c; }` of `SegTreeAP`. -/
structure Node where
  sum : Int
  add_i : Int
  add_c : Int
deriving DecidableEq, Repr

instance : Inhabited Node := ⟨⟨0, 0, 0⟩⟩

/-- The object `struct SegTreeAP`: the element count and the node vector. -/
structure SegTreeAP where
  n : Int
  st : List Node
deriving DecidableEq, Repr

/-- The procedure `init(n_)`: `st.assign(4*n+4, {0,0,0})`. -/
def init (n : Int) : SegTreeAP :=
  { n := n, st := List.replicate (4 * n + 4).toNat ⟨0, 0, 0⟩ }

/-- The function `sum_i(L, R)` over exact integers: `(L + R) * len / 2` with
`len = R - L + 1`, the division truncating as in C++.  The source adds `L + R` in
32-bit `int` before widening; `AP.sum_i_int32` below keeps that addition, and the two
agree whenever `0 <= L <= R` and `L + R <= INT_MAX` (`sum_i_int32_eq`), which holds
for every node range of a tree whose `4n + 4` records fit an `int`. -/
def sum_i (L R : Int) : Int :=
  let len := R - L + 1
  Int.tdiv ((L + R) * len) 2

/-- The recursive `build(p, L, R, a)`. -/
def build_go : Nat → List Node → Nat → Int → Int → List Int → Res (List Node)
  | 0, _, _, _, _, _ => .error .outOfFuel
  | fuel + 1, st, p, L, R, a =>
    if L = R then do
      let v ← rdVal a L
      let np ← vrd st p
      vwr st p { np with sum := v }
    else do
      let M := (L + R) / 2
      let st ← build_go fuel st (2 * p) L M a
      let st ← build_go fuel st (2 * p + 1) (M + 1) R a
      let x ← vrd st (2 * p)
      let y ← vrd st (2 * p + 1)
      let np ← vrd st p
      vwr st p { np with sum := x.sum + y.sum }

/-- The public `build(a)`. -/
def build (a : List Int) : Res SegTreeAP := do
  let t := init a.length
  let st ← build_go t.st.length t.st 1 0 (t.n - 1) a
  pure { t with st := st }

/-- The procedure `apply(p, L, R, alpha, beta)`. -/
def apply (st : List Node) (p : Nat) (L R alpha beta : Int) : Res (List Node) := do
  let len := R - L + 1
  let np ← vrd st p
  vwr st p { sum := np.sum + (alpha * sum_i L R + beta * len),
             add_i := np.add_i + alpha, add_c := np.add_c + beta }

/-- The procedure `push(p, L, R)`. -/
def push (st : List Node) (p : Nat) (L R : Int) : Res (List Node) := do
  let np ← vrd st p
  let ai := np.add_i
  let ac := np.add_c
  if ai = 0 ∧ ac = 0 then pure st
  else do
    let M := (L + R) / 2
    let st ← apply st (2 * p) L M ai ac
    let st ← apply st (2 * p + 1) (M + 1) R ai ac
    let np ← vrd st p
    vwr st p { np with add_i := 0, add_c := 0 }

/-- The recursive `range_add_linear(p, L, R, l, r, alpha, beta)`. -/
def range_add_linear_go :
    Nat → List Node → Nat → Int → Int → Int → Int → Int → Int → Res (List Node)
  | 0, _, _, _, _, _, _, _, _ => .error .outOfFuel
  | fuel + 1, st, p, L, R, l, r, alpha, beta =>
    if r < L ∨ R < l then .ok st
    else if l ≤ L ∧ R ≤ r then apply st p L R alpha beta
    else do
      let st ← push st p L R
      let M := (L + R) / 2
      let st ← range_add_linear_go fuel st (2 * p) L M l r alpha beta
      let st ← range_add_linear_go fuel st (2 * p + 1) (M + 1) R l r alpha beta
      let x ← vrd st (2 * p)
      let y ← vrd st (2 * p + 1)
      let np ← vrd st p
      vwr st p { np with sum := x.sum + y.sum }

/-- The recursive `range_sum(p, L, R, l, r)`; the pushes on the way change the vector. -/
def range_sum_go : Nat → List Node → Nat → Int → Int → Int → Int → Res (Int × List Node)
  | 0, _, _, _, _, _, _ => .error .outOfFuel
  | fuel + 1, st, p, L, R, l, r =>
    if r < L ∨ R < l then .ok (0, st)
    else if l ≤ L ∧ R ≤ r then do
      let np ← vrd st p
      pure (np.sum, st)
    else do
      let st ← push st p L R
      let M := (L + R) / 2
      let (a, st) ← range_sum_go fuel st (2 * p) L M l r
      let (b, st) ← range_sum_go fuel st (2 * p + 1) (M + 1) R l r
      pure (a + b, st)

/-- The public `range_add_linear(l, r, alpha, beta)`. -/
def range_add_linear (t : SegTreeAP) (l r alpha beta : Int) : Res SegTreeAP := do
  let st ← range_add_linear_go t.st.length t.st 1 0 (t.n - 1) l r alpha beta
  pure { t with st := st }

/-- The public `range_add_ap(l, r, v)`: step 1. -/
def range_add_ap (t : SegTreeAP) (l r v : Int) : Res SegTreeAP :=
  let alpha := 1
  let beta := v - l
  range_add_linear t l r alpha beta

/-- The public `range_add_ap_step(l, r, v, d)`: step `d`. -/
def range_add_ap_step (t : SegTreeAP) (l r v d : Int) : Res SegTreeAP :=
  let alpha := d
  let beta := v - d * l
  range_add_linear t l r alpha beta

/-- The public `range_sum(l, r)`. -/
def range_sum (t : SegTreeAP) (l r : Int) : Res (Int × SegTreeAP) := do
  let (s, st) ← range_sum_go t.st.length t.st 1 0 (t.n - 1) l r
  pure (s, { t with st := st })

end AP

/-! ## Auxiliary definitions used to state and prove the properties -/

/-- The record at position `i` of the node vector (the default record outside it). -/
def nd (st : List Node) (i : Nat) : Node := st.getD i {}

/-- The node vector with the record at position `i` replaced by its image under `f`. -/
def upd (st : List Node) (i : Nat) (f : Node → Node) : List Node := st.set i (f (nd st i))

/-- What `push` at a node with record `P` does to a child record `c` that owns `len`
elements: the pending addition, then the clamp from above, then the clamp from below. -/
def pushChild (P c : Node) (len : Int) : Node :=
  let c := if P.add ≠ 0 then c.apply_add P.add len else c
  let c := if c.max1 > P.max1 then c.apply_chmin P.max1 else c
  if c.min1 < P.min1 then c.apply_chmax P.min1 else c

/-- The node vector after `push(p, l, r)` on an internal node, in closed form. -/
def pushed (st : List Node) (p : Nat) (l r : Int) : List Node :=
  upd (upd (upd st p (fun x => { x with add := 0 }))
    (2 * p) (fun c => pushChild (nd st p) c ((l + r) / 2 - l + 1)))
    (2 * p + 1) (fun c => pushChild (nd st p) c (r - (l + r) / 2))

/-- Node position `i` lies in the subtree rooted at position `p`. -/
def Under (p i : Nat) : Prop := ∃ k, i / 2 ^ k = p

/-- Positions and ranges of the subtree rooted at `p` for the range `[l, r]`,
all positions being below `N`. -/
inductive Shape (N : Nat) : Nat → Int → Int → Prop
  | leaf (p : Nat) (l : Int) : 1 ≤ p → p < N → Shape N p l l
  | node (p : Nat) (l r : Int) : 1 ≤ p → 2 * p + 1 < N → l < r →
      Shape N (2 * p) l ((l + r) / 2) → Shape N (2 * p + 1) ((l + r) / 2 + 1) r → Shape N p l r

/-- The sum of `k` consecutive elements of `a` starting at index `l`. -/
def sumFrom (a : List Int) (l : Int) : Nat → Int
  | 0 => 0
  | k + 1 => a.getD l.toNat 0 + sumFrom a (l + 1) k

/-- The sum `a[L] + ... + a[R]` of a plain array (empty when `R < L`). -/
def rangeSum (a : List Int) (L R : Int) : Int := sumFrom a L (R - L + 1).toNat

/-- The subtree at `p` over `[l, r]` is as `build` leaves it: every leaf is
`make_node` of its element and every internal node is the `merge` of its children. -/
inductive Built (a : List Int) (st : List Node) : Nat → Int → Int → Prop
  | leaf (p : Nat) (l : Int) : nd st p = make_node (a.getD l.toNat 0) → Built a st p l l
  | node (p : Nat) (l r : Int) : l < r →
      Built a st (2 * p) l ((l + r) / 2) → Built a st (2 * p + 1) ((l + r) / 2 + 1) r →
      nd st p = merge (nd st (2 * p)) (nd st (2 * p + 1)) → Built a st p l r

/-- The value a point query at index `i` reads from the subtree at `p` over
`[l, r]` when the record of `p` itself is `N` and all records below it are those
of `st`: the pushes on the way down are replayed on the records only.  The first
argument bounds the depth. -/
def valN : Nat → List Node → Node → Nat → Int → Int → Int → Int
  | 0, _, N, _, _, _, _ => N.sum
  | k + 1, st, N, p, l, r, i =>
    if l < r then
      if i ≤ (l + r) / 2 then
        valN k st (pushChild N (nd st (2 * p)) ((l + r) / 2 - l + 1)) (2 * p) l ((l + r) / 2) i
      else
        valN k st (pushChild N (nd st (2 * p + 1)) (r - (l + r) / 2)) (2 * p + 1)
          ((l + r) / 2 + 1) r i
    else N.sum

/-- Every leaf of the subtree at `p` over `[l, r]` satisfies `Q`. -/
inductive Leaves (Q : Node → Prop) (st : List Node) : Nat → Int → Int → Prop
  | leaf (p : Nat) (l : Int) : Q (nd st p) → Leaves Q st p l l
  | node (p : Nat) (l r : Int) : l < r →
      Leaves Q st (2 * p) l ((l + r) / 2) → Leaves Q st (2 * p + 1) ((l + r) / 2 + 1) r →
      Leaves Q st p l r

/-- The shape of a record that stands for a single element. -/
def LeafInv (N : Node) : Prop :=
  N.max1 = N.sum ∧ N.min1 = N.sum ∧ N.cnt_max = 1 ∧ N.cnt_min = 1 ∧
    N.smax2 = LLONG_MIN ∧ N.smin2 = LLONG_MAX

/-- First step of `push` on a child record: the pending addition. -/
def addStage (A len : Int) (c : Node) : Node := if A ≠ 0 then c.apply_add A len else c

/-- Second step of `push` on a child record: the clamp from above. -/
def minStage (cap : Int) (c : Node) : Node := if c.max1 > cap then c.apply_chmin cap else c

/-- Third step of `push` on a child record: the clamp from below. -/
def maxStage (cap : Int) (c : Node) : Node := if c.min1 < cap then c.apply_chmax cap else c

/-- Record `N'` is record `N` after a uniform addition of `v` over `len` elements
(second maxima and minima are not compared). -/
def ShiftRel (v : Int) (len : Int) (N N' : Node) : Prop :=
  N'.sum = N.sum + v * len ∧ N'.add = N.add + v ∧ N'.max1 = N.max1 + v ∧
    N'.min1 = N.min1 + v ∧ N'.cnt_max = N.cnt_max ∧ N'.cnt_min = N.cnt_min

/-- Record `N'` clamps from below with `x` what record `N` clamps. -/
def ChmaxRel (x : Int) (N N' : Node) : Prop :=
  N'.add = N.add ∧ N'.min1 = max N.min1 x ∧ max N'.max1 N'.min1 = max N.max1 N'.min1

/-- A public operation of the structure with its arguments. -/
inductive Op where
  | add (L R v : Int)
  | chmin (L R x : Int)
  | chmax (L R x : Int)
  | sum (L R : Int)

deriving DecidableEq, Repr

/-- The index arguments of an operation address a non-empty range inside `[0, n-1]`. -/
def Op.inRange (n : Int) : Op → Prop
  | .add L R _ => 0 ≤ L ∧ L ≤ R ∧ R ≤ n - 1
  | .chmin L R _ => 0 ≤ L ∧ L ≤ R ∧ R ≤ n - 1
  | .chmax L R _ => 0 ≤ L ∧ L ≤ R ∧ R ≤ n - 1
  | .sum L R => 0 ≤ L ∧ L ≤ R ∧ R ≤ n - 1

/-- The clamp value of an operation is not the sentinel of its side. -/
def Op.clampOK : Op → Prop
  | .chmin _ _ x => LLONG_MIN < x
  | .chmax _ _ x => x < LLONG_MAX
  | _ => True

instance (n : Int) (op : Op) : Decidable (op.inRange n) := by
  cases op <;> unfold Op.inRange <;> infer_instance

instance (op : Op) : Decidable op.clampOK := by
  cases op <;> unfold Op.clampOK <;> infer_instance

/-- One public call on the structure; a query also yields its result. -/
def step (t : SegTreeBeats) : Op → Res (Option Int × SegTreeBeats)
  | .add L R v => do
    let t' ← range_add t L R v
    pure (none, t')
  | .chmin L R x => do
    let t' ← range_chmin t L R x
    pure (none, t')
  | .chmax L R x => do
    let t' ← range_chmax t L R x
    pure (none, t')
  | .sum L R => do
    let (s, t') ← range_sum t L R
    pure (some s, t')

/-- A sequence of public calls; the results of the queries are collected in order. -/
def run (t : SegTreeBeats) : List Op → Res (List Int × SegTreeBeats)
  | [] => pure ([], t)
  | op :: ops => do
    let (o, t') ← step t op
    let (outs, t'') ← run t' ops
    pure (o.toList ++ outs, t'')

/-- The states reachable from `build` on a non-empty array by public calls with
in-range indices that satisfy `good`. -/
inductive ReachableBy (good : Op → Prop) : SegTreeBeats → Prop
  | build (a : List Int) (t : SegTreeBeats) : a ≠ [] → build a = .ok t → ReachableBy good t
  | step (t : SegTreeBeats) (op : Op) (o : Option Int) (t' : SegTreeBeats) :
      ReachableBy good t → good op → op.inRange t.n → step t op = .ok (o, t') →
      ReachableBy good t'

/-- The states reachable from `build` on a non-empty array by public calls with
in-range indices. -/
def Reachable : SegTreeBeats → Prop := ReachableBy (fun _ => True)

/-- Every result of the computation `m` satisfies `P`. -/
def Post {α : Type} (P : α → Prop) (m : Res α) : Prop := ∀ a, m = .ok a → P a

/-- Every result of the computation `m` is a vector of length `n`. -/
def LP (n : Nat) (m : Res (List Node)) : Prop := Post (fun s => s.length = n) m

deriving instance DecidableEq for Except

/-- The naive reference model: `f` applied to the elements at indices `L..R` of a
plain array, the first element of the list having index `i`. -/
def naiveMap (f : Int → Int) (L R : Int) : Int → List Int → List Int
  | _, [] => []
  | i, x :: xs => (if L ≤ i ∧ i ≤ R then f x else x) :: naiveMap f L R (i + 1) xs

/-- One operation of the naive reference model on a plain array. -/
def naiveStep (a : List Int) : Op → Option Int × List Int
  | .add L R v => (none, naiveMap (fun e => e + v) L R 0 a)
  | .chmin L R x => (none, naiveMap (fun e => min e x) L R 0 a)
  | .chmax L R x => (none, naiveMap (fun e => max e x) L R 0 a)
  | .sum L R => (some (rangeSum a L R), a)

/-- A sequence of operations on the naive reference model; the results of the
queries are collected in order. -/
def naiveRun (a : List Int) : List Op → List Int × List Int
  | [] => ([], a)
  | op :: ops =>
    let (o, a') := naiveStep a op
    let (outs, a'') := naiveRun a' ops
    (o.toList ++ outs, a'')

/-- The largest element of a plain array. -/
def statMax1 (a : List Int) : Int := (a.max?).getD LLONG_MIN

/-- The largest element strictly below the maximum, or the sentinel. -/
def statSmax2 (a : List Int) : Int := ((a.filter (fun e => e < statMax1 a)).max?).getD LLONG_MIN

/-- The number of elements equal to the maximum. -/
def statCntMax (a : List Int) : Int := a.count (statMax1 a)

/-- The smallest element of a plain array. -/
def statMin1 (a : List Int) : Int := (a.min?).getD LLONG_MAX

/-- The smallest element strictly above the minimum, or the sentinel. -/
def statSmin2 (a : List Int) : Int := ((a.filter (fun e => statMin1 a < e)).min?).getD LLONG_MAX

/-- The number of elements equal to the minimum. -/
def statCntMin (a : List Int) : Int := a.count (statMin1 a)

/-- The tree `build` returns for `[1, 5]`. -/
def tree15 : SegTreeBeats :=
  match build [1, 5] with
  | .ok t => t
  | .error _ => init 0

/-! ## Auxiliary definitions for the later claims -/

/-- The record at position `i` of a vector of records (the default record outside it). -/
def vnd {α : Type} [Inhabited α] (st : List α) (i : Nat) : α := st.getD i default

/-- The vector with the record at position `i` replaced by its image under `f`. -/
def vupd {α : Type} [Inhabited α] (st : List α) (i : Nat) (f : α → α) : List α :=
  st.set i (f (vnd st i))

/-- The sum of `k` consecutive values of `f` starting at index `l`. -/
def sumF (f : Int → Int) (l : Int) : Nat → Int
  | 0 => 0
  | k + 1 => f l + sumF f (l + 1) k

/-- The sum `f L + ... + f R` (empty when `R < L`). -/
def rsum (f : Int → Int) (L R : Int) : Int := sumF f L (R - L + 1).toNat

/-- The element at index `i` of a plain array, as a function of the index. -/
def elemAt (a : List Int) (i : Int) : Int := a.getD i.toNat 0

/-- What `apply(p, L, R, alpha, beta)` of `SegTreeAP` does to the record of `p`. -/
def AP.applyN (L R alpha beta : Int) (N : AP.Node) : AP.Node :=
  { sum := N.sum + (alpha * AP.sum_i L R + beta * (R - L + 1)),
    add_i := N.add_i + alpha, add_c := N.add_c + beta }

/-- The node vector after `push(p, L, R)` of `SegTreeAP` on an internal node, in closed form. -/
def AP.pushed (st : List AP.Node) (p : Nat) (L R : Int) : List AP.Node :=
  vupd (vupd (vupd st (2 * p)
      (AP.applyN L ((L + R) / 2) (vnd st p).add_i (vnd st p).add_c))
    (2 * p + 1) (AP.applyN ((L + R) / 2 + 1) R (vnd st p).add_i (vnd st p).add_c))
    p (fun x => { x with add_i := 0, add_c := 0 })

/-- The subtree at `p` over `[l, r]` of a `SegTreeAP` vector stands for the values
`f l, ..., f r`: a leaf holds its value in `sum`, an internal node holds the sum of
its values, and its two tags are a linear function of the index still to be added
to what its children stand for. -/
inductive AP.Rep (st : List AP.Node) : Nat → Int → Int → (Int → Int) → Prop
  | leaf (p : Nat) (l : Int) (f : Int → Int) : (vnd st p).sum = f l → AP.Rep st p l l f
  | node (p : Nat) (l r : Int) (f g : Int → Int) : l < r →
      AP.Rep st (2 * p) l ((l + r) / 2) g → AP.Rep st (2 * p + 1) ((l + r) / 2 + 1) r g →
      (∀ i, l ≤ i → i ≤ r → f i = g i + (vnd st p).add_i * i + (vnd st p).add_c) →
      (vnd st p).sum = rsum f l r → AP.Rep st p l r f

/-- A public operation of `SegTreeAP` with its arguments. -/
inductive AP.Op where
  | add_ap (l r v : Int)
  | add_ap_step (l r v d : Int)
  | sum (l r : Int)

deriving DecidableEq, Repr

/-- The index arguments of an operation address a non-empty range inside `[0, n-1]`. -/
def AP.Op.inRange (n : Int) : AP.Op → Prop
  | .add_ap l r _ => 0 ≤ l ∧ l ≤ r ∧ r ≤ n - 1
  | .add_ap_step l r _ _ => 0 ≤ l ∧ l ≤ r ∧ r ≤ n - 1
  | .sum l r => 0 ≤ l ∧ l ≤ r ∧ r ≤ n - 1

instance (n : Int) (op : AP.Op) : Decidable (op.inRange n) := by
  cases op <;> unfold AP.Op.inRange <;> infer_instance

/-- One public call on a `SegTreeAP`; a query also yields its result. -/
def AP.step (t : AP.SegTreeAP) : AP.Op → Res (Option Int × AP.SegTreeAP)
  | .add_ap l r v => do
    let t' ← AP.range_add_ap t l r v
    pure (none, t')
  | .add_ap_step l r v d => do
    let t' ← AP.range_add_ap_step t l r v d
    pure (none, t')
  | .sum l r => do
    let (s, t') ← AP.range_sum t l r
    pure (some s, t')

/-- A sequence of public calls on a `SegTreeAP`; the results of the queries are
collected in order. -/
def AP.run (t : AP.SegTreeAP) : List AP.Op → Res (List Int × AP.SegTreeAP)
  | [] => pure ([], t)
  | op :: ops => do
    let (o, t') ← AP.step t op
    let (outs, t'') ← AP.run t' ops
    pure (o.toList ++ outs, t'')

/-- The naive reference update `a[i] += v + d*(i - l)` for every `i` in `[l, r]` of a
plain array, the first element of the list having index `i`. -/
def naiveAddAP (l r v d : Int) : Int → List Int → List Int
  | _, [] => []
  | i, x :: xs => (if l ≤ i ∧ i ≤ r then x + (v + d * (i - l)) else x) ::
      naiveAddAP l r v d (i + 1) xs

/-- One operation of the naive reference model of `SegTreeAP` on a plain array. -/
def AP.naiveStep (a : List Int) : AP.Op → Option Int × List Int
  | .add_ap l r v => (none, naiveAddAP l r v 1 0 a)
  | .add_ap_step l r v d => (none, naiveAddAP l r v d 0 a)
  | .sum l r => (some (rangeSum a l r), a)

/-- A sequence of operations on the naive reference model of `SegTreeAP`; the
results of the queries are collected in order. -/
def AP.naiveRun (a : List Int) : List AP.Op → List Int × List Int
  | [] => ([], a)
  | op :: ops =>
    let (o, a') := AP.naiveStep a op
    let (outs, a'') := AP.naiveRun a' ops
    (o.toList ++ outs, a'')

/-- What `apply_chmin(p, x)` of `SegTreeChminSum` does to the record of `p`. -/
def ChminSum.capN (x : Int) (N : ChminSum.Node) : ChminSum.Node :=
  if x ≥ N.max1 then N else { N with sum := N.sum - (N.max1 - x) * N.cnt_max, max1 := x }

/-- The node vector after `push(p)` of `SegTreeChminSum` on an internal node, in closed form. -/
def ChminSum.pushed (st : List ChminSum.Node) (p : Nat) : List ChminSum.Node :=
  vupd (vupd st (2 * p) (ChminSum.capN (vnd st p).max1)) (2 * p + 1)
    (ChminSum.capN (vnd st p).max1)

/-- The shape of a `SegTreeChminSum` record that stands for a single element. -/
def ChminSum.LeafOK (N : ChminSum.Node) : Prop :=
  N.sum = N.max1 ∧ N.cnt_max = 1 ∧ N.smax2 = LLONG_MIN ∧ LLONG_MIN ≤ N.max1

/-- The record `N` summarises the values `f l, ..., f r`: none is above `max1`, and
lowering to any cap `x` between `smax2` and `max1` lowers the sum by `max1 - x` for
each of the `cnt_max` maxima. -/
def ChminSum.Good (N : ChminSum.Node) (f : Int → Int) (l r : Int) : Prop :=
  N.smax2 ≤ N.max1 ∧ (∀ i, l ≤ i → i ≤ r → f i ≤ N.max1) ∧
    ∀ x, N.smax2 ≤ x → x ≤ N.max1 →
      rsum (fun i => min (f i) x) l r = N.sum - (N.max1 - x) * N.cnt_max

/-- The subtree at `p` over `[l, r]` of a `SegTreeChminSum` vector stands for the
values `f l, ..., f r`: a leaf holds its value, and an internal node caps with its
`max1` what its children stand for, summarises the result, and has a `smax2` that is
not below those of its children. -/
inductive ChminSum.Rep (st : List ChminSum.Node) : Nat → Int → Int → (Int → Int) → Prop
  | leaf (p : Nat) (l : Int) (f : Int → Int) : ChminSum.LeafOK (vnd st p) →
      f l = (vnd st p).max1 → ChminSum.Rep st p l l f
  | node (p : Nat) (l r : Int) (f g : Int → Int) : l < r →
      ChminSum.Rep st (2 * p) l ((l + r) / 2) g →
      ChminSum.Rep st (2 * p + 1) ((l + r) / 2 + 1) r g →
      (∀ i, l ≤ i → i ≤ r → f i = min (g i) (vnd st p).max1) →
      ChminSum.Good (vnd st p) f l r →
      (vnd st (2 * p)).smax2 ≤ (vnd st p).smax2 →
      (vnd st (2 * p + 1)).smax2 ≤ (vnd st p).smax2 → ChminSum.Rep st p l r f

/-- A public operation of `SegTreeChminSum` with its arguments. -/
inductive ChminSum.Op where
  | chmin (L R x : Int)
  | sum (L R : Int)

deriving DecidableEq, Repr

/-- The index arguments of an operation address a non-empty range inside `[0, n-1]`. -/
def ChminSum.Op.inRange (n : Int) : ChminSum.Op → Prop
  | .chmin L R _ => 0 ≤ L ∧ L ≤ R ∧ R ≤ n - 1
  | .sum L R => 0 ≤ L ∧ L ≤ R ∧ R ≤ n - 1

/-- The clamp value of an operation is above the "minus infinity" sentinel. -/
def ChminSum.Op.clampOK : ChminSum.Op → Prop
  | .chmin _ _ x => LLONG_MIN < x
  | _ => True

instance (n : Int) (op : ChminSum.Op) : Decidable (op.inRange n) := by
  cases op <;> unfold ChminSum.Op.inRange <;> infer_instance

instance (op : ChminSum.Op) : Decidable op.clampOK := by
  cases op <;> unfold ChminSum.Op.clampOK <;> infer_instance

/-- One public call on a `SegTreeChminSum`; a query also yields its result. -/
def ChminSum.step (t : ChminSum.SegTreeChminSum) :
    ChminSum.Op → Res (Option Int × ChminSum.SegTreeChminSum)
  | .chmin L R x => do
    let t' ← ChminSum.range_chmin t L R x
    pure (none, t')
  | .sum L R => do
    let (s, t') ← ChminSum.range_sum t L R
    pure (some s, t')

/-- A sequence of public calls on a `SegTreeChminSum`; the results of the queries
are collected in order. -/
def ChminSum.run (t : ChminSum.SegTreeChminSum) :
    List ChminSum.Op → Res (List Int × ChminSum.SegTreeChminSum)
  | [] => pure ([], t)
  | op :: ops => do
    let (o, t') ← ChminSum.step t op
    let (outs, t'') ← ChminSum.run t' ops
    pure (o.toList ++ outs, t'')

/-- One operation of the naive reference model of `SegTreeChminSum` on a plain
array: `a[i] = min(a[i], x)` for every `i` in `[L, R]`, or the sum over `[L, R]`. -/
def ChminSum.naiveStep (a : List Int) : ChminSum.Op → Option Int × List Int
  | .chmin L R x => (none, naiveMap (fun e => min e x) L R 0 a)
  | .sum L R => (some (rangeSum a L R), a)

/-- A sequence of operations on the naive reference model of `SegTreeChminSum`; the
results of the queries are collected in order. -/
def ChminSum.naiveRun (a : List Int) : List ChminSum.Op → List Int × List Int
  | [] => ([], a)
  | op :: ops =>
    let (o, a') := ChminSum.naiveStep a op
    let (outs, a'') := ChminSum.naiveRun a' ops
    (o.toList ++ outs, a'')

/-- The value arguments of an operation are 64-bit values. -/
def Op.word64 : Op → Prop
  | .add _ _ v => LLONG_MIN ≤ v ∧ v ≤ LLONG_MAX
  | .chmin _ _ x => LLONG_MIN ≤ x ∧ x ≤ LLONG_MAX
  | .chmax _ _ x => LLONG_MIN ≤ x ∧ x ≤ LLONG_MAX
  | .sum _ _ => True

instance (op : Op) : Decidable op.word64 := by
  cases op <;> unfold Op.word64 <;> infer_instance

/-- The shape of a leaf record after a clamp with a sentinel has replaced it by the
merge of two unused records: it counts no maximum and no minimum, so that clamps no
longer change its sum. -/
def Destroyed (N : Node) : Prop :=
  N.cnt_max = 0 ∧ N.cnt_min = 0 ∧ N.smax2 = LLONG_MIN ∧ N.smin2 = LLONG_MAX ∧
    N.max1 ≤ N.sum + LLONG_MIN ∧ N.sum + LLONG_MAX ≤ N.min1

/-- The two shapes a leaf record can have: it stands for a single element, or a
clamp with a sentinel has destroyed it. -/
def LeafGen (N : Node) : Prop := LeafInv N ∨ Destroyed N

/-- The two records below every leaf of the subtree at `p` over `[l, r]` are unused. -/
inductive LeafKids (st : List Node) : Nat → Int → Int → Prop
  | leaf (p : Nat) (l : Int) : nd st (2 * p) = {} → nd st (2 * p + 1) = {} → LeafKids st p l l
  | node (p : Nat) (l r : Int) : l < r →
      LeafKids st (2 * p) l ((l + r) / 2) → LeafKids st (2 * p + 1) ((l + r) / 2 + 1) r →
      LeafKids st p l r

/-- The node at position `q` owning the range `[a, b]` belongs to the subtree rooted at
position `p` that owns `[l, r]`. -/
inductive Owns : Nat → Int → Int → Nat → Int → Int → Prop
  | self (p : Nat) (l r : Int) : Owns p l r p l r
  | left (p : Nat) (l r : Int) (q : Nat) (a b : Int) : l < r →
      Owns (2 * p) l ((l + r) / 2) q a b → Owns p l r q a b
  | right (p : Nat) (l r : Int) (q : Nat) (a b : Int) : l < r →
      Owns (2 * p + 1) ((l + r) / 2 + 1) r q a b → Owns p l r q a b

/-- The record `N` holds the exact statistics of the multiset `M`, given as a list:
its sum, its maximum, the largest value strictly below the maximum (or the sentinel
`LLONG_MIN`), the number of maxima, and the same on the side of the minimum. -/
def Exact (N : Node) (M : List Int) : Prop :=
  N.sum = M.sum ∧ N.max1 = statMax1 M ∧ N.smax2 = statSmax2 M ∧ N.cnt_max = statCntMax M ∧
    N.min1 = statMin1 M ∧ N.smin2 = statSmin2 M ∧ N.cnt_min = statCntMin M

/-- Every element of the list is a 64-bit value. -/
def Word64 (M : List Int) : Prop := ∀ v ∈ M, LLONG_MIN ≤ v ∧ v ≤ LLONG_MAX

/-- The elements `a[l..r]` of the array, both ends included. -/
def slice (a : List Int) (l r : Int) : List Int :=
  (a.drop l.toNat).take (r - l + 1).toNat

/-- The mirror of a second extremum, following the words of the specification: the
value is negated and the two sentinels are exchanged. -/
def specNegS (v : Int) : Int :=
  if v = LLONG_MAX then LLONG_MIN else if v = LLONG_MIN then LLONG_MAX else -v

/-- The map `neg` on nodes, following the words of the specification: `sum` and `add`
are negated, the maximum side receives the negated minimum side and conversely, and
the two sentinels are exchanged. -/
def specNeg (a : Node) : Node :=
  { sum := -a.sum, add := -a.add,
    max1 := -a.min1, smax2 := specNegS a.smin2, cnt_max := a.cnt_min,
    min1 := -a.max1, smin2 := specNegS a.smax2, cnt_min := a.cnt_max }

/-- The states reachable from `build` on a non-empty array by public calls that
satisfy `good`, whatever their index arguments. -/
inductive ReachableAny (good : Op → Prop) : SegTreeBeats → Prop
  | build (a : List Int) (t : SegTreeBeats) : a ≠ [] → build a = .ok t → ReachableAny good t
  | step (t : SegTreeBeats) (op : Op) (o : Option Int) (t' : SegTreeBeats) :
      ReachableAny good t → good op → step t op = .ok (o, t') → ReachableAny good t'

/-- The part of a `SegTreeBeats` record that a `SegTreeChminSum` record keeps. -/
def proj (N : Node) : ChminSum.Node :=
  { sum := N.sum, max1 := N.max1, smax2 := N.smax2, cnt_max := N.cnt_max }

/-- A record without pending addition whose minimum is not above its maximum, whose
second maximum is not above its maximum, and whose minimum is the maximum or not
above the second maximum. -/
def NodeOK (N : Node) : Prop :=
  N.add = 0 ∧ N.min1 ≤ N.max1 ∧ N.smax2 ≤ N.max1 ∧ (N.min1 = N.max1 ∨ N.min1 ≤ N.smax2)

/-- The record `c` of a child fits the record `P` of its parent: its minimum is not
below and its second maximum is not above that of the parent. -/
def LinkOK (P c : Node) : Prop := P.min1 ≤ c.min1 ∧ c.smax2 ≤ P.smax2

/-- The subtree at `p` over `[l, r]` of a `SegTreeBeats` vector and the same subtree of a
`SegTreeChminSum` vector hold the same sums, maxima, second maxima and counts, and the
records of the former never make `push` add or clamp from below. -/
inductive Sim (sb : List Node) (sc : List ChminSum.Node) : Nat → Int → Int → Prop
  | leaf (p : Nat) (l : Int) : NodeOK (nd sb p) → vnd sc p = proj (nd sb p) →
      (nd sb p).smax2 = LLONG_MIN → Sim sb sc p l l
  | node (p : Nat) (l r : Int) : l < r →
      Sim sb sc (2 * p) l ((l + r) / 2) → Sim sb sc (2 * p + 1) ((l + r) / 2 + 1) r →
      NodeOK (nd sb p) → vnd sc p = proj (nd sb p) →
      LinkOK (nd sb p) (nd sb (2 * p)) → LinkOK (nd sb p) (nd sb (2 * p + 1)) → Sim sb sc p l r

/-- The call of `SegTreeBeats` that corresponds to a call of `SegTreeChminSum`. -/
def toOp : ChminSum.Op → Op
  | .chmin L R x => .chmin L R x
  | .sum L R => .sum L R

/-- The second maximum after an addition of `d`: the sentinel stays, any other value
is translated. -/
def shiftS (s d : Int) : Int := if s ≠ LLONG_MIN then s + d else s

/-- The record `N` summarises the values `f l, ..., f r`, all of them above the
sentinel `LLONG_MIN`: their sum, their maximum and minimum, a bound `smax2` below the
maximum for the values that are not maximal, which is the sentinel or one of the
values, and the number of maximal values. -/
def BGood (N : Node) (f : Int → Int) (l r : Int) : Prop :=
  N.sum = rsum f l r ∧
  (∀ i, l ≤ i → i ≤ r → LLONG_MIN < f i ∧ N.min1 ≤ f i ∧ (f i = N.max1 ∨ f i ≤ N.smax2)) ∧
  N.smax2 < N.max1 ∧
  (∃ i, l ≤ i ∧ i ≤ r ∧ f i = N.max1) ∧
  (∃ i, l ≤ i ∧ i ≤ r ∧ f i = N.min1) ∧
  (N.smax2 = LLONG_MIN ∨ ∃ i, l ≤ i ∧ i ≤ r ∧ f i = N.smax2) ∧
  N.cnt_max = rsum (fun i => if f i = N.max1 then 1 else 0) l r

/-- The subtree at `p` over `[l, r]` stands for the values `f l, ..., f r`, all above
the sentinel, in a run without `range_chmax`: the record of every node summarises
its values, and an internal node with pending addition `add` and maximum `max1`
stands for what its children stand for, translated by `add` and capped by `max1`;
the second maximum of a child, translated as `apply_add` does, is not above that of
its parent. -/
inductive BRep (st : List Node) : Nat → Int → Int → (Int → Int) → Prop
  | leaf (p : Nat) (l : Int) (f : Int → Int) : BGood (nd st p) f l l → BRep st p l l f
  | node (p : Nat) (l r : Int) (f g : Int → Int) : l < r →
      BRep st (2 * p) l ((l + r) / 2) g →
      BRep st (2 * p + 1) ((l + r) / 2 + 1) r g →
      (∀ i, l ≤ i → i ≤ r → f i = min (g i + (nd st p).add) (nd st p).max1) →
      BGood (nd st p) f l r →
      shiftS (nd st (2 * p)).smax2 (nd st p).add ≤ (nd st p).smax2 →
      shiftS (nd st (2 * p + 1)).smax2 (nd st p).add ≤ (nd st p).smax2 → BRep st p l r f

/-- The operation is not `range_chmax`. -/
def Op.noChmax : Op → Prop
  | .chmax _ _ _ => False
  | _ => True

instance (op : Op) : Decidable op.noChmax := by
  cases op <;> unfold Op.noChmax <;> infer_instance

/-- The arrays of the naive reference model before the first operation of a sequence
and after each of its operations. -/
def naiveTrace (a : List Int) : List Op → List (List Int)
  | [] => [a]
  | op :: ops => a :: naiveTrace (naiveStep a op).2 ops

/-- No element of the naive array equals the sentinel `LLONG_MIN` (or lies below it),
before the first operation of the sequence or after any of its operations. -/
def NoSentinel (a : List Int) (ops : List Op) : Prop :=
  ∀ b ∈ naiveTrace a ops, ∀ v ∈ b, LLONG_MIN < v

instance (a : List Int) (ops : List Op) : Decidable (NoSentinel a ops) := by
  unfold NoSentinel
  infer_instance

/-- Every result of the computation `m` is, once the record at position 0 has been
replaced by `X`, the result of the computation `m'`. -/
def Same0 (X : Node) (m m' : Res (List Node)) : Prop := ∀ s, m = .ok s → m' = .ok (s.set 0 X)

/-- The largest value of a 32-bit `int`. -/
def INT_MAX : Int := 2147483647

/-- The value that a 32-bit `int` holds when the exact result of an operation on `int`
operands is `x`: two's complement wrap-around, which is what the compiled code does
where C++ leaves signed overflow undefined. -/
def wrapInt32 (x : Int) : Int := (x + 2147483648) % 4294967296 - 2147483648

/-- The function `sum_i(int L, int R)` of `SegTreeAP` with its machine arithmetic:
`R - L` and `L + R` are computed in 32-bit `int` and only then widened to `long long`
(`len = R - L + 1LL`, `(long long)(L + R) * len / 2`); the division truncates.  The
product of a 32-bit value and a `len` of at most `2^31` cannot overflow `long long`. -/
def AP.sum_i_int32 (L R : Int) : Int :=
  let len := wrapInt32 (R - L) + 1
  Int.tdiv (wrapInt32 (L + R) * len) 2

/-! ## Basic lemmas -/

@[simp] theorem bind_ok {α β : Type} (a : α) (f : α → Res β) :
    (Except.ok a >>= f : Res β) = f a := rfl

@[simp] theorem bind_error {α β : Type} (e : Fault) (f : α → Res β) :
    (Except.error e >>= f : Res β) = .error e := rfl

@[simp] theorem pure_eq_ok {α : Type} (a : α) : (pure a : Res α) = .ok a := rfl

theorem rd_ok {st : List Node} {p : Nat} (h : p < st.length) : rd st p = .ok (nd st p) := by
  simp [rd, nd, List.getD_eq_getElem?_getD, List.getElem?_eq_getElem h]

theorem wr_ok {st : List Node} {p : Nat} (h : p < st.length) (x : Node) :
    wr st p x = .ok (st.set p x) := by
  simp [wr, h]

theorem nd_set_self {st : List Node} {p : Nat} (h : p < st.length) (x : Node) :
    nd (st.set p x) p = x := by
  simp [nd, List.getD_eq_getElem?_getD, List.getElem?_set, h]

theorem nd_set_ne (st : List Node) {p i : Nat} (h : p ≠ i) (x : Node) :
    nd (st.set p x) i = nd st i := by
  simp [nd, List.getD_eq_getElem?_getD, List.getElem?_set, h]

@[simp] theorem length_upd (st : List Node) (i : Nat) (f : Node → Node) :
    (upd st i f).length = st.length := by
  simp [upd]

theorem nd_upd_self {st : List Node} {i : Nat} (h : i < st.length) (f : Node → Node) :
    nd (upd st i f) i = f (nd st i) := nd_set_self h _

theorem nd_upd_ne (st : List Node) {i j : Nat} (h : i ≠ j) (f : Node → Node) :
    nd (upd st i f) j = nd st j := nd_set_ne st h _

theorem set_nd_self {st : List Node} {i : Nat} (h : i < st.length) : st.set i (nd st i) = st := by
  apply List.ext_getElem?
  intro j
  simp only [List.getElem?_set, nd, List.getD_eq_getElem?_getD, h, if_true]
  split
  · subst_vars; simp [List.getElem?_eq_getElem h]
  · rfl

theorem upd_id {st : List Node} {i : Nat} (h : i < st.length) (f : Node → Node)
    (hf : f (nd st i) = nd st i) : upd st i f = st := by
  unfold upd; rw [hf]; exact set_nd_self h

theorem apply_add_ok {st : List Node} {p : Nat} (h : p < st.length) (v len : Int) :
    apply_add st p v len = .ok (upd st p (fun x => x.apply_add v len)) := by
  simp [apply_add, rd_ok h, wr_ok h, upd]

theorem apply_chmin_ok {st : List Node} {p : Nat} (h : p < st.length) (x : Int) :
    apply_chmin st p x = .ok (upd st p (fun a => a.apply_chmin x)) := by
  simp [apply_chmin, rd_ok h, wr_ok h, upd]

theorem apply_chmax_ok {st : List Node} {p : Nat} (h : p < st.length) (x : Int) :
    apply_chmax st p x = .ok (upd st p (fun a => a.apply_chmax x)) := by
  simp [apply_chmax, rd_ok h, wr_ok h, upd]

theorem cond_chmin_ok {st : List Node} {c : Nat} (h : c < st.length) (cap : Int) :
    (if (nd st c).max1 > cap then apply_chmin st c cap else (pure st : Res (List Node))) =
      .ok (upd st c (fun a => if a.max1 > cap then a.apply_chmin cap else a)) := by
  split
  · rename_i hc; rw [apply_chmin_ok h]; simp [upd, hc]
  · rename_i hc; rw [upd_id h]; rfl; exact if_neg hc

theorem cond_chmax_ok {st : List Node} {c : Nat} (h : c < st.length) (cap : Int) :
    (if (nd st c).min1 < cap then apply_chmax st c cap else (pure st : Res (List Node))) =
      .ok (upd st c (fun a => if a.min1 < cap then a.apply_chmax cap else a)) := by
  split
  · rename_i hc; rw [apply_chmax_ok h]; simp [upd, hc]
  · rename_i hc; rw [upd_id h]; rfl; exact if_neg hc

theorem nd_upd {st : List Node} {i : Nat} (h : i < st.length) (f : Node → Node) (j : Nat) :
    nd (upd st i f) j = if j = i then f (nd st i) else nd st j := by
  split
  · subst_vars; exact nd_upd_self h f
  · rename_i hne; exact nd_upd_ne st (Ne.symm hne) f

theorem nd_of_length_le {st : List Node} {i : Nat} (h : st.length ≤ i) : nd st i = {} := by
  simp [nd, List.getD_eq_getElem?_getD, List.getElem?_eq_none h]

theorem ext_nd {st st' : List Node} (hl : st.length = st'.length)
    (h : ∀ i, i < st.length → nd st i = nd st' i) : st = st' := by
  apply List.ext_getElem?
  intro i
  by_cases hi : i < st.length
  · have hi' : i < st'.length := by omega
    have := h i hi
    simp only [nd, List.getD_eq_getElem?_getD, List.getElem?_eq_getElem hi,
      List.getElem?_eq_getElem hi', Option.getD_some] at this
    rw [List.getElem?_eq_getElem hi, List.getElem?_eq_getElem hi', this]
  · rw [List.getElem?_eq_none (by omega), List.getElem?_eq_none (by omega)]

theorem push_add_phase {st : List Node} {p : Nat} (hp : 1 ≤ p)
    (hb : 2 * p + 1 < st.length) (v len1 len2 : Int) (hv : v = (nd st p).add) :
    (if v ≠ 0 then
        (do let st' ← wr st p { nd st p with add := 0 }
            let st' ← apply_add st' (2 * p) v len1
            apply_add st' (2 * p + 1) v len2)
       else (pure st : Res (List Node))) =
    .ok (upd (upd (upd st p (fun x => { x with add := 0 }))
      (2 * p) (fun c => if v ≠ 0 then c.apply_add v len1 else c))
      (2 * p + 1) (fun c => if v ≠ 0 then c.apply_add v len2 else c)) := by
  have h0 : p < st.length := by omega
  have h1 : 2 * p < st.length := by omega
  by_cases ha : v ≠ 0
  · simp only [if_pos ha]
    rw [wr_ok h0]; simp only [bind_ok]
    rw [apply_add_ok (by simpa using h1)]; simp only [bind_ok]
    rw [apply_add_ok (by simpa using hb)]
    rfl
  · simp only [if_neg ha]
    have ha' : (nd st p).add = 0 := by rw [← hv]; simpa using ha
    have z : upd st p (fun x => { x with add := 0 }) = st := by
      apply upd_id h0
      rw [← ha']
    rw [z, upd_id h1 _ rfl, upd_id hb _ rfl]
    rfl

theorem push_eq {st : List Node} {p : Nat} {l r : Int} (hp : 1 ≤ p)
    (hb : 2 * p + 1 < st.length) (hlr : l ≠ r) :
    push st p l r = .ok (pushed st p l r) := by
  have h0 : p < st.length := by omega
  have h1 : 2 * p < st.length := by omega
  have e1 : p ≠ 2 * p := by omega
  have e2 : p ≠ 2 * p + 1 := by omega
  have e3 : 2 * p ≠ 2 * p + 1 := by omega
  have e3' : 2 * p + 1 ≠ 2 * p := by omega
  have e1' : 2 * p ≠ p := by omega
  have e2' : 2 * p + 1 ≠ p := by omega
  unfold push
  rw [if_neg hlr]
  simp only [rd_ok h0, bind_ok]
  rw [push_add_phase hp hb _ _ _ rfl]
  simp only [bind_ok]
  generalize hs1 : (upd (upd (upd st p (fun x => { x with add := 0 }))
      (2 * p) (fun c => if (nd st p).add ≠ 0 then c.apply_add (nd st p).add ((l + r) / 2 - l + 1) else c))
      (2 * p + 1) (fun c => if (nd st p).add ≠ 0 then c.apply_add (nd st p).add (r - (l + r) / 2) else c)) = s1
  have hl1 : s1.length = st.length := by rw [← hs1]; simp
  have hp1 : (nd s1 p).max1 = (nd st p).max1 ∧ (nd s1 p).min1 = (nd st p).min1 := by
    rw [← hs1, nd_upd_ne _ e2', nd_upd_ne _ e1', nd_upd_self h0]
    exact ⟨rfl, rfl⟩
  have hb1 : 2 * p + 1 < s1.length := by omega
  have h01 : p < s1.length := by omega
  have h11 : 2 * p < s1.length := by omega
  rw [rd_ok h01, bind_ok, rd_ok h11, bind_ok, cond_chmin_ok h11, bind_ok, hp1.1]
  generalize hs2 : upd s1 (2 * p) (fun a => if a.max1 > (nd st p).max1 then
    a.apply_chmin (nd st p).max1 else a) = s2
  have hl2 : s2.length = st.length := by rw [← hs2]; simpa using hl1
  rw [rd_ok (by omega), bind_ok, cond_chmin_ok (by omega), bind_ok]
  generalize hs3 : upd s2 (2 * p + 1) (fun a => if a.max1 > (nd st p).max1 then
    a.apply_chmin (nd st p).max1 else a) = s3
  have hl3 : s3.length = st.length := by rw [← hs3]; simpa using hl2
  have hp3 : (nd s3 p).min1 = (nd st p).min1 := by
    rw [← hs3, nd_upd_ne _ e2', ← hs2, nd_upd_ne _ e1', hp1.2]
  rw [rd_ok (by omega), bind_ok, rd_ok (by omega), bind_ok, cond_chmax_ok (by omega), bind_ok, hp3]
  generalize hs4 : upd s3 (2 * p) (fun a => if a.min1 < (nd st p).min1 then
    a.apply_chmax (nd st p).min1 else a) = s4
  have hl4 : s4.length = st.length := by rw [← hs4]; simpa using hl3
  rw [rd_ok (by omega), bind_ok, cond_chmax_ok (by omega), bind_ok]
  simp only [pure_eq_ok]
  subst hs4 hs3 hs2
  congr 1
  apply ext_nd
  · simp [pushed, hl1]
  · intro i _
    rw [← hs1]
    simp only [pushed]
    by_cases i1 : i = 2 * p + 1
    · subst i1
      simp [nd_upd, h0, h1, hb, e3', e2', pushChild]
    · by_cases i2 : i = 2 * p
      · subst i2
        simp [nd_upd, h0, h1, hb, e3, e1', pushChild]
      · by_cases i3 : i = p
        · subst i3
          simp [nd_upd, h0, h1, hb, e1, e2]
        · simp [nd_upd, h0, h1, hb, i1, i2, i3]

theorem under_self (p : Nat) : Under p p := ⟨0, by simp⟩

theorem under_left {p i : Nat} (h : Under (2 * p) i) : Under p i := by
  obtain ⟨k, hk⟩ := h
  refine ⟨k + 1, ?_⟩
  rw [pow_succ, ← Nat.div_div_eq_div_mul, hk]
  omega

theorem under_right {p i : Nat} (h : Under (2 * p + 1) i) : Under p i := by
  obtain ⟨k, hk⟩ := h
  refine ⟨k + 1, ?_⟩
  rw [pow_succ, ← Nat.div_div_eq_div_mul, hk]
  omega

theorem under_ge {p i : Nat} (h : Under p i) : p ≤ i := by
  obtain ⟨k, hk⟩ := h
  rw [← hk]
  exact Nat.div_le_self _ _

theorem div_pow_le_half (x : Nat) {d : Nat} (hd : 1 ≤ d) : x / 2 ^ d ≤ x / 2 := by
  obtain ⟨e, rfl⟩ : ∃ e, d = e + 1 := ⟨d - 1, by omega⟩
  rw [pow_succ, Nat.mul_comm, ← Nat.div_div_eq_div_mul]
  exact Nat.div_le_self _ _

theorem under_disjoint {p i : Nat} (hp : 1 ≤ p) (h1 : Under (2 * p) i)
    (h2 : Under (2 * p + 1) i) : False := by
  obtain ⟨k, hk⟩ := h1
  obtain ⟨j, hj⟩ := h2
  rcases Nat.lt_trichotomy k j with h | h | h
  · obtain ⟨d, rfl⟩ : ∃ d, j = k + d := ⟨j - k, by omega⟩
    rw [pow_add, ← Nat.div_div_eq_div_mul, hk] at hj
    have := Nat.div_le_self (2 * p) (2 ^ d)
    omega
  · subst h; omega
  · obtain ⟨d, rfl⟩ : ∃ d, k = j + d := ⟨k - j, by omega⟩
    rw [pow_add, ← Nat.div_div_eq_div_mul, hj] at hk
    have := div_pow_le_half (2 * p + 1) (show 1 ≤ d by omega)
    omega

theorem shape_pos {N p : Nat} {l r : Int} (h : Shape N p l r) : 1 ≤ p := by
  cases h <;> assumption

theorem shape_lt {N p : Nat} {l r : Int} (h : Shape N p l r) : p < N := by
  cases h <;> omega

theorem shape_le {N p : Nat} {l r : Int} (h : Shape N p l r) : l ≤ r := by
  cases h <;> omega

theorem shape_of_index (n : Nat) : ∀ (k : Nat) (p q : Nat) (l r : Int),
    r - l < k → l ≤ r → 1 ≤ p → p < 2 * q → (r - l) * q < n → q ≤ 2 * n →
    Shape (4 * n + 4) p l r := by
  intro k
  induction k with
  | zero => intro p q l r h1 h2; omega
  | succ k ih =>
    intro p q l r hk hlr hp hpq hq hqn
    rcases eq_or_lt_of_le hlr with h | h
    · subst h
      exact Shape.leaf p l hp (by omega)
    · have hq1 : (q : Int) < n := by
        have : (1 : Int) * q ≤ (r - l) * q :=
          mul_le_mul_of_nonneg_right (by omega) (by omega)
        omega
      have hm1 : ((l + r) / 2 - l) * ((2 * q : Nat) : Int) < n := by
        have : (2 * ((l + r) / 2 - l)) * (q : Int) ≤ (r - l) * q :=
          mul_le_mul_of_nonneg_right (by omega) (by omega)
        push_cast
        nlinarith
      have hm2 : (r - ((l + r) / 2 + 1)) * ((2 * q : Nat) : Int) < n := by
        have : (2 * (r - ((l + r) / 2 + 1))) * (q : Int) ≤ (r - l) * q :=
          mul_le_mul_of_nonneg_right (by omega) (by omega)
        push_cast
        nlinarith
      refine Shape.node p l r hp (by omega) h ?_ ?_
      · exact ih (2 * p) (2 * q) l ((l + r) / 2) (by omega) (by omega) (by omega) (by omega)
          hm1 (by omega)
      · exact ih (2 * p + 1) (2 * q) ((l + r) / 2 + 1) r (by omega) (by omega) (by omega)
          (by omega) hm2 (by omega)

theorem shape_root {n : Nat} (hn : 1 ≤ n) : Shape (4 * n + 4) 1 0 ((n : Int) - 1) :=
  shape_of_index n n 1 1 0 ((n : Int) - 1) (by omega) (by omega) (by omega) (by omega)
    (by push_cast; omega) (by omega)

theorem sumFrom_add (a : List Int) (l : Int) (j k : Nat) :
    sumFrom a l (j + k) = sumFrom a l j + sumFrom a (l + j) k := by
  induction j generalizing l with
  | zero => simp [sumFrom]
  | succ j ih =>
    rw [show j + 1 + k = (j + k) + 1 by omega]
    simp only [sumFrom]
    rw [ih, show l + 1 + (j : Int) = l + ((j + 1 : Nat) : Int) by push_cast; omega]
    ring

theorem rangeSum_split (a : List Int) {A M B : Int} (h1 : A ≤ M + 1) (h2 : M ≤ B) :
    rangeSum a A B = rangeSum a A M + rangeSum a (M + 1) B := by
  unfold rangeSum
  rw [show (B - A + 1).toNat = (M - A + 1).toNat + (B - (M + 1) + 1).toNat by omega, sumFrom_add]
  congr 2
  omega

theorem rangeSum_empty (a : List Int) {A B : Int} (h : B < A) : rangeSum a A B = 0 := by
  unfold rangeSum
  rw [show (B - A + 1).toNat = 0 by omega]
  rfl

theorem rangeSum_single (a : List Int) (A : Int) : rangeSum a A A = a.getD A.toNat 0 := by
  unfold rangeSum
  rw [show (A - A + 1).toNat = 1 by omega]
  simp [sumFrom]

theorem pushed_length (st : List Node) (p : Nat) (l r : Int) :
    (pushed st p l r).length = st.length := by
  simp [pushed]

theorem nd_pushed_self {st : List Node} {p : Nat} (l r : Int) (hp : 1 ≤ p)
    (hb : 2 * p + 1 < st.length) : nd (pushed st p l r) p = { nd st p with add := 0 } := by
  unfold pushed
  rw [nd_upd_ne _ (by omega), nd_upd_ne _ (by omega), nd_upd_self (by omega)]

theorem nd_pushed_left {st : List Node} {p : Nat} (l r : Int) (hp : 1 ≤ p)
    (hb : 2 * p + 1 < st.length) :
    nd (pushed st p l r) (2 * p) = pushChild (nd st p) (nd st (2 * p)) ((l + r) / 2 - l + 1) := by
  unfold pushed
  rw [nd_upd_ne _ (by omega), nd_upd_self (by simp; omega), nd_upd_ne _ (by omega)]

theorem nd_pushed_right {st : List Node} {p : Nat} (l r : Int) (hp : 1 ≤ p)
    (hb : 2 * p + 1 < st.length) :
    nd (pushed st p l r) (2 * p + 1) =
      pushChild (nd st p) (nd st (2 * p + 1)) (r - (l + r) / 2) := by
  unfold pushed
  rw [nd_upd_self (by simp; omega), nd_upd_ne _ (by omega), nd_upd_ne _ (by omega)]

theorem nd_pushed_other (st : List Node) {p i : Nat} (l r : Int)
    (h0 : i ≠ p) (h1 : i ≠ 2 * p) (h2 : i ≠ 2 * p + 1) : nd (pushed st p l r) i = nd st i := by
  unfold pushed
  rw [nd_upd_ne _ (Ne.symm h2), nd_upd_ne _ (Ne.symm h1), nd_upd_ne _ (Ne.symm h0)]

theorem built_frame {a : List Int} {st st' : List Node} {p : Nat} {l r : Int}
    (h : Built a st p l r) (hf : ∀ i, Under p i → nd st' i = nd st i) : Built a st' p l r := by
  induction h with
  | leaf p l hn => exact Built.leaf p l (by rw [hf p (under_self p), hn])
  | node p l r hlr _ _ hn ih1 ih2 =>
    refine Built.node p l r hlr (ih1 fun i hi => hf i (under_left hi))
      (ih2 fun i hi => hf i (under_right hi)) ?_
    rw [hf p (under_self p), hf _ (under_left (under_self _)), hf _ (under_right (under_self _)), hn]

theorem rdVal_ok {a : List Int} {l : Int} (h0 : 0 ≤ l) (h1 : l < a.length) :
    rdVal a l = .ok (a.getD l.toNat 0) := by
  have h : l.toNat < a.length := by omega
  simp [rdVal, h0, List.getD_eq_getElem?_getD, List.getElem?_eq_getElem h]

theorem build_go_spec {N : Nat} {a : List Int} {p : Nat} {l r : Int} (hs : Shape N p l r) :
    ∀ (fuel : Nat) (st : List Node), r - l < fuel → st.length = N → 0 ≤ l → r < a.length →
    ∃ st', build_go fuel st p l r a = .ok st' ∧ st'.length = N ∧
      (∀ i, ¬ Under p i → nd st' i = nd st i) ∧ Built a st' p l r := by
  induction hs with
  | leaf p l hp hN =>
    intro fuel st hf hl h0 h1
    obtain ⟨f, rfl⟩ : ∃ f, fuel = f + 1 := ⟨fuel - 1, by omega⟩
    refine ⟨st.set p (make_node (a.getD l.toNat 0)), ?_, by simpa using hl, ?_, ?_⟩
    · simp only [build_go, if_true, rdVal_ok h0 h1, bind_ok]
      exact wr_ok (by omega) _
    · intro i hi
      exact nd_set_ne st (by intro e; subst e; exact hi (under_self _)) _
    · exact Built.leaf p l (nd_set_self (by omega) _)
  | node p l r hp hN hlr hs1 hs2 ih1 ih2 =>
    intro fuel st hf hl h0 h1
    obtain ⟨f, rfl⟩ : ∃ f, fuel = f + 1 := ⟨fuel - 1, by omega⟩
    obtain ⟨s1, e1, l1, f1, b1⟩ := ih1 f st (by omega) hl h0 (by omega)
    obtain ⟨s2, e2, l2, f2, b2⟩ := ih2 f s1 (by omega) l1 (by omega) h1
    have b1' : Built a s2 (2 * p) l ((l + r) / 2) :=
      built_frame b1 fun i hi => f2 i fun h => under_disjoint hp hi h
    refine ⟨s2.set p (merge (nd s2 (2 * p)) (nd s2 (2 * p + 1))), ?_, by simpa using l2, ?_, ?_⟩
    · simp only [build_go, if_neg (ne_of_lt hlr), e1, e2, bind_ok]
      rw [rd_ok (by omega), bind_ok, rd_ok (by omega), bind_ok]
      exact wr_ok (by omega) _
    · intro i hi
      rw [nd_set_ne _ (by intro e; subst e; exact hi (under_self _)), f2 i (fun h => hi (under_right h)),
        f1 i (fun h => hi (under_left h))]
    · have np : ∀ i, Under (2 * p) i ∨ Under (2 * p + 1) i →
          nd (s2.set p (merge (nd s2 (2 * p)) (nd s2 (2 * p + 1)))) i = nd s2 i := by
        intro i hi
        apply nd_set_ne
        rcases hi with hi | hi <;> have := under_ge hi <;> omega
      refine Built.node p l r hlr (built_frame b1' fun i hi => np i (Or.inl hi))
        (built_frame b2 fun i hi => np i (Or.inr hi)) ?_
      rw [nd_set_self (by omega), np _ (Or.inl (under_self _)), np _ (Or.inr (under_self _))]

theorem merge_add (x y : Node) : (merge x y).add = 0 := by
  unfold merge; split_ifs <;> rfl

theorem merge_sum (x y : Node) : (merge x y).sum = x.sum + y.sum := by
  unfold merge; split_ifs <;> rfl

theorem merge_max1 (x y : Node) : (merge x y).max1 = max x.max1 y.max1 := by
  unfold merge; split_ifs <;> simp only <;> omega

theorem merge_min1 (x y : Node) : (merge x y).min1 = min x.min1 y.min1 := by
  unfold merge; split_ifs <;> simp only <;> omega

theorem pushChild_id {P c : Node} (len : Int) (ha : P.add = 0) (h1 : c.max1 ≤ P.max1)
    (h2 : P.min1 ≤ c.min1) : pushChild P c len = c := by
  have e1 : ¬ c.max1 > P.max1 := by omega
  have e2 : ¬ c.min1 < P.min1 := by omega
  simp only [pushChild, ha, ne_eq, not_true_eq_false, if_false, e1, e2]

theorem push_id {st : List Node} {p : Nat} {l r : Int} (hp : 1 ≤ p)
    (hb : 2 * p + 1 < st.length) (hlr : l ≠ r) (ha : (nd st p).add = 0)
    (h1 : (nd st (2 * p)).max1 ≤ (nd st p).max1) (h2 : (nd st p).min1 ≤ (nd st (2 * p)).min1)
    (h3 : (nd st (2 * p + 1)).max1 ≤ (nd st p).max1)
    (h4 : (nd st p).min1 ≤ (nd st (2 * p + 1)).min1) : push st p l r = .ok st := by
  rw [push_eq hp hb hlr]
  congr 1
  unfold pushed
  have z : upd st p (fun x => { x with add := 0 }) = st := by
    apply upd_id (by omega)
    rw [← ha]
  have z1 : upd st (2 * p) (fun c => pushChild (nd st p) c ((l + r) / 2 - l + 1)) = st :=
    upd_id (by omega) _ (pushChild_id _ ha h1 h2)
  have z2 : upd st (2 * p + 1) (fun c => pushChild (nd st p) c (r - (l + r) / 2)) = st :=
    upd_id hb _ (pushChild_id _ ha h3 h4)
  rw [z, z1, z2]

theorem push_merged {st : List Node} {p : Nat} {l r : Int} (hp : 1 ≤ p)
    (hb : 2 * p + 1 < st.length) (hlr : l ≠ r)
    (hm : nd st p = merge (nd st (2 * p)) (nd st (2 * p + 1))) : push st p l r = .ok st := by
  apply push_id hp hb hlr <;> rw [hm]
  · exact merge_add _ _
  · rw [merge_max1]; omega
  · rw [merge_min1]; omega
  · rw [merge_max1]; omega
  · rw [merge_min1]; omega

theorem built_sum {a : List Int} {st : List Node} {p : Nat} {l r : Int}
    (h : Built a st p l r) : (nd st p).sum = rangeSum a l r := by
  induction h with
  | leaf p l hn => rw [hn, rangeSum_single]; rfl
  | node p l r hlr _ _ hn ih1 ih2 =>
    rw [hn, merge_sum, ih1, ih2]
    exact (rangeSum_split a (by omega) (by omega)).symm

theorem range_sum_go_built {N : Nat} {a : List Int} {p : Nat} {l r : Int} (L R : Int)
    (hs : Shape N p l r) :
    ∀ (fuel : Nat) (st : List Node), r - l < fuel → st.length = N → Built a st p l r →
    range_sum_go fuel st p l r L R = .ok (rangeSum a (max l L) (min r R), st) := by
  induction hs with
  | leaf p l hp hN =>
    intro fuel st hf hl hb
    obtain ⟨f, rfl⟩ : ∃ f, fuel = f + 1 := ⟨fuel - 1, by omega⟩
    unfold range_sum_go
    split_ifs with h1 h2
    · rw [rangeSum_empty a (by omega)]
    · rw [rd_ok (by omega), bind_ok, pure_eq_ok, built_sum hb,
        show max l L = l by omega, show min l R = l by omega]
    · omega
  | node p l r hp hN hlr hs1 hs2 ih1 ih2 =>
    intro fuel st hf hl hb
    obtain ⟨f, rfl⟩ : ∃ f, fuel = f + 1 := ⟨fuel - 1, by omega⟩
    unfold range_sum_go
    split_ifs with h1 h2
    · rw [rangeSum_empty a (by omega)]
    · rw [rd_ok (by omega), bind_ok, pure_eq_ok, built_sum hb,
        show max l L = l by omega, show min r R = r by omega]
    · cases hb with
      | leaf => omega
      | node _ _ _ _ b1 b2 hm =>
        simp only []
        rw [push_merged hp (by omega) (ne_of_lt hlr) hm, bind_ok,
          ih1 f st (by omega) hl b1, bind_ok, ih2 f st (by omega) hl b2, bind_ok, pure_eq_ok]
        congr 2
        by_cases c1 : R ≤ (l + r) / 2
        · rw [rangeSum_empty a (show min r R < max ((l + r) / 2 + 1) L by omega), add_zero,
            show min ((l + r) / 2) R = min r R by omega]
        · by_cases c2 : (l + r) / 2 < L
          · rw [rangeSum_empty a (show min ((l + r) / 2) R < max l L by omega), zero_add,
              show max ((l + r) / 2 + 1) L = max l L by omega]
          · rw [rangeSum_split a (show max l L ≤ (l + r) / 2 + 1 by omega)
              (show (l + r) / 2 ≤ min r R by omega),
              show min ((l + r) / 2) R = (l + r) / 2 by omega,
              show max ((l + r) / 2 + 1) L = (l + r) / 2 + 1 by omega]

theorem init_length (n : Nat) : (init (n : Int)).st.length = 4 * n + 4 := by
  simp only [init, List.length_replicate]
  omega

theorem build_spec {a : List Int} (ha : a ≠ []) :
    ∃ st, build a = .ok ⟨a.length, st⟩ ∧ st.length = 4 * a.length + 4 ∧
      Built a st 1 0 ((a.length : Int) - 1) := by
  have hn : 1 ≤ a.length := by
    cases a with
    | nil => exact absurd rfl ha
    | cons x xs => simp
  obtain ⟨st, e, hl, -, hb⟩ := build_go_spec (a := a) (shape_root hn)
    (init (a.length : Int)).st.length (init (a.length : Int)).st
    (by rw [init_length]; omega) (init_length _) (le_refl _) (by omega)
  refine ⟨st, ?_, hl, hb⟩
  unfold build
  simp only []
  rw [show (init (a.length : Int)).n = a.length from rfl, e]
  rfl

theorem range_sum_built {a : List Int} (ha : a ≠ []) {st : List Node}
    (hl : st.length = 4 * a.length + 4) (hb : Built a st 1 0 ((a.length : Int) - 1))
    (L R : Int) :
    range_sum ⟨a.length, st⟩ L R =
      .ok (rangeSum a (max 0 L) (min ((a.length : Int) - 1) R), ⟨a.length, st⟩) := by
  have hn : 1 ≤ a.length := by
    cases a with
    | nil => exact absurd rfl ha
    | cons x xs => simp
  unfold range_sum
  simp only []
  rw [range_sum_go_built L R (shape_root hn) st.length st (by omega) hl hb]
  rfl

theorem valN_frame {st st' : List Node} : ∀ (k : Nat) (N : Node) (p : Nat) (l r i : Int),
    1 ≤ p → (∀ j, Under (2 * p) j ∨ Under (2 * p + 1) j → nd st' j = nd st j) →
    valN k st' N p l r i = valN k st N p l r i := by
  intro k
  induction k with
  | zero => intro N p l r i _ _; rfl
  | succ k ih =>
    intro N p l r i hp hf
    simp only [valN]
    rw [hf _ (Or.inl (under_self _)), hf _ (Or.inr (under_self _))]
    rw [ih _ (2 * p) _ _ _ (by omega) (fun j hj => hf j (Or.inl
        (by rcases hj with h | h; exact under_left h; exact under_right h))),
      ih _ (2 * p + 1) _ _ _ (by omega) (fun j hj => hf j (Or.inr
        (by rcases hj with h | h; exact under_left h; exact under_right h)))]

theorem leaves_frame {Q : Node → Prop} {st st' : List Node} {p : Nat} {l r : Int}
    (h : Leaves Q st p l r) (hf : ∀ i, Under p i → nd st' i = nd st i) : Leaves Q st' p l r := by
  induction h with
  | leaf p l hn => exact Leaves.leaf p l (by rw [hf p (under_self p)]; exact hn)
  | node p l r hlr _ _ ih1 ih2 =>
    exact Leaves.node p l r hlr (ih1 fun i hi => hf i (under_left hi))
      (ih2 fun i hi => hf i (under_right hi))

theorem not_under_of_child {p j : Nat} (hp : 1 ≤ p)
    (h : Under (2 * p) j ∨ Under (2 * p + 1) j) : j ≠ p := by
  rcases h with h | h <;> have := under_ge h <;> omega

/-- A point query returns the value `valN` computes. -/
theorem range_sum_go_point {N : Nat} {p : Nat} {l r : Int} (i : Int) (hs : Shape N p l r) :
    ∀ (fuel : Nat) (st : List Node), r - l < fuel → st.length = N → l ≤ i → i ≤ r →
    ∃ st', range_sum_go fuel st p l r i i = .ok (valN fuel st (nd st p) p l r i, st') ∧
      st'.length = N := by
  induction hs with
  | leaf p l hp hN =>
    intro fuel st hf hl h1 h2
    obtain ⟨f, rfl⟩ : ∃ f, fuel = f + 1 := ⟨fuel - 1, by omega⟩
    refine ⟨st, ?_, hl⟩
    unfold range_sum_go
    rw [if_neg (by omega), if_pos (by omega), rd_ok (by omega), bind_ok, pure_eq_ok]
    simp [valN]
  | node p l r hp hN hlr hs1 hs2 ih1 ih2 =>
    intro fuel st hf hl h1 h2
    obtain ⟨f, rfl⟩ : ∃ f, fuel = f + 1 := ⟨fuel - 1, by omega⟩
    obtain ⟨g, rfl⟩ : ∃ g, f = g + 1 := ⟨f - 1, by omega⟩
    have hb : 2 * p + 1 < st.length := by omega
    unfold range_sum_go
    rw [if_neg (by omega), if_neg (by omega)]
    simp only []
    rw [push_eq hp hb (ne_of_lt hlr), bind_ok]
    have hfr : ∀ j, Under (2 * (2 * p)) j ∨ Under (2 * (2 * p) + 1) j →
        nd (pushed st p l r) j = nd st j := by
      intro j hj
      have h1 : Under (2 * p) j := by
        rcases hj with h | h; exact under_left h; exact under_right h
      have := under_ge h1
      have h3 : j ≠ 2 * p + 1 := by
        intro e; subst e
        rcases hj with h | h <;> have := under_ge h <;> omega
      have h4 : j ≠ 2 * p := by
        intro e; subst e
        rcases hj with h | h <;> have := under_ge h <;> omega
      exact nd_pushed_other st l r (by omega) h4 h3
    have hfr2 : ∀ j, Under (2 * (2 * p + 1)) j ∨ Under (2 * (2 * p + 1) + 1) j →
        nd (pushed st p l r) j = nd st j := by
      intro j hj
      have h1 : Under (2 * p + 1) j := by
        rcases hj with h | h; exact under_left h; exact under_right h
      have := under_ge h1
      have h3 : j ≠ 2 * p + 1 := by
        intro e; subst e
        rcases hj with h | h <;> have := under_ge h <;> omega
      exact nd_pushed_other st l r (by omega) (by omega) h3
    by_cases hi : i ≤ (l + r) / 2
    · obtain ⟨s1, e1, l1⟩ := ih1 (g + 1) (pushed st p l r) (by omega)
        (by rw [pushed_length]; exact hl) h1 hi
      rw [e1, bind_ok]
      refine ⟨s1, ?_, l1⟩
      simp only [range_sum_go]
      rw [if_pos (by omega), bind_ok, pure_eq_ok, add_zero, nd_pushed_left l r hp hb,
        valN_frame _ _ _ _ _ _ (by omega) hfr]
      conv_rhs => rw [valN]
      rw [if_pos hlr, if_pos hi]
    · obtain ⟨s1, e1, l1⟩ := ih2 (g + 1) (pushed st p l r) (by omega)
        (by rw [pushed_length]; exact hl) (by omega) h2
      refine ⟨s1, ?_, l1⟩
      simp only [range_sum_go]
      rw [if_pos (by omega), bind_ok]
      simp only [range_sum_go] at e1
      rw [e1, bind_ok, pure_eq_ok, zero_add, nd_pushed_right l r hp hb,
        valN_frame _ _ _ _ _ _ (by omega) hfr2]
      conv_rhs => rw [valN]
      rw [if_pos hlr, if_neg hi]

theorem pushChild_eq (P c : Node) (len : Int) :
    pushChild P c len = maxStage P.min1 (minStage P.max1 (addStage P.add len c)) := rfl

theorem leaves_leaf_inv {Q : Node → Prop} {st : List Node} {p : Nat} {l r : Int}
    (h : Leaves Q st p l r) (e : l = r) : Q (nd st p) := by
  cases h with
  | leaf _ _ hq => exact hq
  | node _ _ _ hlr _ _ => omega

theorem leaves_node_inv {Q : Node → Prop} {st : List Node} {p : Nat} {l r : Int}
    (h : Leaves Q st p l r) (e : l < r) :
    Leaves Q st (2 * p) l ((l + r) / 2) ∧ Leaves Q st (2 * p + 1) ((l + r) / 2 + 1) r := by
  cases h with
  | leaf _ _ hq => omega
  | node _ _ _ hlr h1 h2 => exact ⟨h1, h2⟩

theorem apply_add_fields (c : Node) (A len : Int) :
    (c.apply_add A len).sum = c.sum + A * len ∧ (c.apply_add A len).add = c.add + A ∧
    (c.apply_add A len).max1 = c.max1 + A ∧ (c.apply_add A len).min1 = c.min1 + A ∧
    (c.apply_add A len).cnt_max = c.cnt_max ∧ (c.apply_add A len).cnt_min = c.cnt_min := by
  by_cases h1 : c.smax2 = LLONG_MIN <;> by_cases h2 : c.smin2 = LLONG_MAX <;>
    simp [Node.apply_add, h1, h2]

theorem apply_chmin_fields (c : Node) (x : Int) :
    (c.apply_chmin x).sum = c.sum - (c.max1 - x) * c.cnt_max ∧ (c.apply_chmin x).add = c.add ∧
    (c.apply_chmin x).max1 = x ∧
    (c.apply_chmin x).min1 = (if c.min1 = c.max1 then x else c.min1) ∧
    (c.apply_chmin x).cnt_max = c.cnt_max ∧ (c.apply_chmin x).cnt_min = c.cnt_min ∧
    (c.apply_chmin x).smax2 = c.smax2 ∧ (c.apply_chmin x).smin2 = c.smin2 := by
  by_cases h : c.min1 = c.max1 <;> simp [Node.apply_chmin, h]

theorem apply_chmax_fields (c : Node) (x : Int) :
    (c.apply_chmax x).sum = c.sum + (x - c.min1) * c.cnt_min ∧ (c.apply_chmax x).add = c.add ∧
    (c.apply_chmax x).min1 = x ∧
    (c.apply_chmax x).max1 = (if c.max1 = c.min1 then x else c.max1) ∧
    (c.apply_chmax x).cnt_max = c.cnt_max ∧ (c.apply_chmax x).cnt_min = c.cnt_min ∧
    (c.apply_chmax x).smax2 = c.smax2 ∧ (c.apply_chmax x).smin2 = c.smin2 := by
  by_cases h : c.max1 = c.min1 <;> simp [Node.apply_chmax, h]

theorem shiftRel_addStage (v A lenc : Int) (c : Node) :
    ShiftRel v lenc (addStage A lenc c) (addStage (A + v) lenc c) := by
  have key : ∀ B, ShiftRel B lenc c (addStage B lenc c) := by
    intro B
    unfold addStage
    split_ifs with hB
    · obtain ⟨a1, a2, a3, a4, a5, a6⟩ := apply_add_fields c B lenc
      exact ⟨a1, a2, a3, a4, a5, a6⟩
    · have hB0 : B = 0 := by simpa using hB
      subst hB0
      simp [ShiftRel]
  obtain ⟨a1, a2, a3, a4, a5, a6⟩ := key A
  obtain ⟨b1, b2, b3, b4, b5, b6⟩ := key (A + v)
  refine ⟨?_, ?_, ?_, ?_, ?_, ?_⟩
  · rw [a1, b1]; ring
  · rw [a2, b2]; ring
  · rw [a3, b3]; ring
  · rw [a4, b4]; ring
  · rw [a5, b5]
  · rw [a6, b6]

theorem shiftRel_minStage (v len cap : Int) (c c' : Node) (h : ShiftRel v len c c') :
    ShiftRel v len (minStage cap c) (minStage (cap + v) c') := by
  obtain ⟨s1, s2, s3, s4, s5, s6⟩ := h
  unfold minStage
  by_cases hc : c.max1 > cap
  · rw [if_pos hc, if_pos (by omega)]
    obtain ⟨a1, a2, a3, a4, a5, a6, -, -⟩ := apply_chmin_fields c cap
    obtain ⟨b1, b2, b3, b4, b5, b6, -, -⟩ := apply_chmin_fields c' (cap + v)
    refine ⟨?_, ?_, ?_, ?_, ?_, ?_⟩
    · rw [a1, b1, s1, s3, s5]; ring
    · rw [a2, b2, s2]
    · rw [a3, b3]
    · rw [a4, b4, s3, s4]; split_ifs <;> omega
    · rw [a5, b5, s5]
    · rw [a6, b6, s6]
  · rw [if_neg hc, if_neg (by omega)]
    exact ⟨s1, s2, s3, s4, s5, s6⟩

theorem shiftRel_maxStage (v len cap : Int) (c c' : Node) (h : ShiftRel v len c c') :
    ShiftRel v len (maxStage cap c) (maxStage (cap + v) c') := by
  obtain ⟨s1, s2, s3, s4, s5, s6⟩ := h
  unfold maxStage
  by_cases hc : c.min1 < cap
  · rw [if_pos hc, if_pos (by omega)]
    obtain ⟨a1, a2, a3, a4, a5, a6, -, -⟩ := apply_chmax_fields c cap
    obtain ⟨b1, b2, b3, b4, b5, b6, -, -⟩ := apply_chmax_fields c' (cap + v)
    refine ⟨?_, ?_, ?_, ?_, ?_, ?_⟩
    · rw [a1, b1, s1, s4, s6]; ring
    · rw [a2, b2, s2]
    · rw [a4, b4, s3, s4]; split_ifs <;> omega
    · rw [a3, b3]
    · rw [a5, b5, s5]
    · rw [a6, b6, s6]
  · rw [if_neg hc, if_neg (by omega)]
    exact ⟨s1, s2, s3, s4, s5, s6⟩

theorem shiftRel_pushChild (v len : Int) (P P' c : Node) (lenc : Int)
    (h : ShiftRel v len P P') : ShiftRel v lenc (pushChild P c lenc) (pushChild P' c lenc) := by
  obtain ⟨-, h2, h3, h4, -, -⟩ := h
  rw [pushChild_eq, pushChild_eq, h2, h3, h4]
  exact shiftRel_maxStage _ _ _ _ _ (shiftRel_minStage _ _ _ _ _ (shiftRel_addStage _ _ _ _))

/-- The three fields `add`, `max1`, `min1` of a record after `minStage`. -/
theorem minStage_view (cap : Int) (c : Node) :
    (minStage cap c).add = c.add ∧
    ((minStage cap c).max1 = c.max1 ∧ (minStage cap c).min1 = c.min1 ∧ c.max1 ≤ cap ∨
     (minStage cap c).max1 = cap ∧ (minStage cap c).min1 = cap ∧ cap < c.max1 ∧ c.min1 = c.max1 ∨
     (minStage cap c).max1 = cap ∧ (minStage cap c).min1 = c.min1 ∧ cap < c.max1 ∧
       c.min1 ≠ c.max1) := by
  unfold minStage
  by_cases hc : c.max1 > cap
  · rw [if_pos hc]
    obtain ⟨-, a2, a3, a4, -, -, -, -⟩ := apply_chmin_fields c cap
    by_cases hu : c.min1 = c.max1
    · rw [if_pos hu] at a4
      exact ⟨a2, Or.inr (Or.inl ⟨a3, a4, hc, hu⟩)⟩
    · rw [if_neg hu] at a4
      exact ⟨a2, Or.inr (Or.inr ⟨a3, a4, hc, hu⟩)⟩
  · rw [if_neg hc]
    exact ⟨rfl, Or.inl ⟨rfl, rfl, by omega⟩⟩

/-- The three fields `add`, `max1`, `min1` of a record after `maxStage`. -/
theorem maxStage_view (cap : Int) (c : Node) :
    (maxStage cap c).add = c.add ∧
    ((maxStage cap c).max1 = c.max1 ∧ (maxStage cap c).min1 = c.min1 ∧ cap ≤ c.min1 ∨
     (maxStage cap c).max1 = cap ∧ (maxStage cap c).min1 = cap ∧ c.min1 < cap ∧ c.max1 = c.min1 ∨
     (maxStage cap c).max1 = c.max1 ∧ (maxStage cap c).min1 = cap ∧ c.min1 < cap ∧
       c.max1 ≠ c.min1) := by
  unfold maxStage
  by_cases hc : c.min1 < cap
  · rw [if_pos hc]
    obtain ⟨-, a2, a3, a4, -, -, -, -⟩ := apply_chmax_fields c cap
    by_cases hu : c.max1 = c.min1
    · rw [if_pos hu] at a4
      exact ⟨a2, Or.inr (Or.inl ⟨a4, a3, hc, hu⟩)⟩
    · rw [if_neg hu] at a4
      exact ⟨a2, Or.inr (Or.inr ⟨a4, a3, hc, hu⟩)⟩
  · rw [if_neg hc]
    exact ⟨rfl, Or.inl ⟨rfl, rfl, by omega⟩⟩

theorem chmaxRel_maxStage_same (x Mn F : Int) (c : Node) (hF : F = max Mn x) :
    ChmaxRel x (maxStage Mn c) (maxStage F c) := by
  obtain ⟨d1, d2⟩ := maxStage_view Mn c
  obtain ⟨e1, e2⟩ := maxStage_view F c
  refine ⟨by rw [d1, e1], ?_, ?_⟩
  · rcases d2 with ⟨d2, d3, d4⟩ | ⟨d2, d3, d4, d5⟩ | ⟨d2, d3, d4, d5⟩ <;>
      rcases e2 with ⟨e2, e3, e4⟩ | ⟨e2, e3, e4, e5⟩ | ⟨e2, e3, e4, e5⟩ <;>
      rw [d3, e3] <;> omega
  · rcases d2 with ⟨d2, d3, d4⟩ | ⟨d2, d3, d4, d5⟩ | ⟨d2, d3, d4, d5⟩ <;>
      rcases e2 with ⟨e2, e3, e4⟩ | ⟨e2, e3, e4, e5⟩ | ⟨e2, e3, e4, e5⟩ <;>
      rw [d2, e2, e3] <;> omega

theorem chmaxRel_pushChild (x : Int) (P P' c : Node) (lenc : Int)
    (h : ChmaxRel x P P') : ChmaxRel x (pushChild P c lenc) (pushChild P' c lenc) := by
  obtain ⟨h1, h2, h3⟩ := h
  rw [pushChild_eq, pushChild_eq, h1]
  by_cases hM : P'.max1 = P.max1
  · rw [hM]
    exact chmaxRel_maxStage_same x _ _ _ h2
  · have hb1 : P.max1 ≤ P'.min1 := by omega
    have hb2 : P'.max1 ≤ P'.min1 := by omega
    have hF : P.min1 ≤ P'.min1 := by omega
    obtain ⟨a1, a2⟩ := minStage_view P.max1 (addStage P.add lenc c)
    obtain ⟨b1, b2⟩ := minStage_view P'.max1 (addStage P.add lenc c)
    obtain ⟨d1, d2⟩ := maxStage_view P.min1 (minStage P.max1 (addStage P.add lenc c))
    obtain ⟨e1, e2⟩ := maxStage_view P'.min1 (minStage P'.max1 (addStage P.add lenc c))
    have k1 : (minStage P.max1 (addStage P.add lenc c)).max1 ≤ P'.min1 := by
      rcases a2 with ⟨a2, a3, a4⟩ | ⟨a2, a3, a4, a5⟩ | ⟨a2, a3, a4, a5⟩ <;> omega
    have k2 : (minStage P'.max1 (addStage P.add lenc c)).max1 ≤ P'.min1 := by
      rcases b2 with ⟨b2, b3, b4⟩ | ⟨b2, b3, b4, b5⟩ | ⟨b2, b3, b4, b5⟩ <;> omega
    have k3 : max (minStage P'.max1 (addStage P.add lenc c)).min1 P'.min1 =
        max (minStage P.max1 (addStage P.add lenc c)).min1 P'.min1 := by
      clear d1 d2 e1 e2 k1 k2 h3 h2 h1
      rcases a2 with ⟨a2, a3, a4⟩ | ⟨a2, a3, a4, a5⟩ | ⟨a2, a3, a4, a5⟩ <;>
        rcases b2 with ⟨b2, b3, b4⟩ | ⟨b2, b3, b4, b5⟩ | ⟨b2, b3, b4, b5⟩ <;>
        rw [a3, b3] <;> omega
    clear a2 b2 h3 hM
    have m1 : (maxStage P.min1 (minStage P.max1 (addStage P.add lenc c))).max1 ≤ P'.min1 := by
      rcases d2 with ⟨d2, d3, d4⟩ | ⟨d2, d3, d4, d5⟩ | ⟨d2, d3, d4, d5⟩ <;> omega
    have m2 : (maxStage P'.min1 (minStage P'.max1 (addStage P.add lenc c))).max1 ≤ P'.min1 := by
      rcases e2 with ⟨e2, e3, e4⟩ | ⟨e2, e3, e4, e5⟩ | ⟨e2, e3, e4, e5⟩ <;> omega
    have m3 : (maxStage P'.min1 (minStage P'.max1 (addStage P.add lenc c))).min1 =
        max (minStage P'.max1 (addStage P.add lenc c)).min1 P'.min1 := by
      rcases e2 with ⟨e2, e3, e4⟩ | ⟨e2, e3, e4, e5⟩ | ⟨e2, e3, e4, e5⟩ <;> omega
    have m4 : (maxStage P.min1 (minStage P.max1 (addStage P.add lenc c))).min1 =
        max (minStage P.max1 (addStage P.add lenc c)).min1 P.min1 := by
      rcases d2 with ⟨d2, d3, d4⟩ | ⟨d2, d3, d4, d5⟩ | ⟨d2, d3, d4, d5⟩ <;> omega
    refine ⟨by rw [d1, e1, a1, b1], ?_, ?_⟩
    · clear d2 e2 m1 m2 k1 k2
      omega
    · clear d2 e2 k1 k2 k3 m4
      omega

theorem leafInv_addStage (A : Int) (c : Node) (h : LeafInv c) : LeafInv (addStage A 1 c) := by
  obtain ⟨h1, h2, h3, h4, h5, h6⟩ := h
  unfold addStage
  split_ifs
  · simp [LeafInv, Node.apply_add, h1, h2, h3, h4, h5, h6]
  · exact ⟨h1, h2, h3, h4, h5, h6⟩

theorem leafInv_minStage (cap : Int) (c : Node) (h : LeafInv c) : LeafInv (minStage cap c) := by
  obtain ⟨h1, h2, h3, h4, h5, h6⟩ := h
  unfold minStage
  split_ifs
  · simp [LeafInv, Node.apply_chmin, h1, h2, h3, h4, h5, h6]
  · exact ⟨h1, h2, h3, h4, h5, h6⟩

theorem leafInv_maxStage (cap : Int) (c : Node) (h : LeafInv c) : LeafInv (maxStage cap c) := by
  obtain ⟨h1, h2, h3, h4, h5, h6⟩ := h
  unfold maxStage
  split_ifs
  · simp [LeafInv, Node.apply_chmax, h1, h2, h3, h4, h5, h6]
  · exact ⟨h1, h2, h3, h4, h5, h6⟩

theorem leafInv_pushChild (P c : Node) (h : LeafInv c) : LeafInv (pushChild P c 1) := by
  rw [pushChild_eq]
  exact leafInv_maxStage _ _ (leafInv_minStage _ _ (leafInv_addStage _ _ h))

/-- Two records at the root of the same subtree that are related by a relation
which `push` carries to the children read related leaf records. -/
theorem valN_sim (Q : Node → Prop) (ρ : Int → Node → Node → Prop)
    (hQ : ∀ P c, Q c → Q (pushChild P c 1))
    (hρ : ∀ len P P' c lenc, ρ len P P' → ρ lenc (pushChild P c lenc) (pushChild P' c lenc))
    (st : List Node) (i : Int) :
    ∀ (k : Nat) (N N' : Node) (p : Nat) (l r : Int), r - l < k → l ≤ r →
      ρ (r - l + 1) N N' → (l = r → Q N ∧ Q N') →
      (l < r → Leaves Q st (2 * p) l ((l + r) / 2) ∧ Leaves Q st (2 * p + 1) ((l + r) / 2 + 1) r) →
      ∃ M M', Q M ∧ Q M' ∧ ρ 1 M M' ∧ valN k st N p l r i = M.sum ∧
        valN k st N' p l r i = M'.sum := by
  intro k
  induction k with
  | zero => intro N N' p l r h1 h2; omega
  | succ k ih =>
    intro N N' p l r hk hlr hr hq hl
    rcases eq_or_lt_of_le hlr with e | e
    · subst e
      refine ⟨N, N', (hq rfl).1, (hq rfl).2, ?_, ?_, ?_⟩
      · rw [show l - l + 1 = 1 by omega] at hr; exact hr
      · simp [valN]
      · simp [valN]
    · obtain ⟨hl1, hl2⟩ := hl e
      simp only [valN, if_pos e]
      by_cases hi : i ≤ (l + r) / 2
      · simp only [if_pos hi]
        apply ih _ _ (2 * p) l ((l + r) / 2) (by omega) (by omega) (hρ _ _ _ _ _ hr)
        · intro e2
          have hq2 := leaves_leaf_inv hl1 e2
          rw [show (l + r) / 2 - l + 1 = 1 by omega]
          exact ⟨hQ _ _ hq2, hQ _ _ hq2⟩
        · intro e2
          exact leaves_node_inv hl1 e2
      · simp only [if_neg hi]
        have hr' := hρ _ _ _ (nd st (2 * p + 1)) (r - (l + r) / 2) hr
        rw [show r - (l + r) / 2 = r - ((l + r) / 2 + 1) + 1 by omega] at hr' ⊢
        apply ih _ _ (2 * p + 1) ((l + r) / 2 + 1) r (by omega) (by omega) hr'
        · intro e2
          have hq2 := leaves_leaf_inv hl2 e2
          rw [show r - ((l + r) / 2 + 1) + 1 = 1 by omega]
          exact ⟨hQ _ _ hq2, hQ _ _ hq2⟩
        · intro e2
          exact leaves_node_inv hl2 e2

theorem trivial_leaves (st : List Node) {N p : Nat} {l r : Int} (hs : Shape N p l r) :
    Leaves (fun _ => True) st p l r := by
  induction hs with
  | leaf p l _ _ => exact Leaves.leaf p l trivial
  | node p l r _ _ hlr _ _ ih1 ih2 => exact Leaves.node p l r hlr ih1 ih2

/-- Adding `v` to a record (as `apply_add` does) adds `v` to every value read below it. -/
theorem valN_shift {Nn : Nat} {p : Nat} {l r : Int} (hs : Shape Nn p l r) (st : List Node)
    (i v : Int) (k : Nat) (N N' : Node) (hk : r - l < k) (h : ShiftRel v (r - l + 1) N N') :
    valN k st N' p l r i = valN k st N p l r i + v := by
  obtain ⟨M, M', -, -, hr, e1, e2⟩ := valN_sim (fun _ => True) (ShiftRel v) (fun _ _ _ => trivial)
    (shiftRel_pushChild v) st i k N N' p l r hk (shape_le hs) h (fun _ => ⟨trivial, trivial⟩)
    (fun e => leaves_node_inv (trivial_leaves st hs) e)
  rw [e1, e2, hr.1]; ring

/-- Raising the floor of a record to `x` (as `apply_chmax` does) clamps from below
with `x` every value read below it. -/
theorem valN_chmax (st : List Node) (i x : Int) (k : Nat) (N N' : Node) (p : Nat) (l r : Int)
    (hk : r - l < k) (hlr : l ≤ r) (h : ChmaxRel x N N') (hq : l = r → LeafInv N ∧ LeafInv N')
    (hl : l < r → Leaves LeafInv st (2 * p) l ((l + r) / 2) ∧
      Leaves LeafInv st (2 * p + 1) ((l + r) / 2 + 1) r) :
    valN k st N' p l r i = max (valN k st N p l r i) x := by
  obtain ⟨M, M', q1, q2, hr, e1, e2⟩ := valN_sim LeafInv (fun _ => ChmaxRel x) leafInv_pushChild
    (fun _ P P' c lenc h => chmaxRel_pushChild x P P' c lenc h) st i k N N' p l r hk hlr h hq hl
  rw [e1, e2, ← q1.2.1, ← q2.2.1, hr.2.1]

/-- Every value read below a record is at least its `min1`. -/
theorem valN_ge_min1 (st : List Node) (i : Int) :
    ∀ (k : Nat) (N : Node) (p : Nat) (l r : Int), r - l < k → l ≤ r →
      (l = r → LeafInv N) →
      (l < r → Leaves LeafInv st (2 * p) l ((l + r) / 2) ∧
        Leaves LeafInv st (2 * p + 1) ((l + r) / 2 + 1) r) →
      N.min1 ≤ valN k st N p l r i := by
  intro k
  induction k with
  | zero => intro N p l r h1 h2; omega
  | succ k ih =>
    intro N p l r hk hlr hq hl
    rcases eq_or_lt_of_le hlr with e | e
    · subst e
      simp only [valN, lt_irrefl, if_false]
      rw [(hq rfl).2.1]
    · obtain ⟨hl1, hl2⟩ := hl e
      have pm : ∀ c len, N.min1 ≤ (pushChild N c len).min1 := by
        intro c len
        rw [pushChild_eq]
        obtain ⟨-, d2⟩ := maxStage_view N.min1 (minStage N.max1 (addStage N.add len c))
        rcases d2 with ⟨d2, d3, d4⟩ | ⟨d2, d3, d4, d5⟩ | ⟨d2, d3, d4, d5⟩ <;> omega
      simp only [valN, if_pos e]
      by_cases hi : i ≤ (l + r) / 2
      · simp only [if_pos hi]
        refine le_trans (pm _ _) (ih _ (2 * p) l ((l + r) / 2) (by omega) (by omega) ?_ ?_)
        · intro e2
          rw [show (l + r) / 2 - l + 1 = 1 by omega]
          exact leafInv_pushChild _ _ (leaves_leaf_inv hl1 e2)
        · intro e2
          exact leaves_node_inv hl1 e2
      · simp only [if_neg hi]
        refine le_trans (pm _ _) (ih _ (2 * p + 1) ((l + r) / 2 + 1) r (by omega) (by omega) ?_ ?_)
        · intro e2
          rw [show r - (l + r) / 2 = 1 by omega]
          exact leafInv_pushChild _ _ (leaves_leaf_inv hl2 e2)
        · intro e2
          exact leaves_node_inv hl2 e2

theorem valN_leaf (k : Nat) (st : List Node) (N : Node) (p : Nat) (l i : Int) :
    valN k st N p l l i = N.sum := by
  cases k <;> simp [valN]

theorem under_child_ne {p j : Nat} (hp : 1 ≤ p) (c : Nat) (hc : c = 2 * p ∨ c = 2 * p + 1)
    (h : Under (2 * c) j ∨ Under (2 * c + 1) j) : j ≠ p ∧ j ≠ 2 * p ∧ j ≠ 2 * p + 1 := by
  have : 2 * c ≤ j := by
    rcases h with h | h <;> have := under_ge h <;> omega
  omega

theorem leaves_of_eq {Q : Node → Prop} {st : List Node} {p : Nat} {l r : Int} (e : l = r)
    (hq : Q (nd st p)) : Leaves Q st p l r := by
  subst e; exact Leaves.leaf _ _ hq

theorem leaves_pushed {Q : Node → Prop} (hQ : ∀ P c, Q c → Q (pushChild P c 1))
    {st : List Node} {p : Nat} {l r : Int} (hp : 1 ≤ p) (hb : 2 * p + 1 < st.length)
    (hlr : l < r) (h1 : Leaves Q st (2 * p) l ((l + r) / 2))
    (h2 : Leaves Q st (2 * p + 1) ((l + r) / 2 + 1) r) :
    Leaves Q (pushed st p l r) (2 * p) l ((l + r) / 2) ∧
    Leaves Q (pushed st p l r) (2 * p + 1) ((l + r) / 2 + 1) r := by
  constructor
  · rcases eq_or_lt_of_le (show l ≤ (l + r) / 2 by omega) with e | e
    · have hq := leaves_leaf_inv h1 e
      refine leaves_of_eq e ?_
      rw [nd_pushed_left l r hp hb, show (l + r) / 2 - l + 1 = 1 by omega]
      exact hQ _ _ hq
    · obtain ⟨g1, g2⟩ := leaves_node_inv h1 e
      exact Leaves.node _ _ _ e
        (leaves_frame g1 fun i hi =>
          have := under_ge hi
          nd_pushed_other st l r (by omega) (by omega) (by omega))
        (leaves_frame g2 fun i hi =>
          have := under_ge hi
          nd_pushed_other st l r (by omega) (by omega) (by omega))
  · rcases eq_or_lt_of_le (show (l + r) / 2 + 1 ≤ r by omega) with e | e
    · have hq := leaves_leaf_inv h2 e
      refine leaves_of_eq e ?_
      rw [nd_pushed_right l r hp hb, show r - (l + r) / 2 = 1 by omega]
      exact hQ _ _ hq
    · obtain ⟨g1, g2⟩ := leaves_node_inv h2 e
      exact Leaves.node _ _ _ e
        (leaves_frame g1 fun i hi =>
          have := under_ge hi
          nd_pushed_other st l r (by omega) (by omega) (by omega))
        (leaves_frame g2 fun i hi =>
          have := under_ge hi
          nd_pushed_other st l r (by omega) (by omega) (by omega))

/-- The frame of a recursive step: `push`, two recursive calls, then the write of
the merged record at `p`. -/
theorem recombine_frame {st s2 s3 : List Node} {p : Nat} {l r : Int} (hp : 1 ≤ p)
    (f2 : ∀ i, ¬ Under (2 * p) i → nd s2 i = nd (pushed st p l r) i)
    (f3 : ∀ i, ¬ Under (2 * p + 1) i → nd s3 i = nd s2 i) (x : Node) :
    ∀ i, ¬ Under p i → nd (s3.set p x) i = nd st i := by
  intro i hi
  have h0 : i ≠ p := by intro e; subst e; exact hi (under_self _)
  have h1 : ¬ Under (2 * p) i := fun h => hi (under_left h)
  have h2 : ¬ Under (2 * p + 1) i := fun h => hi (under_right h)
  rw [nd_set_ne _ (Ne.symm h0), f3 i h2, f2 i h1]
  exact nd_pushed_other st l r h0 (by intro e; subst e; exact h1 (under_self _))
    (by intro e; subst e; exact h2 (under_self _))

theorem recombine_leaves {Q : Node → Prop} {s2 s3 : List Node} {p : Nat} {l r : Int}
    (hp : 1 ≤ p) (hlr : l < r)
    (f3 : ∀ i, ¬ Under (2 * p + 1) i → nd s3 i = nd s2 i)
    (h1 : Leaves Q s2 (2 * p) l ((l + r) / 2))
    (h2 : Leaves Q s3 (2 * p + 1) ((l + r) / 2 + 1) r) (x : Node) :
    Leaves Q (s3.set p x) p l r := by
  refine Leaves.node p l r hlr (leaves_frame h1 fun i hi => ?_) (leaves_frame h2 fun i hi => ?_)
  · rw [nd_set_ne _ (by have := under_ge hi; omega), f3 i (fun h => under_disjoint hp hi h)]
  · rw [nd_set_ne _ (by have := under_ge hi; omega)]

/-- The values read after a recursive step, from the values read after the two
recursive calls. -/
theorem recombine_valN {st s2 s3 : List Node} {p : Nat} {l r : Int} (g : Int → Int → Int)
    (hp : 1 ≤ p) (hb : 2 * p + 1 < st.length) (hlr : l < r)
    (l2 : s2.length = st.length) (l3 : s3.length = st.length)
    (f2 : ∀ i, ¬ Under (2 * p) i → nd s2 i = nd (pushed st p l r) i)
    (f3 : ∀ i, ¬ Under (2 * p + 1) i → nd s3 i = nd s2 i)
    (v2 : ∀ i, l ≤ i → i ≤ (l + r) / 2 → ∀ k : Nat, (l + r) / 2 - l < k →
      valN k s2 (nd s2 (2 * p)) (2 * p) l ((l + r) / 2) i =
        g i (valN k (pushed st p l r) (nd (pushed st p l r) (2 * p)) (2 * p) l ((l + r) / 2) i))
    (v3 : ∀ i, (l + r) / 2 + 1 ≤ i → i ≤ r → ∀ k : Nat, r - ((l + r) / 2 + 1) < k →
      valN k s3 (nd s3 (2 * p + 1)) (2 * p + 1) ((l + r) / 2 + 1) r i =
        g i (valN k s2 (nd s2 (2 * p + 1)) (2 * p + 1) ((l + r) / 2 + 1) r i)) :
    ∀ i, l ≤ i → i ≤ r → ∀ k : Nat, r - l < k →
      valN k (s3.set p (merge (nd s3 (2 * p)) (nd s3 (2 * p + 1))))
        (nd (s3.set p (merge (nd s3 (2 * p)) (nd s3 (2 * p + 1)))) p) p l r i =
      g i (valN k st (nd st p) p l r i) := by
  intro i hi1 hi2 k hk
  obtain ⟨k, rfl⟩ : ∃ k', k = k' + 1 := ⟨k - 1, by omega⟩
  have hset : ∀ j, j ≠ p → nd (s3.set p (merge (nd s3 (2 * p)) (nd s3 (2 * p + 1)))) j = nd s3 j :=
    fun j hj => nd_set_ne _ (Ne.symm hj) _
  rw [nd_set_self (by omega)]
  simp only [valN, if_pos hlr]
  rw [hset _ (by omega), hset _ (by omega)]
  by_cases hi : i ≤ (l + r) / 2
  · simp only [if_pos hi]
    rw [pushChild_id _ (merge_add _ _) (by rw [merge_max1]; omega) (by rw [merge_min1]; omega)]
    rw [valN_frame k _ (2 * p) _ _ _ (by omega) (fun j hj =>
      hset j (under_child_ne hp (2 * p) (Or.inl rfl) hj).1)]
    have e3 : nd s3 (2 * p) = nd s2 (2 * p) :=
      f3 _ (fun h => under_disjoint hp (under_self _) h)
    rw [e3, valN_frame k _ (2 * p) _ _ _ (by omega) (fun j hj =>
      f3 j (fun h => under_disjoint hp
        (by rcases hj with h | h; exact under_left h; exact under_right h) h))]
    rw [v2 i hi1 hi k (by omega), nd_pushed_left l r hp hb]
    rw [valN_frame k _ (2 * p) _ _ _ (by omega) (fun j hj =>
      have := under_child_ne hp (2 * p) (Or.inl rfl) hj
      nd_pushed_other st l r this.1 this.2.1 this.2.2)]
  · simp only [if_neg hi]
    rw [pushChild_id _ (merge_add _ _) (by rw [merge_max1]; omega) (by rw [merge_min1]; omega)]
    rw [valN_frame k _ (2 * p + 1) _ _ _ (by omega) (fun j hj =>
      hset j (under_child_ne hp (2 * p + 1) (Or.inr rfl) hj).1)]
    rw [v3 i (by omega) hi2 k (by omega)]
    have e2 : nd s2 (2 * p + 1) = nd (pushed st p l r) (2 * p + 1) :=
      f2 _ (fun h => under_disjoint hp h (under_self _))
    rw [e2, valN_frame k _ (2 * p + 1) _ _ _ (by omega) (fun j hj =>
      f2 j (fun h => under_disjoint hp h
        (by rcases hj with h | h; exact under_left h; exact under_right h)))]
    rw [nd_pushed_right l r hp hb]
    rw [valN_frame k _ (2 * p + 1) _ _ _ (by omega) (fun j hj =>
      have := under_child_ne hp (2 * p + 1) (Or.inr rfl) hj
      nd_pushed_other st l r this.1 this.2.1 this.2.2)]

theorem nd_upd_of_not_under {st : List Node} {p i : Nat} (f : Node → Node)
    (hi : ¬ Under p i) : nd (upd st p f) i = nd st i :=
  nd_upd_ne st (by intro e; subst e; exact hi (under_self _)) f

theorem leaves_upd {Q : Node → Prop} {st : List Node} {p : Nat} {l r : Int} (f : Node → Node)
    (hp : 1 ≤ p) (hb : p < st.length) (hf : l = r → Q (nd st p) → Q (f (nd st p)))
    (h : Leaves Q st p l r) : Leaves Q (upd st p f) p l r := by
  cases h with
  | leaf _ _ hq =>
    refine Leaves.leaf _ _ ?_
    rw [nd_upd_self hb]
    exact hf rfl hq
  | node _ _ _ hlr h1 h2 =>
    exact Leaves.node _ _ _ hlr
      (leaves_frame h1 fun i hi => nd_upd_ne st (by have := under_ge hi; omega) f)
      (leaves_frame h2 fun i hi => nd_upd_ne st (by have := under_ge hi; omega) f)

theorem valN_upd_frame (k : Nat) (st : List Node) (f : Node → Node) (N : Node) {p : Nat}
    (hp : 1 ≤ p) (l r i : Int) : valN k (upd st p f) N p l r i = valN k st N p l r i :=
  valN_frame k N p l r i hp fun j hj =>
    nd_upd_ne st (by rcases hj with h | h <;> have := under_ge h <;> omega) f

theorem range_add_go_spec (Q : Node → Prop) (hQ : ∀ P c, Q c → Q (pushChild P c 1))
    (hQa : ∀ c v, Q c → Q (c.apply_add v 1)) {N : Nat} {p : Nat} {l r : Int} (L R v : Int)
    (hs : Shape N p l r) :
    ∀ (fuel : Nat) (st : List Node), r - l < fuel → st.length = N → Leaves Q st p l r →
    ∃ st', range_add_go fuel st p l r L R v = .ok st' ∧ st'.length = N ∧
      (∀ i, ¬ Under p i → nd st' i = nd st i) ∧ Leaves Q st' p l r ∧
      ∀ i, l ≤ i → i ≤ r → ∀ k : Nat, r - l < k →
        valN k st' (nd st' p) p l r i =
          (fun i e => if L ≤ i ∧ i ≤ R then e + v else e) i (valN k st (nd st p) p l r i) := by
  induction hs with
  | leaf p l hp hN =>
    intro fuel st hf hl hq
    obtain ⟨f, rfl⟩ : ∃ f, fuel = f + 1 := ⟨fuel - 1, by omega⟩
    unfold range_add_go
    by_cases h1 : R < l ∨ l < L
    · rw [if_pos h1]
      refine ⟨st, rfl, hl, fun _ _ => rfl, hq, ?_⟩
      intro i hi1 hi2 k hk
      simp only []
      rw [if_neg (by omega)]
    · rw [if_neg h1, if_pos (by omega), apply_add_ok (by omega)]
      refine ⟨_, rfl, by simpa using hl, fun i hi => nd_upd_of_not_under _ hi,
        leaves_upd _ hp (by omega) (fun _ h => ?_) hq, ?_⟩
      · rw [show l - l + 1 = 1 by omega]; exact hQa _ _ h
      · intro i hi1 hi2 k hk
        simp only []
        rw [if_pos (by omega), valN_leaf, valN_leaf, nd_upd_self (by omega),
          (apply_add_fields _ _ _).1]
        ring
  | node p l r hp hN hlr hs1 hs2 ih1 ih2 =>
    intro fuel st hf hl hq
    obtain ⟨f, rfl⟩ : ∃ f, fuel = f + 1 := ⟨fuel - 1, by omega⟩
    have hb : 2 * p + 1 < st.length := by omega
    unfold range_add_go
    by_cases h1 : R < l ∨ r < L
    · rw [if_pos h1]
      refine ⟨st, rfl, hl, fun _ _ => rfl, hq, ?_⟩
      intro i hi1 hi2 k hk
      simp only []
      rw [if_neg (by omega)]
    · rw [if_neg h1]
      by_cases h2 : L ≤ l ∧ r ≤ R
      · rw [if_pos h2, apply_add_ok (by omega)]
        refine ⟨_, rfl, by simpa using hl, fun i hi => nd_upd_of_not_under _ hi,
          leaves_upd _ hp (by omega) (fun e _ => by omega) hq, ?_⟩
        intro i hi1 hi2 k hk
        simp only []
        rw [if_pos (by omega), valN_upd_frame _ _ _ _ hp, nd_upd_self (by omega)]
        refine valN_shift (Shape.node p l r hp hN hlr hs1 hs2) st i v k _ _ hk ?_
        obtain ⟨a1, a2, a3, a4, a5, a6⟩ := apply_add_fields (nd st p) v (r - l + 1)
        exact ⟨a1, a2, a3, a4, a5, a6⟩
      · rw [if_neg h2]
        simp only []
        rw [push_eq hp hb (ne_of_lt hlr), bind_ok]
        obtain ⟨q1, q2⟩ := leaves_node_inv hq hlr
        obtain ⟨p1, p2⟩ := leaves_pushed hQ hp hb hlr q1 q2
        obtain ⟨s2, e2, l2, f2, g2, v2⟩ := ih1 f (pushed st p l r) (by omega)
          (by rw [pushed_length]; exact hl) p1
        have p2' : Leaves Q s2 (2 * p + 1) ((l + r) / 2 + 1) r :=
          leaves_frame p2 fun i hi => f2 i fun h => under_disjoint hp h hi
        obtain ⟨s3, e3, l3, f3, g3, v3⟩ := ih2 f s2 (by omega) l2 p2'
        rw [e2, bind_ok, e3, bind_ok, rd_ok (by omega), bind_ok, rd_ok (by omega), bind_ok,
          wr_ok (by omega)]
        refine ⟨_, rfl, by simpa using l3, recombine_frame hp f2 f3 _,
          recombine_leaves hp hlr f3 g2 g3 _, ?_⟩
        exact recombine_valN (fun i e => if L ≤ i ∧ i ≤ R then e + v else e) hp hb hlr
          (by omega) (by omega) f2 f3 v2 v3

theorem leafInv_apply_chmax (c : Node) (x : Int) (h : LeafInv c) : LeafInv (c.apply_chmax x) := by
  obtain ⟨h1, h2, h3, h4, h5, h6⟩ := h
  simp [LeafInv, Node.apply_chmax, h1, h2, h3, h4, h5, h6]

theorem leafInv_apply_chmin (c : Node) (x : Int) (h : LeafInv c) : LeafInv (c.apply_chmin x) := by
  obtain ⟨h1, h2, h3, h4, h5, h6⟩ := h
  simp [LeafInv, Node.apply_chmin, h1, h2, h3, h4, h5, h6]

theorem leafInv_apply_add (c : Node) (v : Int) (h : LeafInv c) : LeafInv (c.apply_add v 1) := by
  obtain ⟨h1, h2, h3, h4, h5, h6⟩ := h
  simp [LeafInv, Node.apply_add, h1, h2, h3, h4, h5, h6]

theorem chmaxRel_apply_chmax (c : Node) (x : Int) (h : c.min1 < x) :
    ChmaxRel x c (c.apply_chmax x) := by
  obtain ⟨-, a2, a3, a4, -, -, -, -⟩ := apply_chmax_fields c x
  refine ⟨a2, by rw [a3]; omega, ?_⟩
  rw [a3, a4]
  split_ifs <;> omega

theorem range_chmax_go_spec {N : Nat} {p : Nat} {l r : Int} (L R x : Int) (hx : x < LLONG_MAX)
    (hs : Shape N p l r) :
    ∀ (fuel : Nat) (st : List Node), r - l < fuel → st.length = N →
      Leaves LeafInv st p l r →
    ∃ st', range_chmax_go fuel st p l r L R x = .ok st' ∧ st'.length = N ∧
      (∀ i, ¬ Under p i → nd st' i = nd st i) ∧ Leaves LeafInv st' p l r ∧
      ∀ i, l ≤ i → i ≤ r → ∀ k : Nat, r - l < k →
        valN k st' (nd st' p) p l r i =
          (fun i e => if L ≤ i ∧ i ≤ R then max e x else e) i (valN k st (nd st p) p l r i) := by
  induction hs with
  | leaf p l hp hN =>
    intro fuel st hf hl hq
    obtain ⟨f, rfl⟩ : ∃ f, fuel = f + 1 := ⟨fuel - 1, by omega⟩
    have hq0 := leaves_leaf_inv hq rfl
    unfold range_chmax_go
    by_cases h1 : R < l ∨ l < L
    · rw [if_pos h1]
      refine ⟨st, rfl, hl, fun _ _ => rfl, hq, ?_⟩
      intro i hi1 hi2 k hk
      simp only []
      rw [if_neg (by omega)]
    · rw [if_neg h1, rd_ok (by omega), bind_ok]
      by_cases h2 : x ≤ (nd st p).min1
      · rw [if_pos h2]
        refine ⟨st, rfl, hl, fun _ _ => rfl, hq, ?_⟩
        intro i hi1 hi2 k hk
        simp only []
        rw [if_pos (by omega), valN_leaf, ← hq0.2.1]
        omega
      · rw [if_neg h2, if_pos ⟨by omega, by omega, by rw [hq0.2.2.2.2.2]; exact hx⟩,
          apply_chmax_ok (by omega)]
        refine ⟨_, rfl, by simpa using hl, fun i hi => nd_upd_of_not_under _ hi,
          leaves_upd _ hp (by omega) (fun _ h => leafInv_apply_chmax _ _ h) hq, ?_⟩
        intro i hi1 hi2 k hk
        simp only []
        rw [if_pos (by omega), valN_leaf, valN_leaf, nd_upd_self (by omega),
          (apply_chmax_fields _ _).1, hq0.2.2.2.1, ← hq0.2.1]
        omega
  | node p l r hp hN hlr hs1 hs2 ih1 ih2 =>
    intro fuel st hf hl hq
    obtain ⟨f, rfl⟩ : ∃ f, fuel = f + 1 := ⟨fuel - 1, by omega⟩
    have hb : 2 * p + 1 < st.length := by omega
    obtain ⟨q1, q2⟩ := leaves_node_inv hq hlr
    unfold range_chmax_go
    by_cases h1 : R < l ∨ r < L
    · rw [if_pos h1]
      refine ⟨st, rfl, hl, fun _ _ => rfl, hq, ?_⟩
      intro i hi1 hi2 k hk
      simp only []
      rw [if_neg (by omega)]
    · rw [if_neg h1, rd_ok (by omega), bind_ok]
      by_cases h2 : x ≤ (nd st p).min1
      · rw [if_pos h2]
        refine ⟨st, rfl, hl, fun _ _ => rfl, hq, ?_⟩
        intro i hi1 hi2 k hk
        simp only []
        have := valN_ge_min1 st i k (nd st p) p l r hk (by omega) (fun e => by omega)
          (fun _ => ⟨q1, q2⟩)
        split_ifs <;> omega
      · rw [if_neg h2]
        by_cases h3 : L ≤ l ∧ r ≤ R ∧ x < (nd st p).smin2
        · rw [if_pos h3, apply_chmax_ok (by omega)]
          refine ⟨_, rfl, by simpa using hl, fun i hi => nd_upd_of_not_under _ hi,
            leaves_upd _ hp (by omega) (fun e _ => by omega) hq, ?_⟩
          intro i hi1 hi2 k hk
          simp only []
          rw [if_pos (by omega), valN_upd_frame _ _ _ _ hp, nd_upd_self (by omega)]
          exact valN_chmax st i x k _ _ p l r hk (by omega)
            (chmaxRel_apply_chmax _ _ (by omega)) (fun e => by omega) (fun _ => ⟨q1, q2⟩)
        · rw [if_neg h3]
          simp only []
          rw [push_eq hp hb (ne_of_lt hlr), bind_ok]
          obtain ⟨p1, p2⟩ := leaves_pushed leafInv_pushChild hp hb hlr q1 q2
          obtain ⟨s2, e2, l2, f2, g2, v2⟩ := ih1 f (pushed st p l r) (by omega)
            (by rw [pushed_length]; exact hl) p1
          have p2' : Leaves LeafInv s2 (2 * p + 1) ((l + r) / 2 + 1) r :=
            leaves_frame p2 fun i hi => f2 i fun h => under_disjoint hp h hi
          obtain ⟨s3, e3, l3, f3, g3, v3⟩ := ih2 f s2 (by omega) l2 p2'
          rw [e2, bind_ok, e3, bind_ok, rd_ok (by omega), bind_ok, rd_ok (by omega), bind_ok,
            wr_ok (by omega)]
          refine ⟨_, rfl, by simpa using l3, recombine_frame hp f2 f3 _,
            recombine_leaves hp hlr f3 g2 g3 _, ?_⟩
          exact recombine_valN (fun i e => if L ≤ i ∧ i ≤ R then max e x else e) hp hb hlr
            (by omega) (by omega) f2 f3 v2 v3

theorem range_chmin_go_leaves {N : Nat} {p : Nat} {l r : Int} (L R x : Int)
    (hx : LLONG_MIN < x) (hs : Shape N p l r) :
    ∀ (fuel : Nat) (st : List Node), r - l < fuel → st.length = N →
      Leaves LeafInv st p l r →
    ∃ st', range_chmin_go fuel st p l r L R x = .ok st' ∧ st'.length = N ∧
      (∀ i, ¬ Under p i → nd st' i = nd st i) ∧ Leaves LeafInv st' p l r := by
  induction hs with
  | leaf p l hp hN =>
    intro fuel st hf hl hq
    obtain ⟨f, rfl⟩ : ∃ f, fuel = f + 1 := ⟨fuel - 1, by omega⟩
    have hq0 := leaves_leaf_inv hq rfl
    unfold range_chmin_go
    by_cases h1 : R < l ∨ l < L
    · rw [if_pos h1]
      exact ⟨st, rfl, hl, fun _ _ => rfl, hq⟩
    · rw [if_neg h1, rd_ok (by omega), bind_ok]
      by_cases h2 : x ≥ (nd st p).max1
      · rw [if_pos h2]
        exact ⟨st, rfl, hl, fun _ _ => rfl, hq⟩
      · rw [if_neg h2, if_pos ⟨by omega, by omega, by rw [hq0.2.2.2.2.1]; exact hx⟩,
          apply_chmin_ok (by omega)]
        exact ⟨_, rfl, by simpa using hl, fun i hi => nd_upd_of_not_under _ hi,
          leaves_upd _ hp (by omega) (fun _ h => leafInv_apply_chmin _ _ h) hq⟩
  | node p l r hp hN hlr hs1 hs2 ih1 ih2 =>
    intro fuel st hf hl hq
    obtain ⟨f, rfl⟩ : ∃ f, fuel = f + 1 := ⟨fuel - 1, by omega⟩
    have hb : 2 * p + 1 < st.length := by omega
    obtain ⟨q1, q2⟩ := leaves_node_inv hq hlr
    unfold range_chmin_go
    by_cases h1 : R < l ∨ r < L
    · rw [if_pos h1]
      exact ⟨st, rfl, hl, fun _ _ => rfl, hq⟩
    · rw [if_neg h1, rd_ok (by omega), bind_ok]
      by_cases h2 : x ≥ (nd st p).max1
      · rw [if_pos h2]
        exact ⟨st, rfl, hl, fun _ _ => rfl, hq⟩
      · rw [if_neg h2]
        by_cases h3 : L ≤ l ∧ r ≤ R ∧ x > (nd st p).smax2
        · rw [if_pos h3, apply_chmin_ok (by omega)]
          exact ⟨_, rfl, by simpa using hl, fun i hi => nd_upd_of_not_under _ hi,
            leaves_upd _ hp (by omega) (fun e _ => by omega) hq⟩
        · rw [if_neg h3]
          simp only []
          rw [push_eq hp hb (ne_of_lt hlr), bind_ok]
          obtain ⟨p1, p2⟩ := leaves_pushed leafInv_pushChild hp hb hlr q1 q2
          obtain ⟨s2, e2, l2, f2, g2⟩ := ih1 f (pushed st p l r) (by omega)
            (by rw [pushed_length]; exact hl) p1
          have p2' : Leaves LeafInv s2 (2 * p + 1) ((l + r) / 2 + 1) r :=
            leaves_frame p2 fun i hi => f2 i fun h => under_disjoint hp h hi
          obtain ⟨s3, e3, l3, f3, g3⟩ := ih2 f s2 (by omega) l2 p2'
          rw [e2, bind_ok, e3, bind_ok, rd_ok (by omega), bind_ok, rd_ok (by omega), bind_ok,
            wr_ok (by omega)]
          exact ⟨_, rfl, by simpa using l3, recombine_frame hp f2 f3 _,
            recombine_leaves hp hlr f3 g2 g3 _⟩

theorem range_sum_go_leaves (Q : Node → Prop) (hQ : ∀ P c, Q c → Q (pushChild P c 1))
    {N : Nat} {p : Nat} {l r : Int} (L R : Int) (hs : Shape N p l r) :
    ∀ (fuel : Nat) (st : List Node), r - l < fuel → st.length = N → Leaves Q st p l r →
    ∃ s st', range_sum_go fuel st p l r L R = .ok (s, st') ∧ st'.length = N ∧
      (∀ i, ¬ Under p i → nd st' i = nd st i) ∧ Leaves Q st' p l r := by
  induction hs with
  | leaf p l hp hN =>
    intro fuel st hf hl hq
    obtain ⟨f, rfl⟩ : ∃ f, fuel = f + 1 := ⟨fuel - 1, by omega⟩
    unfold range_sum_go
    by_cases h1 : R < l ∨ l < L
    · rw [if_pos h1]
      exact ⟨_, st, rfl, hl, fun _ _ => rfl, hq⟩
    · rw [if_neg h1, if_pos (by omega), rd_ok (by omega), bind_ok]
      exact ⟨_, st, rfl, hl, fun _ _ => rfl, hq⟩
  | node p l r hp hN hlr hs1 hs2 ih1 ih2 =>
    intro fuel st hf hl hq
    obtain ⟨f, rfl⟩ : ∃ f, fuel = f + 1 := ⟨fuel - 1, by omega⟩
    have hb : 2 * p + 1 < st.length := by omega
    obtain ⟨q1, q2⟩ := leaves_node_inv hq hlr
    unfold range_sum_go
    by_cases h1 : R < l ∨ r < L
    · rw [if_pos h1]
      exact ⟨_, st, rfl, hl, fun _ _ => rfl, hq⟩
    · rw [if_neg h1]
      by_cases h2 : L ≤ l ∧ r ≤ R
      · rw [if_pos h2, rd_ok (by omega), bind_ok]
        exact ⟨_, st, rfl, hl, fun _ _ => rfl, hq⟩
      · rw [if_neg h2]
        simp only []
        rw [push_eq hp hb (ne_of_lt hlr), bind_ok]
        obtain ⟨p1, p2⟩ := leaves_pushed hQ hp hb hlr q1 q2
        obtain ⟨a2, s2, e2, l2, f2, g2⟩ := ih1 f (pushed st p l r) (by omega)
          (by rw [pushed_length]; exact hl) p1
        have p2' : Leaves Q s2 (2 * p + 1) ((l + r) / 2 + 1) r :=
          leaves_frame p2 fun i hi => f2 i fun h => under_disjoint hp h hi
        obtain ⟨a3, s3, e3, l3, f3, g3⟩ := ih2 f s2 (by omega) l2 p2'
        rw [e2, bind_ok, e3, bind_ok]
        refine ⟨_, s3, rfl, l3, ?_, ?_⟩
        · intro i hi
          have h0 : i ≠ p := by intro e; subst e; exact hi (under_self _)
          have h1 : ¬ Under (2 * p) i := fun h => hi (under_left h)
          have h2 : ¬ Under (2 * p + 1) i := fun h => hi (under_right h)
          rw [f3 i h2, f2 i h1]
          exact nd_pushed_other st l r h0 (by intro e; subst e; exact h1 (under_self _))
            (by intro e; subst e; exact h2 (under_self _))
        · exact Leaves.node p l r hlr
            (leaves_frame g2 fun i hi => f3 i (fun h => under_disjoint hp hi h)) g3

theorem Post_ok {α : Type} {P : α → Prop} {a : α} (h : P a) : Post P (.ok a) := by
  intro s e; cases e; exact h

theorem Post_pure {α : Type} {P : α → Prop} {a : α} (h : P a) : Post P (pure a) := Post_ok h

theorem Post_bind {α β : Type} {P : α → Prop} {Q : β → Prop} {m : Res α} {f : α → Res β}
    (h1 : Post P m) (h2 : ∀ a, P a → Post Q (f a)) : Post Q (m >>= f) := by
  intro s e
  cases hm : m with
  | error x => rw [hm] at e; cases e
  | ok a => rw [hm] at e; exact h2 a (h1 a hm) s e

theorem Post_bind_val {α β : Type} {Q : β → Prop} {m : Res α} {f : α → Res β}
    (h : ∀ a, Post Q (f a)) : Post Q (m >>= f) :=
  Post_bind (P := fun _ => True) (fun _ _ => trivial) fun a _ => h a

theorem Post_ite {α : Type} {P : α → Prop} {c : Prop} [Decidable c] {a b : Res α}
    (h1 : Post P a) (h2 : Post P b) : Post P (if c then a else b) := by
  split
  · exact h1
  · exact h2

theorem LP_ok {n : Nat} {st : List Node} (h : st.length = n) : LP n (.ok st) := Post_ok h

theorem LP_pure {n : Nat} {st : List Node} (h : st.length = n) : LP n (pure st) := Post_ok h

theorem LP_bind {n : Nat} {m : Res (List Node)} {f : List Node → Res (List Node)}
    (h1 : LP n m) (h2 : ∀ s, s.length = n → LP n (f s)) : LP n (m >>= f) := Post_bind h1 h2

theorem LP_bind_val {α : Type} {n : Nat} {m : Res α} {f : α → Res (List Node)}
    (h : ∀ a, LP n (f a)) : LP n (m >>= f) := Post_bind_val h

theorem LP_ite {n : Nat} {c : Prop} [Decidable c] {a b : Res (List Node)}
    (h1 : LP n a) (h2 : LP n b) : LP n (if c then a else b) := Post_ite h1 h2

theorem LP_wr {n : Nat} {st : List Node} (h : st.length = n) (p : Nat) (x : Node) :
    LP n (wr st p x) := by
  intro s e
  unfold wr at e
  split at e
  · cases e; simpa using h
  · cases e

theorem LP_apply_add {n : Nat} {st : List Node} (h : st.length = n) (p : Nat) (v len : Int) :
    LP n (apply_add st p v len) := LP_bind_val fun _ => LP_wr h _ _

theorem LP_apply_chmin {n : Nat} {st : List Node} (h : st.length = n) (p : Nat) (x : Int) :
    LP n (apply_chmin st p x) := LP_bind_val fun _ => LP_wr h _ _

theorem LP_apply_chmax {n : Nat} {st : List Node} (h : st.length = n) (p : Nat) (x : Int) :
    LP n (apply_chmax st p x) := LP_bind_val fun _ => LP_wr h _ _

theorem LP_push {n : Nat} {st : List Node} (h : st.length = n) (p : Nat) (l r : Int) :
    LP n (push st p l r) := by
  unfold push
  split
  · exact LP_ok h
  · refine LP_bind_val fun np => LP_bind (LP_ite (LP_bind (LP_wr h _ _) fun s1 h1 =>
      LP_bind (LP_apply_add h1 _ _ _) fun s2 h2 => LP_apply_add h2 _ _ _) (LP_pure h))
      fun s1 h1 => LP_bind_val fun _ => LP_bind_val fun _ =>
      LP_bind (LP_ite (LP_apply_chmin h1 _ _) (LP_pure h1)) fun s2 h2 => LP_bind_val fun _ =>
      LP_bind (LP_ite (LP_apply_chmin h2 _ _) (LP_pure h2)) fun s3 h3 => LP_bind_val fun _ =>
      LP_bind_val fun _ =>
      LP_bind (LP_ite (LP_apply_chmax h3 _ _) (LP_pure h3)) fun s4 h4 => LP_bind_val fun _ =>
      LP_bind (LP_ite (LP_apply_chmax h4 _ _) (LP_pure h4)) fun s5 h5 => LP_pure h5

theorem LP_range_chmin_go (n : Nat) (L R x : Int) : ∀ (fuel : Nat) (st : List Node) (p : Nat)
    (l r : Int), st.length = n → LP n (range_chmin_go fuel st p l r L R x) := by
  intro fuel
  induction fuel with
  | zero => intro st p l r h s e; cases e
  | succ f ih =>
    intro st p l r h
    unfold range_chmin_go
    refine LP_ite (LP_ok h) (LP_bind_val fun np => LP_ite (LP_pure h)
      (LP_ite (LP_apply_chmin h _ _) (LP_bind (LP_push h _ _ _) fun s1 h1 =>
        LP_bind (ih s1 _ _ _ h1) fun s2 h2 => LP_bind (ih s2 _ _ _ h2) fun s3 h3 =>
        LP_bind_val fun _ => LP_bind_val fun _ => LP_wr h3 _ _)))

theorem LP_range_chmax_go (n : Nat) (L R x : Int) : ∀ (fuel : Nat) (st : List Node) (p : Nat)
    (l r : Int), st.length = n → LP n (range_chmax_go fuel st p l r L R x) := by
  intro fuel
  induction fuel with
  | zero => intro st p l r h s e; cases e
  | succ f ih =>
    intro st p l r h
    unfold range_chmax_go
    refine LP_ite (LP_ok h) (LP_bind_val fun np => LP_ite (LP_pure h)
      (LP_ite (LP_apply_chmax h _ _) (LP_bind (LP_push h _ _ _) fun s1 h1 =>
        LP_bind (ih s1 _ _ _ h1) fun s2 h2 => LP_bind (ih s2 _ _ _ h2) fun s3 h3 =>
        LP_bind_val fun _ => LP_bind_val fun _ => LP_wr h3 _ _)))

theorem LP_range_add_go (n : Nat) (L R v : Int) : ∀ (fuel : Nat) (st : List Node) (p : Nat)
    (l r : Int), st.length = n → LP n (range_add_go fuel st p l r L R v) := by
  intro fuel
  induction fuel with
  | zero => intro st p l r h s e; cases e
  | succ f ih =>
    intro st p l r h
    unfold range_add_go
    refine LP_ite (LP_ok h) (LP_ite (LP_apply_add h _ _ _) (LP_bind (LP_push h _ _ _)
      fun s1 h1 => LP_bind (ih s1 _ _ _ h1) fun s2 h2 => LP_bind (ih s2 _ _ _ h2) fun s3 h3 =>
        LP_bind_val fun _ => LP_bind_val fun _ => LP_wr h3 _ _))

theorem Post_range_sum_go (n : Nat) (L R : Int) : ∀ (fuel : Nat) (st : List Node) (p : Nat)
    (l r : Int), st.length = n →
    Post (fun a => a.2.length = n) (range_sum_go fuel st p l r L R) := by
  intro fuel
  induction fuel with
  | zero => intro st p l r h s e; cases e
  | succ f ih =>
    intro st p l r h
    unfold range_sum_go
    refine Post_ite (Post_ok h) (Post_ite (Post_bind_val fun _ => Post_pure h)
      (Post_bind (LP_push h _ _ _) fun s1 h1 => Post_bind (ih s1 _ _ _ h1) fun a2 h2 =>
        Post_bind (ih a2.2 _ _ _ h2) fun a3 h3 => Post_pure h3))

/-- A successful public call keeps the element count and the length of the node vector. -/
theorem step_size {t t' : SegTreeBeats} {op : Op} {o : Option Int}
    (h : step t op = .ok (o, t')) : t'.n = t.n ∧ t'.st.length = t.st.length := by
  cases op with
  | add L R v =>
    simp only [step, range_add] at h
    cases e : range_add_go t.st.length t.st 1 0 (t.n - 1) L R v with
    | error x => rw [e] at h; cases h
    | ok s =>
      rw [e] at h
      cases h
      exact ⟨rfl, LP_range_add_go _ _ _ _ _ _ _ _ _ rfl s e⟩
  | chmin L R x =>
    simp only [step, range_chmin] at h
    cases e : range_chmin_go t.st.length t.st 1 0 (t.n - 1) L R x with
    | error x => rw [e] at h; cases h
    | ok s =>
      rw [e] at h
      cases h
      exact ⟨rfl, LP_range_chmin_go _ _ _ _ _ _ _ _ _ rfl s e⟩
  | chmax L R x =>
    simp only [step, range_chmax] at h
    cases e : range_chmax_go t.st.length t.st 1 0 (t.n - 1) L R x with
    | error x => rw [e] at h; cases h
    | ok s =>
      rw [e] at h
      cases h
      exact ⟨rfl, LP_range_chmax_go _ _ _ _ _ _ _ _ _ rfl s e⟩
  | sum L R =>
    simp only [step, range_sum] at h
    cases e : range_sum_go t.st.length t.st 1 0 (t.n - 1) L R with
    | error x => rw [e] at h; cases h
    | ok s =>
      rw [e] at h
      cases h
      exact ⟨rfl, Post_range_sum_go _ _ _ _ _ _ _ _ rfl s e⟩

/-- In every reachable state the node vector has the size `init` gave it. -/
theorem reachable_size {good : Op → Prop} {t : SegTreeBeats} (h : ReachableBy good t) :
    ∃ n : Nat, 1 ≤ n ∧ t.n = n ∧ t.st.length = 4 * n + 4 := by
  induction h with
  | build a t ha e =>
    obtain ⟨st, e', hl, -⟩ := build_spec ha
    rw [e'] at e
    cases e
    refine ⟨a.length, ?_, rfl, hl⟩
    cases a with
    | nil => exact absurd rfl ha
    | cons x xs => simp
  | step t op o t' _ _ _ e ih =>
    obtain ⟨n, h1, h2, h3⟩ := ih
    obtain ⟨e1, e2⟩ := step_size e
    exact ⟨n, h1, by rw [e1, h2], by rw [e2, h3]⟩

theorem leafInv_make_node (v : Int) : LeafInv (make_node v) :=
  ⟨rfl, rfl, rfl, rfl, rfl, rfl⟩

theorem built_leaves {a : List Int} {st : List Node} {p : Nat} {l r : Int}
    (h : Built a st p l r) : Leaves LeafInv st p l r := by
  induction h with
  | leaf p l hn => exact Leaves.leaf p l (by rw [hn]; exact leafInv_make_node _)
  | node p l r hlr _ _ _ ih1 ih2 => exact Leaves.node p l r hlr ih1 ih2

/-- A point query at the top level, in terms of `valN`. -/
theorem range_sum_point {n : Nat} (hn : 1 ≤ n) {st : List Node} (hl : st.length = 4 * n + 4)
    {i : Int} (hi0 : 0 ≤ i) (hi1 : i ≤ (n : Int) - 1) :
    ∃ st', range_sum ⟨n, st⟩ i i =
      .ok (valN (4 * n + 4) st (nd st 1) 1 0 ((n : Int) - 1) i, ⟨n, st'⟩) := by
  obtain ⟨st', e, -⟩ := range_sum_go_point i (shape_root hn) st.length st (by omega) hl
    (by omega) hi1
  refine ⟨st', ?_⟩
  unfold range_sum
  simp only []
  rw [e, hl]
  rfl

/-- In every state reached with clamp values that are not sentinels, the node
vector has its initial size and every leaf record stands for a single element. -/
theorem reachable_leaves {t : SegTreeBeats} (h : ReachableBy Op.clampOK t) :
    ∃ n : Nat, 1 ≤ n ∧ t.n = n ∧ t.st.length = 4 * n + 4 ∧
      Leaves LeafInv t.st 1 0 ((n : Int) - 1) := by
  induction h with
  | build a t ha e =>
    obtain ⟨st, e', hl, hb⟩ := build_spec ha
    rw [e'] at e
    cases e
    refine ⟨a.length, ?_, rfl, hl, built_leaves hb⟩
    cases a with
    | nil => exact absurd rfl ha
    | cons x xs => simp
  | step t op o t' _ hg _ e ih =>
    obtain ⟨n, h1, h2, h3, h4⟩ := ih
    obtain ⟨tn, st⟩ := t
    simp only at h2 h3 h4
    subst h2
    have hs := shape_root h1
    cases op with
    | add L R v =>
      obtain ⟨s, e1, l1, -, g1, -⟩ := range_add_go_spec LeafInv leafInv_pushChild
        leafInv_apply_add L R v hs st.length st (by omega) h3 h4
      simp only [step, range_add] at e
      rw [e1] at e
      cases e
      exact ⟨n, h1, rfl, l1, g1⟩
    | chmin L R x =>
      obtain ⟨s, e1, l1, -, g1⟩ := range_chmin_go_leaves L R x hg hs st.length st
        (by omega) h3 h4
      simp only [step, range_chmin] at e
      rw [e1] at e
      cases e
      exact ⟨n, h1, rfl, l1, g1⟩
    | chmax L R x =>
      obtain ⟨s, e1, l1, -, g1, -⟩ := range_chmax_go_spec L R x hg hs st.length st
        (by omega) h3 h4
      simp only [step, range_chmax] at e
      rw [e1] at e
      cases e
      exact ⟨n, h1, rfl, l1, g1⟩
    | sum L R =>
      obtain ⟨a, s, e1, l1, -, g1⟩ := range_sum_go_leaves LeafInv leafInv_pushChild L R hs
        st.length st (by omega) h3 h4
      simp only [step, range_sum] at e
      rw [e1] at e
      cases e
      exact ⟨n, h1, rfl, l1, g1⟩

theorem sumFrom_cons (x : Int) (xs : List Int) (l : Int) (hl : 0 ≤ l) (k : Nat) :
    sumFrom (x :: xs) (l + 1) k = sumFrom xs l k := by
  induction k generalizing l with
  | zero => rfl
  | succ k ih =>
    simp only [sumFrom]
    rw [ih (l + 1) (by omega), show (l + 1).toNat = l.toNat + 1 by omega]
    rfl

theorem sumFrom_all (a : List Int) : sumFrom a 0 a.length = a.sum := by
  induction a with
  | nil => rfl
  | cons x xs ih =>
    simp only [List.length_cons, sumFrom, List.sum_cons]
    rw [show (0 : Int) + 1 = 0 + 1 from rfl, sumFrom_cons x xs 0 (le_refl _), ih]
    rfl

/-! ## Lemmas for the later claims -/

theorem vrd_ok {α : Type} [Inhabited α] {st : List α} {p : Nat} (h : p < st.length) :
    vrd st p = .ok (vnd st p) := by
  simp [vrd, vnd, List.getD_eq_getElem?_getD, List.getElem?_eq_getElem h]

theorem vwr_ok {α : Type} {st : List α} {p : Nat} (h : p < st.length) (x : α) :
    vwr st p x = .ok (st.set p x) := by
  simp [vwr, h]

theorem vnd_set_self {α : Type} [Inhabited α] {st : List α} {p : Nat} (h : p < st.length)
    (x : α) : vnd (st.set p x) p = x := by
  simp [vnd, List.getD_eq_getElem?_getD, List.getElem?_set, h]

theorem vnd_set_ne {α : Type} [Inhabited α] (st : List α) {p i : Nat} (h : p ≠ i) (x : α) :
    vnd (st.set p x) i = vnd st i := by
  simp [vnd, List.getD_eq_getElem?_getD, List.getElem?_set, h]

@[simp] theorem length_vupd {α : Type} [Inhabited α] (st : List α) (i : Nat) (f : α → α) :
    (vupd st i f).length = st.length := by
  simp [vupd]

theorem vnd_vupd_self {α : Type} [Inhabited α] {st : List α} {i : Nat} (h : i < st.length)
    (f : α → α) : vnd (vupd st i f) i = f (vnd st i) := vnd_set_self h _

theorem vnd_vupd_ne {α : Type} [Inhabited α] (st : List α) {i j : Nat} (h : i ≠ j)
    (f : α → α) : vnd (vupd st i f) j = vnd st j := vnd_set_ne st h _

theorem vset_vnd_self {α : Type} [Inhabited α] {st : List α} {i : Nat} (h : i < st.length) :
    st.set i (vnd st i) = st := by
  apply List.ext_getElem?
  intro j
  simp only [List.getElem?_set, vnd, List.getD_eq_getElem?_getD, h, if_true]
  split
  · subst_vars; simp [List.getElem?_eq_getElem h]
  · rfl

theorem vupd_id {α : Type} [Inhabited α] {st : List α} {i : Nat} (h : i < st.length)
    (f : α → α) (hf : f (vnd st i) = vnd st i) : vupd st i f = st := by
  unfold vupd; rw [hf]; exact vset_vnd_self h

theorem sumF_add (f : Int → Int) (l : Int) (j k : Nat) :
    sumF f l (j + k) = sumF f l j + sumF f (l + j) k := by
  induction j generalizing l with
  | zero => simp [sumF]
  | succ j ih =>
    rw [show j + 1 + k = (j + k) + 1 by omega]
    simp only [sumF]
    rw [ih, show l + 1 + (j : Int) = l + ((j + 1 : Nat) : Int) by push_cast; omega]
    ring

theorem rsum_split (f : Int → Int) {A M B : Int} (h1 : A ≤ M + 1) (h2 : M ≤ B) :
    rsum f A B = rsum f A M + rsum f (M + 1) B := by
  unfold rsum
  rw [show (B - A + 1).toNat = (M - A + 1).toNat + (B - (M + 1) + 1).toNat by omega, sumF_add]
  congr 2
  omega

theorem rsum_empty (f : Int → Int) {A B : Int} (h : B < A) : rsum f A B = 0 := by
  unfold rsum
  rw [show (B - A + 1).toNat = 0 by omega]
  rfl

theorem rsum_single (f : Int → Int) (A : Int) : rsum f A A = f A := by
  unfold rsum
  rw [show (A - A + 1).toNat = 1 by omega]
  simp [sumF]

theorem sumF_congr {f g : Int → Int} : ∀ (k : Nat) (l : Int),
    (∀ i, l ≤ i → i < l + k → f i = g i) → sumF f l k = sumF g l k := by
  intro k
  induction k with
  | zero => intro l _; rfl
  | succ k ih =>
    intro l h
    simp only [sumF]
    rw [h l (le_refl _) (by push_cast; omega), ih (l + 1) fun i h1 h2 => h i (by omega)
      (by push_cast; omega)]

theorem rsum_congr {f g : Int → Int} {A B : Int} (h : ∀ i, A ≤ i → i ≤ B → f i = g i) :
    rsum f A B = rsum g A B := by
  unfold rsum
  exact sumF_congr _ _ fun i h1 h2 => h i h1 (by omega)

theorem sumFrom_eq_sumF (a : List Int) : ∀ (k : Nat) (l : Int),
    sumFrom a l k = sumF (elemAt a) l k := by
  intro k
  induction k with
  | zero => intro l; rfl
  | succ k ih => intro l; simp only [sumFrom, sumF, ih, elemAt]

theorem rangeSum_eq_rsum (a : List Int) (L R : Int) : rangeSum a L R = rsum (elemAt a) L R :=
  sumFrom_eq_sumF a _ _

theorem sumF_linear (f : Int → Int) (α β : Int) : ∀ (k : Nat) (l : Int),
    sumF (fun i => f i + α * i + β) l k = sumF f l k + α * sumF (fun i => i) l k + β * k := by
  intro k
  induction k with
  | zero => intro l; simp [sumF]
  | succ k ih =>
    intro l
    simp only [sumF, ih]
    push_cast
    ring

theorem two_sumF_id : ∀ (k : Nat) (l : Int),
    2 * sumF (fun i => i) l k = (2 * l + k - 1) * k := by
  intro k
  induction k with
  | zero => intro l; simp [sumF]
  | succ k ih =>
    intro l
    simp only [sumF]
    rw [mul_add, ih]
    push_cast
    ring

theorem sum_i_eq {l r : Int} (h : l ≤ r) : AP.sum_i l r = rsum (fun i => i) l r := by
  unfold AP.sum_i rsum
  simp only []
  have h2 := two_sumF_id (r - l + 1).toNat l
  rw [show (((r - l + 1).toNat : Nat) : Int) = r - l + 1 by omega] at h2
  rw [show (l + r) * (r - l + 1) = 2 * sumF (fun i => i) l (r - l + 1).toNat by rw [h2]; ring]
  exact Int.mul_tdiv_cancel_left _ (by decide)

theorem rsum_linear (f : Int → Int) (α β : Int) {l r : Int} (h : l ≤ r) :
    rsum (fun i => f i + α * i + β) l r =
      rsum f l r + (α * AP.sum_i l r + β * (r - l + 1)) := by
  rw [sum_i_eq h]
  unfold rsum
  rw [sumF_linear, show (((r - l + 1).toNat : Nat) : Int) = r - l + 1 by omega]
  ring

theorem build_go_empty (a : List Int) : ∀ (fuel : Nat) (st : List Node) (p : Nat),
    build_go fuel st p 0 (-1) a = .error .outOfFuel := by
  intro fuel
  induction fuel with
  | zero => intro st p; rfl
  | succ f ih =>
    intro st p
    unfold build_go
    rw [if_neg (by decide)]
    simp only []
    rw [show ((0 : Int) + -1) / 2 = -1 by decide, ih]
    rfl

theorem ap_rep_le {st : List AP.Node} {p : Nat} {l r : Int} {f : Int → Int}
    (h : AP.Rep st p l r f) : l ≤ r := by
  cases h with
  | leaf => exact le_refl _
  | node _ _ _ _ _ hlr => exact le_of_lt hlr

theorem ap_rep_congr {st : List AP.Node} {p : Nat} {l r : Int} {f : Int → Int}
    (h : AP.Rep st p l r f) {f' : Int → Int} (hf : ∀ i, l ≤ i → i ≤ r → f' i = f i) :
    AP.Rep st p l r f' := by
  cases h with
  | leaf _ _ _ hs => exact AP.Rep.leaf p l f' (by rw [hs, hf l (le_refl _) (le_refl _)])
  | node _ _ _ _ g hlr h1 h2 hg hs =>
    refine AP.Rep.node p l r f' g hlr h1 h2 (fun i a b => by rw [hf i a b, hg i a b]) ?_
    rw [hs]
    exact rsum_congr fun i a b => (hf i a b).symm

theorem ap_rep_frame {st st' : List AP.Node} {p : Nat} {l r : Int} {f : Int → Int}
    (h : AP.Rep st p l r f) (hf : ∀ i, Under p i → vnd st' i = vnd st i) :
    AP.Rep st' p l r f := by
  induction h with
  | leaf p l f hs => exact AP.Rep.leaf p l f (by rw [hf p (under_self p), hs])
  | node p l r f g hlr _ _ hg hs ih1 ih2 =>
    refine AP.Rep.node p l r f g hlr (ih1 fun i hi => hf i (under_left hi))
      (ih2 fun i hi => hf i (under_right hi)) ?_ ?_
    · rw [hf p (under_self p)]; exact hg
    · rw [hf p (under_self p)]; exact hs

theorem ap_rep_sum {st : List AP.Node} {p : Nat} {l r : Int} {f : Int → Int}
    (h : AP.Rep st p l r f) : (vnd st p).sum = rsum f l r := by
  cases h with
  | leaf _ _ _ hs => rw [rsum_single]; exact hs
  | node _ _ _ _ _ _ _ _ _ hs => exact hs

theorem ap_apply_ok {st : List AP.Node} {p : Nat} (h : p < st.length) (L R α β : Int) :
    AP.apply st p L R α β = .ok (vupd st p (AP.applyN L R α β)) := by
  simp [AP.apply, vrd_ok h, vwr_ok h, vupd, AP.applyN]

theorem ap_applyN_zero (L R : Int) (N : AP.Node) : AP.applyN L R 0 0 N = N := by
  cases N
  simp [AP.applyN]

theorem ap_push_eq {st : List AP.Node} {p : Nat} (L R : Int) (hp : 1 ≤ p)
    (hb : 2 * p + 1 < st.length) : AP.push st p L R = .ok (AP.pushed st p L R) := by
  have h0 : p < st.length := by omega
  have h1 : 2 * p < st.length := by omega
  unfold AP.push AP.pushed
  simp only [vrd_ok h0, bind_ok]
  by_cases hz : (vnd st p).add_i = 0 ∧ (vnd st p).add_c = 0
  · have hc : ∀ N : AP.Node, N.add_i = 0 → N.add_c = 0 →
        ({ N with add_i := 0, add_c := 0 } : AP.Node) = N := by
      intro N a b; cases N; simp_all
    rw [if_pos hz, hz.1, hz.2]
    rw [vupd_id h1 _ (ap_applyN_zero _ _ _), vupd_id hb _ (ap_applyN_zero _ _ _),
      vupd_id h0 _ (hc _ hz.1 hz.2)]
    rfl
  · rw [if_neg hz]
    rw [ap_apply_ok h1, bind_ok, ap_apply_ok (by simpa using hb), bind_ok,
      vrd_ok (by simpa using h0), bind_ok, vwr_ok (by simpa using h0)]
    rfl

theorem ap_pushed_length (st : List AP.Node) (p : Nat) (L R : Int) :
    (AP.pushed st p L R).length = st.length := by
  simp [AP.pushed]

theorem ap_pushed_self {st : List AP.Node} {p : Nat} (L R : Int) (hp : 1 ≤ p)
    (hb : 2 * p + 1 < st.length) :
    vnd (AP.pushed st p L R) p = { vnd st p with add_i := 0, add_c := 0 } := by
  unfold AP.pushed
  rw [vnd_vupd_self (by simp; omega), vnd_vupd_ne _ (by omega), vnd_vupd_ne _ (by omega)]

theorem ap_pushed_left {st : List AP.Node} {p : Nat} (L R : Int) (hp : 1 ≤ p)
    (hb : 2 * p + 1 < st.length) :
    vnd (AP.pushed st p L R) (2 * p) =
      AP.applyN L ((L + R) / 2) (vnd st p).add_i (vnd st p).add_c (vnd st (2 * p)) := by
  unfold AP.pushed
  rw [vnd_vupd_ne _ (by omega), vnd_vupd_ne _ (by omega), vnd_vupd_self (by omega)]

theorem ap_pushed_right {st : List AP.Node} {p : Nat} (L R : Int) (hp : 1 ≤ p)
    (hb : 2 * p + 1 < st.length) :
    vnd (AP.pushed st p L R) (2 * p + 1) =
      AP.applyN ((L + R) / 2 + 1) R (vnd st p).add_i (vnd st p).add_c (vnd st (2 * p + 1)) := by
  unfold AP.pushed
  rw [vnd_vupd_ne _ (by omega), vnd_vupd_self (by simp; omega), vnd_vupd_ne _ (by omega)]

theorem ap_pushed_other (st : List AP.Node) {p i : Nat} (L R : Int)
    (h0 : i ≠ p) (h1 : i ≠ 2 * p) (h2 : i ≠ 2 * p + 1) :
    vnd (AP.pushed st p L R) i = vnd st i := by
  unfold AP.pushed
  rw [vnd_vupd_ne _ (Ne.symm h0), vnd_vupd_ne _ (Ne.symm h2), vnd_vupd_ne _ (Ne.symm h1)]

/-- The effect of `apply` on what a subtree stands for. -/
theorem ap_rep_applyN {st st' : List AP.Node} {p : Nat} {l r : Int} {f : Int → Int}
    (h : AP.Rep st p l r f) (α β : Int)
    (h0 : vnd st' p = AP.applyN l r α β (vnd st p))
    (hf : ∀ i, Under (2 * p) i ∨ Under (2 * p + 1) i → vnd st' i = vnd st i) :
    AP.Rep st' p l r (fun i => f i + α * i + β) := by
  cases h with
  | leaf _ _ _ hs =>
    refine AP.Rep.leaf p l _ ?_
    rw [h0]
    simp only [AP.applyN]
    rw [sum_i_eq (le_refl l), rsum_single, hs]
    ring
  | node _ _ _ _ g hlr h1 h2 hg hs =>
    refine AP.Rep.node p l r _ g hlr (ap_rep_frame h1 fun i hi => hf i (Or.inl hi))
      (ap_rep_frame h2 fun i hi => hf i (Or.inr hi)) ?_ ?_
    · intro i a b
      rw [h0, hg i a b]
      simp only [AP.applyN]
      ring
    · rw [h0, rsum_linear f α β (le_of_lt hlr)]
      simp only [AP.applyN]
      rw [hs]

theorem ap_rep_pushed {st : List AP.Node} {p : Nat} {l r : Int} {f : Int → Int}
    (h : AP.Rep st p l r f) (hlr : l < r) (hp : 1 ≤ p) (hb : 2 * p + 1 < st.length) :
    AP.Rep (AP.pushed st p l r) (2 * p) l ((l + r) / 2) f ∧
    AP.Rep (AP.pushed st p l r) (2 * p + 1) ((l + r) / 2 + 1) r f := by
  cases h with
  | leaf => omega
  | node _ _ _ _ g _ h1 h2 hg hs =>
    constructor
    · refine ap_rep_congr (ap_rep_applyN h1 (vnd st p).add_i (vnd st p).add_c
        (ap_pushed_left l r hp hb) fun i hi => ?_) fun i a b => hg i a (by omega)
      have := under_child_ne hp (2 * p) (Or.inl rfl) hi
      exact ap_pushed_other st l r this.1 this.2.1 this.2.2
    · refine ap_rep_congr (ap_rep_applyN h2 (vnd st p).add_i (vnd st p).add_c
        (ap_pushed_right l r hp hb) fun i hi => ?_) fun i a b => hg i (by omega) b
      have := under_child_ne hp (2 * p + 1) (Or.inr rfl) hi
      exact ap_pushed_other st l r this.1 this.2.1 this.2.2

theorem ap_add_spec {N : Nat} {p : Nat} {l r : Int} (lq rq α β : Int) (hs : Shape N p l r) :
    ∀ (fuel : Nat) (st : List AP.Node) (f : Int → Int), r - l < fuel → st.length = N →
      AP.Rep st p l r f →
    ∃ st', AP.range_add_linear_go fuel st p l r lq rq α β = .ok st' ∧ st'.length = N ∧
      (∀ i, ¬ Under p i → vnd st' i = vnd st i) ∧
      AP.Rep st' p l r (fun i => if lq ≤ i ∧ i ≤ rq then f i + α * i + β else f i) := by
  induction hs with
  | leaf p l hp hN =>
    intro fuel st f hf hl hr
    obtain ⟨k, rfl⟩ : ∃ k, fuel = k + 1 := ⟨fuel - 1, by omega⟩
    unfold AP.range_add_linear_go
    by_cases h1 : rq < l ∨ l < lq
    · rw [if_pos h1]
      exact ⟨st, rfl, hl, fun _ _ => rfl, ap_rep_congr hr fun i a b => by
        rw [if_neg (by omega)]⟩
    · rw [if_neg h1, if_pos (by omega), ap_apply_ok (by omega)]
      refine ⟨_, rfl, by simpa using hl, fun i hi => vnd_vupd_ne st
        (by intro e; subst e; exact hi (under_self _)) _, ?_⟩
      refine ap_rep_congr (ap_rep_applyN hr α β (vnd_vupd_self (by omega) _) fun i hi => ?_)
        fun i a b => by rw [if_pos (by omega)]
      exact vnd_vupd_ne st (by rcases hi with hi | hi <;> have := under_ge hi <;> omega) _
  | node p l r hp hN hlr hs1 hs2 ih1 ih2 =>
    intro fuel st f hf hl hr
    obtain ⟨k, rfl⟩ : ∃ k, fuel = k + 1 := ⟨fuel - 1, by omega⟩
    unfold AP.range_add_linear_go
    by_cases h1 : rq < l ∨ r < lq
    · rw [if_pos h1]
      exact ⟨st, rfl, hl, fun _ _ => rfl, ap_rep_congr hr fun i a b => by
        rw [if_neg (by omega)]⟩
    · rw [if_neg h1]
      by_cases h2 : lq ≤ l ∧ r ≤ rq
      · rw [if_pos h2, ap_apply_ok (by omega)]
        refine ⟨_, rfl, by simpa using hl, fun i hi => vnd_vupd_ne st
          (by intro e; subst e; exact hi (under_self _)) _, ?_⟩
        refine ap_rep_congr (ap_rep_applyN hr α β (vnd_vupd_self (by omega) _) fun i hi => ?_)
          fun i a b => by rw [if_pos (by omega)]
        exact vnd_vupd_ne st (by rcases hi with hi | hi <;> have := under_ge hi <;> omega) _
      · rw [if_neg h2]
        have hb : 2 * p + 1 < st.length := by omega
        obtain ⟨r1, r2⟩ := ap_rep_pushed hr hlr hp hb
        rw [ap_push_eq l r hp hb, bind_ok]
        simp only []
        obtain ⟨s2, e2, l2, f2, q2⟩ := ih1 k (AP.pushed st p l r) f (by omega)
          (by rw [ap_pushed_length]; exact hl) r1
        have r2' : AP.Rep s2 (2 * p + 1) ((l + r) / 2 + 1) r f :=
          ap_rep_frame r2 fun i hi => f2 i fun h => under_disjoint hp h hi
        obtain ⟨s3, e3, l3, f3, q3⟩ := ih2 k s2 f (by omega) l2 r2'
        rw [e2, bind_ok, e3, bind_ok, vrd_ok (by omega), bind_ok, vrd_ok (by omega), bind_ok,
          vrd_ok (by omega), bind_ok, vwr_ok (by omega)]
        have hP : vnd s3 p = { vnd st p with add_i := 0, add_c := 0 } := by
          rw [f3 p (fun h => by have := under_ge h; omega),
            f2 p (fun h => by have := under_ge h; omega), ap_pushed_self l r hp hb]
        have q2' : AP.Rep s3 (2 * p) l ((l + r) / 2)
            (fun i => if lq ≤ i ∧ i ≤ rq then f i + α * i + β else f i) :=
          ap_rep_frame q2 fun i hi => f3 i fun h => under_disjoint hp hi h
        refine ⟨_, rfl, by simpa using l3, ?_, ?_⟩
        · intro i hi
          have h0 : i ≠ p := by intro e; subst e; exact hi (under_self _)
          have h1 : ¬ Under (2 * p) i := fun h => hi (under_left h)
          have h2 : ¬ Under (2 * p + 1) i := fun h => hi (under_right h)
          rw [vnd_set_ne _ (Ne.symm h0), f3 i h2, f2 i h1]
          exact ap_pushed_other st l r h0 (by intro e; subst e; exact h1 (under_self _))
            (by intro e; subst e; exact h2 (under_self _))
        · refine AP.Rep.node p l r _ _ hlr
            (ap_rep_frame q2' fun i hi => vnd_set_ne _ (by have := under_ge hi; omega) _)
            (ap_rep_frame q3 fun i hi => vnd_set_ne _ (by have := under_ge hi; omega) _) ?_ ?_
          · intro i a b
            rw [vnd_set_self (by omega), hP]
            simp
          · rw [vnd_set_self (by omega)]
            simp only []
            rw [ap_rep_sum q2', ap_rep_sum q3]
            exact (rsum_split _ (by omega) (by omega)).symm

theorem ap_sum_spec {N : Nat} {p : Nat} {l r : Int} (lq rq : Int) (hs : Shape N p l r) :
    ∀ (fuel : Nat) (st : List AP.Node) (f : Int → Int), r - l < fuel → st.length = N →
      AP.Rep st p l r f →
    ∃ st', AP.range_sum_go fuel st p l r lq rq = .ok (rsum f (max l lq) (min r rq), st') ∧
      st'.length = N ∧ (∀ i, ¬ Under p i → vnd st' i = vnd st i) ∧ AP.Rep st' p l r f := by
  induction hs with
  | leaf p l hp hN =>
    intro fuel st f hf hl hr
    obtain ⟨k, rfl⟩ : ∃ k, fuel = k + 1 := ⟨fuel - 1, by omega⟩
    unfold AP.range_sum_go
    by_cases h1 : rq < l ∨ l < lq
    · rw [if_pos h1, rsum_empty f (by omega)]
      exact ⟨st, rfl, hl, fun _ _ => rfl, hr⟩
    · rw [if_neg h1, if_pos (by omega), vrd_ok (by omega), bind_ok, pure_eq_ok, ap_rep_sum hr,
        show max l lq = l by omega, show min l rq = l by omega]
      exact ⟨st, rfl, hl, fun _ _ => rfl, hr⟩
  | node p l r hp hN hlr hs1 hs2 ih1 ih2 =>
    intro fuel st f hf hl hr
    obtain ⟨k, rfl⟩ : ∃ k, fuel = k + 1 := ⟨fuel - 1, by omega⟩
    unfold AP.range_sum_go
    by_cases h1 : rq < l ∨ r < lq
    · rw [if_pos h1, rsum_empty f (by omega)]
      exact ⟨st, rfl, hl, fun _ _ => rfl, hr⟩
    · rw [if_neg h1]
      by_cases h2 : lq ≤ l ∧ r ≤ rq
      · rw [if_pos h2, vrd_ok (by omega), bind_ok, pure_eq_ok, ap_rep_sum hr,
          show max l lq = l by omega, show min r rq = r by omega]
        exact ⟨st, rfl, hl, fun _ _ => rfl, hr⟩
      · rw [if_neg h2]
        have hb : 2 * p + 1 < st.length := by omega
        obtain ⟨r1, r2⟩ := ap_rep_pushed hr hlr hp hb
        rw [ap_push_eq l r hp hb, bind_ok]
        simp only []
        obtain ⟨s2, e2, l2, f2, q2⟩ := ih1 k (AP.pushed st p l r) f (by omega)
          (by rw [ap_pushed_length]; exact hl) r1
        have r2' : AP.Rep s2 (2 * p + 1) ((l + r) / 2 + 1) r f :=
          ap_rep_frame r2 fun i hi => f2 i fun h => under_disjoint hp h hi
        obtain ⟨s3, e3, l3, f3, q3⟩ := ih2 k s2 f (by omega) l2 r2'
        rw [e2, bind_ok]
        simp only []
        rw [e3, bind_ok]
        have hP : vnd s3 p = { vnd st p with add_i := 0, add_c := 0 } := by
          rw [f3 p (fun h => by have := under_ge h; omega),
            f2 p (fun h => by have := under_ge h; omega), ap_pushed_self l r hp hb]
        have q2' : AP.Rep s3 (2 * p) l ((l + r) / 2) f :=
          ap_rep_frame q2 fun i hi => f3 i fun h => under_disjoint hp hi h
        refine ⟨s3, ?_, l3, ?_, ?_⟩
        · simp only [pure_eq_ok]
          congr 2
          by_cases c1 : rq ≤ (l + r) / 2
          · rw [rsum_empty f (show min r rq < max ((l + r) / 2 + 1) lq by omega), add_zero,
              show min ((l + r) / 2) rq = min r rq by omega]
          · by_cases c2 : (l + r) / 2 < lq
            · rw [rsum_empty f (show min ((l + r) / 2) rq < max l lq by omega), zero_add,
                show max ((l + r) / 2 + 1) lq = max l lq by omega]
            · rw [rsum_split f (show max l lq ≤ (l + r) / 2 + 1 by omega)
                (show (l + r) / 2 ≤ min r rq by omega),
                show min ((l + r) / 2) rq = (l + r) / 2 by omega,
                show max ((l + r) / 2 + 1) lq = (l + r) / 2 + 1 by omega]
        · intro i hi
          have h0 : i ≠ p := by intro e; subst e; exact hi (under_self _)
          have h1 : ¬ Under (2 * p) i := fun h => hi (under_left h)
          have h2 : ¬ Under (2 * p + 1) i := fun h => hi (under_right h)
          rw [f3 i h2, f2 i h1]
          exact ap_pushed_other st l r h0 (by intro e; subst e; exact h1 (under_self _))
            (by intro e; subst e; exact h2 (under_self _))
        · refine AP.Rep.node p l r f f hlr q2' q3 ?_ ?_
          · intro i a b
            rw [hP]
            simp
          · rw [hP]
            exact ap_rep_sum hr

theorem ap_build_go_spec {N : Nat} {a : List Int} {p : Nat} {l r : Int} (hs : Shape N p l r) :
    ∀ (fuel : Nat) (st : List AP.Node), r - l < fuel → st.length = N → 0 ≤ l → r < a.length →
      (∀ i, Under p i → vnd st i = ⟨0, 0, 0⟩) →
    ∃ st', AP.build_go fuel st p l r a = .ok st' ∧ st'.length = N ∧
      (∀ i, ¬ Under p i → vnd st' i = vnd st i) ∧ AP.Rep st' p l r (elemAt a) := by
  induction hs with
  | leaf p l hp hN =>
    intro fuel st hf hl h0 h1 hz
    obtain ⟨k, rfl⟩ : ∃ k, fuel = k + 1 := ⟨fuel - 1, by omega⟩
    refine ⟨st.set p { vnd st p with sum := a.getD l.toNat 0 }, ?_, by simpa using hl, ?_, ?_⟩
    · simp only [AP.build_go, if_true, rdVal_ok h0 h1, bind_ok, vrd_ok (show p < st.length by omega)]
      exact vwr_ok (by omega) _
    · intro i hi
      exact vnd_set_ne st (by intro e; subst e; exact hi (under_self _)) _
    · exact AP.Rep.leaf p l _ (by rw [vnd_set_self (by omega)]; rfl)
  | node p l r hp hN hlr hs1 hs2 ih1 ih2 =>
    intro fuel st hf hl h0 h1 hz
    obtain ⟨k, rfl⟩ : ∃ k, fuel = k + 1 := ⟨fuel - 1, by omega⟩
    obtain ⟨s2, e2, l2, f2, q2⟩ := ih1 k st (by omega) hl h0 (by omega)
      fun i hi => hz i (under_left hi)
    obtain ⟨s3, e3, l3, f3, q3⟩ := ih2 k s2 (by omega) l2 (by omega) h1
      fun i hi => by rw [f2 i fun h => under_disjoint hp h hi]; exact hz i (under_right hi)
    have hP : vnd s3 p = ⟨0, 0, 0⟩ := by
      rw [f3 p (fun h => by have := under_ge h; omega),
        f2 p (fun h => by have := under_ge h; omega)]
      exact hz p (under_self p)
    have q2' : AP.Rep s3 (2 * p) l ((l + r) / 2) (elemAt a) :=
      ap_rep_frame q2 fun i hi => f3 i fun h => under_disjoint hp hi h
    refine ⟨s3.set p { vnd s3 p with sum := (vnd s3 (2 * p)).sum + (vnd s3 (2 * p + 1)).sum },
      ?_, by simpa using l3, ?_, ?_⟩
    · unfold AP.build_go
      rw [if_neg (ne_of_lt hlr)]
      simp only []
      rw [e2, bind_ok, e3, bind_ok, vrd_ok (by omega), bind_ok, vrd_ok (by omega), bind_ok,
        vrd_ok (by omega), bind_ok, vwr_ok (by omega)]
    · intro i hi
      have h0 : i ≠ p := by intro e; subst e; exact hi (under_self _)
      rw [vnd_set_ne _ (Ne.symm h0), f3 i (fun h => hi (under_right h)),
        f2 i (fun h => hi (under_left h))]
    · refine AP.Rep.node p l r _ _ hlr
        (ap_rep_frame q2' fun i hi => vnd_set_ne _ (by have := under_ge hi; omega) _)
        (ap_rep_frame q3 fun i hi => vnd_set_ne _ (by have := under_ge hi; omega) _) ?_ ?_
      · intro i a b
        rw [vnd_set_self (by omega), hP]
        simp
      · rw [vnd_set_self (by omega)]
        simp only []
        rw [ap_rep_sum q2', ap_rep_sum q3]
        exact (rsum_split _ (by omega) (by omega)).symm

theorem length_naiveAddAP (l r v d : Int) : ∀ (a : List Int) (s : Int),
    (naiveAddAP l r v d s a).length = a.length := by
  intro a
  induction a with
  | nil => intro s; rfl
  | cons x xs ih => intro s; simp [naiveAddAP, ih]

theorem getD_naiveAddAP (l r v d : Int) : ∀ (a : List Int) (s : Int) (j : Nat), j < a.length →
    (naiveAddAP l r v d s a).getD j 0 =
      if l ≤ s + j ∧ s + j ≤ r then a.getD j 0 + (v + d * (s + j - l)) else a.getD j 0 := by
  intro a
  induction a with
  | nil => intro s j h; simp at h
  | cons x xs ih =>
    intro s j h
    cases j with
    | zero => simp [naiveAddAP]
    | succ j =>
      simp only [naiveAddAP, List.getD_cons_succ]
      rw [ih (s + 1) j (by simpa using h)]
      push_cast
      rw [show s + 1 + (j : Int) = s + (j + 1) by ring]

theorem elemAt_naiveAddAP (l r v d : Int) (a : List Int) (i : Int) (h0 : 0 ≤ i)
    (h1 : i < a.length) :
    elemAt (naiveAddAP l r v d 0 a) i =
      if l ≤ i ∧ i ≤ r then elemAt a i + (v + d * (i - l)) else elemAt a i := by
  unfold elemAt
  rw [getD_naiveAddAP l r v d a 0 i.toNat (by omega)]
  rw [show (0 : Int) + (i.toNat : Int) = i by omega]

theorem ap_init_length (n : Nat) : (AP.init (n : Int)).st.length = 4 * n + 4 := by
  simp only [AP.init, List.length_replicate]
  omega

theorem ap_init_nd (n : Int) (i : Nat) : vnd (AP.init n).st i = ⟨0, 0, 0⟩ := by
  simp only [AP.init, vnd, List.getD_eq_getElem?_getD, List.getElem?_replicate]
  split <;> rfl

theorem ap_build_spec {a : List Int} (ha : a ≠ []) :
    ∃ st, AP.build a = .ok ⟨a.length, st⟩ ∧ st.length = 4 * a.length + 4 ∧
      AP.Rep st 1 0 ((a.length : Int) - 1) (elemAt a) := by
  have hn : 1 ≤ a.length := by
    cases a with
    | nil => exact absurd rfl ha
    | cons x xs => simp
  obtain ⟨st, e, hl, -, hb⟩ := ap_build_go_spec (a := a) (shape_root hn)
    (AP.init (a.length : Int)).st.length (AP.init (a.length : Int)).st
    (by rw [ap_init_length]; omega) (ap_init_length _) (le_refl _) (by omega)
    (fun i _ => ap_init_nd _ i)
  refine ⟨st, ?_, hl, hb⟩
  unfold AP.build
  simp only []
  rw [show (AP.init (a.length : Int)).n = a.length from rfl, e]
  rfl

theorem ap_linear_spec {n : Nat} (hn : 1 ≤ n) {st : List AP.Node} {A : List Int}
    (hl : st.length = 4 * n + 4) (hA : A.length = n)
    (hr : AP.Rep st 1 0 ((n : Int) - 1) (elemAt A)) (l r v d : Int) :
    ∃ st', AP.range_add_linear ⟨n, st⟩ l r d (v - d * l) = .ok ⟨n, st'⟩ ∧
      st'.length = 4 * n + 4 ∧
      AP.Rep st' 1 0 ((n : Int) - 1) (elemAt (naiveAddAP l r v d 0 A)) := by
  obtain ⟨s, e, l2, -, q⟩ := ap_add_spec l r d (v - d * l) (shape_root hn) st.length st _
    (by omega) hl hr
  refine ⟨s, ?_, l2, ap_rep_congr q fun i a b => ?_⟩
  · unfold AP.range_add_linear
    simp only []
    rw [e]
    rfl
  · rw [elemAt_naiveAddAP l r v d A i a (by omega)]
    split
    · ring
    · rfl

theorem ap_range_sum_spec {n : Nat} (hn : 1 ≤ n) {st : List AP.Node} {A : List Int}
    (hl : st.length = 4 * n + 4)
    (hr : AP.Rep st 1 0 ((n : Int) - 1) (elemAt A)) (l r : Int)
    (h0 : 0 ≤ l) (h2 : r ≤ (n : Int) - 1) :
    ∃ st', AP.range_sum ⟨n, st⟩ l r = .ok (rangeSum A l r, ⟨n, st'⟩) ∧
      st'.length = 4 * n + 4 ∧ AP.Rep st' 1 0 ((n : Int) - 1) (elemAt A) := by
  obtain ⟨s, e, l2, -, q⟩ := ap_sum_spec l r (shape_root hn) st.length st _ (by omega) hl hr
  refine ⟨s, ?_, l2, q⟩
  unfold AP.range_sum
  simp only []
  rw [e, rangeSum_eq_rsum, show max 0 l = l by omega, show min ((n : Int) - 1) r = r by omega]
  rfl

theorem ap_run_spec {n : Nat} (hn : 1 ≤ n) : ∀ (ops : List AP.Op) (st : List AP.Node)
    (A : List Int), st.length = 4 * n + 4 → A.length = n →
    AP.Rep st 1 0 ((n : Int) - 1) (elemAt A) → (∀ op ∈ ops, op.inRange n) →
    ∃ t', AP.run ⟨n, st⟩ ops = .ok ((AP.naiveRun A ops).1, t') := by
  intro ops
  induction ops with
  | nil => intro st A _ _ _ _; exact ⟨_, rfl⟩
  | cons op ops ih =>
    intro st A hl hA hr hops
    have hop := hops op (List.mem_cons_self _ _)
    have hrest : ∀ o ∈ ops, o.inRange n := fun o ho => hops o (List.mem_cons_of_mem _ ho)
    cases op with
    | add_ap l r v =>
      obtain ⟨s, e, l2, q⟩ := ap_linear_spec hn hl hA hr l r v 1
      obtain ⟨t', e'⟩ := ih s (naiveAddAP l r v 1 0 A) l2
        (by rw [length_naiveAddAP]; exact hA) q hrest
      refine ⟨t', ?_⟩
      rw [one_mul] at e
      simp only [AP.run, AP.step, AP.range_add_ap, e, bind_ok, pure_eq_ok, e', AP.naiveRun,
        AP.naiveStep, Option.toList, List.nil_append]
    | add_ap_step l r v d =>
      obtain ⟨s, e, l2, q⟩ := ap_linear_spec hn hl hA hr l r v d
      obtain ⟨t', e'⟩ := ih s (naiveAddAP l r v d 0 A) l2
        (by rw [length_naiveAddAP]; exact hA) q hrest
      refine ⟨t', ?_⟩
      simp only [AP.run, AP.step, AP.range_add_ap_step, e, bind_ok, pure_eq_ok, e', AP.naiveRun,
        AP.naiveStep, Option.toList, List.nil_append]
    | sum l r =>
      obtain ⟨s, e, l2, q⟩ := ap_range_sum_spec hn hl hr l r hop.1 hop.2.2
      obtain ⟨t', e'⟩ := ih s A l2 hA q hrest
      refine ⟨t', ?_⟩
      simp only [AP.run, AP.step, e, bind_ok, pure_eq_ok, e', AP.naiveRun,
        AP.naiveStep, Option.toList, List.singleton_append]

theorem cs_capN_max1 (x : Int) (N : ChminSum.Node) :
    (ChminSum.capN x N).max1 = min N.max1 x := by
  unfold ChminSum.capN
  split
  · omega
  · simp only []; omega

theorem cs_capN_smax2 (x : Int) (N : ChminSum.Node) : (ChminSum.capN x N).smax2 = N.smax2 := by
  unfold ChminSum.capN
  split <;> rfl

theorem cs_capN_cnt (x : Int) (N : ChminSum.Node) :
    (ChminSum.capN x N).cnt_max = N.cnt_max := by
  unfold ChminSum.capN
  split <;> rfl

theorem cs_capN_sum (x : Int) (N : ChminSum.Node) :
    (ChminSum.capN x N).sum = N.sum - (N.max1 - min N.max1 x) * N.cnt_max := by
  unfold ChminSum.capN
  split
  · rename_i h
    rw [show min N.max1 x = N.max1 by omega]
    ring
  · rename_i h
    simp only []
    rw [show min N.max1 x = x by omega]

theorem cs_capN_id {x : Int} {N : ChminSum.Node} (h : ¬ N.max1 > x) : ChminSum.capN x N = N := by
  unfold ChminSum.capN
  rw [if_pos (by omega)]

theorem cs_apply_chmin_ok {st : List ChminSum.Node} {p : Nat} (h : p < st.length) (x : Int) :
    ChminSum.apply_chmin st p x = .ok (vupd st p (ChminSum.capN x)) := by
  unfold ChminSum.apply_chmin
  rw [vrd_ok h, bind_ok]
  simp only []
  by_cases hx : x ≥ (vnd st p).max1
  · rw [if_pos hx, vupd_id h _ (cs_capN_id (by omega))]
    rfl
  · rw [if_neg hx, vwr_ok h]
    simp only [vupd, ChminSum.capN, if_neg hx]

theorem cs_cond_ok {st : List ChminSum.Node} {c : Nat} (h : c < st.length) (cap : Int) :
    (if (vnd st c).max1 > cap then ChminSum.apply_chmin st c cap
      else (pure st : Res (List ChminSum.Node))) = .ok (vupd st c (ChminSum.capN cap)) := by
  split
  · exact cs_apply_chmin_ok h cap
  · rename_i hc
    rw [vupd_id h _ (cs_capN_id hc)]
    rfl

theorem cs_push_eq {st : List ChminSum.Node} {p : Nat} (hp : 1 ≤ p)
    (hb : 2 * p + 1 < st.length) : ChminSum.push st p = .ok (ChminSum.pushed st p) := by
  have h0 : p < st.length := by omega
  have h1 : 2 * p < st.length := by omega
  unfold ChminSum.push ChminSum.pushed
  simp only []
  rw [vrd_ok h0, bind_ok, vrd_ok h1, bind_ok, cs_cond_ok h1, bind_ok,
    vrd_ok (by simpa using hb), bind_ok, cs_cond_ok (by simpa using hb), bind_ok]
  rfl

theorem cs_pushed_length (st : List ChminSum.Node) (p : Nat) :
    (ChminSum.pushed st p).length = st.length := by
  simp [ChminSum.pushed]

theorem cs_pushed_left {st : List ChminSum.Node} {p : Nat}
    (hb : 2 * p + 1 < st.length) :
    vnd (ChminSum.pushed st p) (2 * p) = ChminSum.capN (vnd st p).max1 (vnd st (2 * p)) := by
  unfold ChminSum.pushed
  rw [vnd_vupd_ne _ (by omega), vnd_vupd_self (by omega)]

theorem cs_pushed_right {st : List ChminSum.Node} {p : Nat}
    (hb : 2 * p + 1 < st.length) :
    vnd (ChminSum.pushed st p) (2 * p + 1) =
      ChminSum.capN (vnd st p).max1 (vnd st (2 * p + 1)) := by
  unfold ChminSum.pushed
  rw [vnd_vupd_self (by simp; omega), vnd_vupd_ne _ (by omega)]

theorem cs_pushed_other (st : List ChminSum.Node) {p i : Nat}
    (h1 : i ≠ 2 * p) (h2 : i ≠ 2 * p + 1) : vnd (ChminSum.pushed st p) i = vnd st i := by
  unfold ChminSum.pushed
  rw [vnd_vupd_ne _ (Ne.symm h2), vnd_vupd_ne _ (Ne.symm h1)]

theorem cs_rep_le {st : List ChminSum.Node} {p : Nat} {l r : Int} {f : Int → Int}
    (h : ChminSum.Rep st p l r f) : l ≤ r := by
  cases h with
  | leaf => exact le_refl _
  | node _ _ _ _ _ hlr => exact le_of_lt hlr

theorem cs_good_congr {N : ChminSum.Node} {f f' : Int → Int} {l r : Int}
    (h : ChminSum.Good N f l r) (hf : ∀ i, l ≤ i → i ≤ r → f' i = f i) :
    ChminSum.Good N f' l r := by
  refine ⟨h.1, fun i a b => by rw [hf i a b]; exact h.2.1 i a b, fun x h1 h2 => ?_⟩
  rw [← h.2.2 x h1 h2]
  exact rsum_congr fun i a b => by simp only [hf i a b]

theorem cs_rep_congr {st : List ChminSum.Node} {p : Nat} {l r : Int} {f : Int → Int}
    (h : ChminSum.Rep st p l r f) {f' : Int → Int} (hf : ∀ i, l ≤ i → i ≤ r → f' i = f i) :
    ChminSum.Rep st p l r f' := by
  cases h with
  | leaf _ _ _ hq hs => exact ChminSum.Rep.leaf p l f' hq (by rw [hf l (le_refl _) (le_refl _), hs])
  | node _ _ _ _ g hlr h1 h2 hg hgood k1 k2 =>
    exact ChminSum.Rep.node p l r f' g hlr h1 h2 (fun i a b => by rw [hf i a b, hg i a b])
      (cs_good_congr hgood hf) k1 k2

theorem cs_rep_frame {st st' : List ChminSum.Node} {p : Nat} {l r : Int} {f : Int → Int}
    (h : ChminSum.Rep st p l r f) (hf : ∀ i, Under p i → vnd st' i = vnd st i) :
    ChminSum.Rep st' p l r f := by
  induction h with
  | leaf p l f hq hs =>
    exact ChminSum.Rep.leaf p l f (by rw [hf p (under_self p)]; exact hq)
      (by rw [hf p (under_self p)]; exact hs)
  | node p l r f g hlr _ _ hg hgood k1 k2 ih1 ih2 =>
    refine ChminSum.Rep.node p l r f g hlr (ih1 fun i hi => hf i (under_left hi))
      (ih2 fun i hi => hf i (under_right hi)) ?_ ?_ ?_ ?_
    · rw [hf p (under_self p)]; exact hg
    · rw [hf p (under_self p)]; exact hgood
    · rw [hf p (under_self p), hf _ (under_left (under_self _))]; exact k1
    · rw [hf p (under_self p), hf _ (under_right (under_self _))]; exact k2

theorem cs_rep_good {st : List ChminSum.Node} {p : Nat} {l r : Int} {f : Int → Int}
    (h : ChminSum.Rep st p l r f) : ChminSum.Good (vnd st p) f l r := by
  cases h with
  | leaf _ _ _ hq hs =>
    obtain ⟨q1, q2, q3, q4⟩ := hq
    refine ⟨by omega, fun i a b => ?_, fun x h1 h2 => ?_⟩
    · rw [show i = l by omega, hs]
    · rw [rsum_single, hs, q1, q2, show min (vnd st p).max1 x = x by omega]
      ring
  | node _ _ _ _ _ _ _ _ _ hgood _ _ => exact hgood

theorem cs_good_sum {N : ChminSum.Node} {f : Int → Int} {l r : Int}
    (h : ChminSum.Good N f l r) {x : Int} (hx : N.max1 ≤ x) :
    rsum (fun i => min (f i) x) l r = N.sum := by
  have h1 := h.2.2 N.max1 h.1 (le_refl _)
  rw [sub_self, zero_mul, sub_zero] at h1
  rw [← h1]
  exact rsum_congr fun i a b => by
    have := h.2.1 i a b
    show min (f i) x = min (f i) N.max1
    omega

theorem cs_rep_sum {st : List ChminSum.Node} {p : Nat} {l r : Int} {f : Int → Int}
    (h : ChminSum.Rep st p l r f) : (vnd st p).sum = rsum f l r := by
  have hg := cs_rep_good h
  rw [← cs_good_sum hg (le_refl _)]
  exact rsum_congr fun i a b => by
    have := hg.2.1 i a b
    show min (f i) (vnd st p).max1 = f i
    omega

/-- The effect of `apply_chmin` with a cap not below `smax2` on what a subtree stands for. -/
theorem cs_rep_capN {st st' : List ChminSum.Node} {p : Nat} {l r : Int} {f : Int → Int}
    (h : ChminSum.Rep st p l r f) (x : Int) (hx : (vnd st p).smax2 ≤ x)
    (h0 : vnd st' p = ChminSum.capN x (vnd st p))
    (hf : ∀ i, Under (2 * p) i ∨ Under (2 * p + 1) i → vnd st' i = vnd st i) :
    ChminSum.Rep st' p l r (fun i => min (f i) x) := by
  have m1 := cs_capN_max1 x (vnd st p)
  have m2 := cs_capN_smax2 x (vnd st p)
  have m3 := cs_capN_cnt x (vnd st p)
  have m4 := cs_capN_sum x (vnd st p)
  rw [← h0] at m1 m2 m3 m4
  cases h with
  | leaf _ _ _ hq hs =>
    obtain ⟨q1, q2, q3, q4⟩ := hq
    refine ChminSum.Rep.leaf p l _ ⟨?_, by rw [m3, q2], by rw [m2, q3], ?_⟩ ?_
    · rw [m4, m1, q1, q2]; ring
    · rw [m1]; omega
    · simp only [hs, m1]
  | node _ _ _ _ g hlr h1 h2 hg hgood k1 k2 =>
    refine ChminSum.Rep.node p l r _ g hlr (cs_rep_frame h1 fun i hi => hf i (Or.inl hi))
      (cs_rep_frame h2 fun i hi => hf i (Or.inr hi)) ?_ ?_ ?_ ?_
    · intro i a b
      simp only [hg i a b, m1]
      omega
    · refine ⟨by rw [m1, m2]; have := hgood.1; omega, fun i a b => ?_, fun y y1 y2 => ?_⟩
      · have := hgood.2.1 i a b
        simp only [m1]
        omega
      · rw [m1] at y2
        rw [m2] at y1
        have e := hgood.2.2 y y1 (by omega)
        rw [m4, m3, m1]
        rw [show rsum (fun i => min (min (f i) x) y) l r = rsum (fun i => min (f i) y) l r from
          rsum_congr fun i a b => by
            show min (min (f i) x) y = min (f i) y
            omega]
        rw [e]
        have hm : min (vnd st p).max1 x = (vnd st p).max1 ∨ min (vnd st p).max1 x = x := by omega
        rcases hm with hm | hm <;> rw [hm] <;> ring
    · rw [m2, hf _ (Or.inl (under_self _))]; exact k1
    · rw [m2, hf _ (Or.inr (under_self _))]; exact k2

theorem cs_rep_pushed {st : List ChminSum.Node} {p : Nat} {l r : Int} {f : Int → Int}
    (h : ChminSum.Rep st p l r f) (hlr : l < r) (hp : 1 ≤ p) (hb : 2 * p + 1 < st.length) :
    ChminSum.Rep (ChminSum.pushed st p) (2 * p) l ((l + r) / 2) f ∧
    ChminSum.Rep (ChminSum.pushed st p) (2 * p + 1) ((l + r) / 2 + 1) r f := by
  cases h with
  | leaf => omega
  | node _ _ _ _ g _ h1 h2 hg hgood k1 k2 =>
    have hs := hgood.1
    constructor
    · refine cs_rep_congr (cs_rep_capN h1 (vnd st p).max1 (by omega)
        (cs_pushed_left hb) fun i hi => ?_) fun i a b => hg i a (by omega)
      have := under_child_ne hp (2 * p) (Or.inl rfl) hi
      exact cs_pushed_other st this.2.1 this.2.2
    · refine cs_rep_congr (cs_rep_capN h2 (vnd st p).max1 (by omega)
        (cs_pushed_right hb) fun i hi => ?_) fun i a b => hg i (by omega) b
      have := under_child_ne hp (2 * p + 1) (Or.inr rfl) hi
      exact cs_pushed_other st this.2.1 this.2.2

theorem cs_good_merge {A B : ChminSum.Node} {f : Int → Int} {l m r : Int}
    (hA : ChminSum.Good A f l m) (hB : ChminSum.Good B f (m + 1) r) (h1 : l ≤ m) (h2 : m < r) :
    ChminSum.Good (ChminSum.merge A B) f l r ∧ A.smax2 ≤ (ChminSum.merge A B).smax2 ∧
      B.smax2 ≤ (ChminSum.merge A B).smax2 ∧ A.max1 ≤ (ChminSum.merge A B).max1 ∧
      B.max1 ≤ (ChminSum.merge A B).max1 := by
  obtain ⟨a1, a2, a3⟩ := hA
  obtain ⟨b1, b2, b3⟩ := hB
  have hA : ∀ x, A.max1 ≤ x → rsum (fun i => min (f i) x) l m = A.sum :=
    fun x hx => cs_good_sum ⟨a1, a2, a3⟩ hx
  have hB : ∀ x, B.max1 ≤ x → rsum (fun i => min (f i) x) (m + 1) r = B.sum :=
    fun x hx => cs_good_sum ⟨b1, b2, b3⟩ hx
  have hb : ∀ (M : Int), A.max1 ≤ M → B.max1 ≤ M → ∀ i, l ≤ i → i ≤ r → f i ≤ M := by
    intro M hm1 hm2 i a b
    by_cases c : i ≤ m
    · exact le_trans (a2 i a c) hm1
    · exact le_trans (b2 i (by omega) b) hm2
  unfold ChminSum.merge
  split_ifs with c1 c2
  · refine ⟨⟨?_, hb _ (le_refl _) (by simp only []; omega), fun x x1 x2 => ?_⟩, ?_, ?_, ?_, ?_⟩
      <;> simp only [] at *
    · omega
    · rw [rsum_split _ (show l ≤ m + 1 by omega) (le_of_lt h2), a3 x (by omega) x2,
        hB x (by omega)]
      ring
    · omega
    · omega
    · omega
    · omega
  · refine ⟨⟨?_, hb _ (by simp only []; omega) (le_refl _), fun x x1 x2 => ?_⟩, ?_, ?_, ?_, ?_⟩
      <;> simp only [] at *
    · omega
    · rw [rsum_split _ (show l ≤ m + 1 by omega) (le_of_lt h2), b3 x (by omega) x2,
        hA x (by omega)]
      ring
    · omega
    · omega
    · omega
    · omega
  · have e : A.max1 = B.max1 := by omega
    refine ⟨⟨?_, hb _ (le_refl _) (by simp only []; omega), fun x x1 x2 => ?_⟩, ?_, ?_, ?_, ?_⟩
      <;> simp only [] at *
    · omega
    · rw [rsum_split _ (show l ≤ m + 1 by omega) (le_of_lt h2), a3 x (by omega) x2,
        b3 x (by omega) (by omega), e]
      ring
    · omega
    · omega
    · omega
    · omega

/-- Re-merging a node whose two children stand for `f`. -/
theorem cs_rep_merge {s : List ChminSum.Node} {p : Nat} {l r : Int} {f : Int → Int}
    (hp : 1 ≤ p) (hb : 2 * p + 1 < s.length) (hlr : l < r)
    (h1 : ChminSum.Rep s (2 * p) l ((l + r) / 2) f)
    (h2 : ChminSum.Rep s (2 * p + 1) ((l + r) / 2 + 1) r f) :
    ChminSum.Rep (s.set p (ChminSum.merge (vnd s (2 * p)) (vnd s (2 * p + 1)))) p l r f := by
  obtain ⟨g1, g2, g3, g4, g5⟩ := cs_good_merge (cs_rep_good h1) (cs_rep_good h2)
    (show l ≤ (l + r) / 2 by omega) (show (l + r) / 2 < r by omega)
  have e0 : vnd (s.set p (ChminSum.merge (vnd s (2 * p)) (vnd s (2 * p + 1)))) p =
      ChminSum.merge (vnd s (2 * p)) (vnd s (2 * p + 1)) := vnd_set_self (by omega) _
  refine ChminSum.Rep.node p l r f f hlr
    (cs_rep_frame h1 fun i hi => vnd_set_ne _ (by have := under_ge hi; omega) _)
    (cs_rep_frame h2 fun i hi => vnd_set_ne _ (by have := under_ge hi; omega) _) ?_ ?_ ?_ ?_
  · intro i a b
    rw [e0]
    have := g1.2.1 i a b
    omega
  · rw [e0]; exact g1
  · rw [e0, vnd_set_ne _ (by omega)]; exact g2
  · rw [e0, vnd_set_ne _ (by omega)]; exact g3

theorem cs_chmin_spec {N : Nat} {p : Nat} {l r : Int} (L R x : Int) (hx : LLONG_MIN < x)
    (hs : Shape N p l r) :
    ∀ (fuel : Nat) (st : List ChminSum.Node) (f : Int → Int), r - l < fuel → st.length = N →
      ChminSum.Rep st p l r f →
    ∃ st', ChminSum.range_chmin_go fuel st p l r L R x = .ok st' ∧ st'.length = N ∧
      (∀ i, ¬ Under p i → vnd st' i = vnd st i) ∧
      ChminSum.Rep st' p l r (fun i => if L ≤ i ∧ i ≤ R then min (f i) x else f i) := by
  induction hs with
  | leaf p l hp hN =>
    intro fuel st f hf hl hr
    obtain ⟨k, rfl⟩ : ∃ k, fuel = k + 1 := ⟨fuel - 1, by omega⟩
    have hg := cs_rep_good hr
    unfold ChminSum.range_chmin_go
    by_cases h1 : R < l ∨ l < L
    · rw [if_pos h1]
      exact ⟨st, rfl, hl, fun _ _ => rfl, cs_rep_congr hr fun i a b => by
        rw [if_neg (by omega)]⟩
    · rw [if_neg h1, vrd_ok (by omega), bind_ok]
      by_cases h2 : x ≥ (vnd st p).max1
      · rw [if_pos h2]
        refine ⟨st, rfl, hl, fun _ _ => rfl, cs_rep_congr hr fun i a b => ?_⟩
        have := hg.2.1 i a b
        split <;> omega
      · rw [if_neg h2]
        have hsm : (vnd st p).smax2 = LLONG_MIN := by
          cases hr with
          | leaf _ _ _ hq _ => exact hq.2.2.1
          | node _ _ _ _ _ hlr => omega
        rw [if_pos ⟨by omega, by omega, by omega⟩, cs_apply_chmin_ok (by omega)]
        refine ⟨_, rfl, by simpa using hl, fun i hi => vnd_vupd_ne st
          (by intro e; subst e; exact hi (under_self _)) _, ?_⟩
        refine cs_rep_congr (cs_rep_capN hr x (by omega) (vnd_vupd_self (by omega) _)
          fun i hi => ?_) fun i a b => by rw [if_pos (by omega)]
        exact vnd_vupd_ne st (by rcases hi with hi | hi <;> have := under_ge hi <;> omega) _
  | node p l r hp hN hlr hs1 hs2 ih1 ih2 =>
    intro fuel st f hf hl hr
    obtain ⟨k, rfl⟩ : ∃ k, fuel = k + 1 := ⟨fuel - 1, by omega⟩
    have hg := cs_rep_good hr
    unfold ChminSum.range_chmin_go
    by_cases h1 : R < l ∨ r < L
    · rw [if_pos h1]
      exact ⟨st, rfl, hl, fun _ _ => rfl, cs_rep_congr hr fun i a b => by
        rw [if_neg (by omega)]⟩
    · rw [if_neg h1, vrd_ok (by omega), bind_ok]
      by_cases h2 : x ≥ (vnd st p).max1
      · rw [if_pos h2]
        refine ⟨st, rfl, hl, fun _ _ => rfl, cs_rep_congr hr fun i a b => ?_⟩
        have := hg.2.1 i a b
        split <;> omega
      · rw [if_neg h2]
        by_cases h3 : L ≤ l ∧ r ≤ R ∧ x > (vnd st p).smax2
        · rw [if_pos h3, cs_apply_chmin_ok (by omega)]
          refine ⟨_, rfl, by simpa using hl, fun i hi => vnd_vupd_ne st
            (by intro e; subst e; exact hi (under_self _)) _, ?_⟩
          refine cs_rep_congr (cs_rep_capN hr x (by omega) (vnd_vupd_self (by omega) _)
            fun i hi => ?_) fun i a b => by rw [if_pos (by omega)]
          exact vnd_vupd_ne st (by rcases hi with hi | hi <;> have := under_ge hi <;> omega) _
        · rw [if_neg h3]
          have hb : 2 * p + 1 < st.length := by omega
          obtain ⟨r1, r2⟩ := cs_rep_pushed hr hlr hp hb
          simp only []
          rw [cs_push_eq hp hb, bind_ok]
          obtain ⟨s2, e2, l2, f2, q2⟩ := ih1 k (ChminSum.pushed st p) f (by omega)
            (by rw [cs_pushed_length]; exact hl) r1
          have r2' : ChminSum.Rep s2 (2 * p + 1) ((l + r) / 2 + 1) r f :=
            cs_rep_frame r2 fun i hi => f2 i fun h => under_disjoint hp h hi
          obtain ⟨s3, e3, l3, f3, q3⟩ := ih2 k s2 f (by omega) l2 r2'
          rw [e2, bind_ok, e3, bind_ok, vrd_ok (by omega), bind_ok, vrd_ok (by omega), bind_ok,
            vwr_ok (by omega)]
          have q2' : ChminSum.Rep s3 (2 * p) l ((l + r) / 2)
              (fun i => if L ≤ i ∧ i ≤ R then min (f i) x else f i) :=
            cs_rep_frame q2 fun i hi => f3 i fun h => under_disjoint hp hi h
          refine ⟨_, rfl, by simpa using l3, ?_, cs_rep_merge hp (by omega) hlr q2' q3⟩
          intro i hi
          have h0 : i ≠ p := by intro e; subst e; exact hi (under_self _)
          have h1 : ¬ Under (2 * p) i := fun h => hi (under_left h)
          have h2 : ¬ Under (2 * p + 1) i := fun h => hi (under_right h)
          rw [vnd_set_ne _ (Ne.symm h0), f3 i h2, f2 i h1]
          exact cs_pushed_other st (by intro e; subst e; exact h1 (under_self _))
            (by intro e; subst e; exact h2 (under_self _))

theorem cs_rep_links {st : List ChminSum.Node} {p : Nat} {l r : Int} {f : Int → Int}
    (h : ChminSum.Rep st p l r f) (hlr : l < r) :
    (vnd st (2 * p)).smax2 ≤ (vnd st p).smax2 ∧
      (vnd st (2 * p + 1)).smax2 ≤ (vnd st p).smax2 := by
  cases h with
  | leaf => omega
  | node _ _ _ _ _ _ _ _ _ _ k1 k2 => exact ⟨k1, k2⟩

theorem cs_sum_spec {N : Nat} {p : Nat} {l r : Int} (L R : Int) (hs : Shape N p l r) :
    ∀ (fuel : Nat) (st : List ChminSum.Node) (f : Int → Int), r - l < fuel → st.length = N →
      ChminSum.Rep st p l r f →
    ∃ st', ChminSum.range_sum_go fuel st p l r L R = .ok (rsum f (max l L) (min r R), st') ∧
      st'.length = N ∧ (∀ i, ¬ Under p i → vnd st' i = vnd st i) ∧
      ChminSum.Rep st' p l r f ∧ vnd st' p = vnd st p := by
  induction hs with
  | leaf p l hp hN =>
    intro fuel st f hf hl hr
    obtain ⟨k, rfl⟩ : ∃ k, fuel = k + 1 := ⟨fuel - 1, by omega⟩
    unfold ChminSum.range_sum_go
    by_cases h1 : R < l ∨ l < L
    · rw [if_pos h1, rsum_empty f (by omega)]
      exact ⟨st, rfl, hl, fun _ _ => rfl, hr, rfl⟩
    · rw [if_neg h1, if_pos (by omega), vrd_ok (by omega), bind_ok, pure_eq_ok, cs_rep_sum hr,
        show max l L = l by omega, show min l R = l by omega]
      exact ⟨st, rfl, hl, fun _ _ => rfl, hr, rfl⟩
  | node p l r hp hN hlr hs1 hs2 ih1 ih2 =>
    intro fuel st f hf hl hr
    obtain ⟨k, rfl⟩ : ∃ k, fuel = k + 1 := ⟨fuel - 1, by omega⟩
    unfold ChminSum.range_sum_go
    by_cases h1 : R < l ∨ r < L
    · rw [if_pos h1, rsum_empty f (by omega)]
      exact ⟨st, rfl, hl, fun _ _ => rfl, hr, rfl⟩
    · rw [if_neg h1]
      by_cases h2 : L ≤ l ∧ r ≤ R
      · rw [if_pos h2, vrd_ok (by omega), bind_ok, pure_eq_ok, cs_rep_sum hr,
          show max l L = l by omega, show min r R = r by omega]
        exact ⟨st, rfl, hl, fun _ _ => rfl, hr, rfl⟩
      · rw [if_neg h2]
        have hb : 2 * p + 1 < st.length := by omega
        obtain ⟨r1, r2⟩ := cs_rep_pushed hr hlr hp hb
        simp only []
        rw [cs_push_eq hp hb, bind_ok]
        obtain ⟨s2, e2, l2, f2, q2, p2⟩ := ih1 k (ChminSum.pushed st p) f (by omega)
          (by rw [cs_pushed_length]; exact hl) r1
        have r2' : ChminSum.Rep s2 (2 * p + 1) ((l + r) / 2 + 1) r f :=
          cs_rep_frame r2 fun i hi => f2 i fun h => under_disjoint hp h hi
        obtain ⟨s3, e3, l3, f3, q3, p3⟩ := ih2 k s2 f (by omega) l2 r2'
        rw [e2, bind_ok]
        simp only []
        rw [e3, bind_ok]
        have hP : vnd s3 p = vnd st p := by
          rw [f3 p (fun h => by have := under_ge h; omega),
            f2 p (fun h => by have := under_ge h; omega),
            cs_pushed_other st (by omega) (by omega)]
        have q2' : ChminSum.Rep s3 (2 * p) l ((l + r) / 2) f :=
          cs_rep_frame q2 fun i hi => f3 i fun h => under_disjoint hp hi h
        have hg := cs_rep_good hr
        have hk := cs_rep_links hr hlr
        have k1 : (vnd s3 (2 * p)).smax2 ≤ (vnd s3 p).smax2 ∧
            (vnd s3 (2 * p + 1)).smax2 ≤ (vnd s3 p).smax2 := by
          rw [hP, p3, f2 (2 * p + 1) (fun h => under_disjoint hp h (under_self _)),
            f3 (2 * p) (fun h => by have := under_ge h; omega), p2, cs_pushed_left hb,
            cs_pushed_right hb, cs_capN_smax2, cs_capN_smax2]
          exact hk
        refine ⟨s3, ?_, l3, ?_, ?_, hP⟩
        · simp only [pure_eq_ok]
          congr 2
          by_cases c1 : R ≤ (l + r) / 2
          · rw [rsum_empty f (show min r R < max ((l + r) / 2 + 1) L by omega), add_zero,
              show min ((l + r) / 2) R = min r R by omega]
          · by_cases c2 : (l + r) / 2 < L
            · rw [rsum_empty f (show min ((l + r) / 2) R < max l L by omega), zero_add,
                show max ((l + r) / 2 + 1) L = max l L by omega]
            · rw [rsum_split f (show max l L ≤ (l + r) / 2 + 1 by omega)
                (show (l + r) / 2 ≤ min r R by omega),
                show min ((l + r) / 2) R = (l + r) / 2 by omega,
                show max ((l + r) / 2 + 1) L = (l + r) / 2 + 1 by omega]
        · intro i hi
          have h0 : i ≠ p := by intro e; subst e; exact hi (under_self _)
          have h1 : ¬ Under (2 * p) i := fun h => hi (under_left h)
          have h2 : ¬ Under (2 * p + 1) i := fun h => hi (under_right h)
          rw [f3 i h2, f2 i h1]
          exact cs_pushed_other st (by intro e; subst e; exact h1 (under_self _))
            (by intro e; subst e; exact h2 (under_self _))
        · refine ChminSum.Rep.node p l r f f hlr q2' q3 ?_ ?_ k1.1 k1.2
          · intro i a b
            rw [hP]
            have := hg.2.1 i a b
            omega
          · rw [hP]
            exact hg

theorem length_naiveMap (f : Int → Int) (L R : Int) : ∀ (a : List Int) (s : Int),
    (naiveMap f L R s a).length = a.length := by
  intro a
  induction a with
  | nil => intro s; rfl
  | cons x xs ih => intro s; simp [naiveMap, ih]

theorem getD_naiveMap (f : Int → Int) (L R : Int) : ∀ (a : List Int) (s : Int) (j : Nat),
    j < a.length →
    (naiveMap f L R s a).getD j 0 =
      if L ≤ s + j ∧ s + j ≤ R then f (a.getD j 0) else a.getD j 0 := by
  intro a
  induction a with
  | nil => intro s j h; simp at h
  | cons x xs ih =>
    intro s j h
    cases j with
    | zero => simp [naiveMap]
    | succ j =>
      simp only [naiveMap, List.getD_cons_succ]
      rw [ih (s + 1) j (by simpa using h)]
      push_cast
      rw [show s + 1 + (j : Int) = s + (j + 1) by ring]

theorem elemAt_naiveMap (f : Int → Int) (L R : Int) (a : List Int) (i : Int) (h0 : 0 ≤ i)
    (h1 : i < a.length) :
    elemAt (naiveMap f L R 0 a) i = if L ≤ i ∧ i ≤ R then f (elemAt a i) else elemAt a i := by
  unfold elemAt
  rw [getD_naiveMap f L R a 0 i.toNat (by omega)]
  rw [show (0 : Int) + (i.toNat : Int) = i by omega]

theorem elemAt_mem {a : List Int} {i : Int} (h0 : 0 ≤ i) (h1 : i < a.length) :
    elemAt a i ∈ a := by
  have h : i.toNat < a.length := by omega
  unfold elemAt
  rw [List.getD_eq_getElem _ _ h]
  exact List.getElem_mem h

theorem cs_build_go_spec {N : Nat} {a : List Int} (hty : ∀ v ∈ a, LLONG_MIN ≤ v) {p : Nat}
    {l r : Int} (hs : Shape N p l r) :
    ∀ (fuel : Nat) (st : List ChminSum.Node), r - l < fuel → st.length = N → 0 ≤ l →
      r < a.length →
    ∃ st', ChminSum.build_go fuel st p l r a = .ok st' ∧ st'.length = N ∧
      (∀ i, ¬ Under p i → vnd st' i = vnd st i) ∧ ChminSum.Rep st' p l r (elemAt a) := by
  induction hs with
  | leaf p l hp hN =>
    intro fuel st hf hl h0 h1
    obtain ⟨k, rfl⟩ : ∃ k, fuel = k + 1 := ⟨fuel - 1, by omega⟩
    refine ⟨st.set p (ChminSum.make_node (a.getD l.toNat 0)), ?_, by simpa using hl, ?_, ?_⟩
    · simp only [ChminSum.build_go, if_true, rdVal_ok h0 h1, bind_ok]
      exact vwr_ok (by omega) _
    · intro i hi
      exact vnd_set_ne st (by intro e; subst e; exact hi (under_self _)) _
    · refine ChminSum.Rep.leaf p l _ ?_ ?_
      · rw [vnd_set_self (by omega)]
        exact ⟨rfl, rfl, rfl, hty _ (elemAt_mem h0 h1)⟩
      · rw [vnd_set_self (by omega)]
        rfl
  | node p l r hp hN hlr hs1 hs2 ih1 ih2 =>
    intro fuel st hf hl h0 h1
    obtain ⟨k, rfl⟩ : ∃ k, fuel = k + 1 := ⟨fuel - 1, by omega⟩
    obtain ⟨s2, e2, l2, f2, q2⟩ := ih1 k st (by omega) hl h0 (by omega)
    obtain ⟨s3, e3, l3, f3, q3⟩ := ih2 k s2 (by omega) l2 (by omega) h1
    have q2' : ChminSum.Rep s3 (2 * p) l ((l + r) / 2) (elemAt a) :=
      cs_rep_frame q2 fun i hi => f3 i fun h => under_disjoint hp hi h
    refine ⟨s3.set p (ChminSum.merge (vnd s3 (2 * p)) (vnd s3 (2 * p + 1))),
      ?_, by simpa using l3, ?_, cs_rep_merge hp (by omega) hlr q2' q3⟩
    · unfold ChminSum.build_go
      rw [if_neg (ne_of_lt hlr)]
      simp only []
      rw [e2, bind_ok, e3, bind_ok, vrd_ok (by omega), bind_ok, vrd_ok (by omega), bind_ok,
        vwr_ok (by omega)]
    · intro i hi
      have h0 : i ≠ p := by intro e; subst e; exact hi (under_self _)
      rw [vnd_set_ne _ (Ne.symm h0), f3 i (fun h => hi (under_right h)),
        f2 i (fun h => hi (under_left h))]

theorem cs_init_length (n : Nat) : (ChminSum.init (n : Int)).st.length = 4 * n + 4 := by
  simp only [ChminSum.init, List.length_replicate]
  omega

theorem cs_build_spec {a : List Int} (ha : a ≠ []) (hty : ∀ v ∈ a, LLONG_MIN ≤ v) :
    ∃ st, ChminSum.build a = .ok ⟨a.length, st⟩ ∧ st.length = 4 * a.length + 4 ∧
      ChminSum.Rep st 1 0 ((a.length : Int) - 1) (elemAt a) := by
  have hn : 1 ≤ a.length := by
    cases a with
    | nil => exact absurd rfl ha
    | cons x xs => simp
  obtain ⟨st, e, hl, -, hb⟩ := cs_build_go_spec hty (shape_root hn)
    (ChminSum.init (a.length : Int)).st.length (ChminSum.init (a.length : Int)).st
    (by rw [cs_init_length]; omega) (cs_init_length _) (le_refl _) (by omega)
  refine ⟨st, ?_, hl, hb⟩
  unfold ChminSum.build
  simp only []
  rw [show (ChminSum.init (a.length : Int)).n = a.length from rfl, e]
  rfl

theorem cs_range_chmin_spec {n : Nat} (hn : 1 ≤ n) {st : List ChminSum.Node} {A : List Int}
    (hl : st.length = 4 * n + 4) (hA : A.length = n)
    (hr : ChminSum.Rep st 1 0 ((n : Int) - 1) (elemAt A)) (L R x : Int) (hx : LLONG_MIN < x) :
    ∃ st', ChminSum.range_chmin ⟨n, st⟩ L R x = .ok ⟨n, st'⟩ ∧ st'.length = 4 * n + 4 ∧
      ChminSum.Rep st' 1 0 ((n : Int) - 1) (elemAt (naiveMap (fun e => min e x) L R 0 A)) := by
  obtain ⟨s, e, l2, -, q⟩ := cs_chmin_spec L R x hx (shape_root hn) st.length st _
    (by omega) hl hr
  refine ⟨s, ?_, l2, cs_rep_congr q fun i a b => ?_⟩
  · unfold ChminSum.range_chmin
    simp only []
    rw [e]
    rfl
  · rw [elemAt_naiveMap _ L R A i a (by omega)]

theorem cs_range_sum_spec {n : Nat} (hn : 1 ≤ n) {st : List ChminSum.Node} {A : List Int}
    (hl : st.length = 4 * n + 4)
    (hr : ChminSum.Rep st 1 0 ((n : Int) - 1) (elemAt A)) (L R : Int)
    (h0 : 0 ≤ L) (h2 : R ≤ (n : Int) - 1) :
    ∃ st', ChminSum.range_sum ⟨n, st⟩ L R = .ok (rangeSum A L R, ⟨n, st'⟩) ∧
      st'.length = 4 * n + 4 ∧ ChminSum.Rep st' 1 0 ((n : Int) - 1) (elemAt A) := by
  obtain ⟨s, e, l2, -, q, -⟩ := cs_sum_spec L R (shape_root hn) st.length st _ (by omega) hl hr
  refine ⟨s, ?_, l2, q⟩
  unfold ChminSum.range_sum
  simp only []
  rw [e, rangeSum_eq_rsum, show max 0 L = L by omega, show min ((n : Int) - 1) R = R by omega]
  rfl

theorem cs_run_spec {n : Nat} (hn : 1 ≤ n) : ∀ (ops : List ChminSum.Op)
    (st : List ChminSum.Node) (A : List Int), st.length = 4 * n + 4 → A.length = n →
    ChminSum.Rep st 1 0 ((n : Int) - 1) (elemAt A) →
    (∀ op ∈ ops, op.inRange n ∧ op.clampOK) →
    ∃ t', ChminSum.run ⟨n, st⟩ ops = .ok ((ChminSum.naiveRun A ops).1, t') := by
  intro ops
  induction ops with
  | nil => intro st A _ _ _ _; exact ⟨_, rfl⟩
  | cons op ops ih =>
    intro st A hl hA hr hops
    have hop := hops op (List.mem_cons_self _ _)
    have hrest : ∀ o ∈ ops, o.inRange n ∧ o.clampOK :=
      fun o ho => hops o (List.mem_cons_of_mem _ ho)
    cases op with
    | chmin L R x =>
      obtain ⟨s, e, l2, q⟩ := cs_range_chmin_spec hn hl hA hr L R x hop.2
      obtain ⟨t', e'⟩ := ih s (naiveMap (fun e => min e x) L R 0 A) l2
        (by rw [length_naiveMap]; exact hA) q hrest
      refine ⟨t', ?_⟩
      simp only [ChminSum.run, ChminSum.step, e, bind_ok, pure_eq_ok, e', ChminSum.naiveRun,
        ChminSum.naiveStep, Option.toList, List.nil_append]
    | sum L R =>
      obtain ⟨s, e, l2, q⟩ := cs_range_sum_spec hn hl hr L R hop.1.1 hop.1.2.2
      obtain ⟨t', e'⟩ := ih s A l2 hA q hrest
      refine ⟨t', ?_⟩
      simp only [ChminSum.run, ChminSum.step, e, bind_ok, pure_eq_ok, e', ChminSum.naiveRun,
        ChminSum.naiveStep, Option.toList, List.singleton_append]

theorem rd_inv {st : List Node} {p : Nat} {a : Node} (h : rd st p = .ok a) :
    p < st.length ∧ a = nd st p := by
  by_cases hp : p < st.length
  · rw [rd_ok hp] at h
    cases h
    exact ⟨hp, rfl⟩
  · simp [rd, List.getElem?_eq_none (not_lt.mp hp)] at h

theorem wr_inv {st s : List Node} {p : Nat} {x : Node} (h : wr st p x = .ok s) :
    p < st.length ∧ s = st.set p x := by
  by_cases hp : p < st.length
  · rw [wr_ok hp] at h
    cases h
    exact ⟨hp, rfl⟩
  · simp [wr, hp] at h

theorem bind_inv {α β : Type} {m : Res α} {f : α → Res β} {b : β} (h : m >>= f = .ok b) :
    ∃ a, m = .ok a ∧ f a = .ok b := by
  cases m with
  | error e => cases h
  | ok a => exact ⟨a, rfl, h⟩

theorem leafKids_frame {st st' : List Node} {p : Nat} {l r : Int} (h : LeafKids st p l r)
    (hf : ∀ i, Under (2 * p) i ∨ Under (2 * p + 1) i → nd st' i = nd st i) :
    LeafKids st' p l r := by
  induction h with
  | leaf p l h1 h2 =>
    exact LeafKids.leaf p l (by rw [hf _ (Or.inl (under_self _)), h1])
      (by rw [hf _ (Or.inr (under_self _)), h2])
  | node p l r hlr _ _ ih1 ih2 =>
    refine LeafKids.node p l r hlr (ih1 fun i hi => hf i (Or.inl ?_))
      (ih2 fun i hi => hf i (Or.inr ?_))
    · rcases hi with hi | hi
      · exact under_left hi
      · exact under_right hi
    · rcases hi with hi | hi
      · exact under_left hi
      · exact under_right hi

theorem leafKids_leaf_inv {st : List Node} {p : Nat} {l r : Int} (h : LeafKids st p l r)
    (e : l = r) : nd st (2 * p) = {} ∧ nd st (2 * p + 1) = {} := by
  cases h with
  | leaf _ _ h1 h2 => exact ⟨h1, h2⟩
  | node _ _ _ hlr => omega

theorem leafKids_node_inv {st : List Node} {p : Nat} {l r : Int} (h : LeafKids st p l r)
    (e : l < r) :
    LeafKids st (2 * p) l ((l + r) / 2) ∧ LeafKids st (2 * p + 1) ((l + r) / 2 + 1) r := by
  cases h with
  | leaf => omega
  | node _ _ _ _ h1 h2 => exact ⟨h1, h2⟩

theorem leafKids_upd {st : List Node} {p : Nat} {l r : Int} (f : Node → Node) (hp : 1 ≤ p)
    (h : LeafKids st p l r) : LeafKids (upd st p f) p l r :=
  leafKids_frame h fun i hi =>
    nd_upd_ne st (by rcases hi with hi | hi <;> have := under_ge hi <;> omega) f

theorem leafKids_pushed {st : List Node} {p : Nat} {l r : Int} (hp : 1 ≤ p) (hlr : l < r)
    (h : LeafKids st p l r) :
    LeafKids (pushed st p l r) (2 * p) l ((l + r) / 2) ∧
    LeafKids (pushed st p l r) (2 * p + 1) ((l + r) / 2 + 1) r := by
  obtain ⟨h1, h2⟩ := leafKids_node_inv h hlr
  constructor
  · refine leafKids_frame h1 fun i hi => ?_
    have := under_child_ne hp (2 * p) (Or.inl rfl) hi
    exact nd_pushed_other st l r this.1 this.2.1 this.2.2
  · refine leafKids_frame h2 fun i hi => ?_
    have := under_child_ne hp (2 * p + 1) (Or.inr rfl) hi
    exact nd_pushed_other st l r this.1 this.2.1 this.2.2

theorem recombine_kids {s2 s3 : List Node} {p : Nat} {l r : Int}
    (hp : 1 ≤ p) (hlr : l < r)
    (f3 : ∀ i, ¬ Under (2 * p + 1) i → nd s3 i = nd s2 i)
    (h1 : LeafKids s2 (2 * p) l ((l + r) / 2))
    (h2 : LeafKids s3 (2 * p + 1) ((l + r) / 2 + 1) r) (x : Node) :
    LeafKids (s3.set p x) p l r := by
  refine LeafKids.node p l r hlr (leafKids_frame h1 fun i hi => ?_)
    (leafKids_frame h2 fun i hi => ?_)
  · have hu : Under (2 * p) i := by
      rcases hi with hi | hi
      · exact under_left hi
      · exact under_right hi
    rw [nd_set_ne _ (by have := under_ge hu; omega), f3 i (fun h => under_disjoint hp hu h)]
  · rw [nd_set_ne _ (by rcases hi with hi | hi <;> have := under_ge hi <;> omega)]

theorem destroyed_addStage (A : Int) (c : Node) (h : Destroyed c) :
    Destroyed (addStage A 1 c) := by
  obtain ⟨h1, h2, h3, h4, h5, h6⟩ := h
  unfold addStage
  split_ifs
  · simp only [Destroyed, Node.apply_add, h1, h2, h3, h4, ne_eq, not_true_eq_false, if_false]
    refine ⟨trivial, trivial, trivial, trivial, ?_, ?_⟩ <;> omega
  · exact ⟨h1, h2, h3, h4, h5, h6⟩

theorem destroyed_apply_chmin (c : Node) (x : Int) (hx : x < c.max1) (h : Destroyed c) :
    Destroyed (c.apply_chmin x) := by
  obtain ⟨h1, h2, h3, h4, h5, h6⟩ := h
  obtain ⟨f1, f2, f3, f4, f5, f6, f7, f8⟩ := apply_chmin_fields c x
  have hd : LLONG_MIN < LLONG_MAX := by decide
  refine ⟨by rw [f5, h1], by rw [f6, h2], by rw [f7, h3], by rw [f8, h4], ?_, ?_⟩
  · rw [f3, f1, h1]; omega
  · rw [f4, f1, h1, if_neg (by omega)]; omega

theorem destroyed_apply_chmax (c : Node) (x : Int) (hx : c.min1 < x) (h : Destroyed c) :
    Destroyed (c.apply_chmax x) := by
  obtain ⟨h1, h2, h3, h4, h5, h6⟩ := h
  obtain ⟨f1, f2, f3, f4, f5, f6, f7, f8⟩ := apply_chmax_fields c x
  have hd : LLONG_MIN < LLONG_MAX := by decide
  refine ⟨by rw [f5, h1], by rw [f6, h2], by rw [f7, h3], by rw [f8, h4], ?_, ?_⟩
  · rw [f4, f1, h2, if_neg (by omega)]; omega
  · rw [f3, f1, h2]; omega

theorem destroyed_apply_add (c : Node) (v : Int) (h : Destroyed c) :
    Destroyed (c.apply_add v 1) := by
  obtain ⟨h1, h2, h3, h4, h5, h6⟩ := h
  simp only [Destroyed, Node.apply_add, h1, h2, h3, h4, ne_eq, not_true_eq_false, if_false]
  refine ⟨trivial, trivial, trivial, trivial, ?_, ?_⟩ <;> omega

theorem destroyed_minStage (cap : Int) (c : Node) (h : Destroyed c) :
    Destroyed (minStage cap c) := by
  unfold minStage
  split_ifs with hc
  · exact destroyed_apply_chmin c cap hc h
  · exact h

theorem destroyed_maxStage (cap : Int) (c : Node) (h : Destroyed c) :
    Destroyed (maxStage cap c) := by
  unfold maxStage
  split_ifs with hc
  · exact destroyed_apply_chmax c cap hc h
  · exact h

theorem destroyed_pushChild (P c : Node) (h : Destroyed c) : Destroyed (pushChild P c 1) := by
  rw [pushChild_eq]
  exact destroyed_maxStage _ _ (destroyed_minStage _ _ (destroyed_addStage _ _ h))

theorem leafGen_pushChild (P c : Node) (h : LeafGen c) : LeafGen (pushChild P c 1) := by
  rcases h with h | h
  · exact Or.inl (leafInv_pushChild P c h)
  · exact Or.inr (destroyed_pushChild P c h)

theorem leafGen_apply_add (c : Node) (v : Int) (h : LeafGen c) : LeafGen (c.apply_add v 1) := by
  rcases h with h | h
  · exact Or.inl (leafInv_apply_add c v h)
  · exact Or.inr (destroyed_apply_add c v h)

theorem leafGen_apply_chmin (c : Node) (x : Int) (hx : x < c.max1) (h : LeafGen c) :
    LeafGen (c.apply_chmin x) := by
  rcases h with h | h
  · exact Or.inl (leafInv_apply_chmin c x h)
  · exact Or.inr (destroyed_apply_chmin c x hx h)

theorem leafGen_apply_chmax (c : Node) (x : Int) (hx : c.min1 < x) (h : LeafGen c) :
    LeafGen (c.apply_chmax x) := by
  rcases h with h | h
  · exact Or.inl (leafInv_apply_chmax c x h)
  · exact Or.inr (destroyed_apply_chmax c x hx h)

theorem leafGen_smax2 {c : Node} (h : LeafGen c) : c.smax2 = LLONG_MIN := by
  rcases h with h | h
  · exact h.2.2.2.2.1
  · exact h.2.2.1

theorem leafGen_smin2 {c : Node} (h : LeafGen c) : c.smin2 = LLONG_MAX := by
  rcases h with h | h
  · exact h.2.2.2.2.2
  · exact h.2.2.2.1

theorem destroyed_merge_default : Destroyed (merge {} {}) := by
  unfold Destroyed
  decide

theorem range_chmin_go_default {st : List Node} {q : Nat} (hq : nd st q = {}) {x : Int}
    (hx : LLONG_MIN ≤ x) (L R : Int) :
    ∀ (k : Nat) (l r : Int) (s : List Node), range_chmin_go k st q l r L R x = .ok s → s = st := by
  intro k l r s e
  cases k with
  | zero => cases e
  | succ k =>
    unfold range_chmin_go at e
    split at e
    · cases e; rfl
    · obtain ⟨np, e1, e2⟩ := bind_inv e
      obtain ⟨-, rfl⟩ := rd_inv e1
      rw [hq, if_pos (show x ≥ ({} : Node).max1 from hx)] at e2
      cases e2; rfl

/-- A completed `range_chmin` with a 64-bit clamp value, the sentinel included, keeps
the two shapes of leaf records and leaves the records below the leaves unused. -/
theorem range_chmin_go_gen {N : Nat} {p : Nat} {l r : Int} (L R x : Int) (hx : LLONG_MIN ≤ x)
    (hs : Shape N p l r) :
    ∀ (fuel : Nat) (st st' : List Node), st.length = N → Leaves LeafGen st p l r →
      LeafKids st p l r → range_chmin_go fuel st p l r L R x = .ok st' →
    st'.length = N ∧ (∀ i, ¬ Under p i → nd st' i = nd st i) ∧ Leaves LeafGen st' p l r ∧
      LeafKids st' p l r := by
  induction hs with
  | leaf p l hp hN =>
    intro fuel st st' hl hq hk e
    cases fuel with
    | zero => cases e
    | succ k =>
      obtain ⟨k1, k2⟩ := leafKids_leaf_inv hk rfl
      unfold range_chmin_go at e
      by_cases h1 : R < l ∨ l < L
      · rw [if_pos h1] at e
        cases e
        exact ⟨hl, fun _ _ => rfl, hq, hk⟩
      · rw [if_neg h1, rd_ok (by omega), bind_ok] at e
        by_cases h2 : x ≥ (nd st p).max1
        · rw [if_pos h2] at e
          cases e
          exact ⟨hl, fun _ _ => rfl, hq, hk⟩
        · rw [if_neg h2] at e
          by_cases h3 : L ≤ l ∧ l ≤ R ∧ x > (nd st p).smax2
          · rw [if_pos h3, apply_chmin_ok (by omega)] at e
            cases e
            exact ⟨by simpa using hl, fun i hi => nd_upd_of_not_under _ hi,
              leaves_upd _ hp (by omega) (fun _ h => leafGen_apply_chmin _ _ (by omega) h) hq,
              leafKids_upd _ hp hk⟩
          · rw [if_neg h3] at e
            simp only [] at e
            rw [show push st p l l = .ok st by unfold push; rw [if_pos rfl], bind_ok,
              show (l + l) / 2 = l by omega] at e
            obtain ⟨s1, e1, u1⟩ := bind_inv e
            rw [range_chmin_go_default k1 hx L R k l l s1 e1] at u1
            obtain ⟨s2, e2, u2⟩ := bind_inv u1
            rw [range_chmin_go_default k2 hx L R k (l + 1) l s2 e2] at u2
            obtain ⟨a, ea, u3⟩ := bind_inv u2
            obtain ⟨-, rfl⟩ := rd_inv ea
            obtain ⟨b, eb, u4⟩ := bind_inv u3
            obtain ⟨-, rfl⟩ := rd_inv eb
            obtain ⟨-, rfl⟩ := wr_inv u4
            rw [k1, k2]
            refine ⟨by simpa using hl, fun i hi => nd_set_ne _
              (by intro e; subst e; exact hi (under_self _)) _,
              Leaves.leaf p l (by rw [nd_set_self (by omega)]; exact Or.inr destroyed_merge_default),
              LeafKids.leaf p l (by rw [nd_set_ne _ (by omega)]; exact k1)
                (by rw [nd_set_ne _ (by omega)]; exact k2)⟩
  | node p l r hp hN hlr hs1 hs2 ih1 ih2 =>
    intro fuel st st' hl hq hk e
    cases fuel with
    | zero => cases e
    | succ k =>
      have hb : 2 * p + 1 < st.length := by omega
      obtain ⟨q1, q2⟩ := leaves_node_inv hq hlr
      unfold range_chmin_go at e
      by_cases h1 : R < l ∨ r < L
      · rw [if_pos h1] at e
        cases e
        exact ⟨hl, fun _ _ => rfl, hq, hk⟩
      · rw [if_neg h1, rd_ok (by omega), bind_ok] at e
        by_cases h2 : x ≥ (nd st p).max1
        · rw [if_pos h2] at e
          cases e
          exact ⟨hl, fun _ _ => rfl, hq, hk⟩
        · rw [if_neg h2] at e
          by_cases h3 : L ≤ l ∧ r ≤ R ∧ x > (nd st p).smax2
          · rw [if_pos h3, apply_chmin_ok (by omega)] at e
            cases e
            exact ⟨by simpa using hl, fun i hi => nd_upd_of_not_under _ hi,
              leaves_upd _ hp (by omega) (fun e _ => by omega) hq, leafKids_upd _ hp hk⟩
          · rw [if_neg h3] at e
            simp only [] at e
            rw [push_eq hp hb (ne_of_lt hlr), bind_ok] at e
            obtain ⟨p1, p2⟩ := leaves_pushed leafGen_pushChild hp hb hlr q1 q2
            obtain ⟨c1, c2⟩ := leafKids_pushed hp hlr hk
            obtain ⟨s2, e2, u2⟩ := bind_inv e
            obtain ⟨l2, f2, g2, d2⟩ := ih1 k (pushed st p l r) s2
              (by rw [pushed_length]; exact hl) p1 c1 e2
            have p2' : Leaves LeafGen s2 (2 * p + 1) ((l + r) / 2 + 1) r :=
              leaves_frame p2 fun i hi => f2 i fun h => under_disjoint hp h hi
            have c2' : LeafKids s2 (2 * p + 1) ((l + r) / 2 + 1) r :=
              leafKids_frame c2 fun i hi => f2 i fun h => under_disjoint hp h
                (by rcases hi with hi | hi
                    · exact under_left hi
                    · exact under_right hi)
            obtain ⟨s3, e3, u3⟩ := bind_inv u2
            obtain ⟨l3, f3, g3, d3⟩ := ih2 k s2 s3 l2 p2' c2' e3
            obtain ⟨a, ea, u4⟩ := bind_inv u3
            obtain ⟨-, rfl⟩ := rd_inv ea
            obtain ⟨b, eb, u5⟩ := bind_inv u4
            obtain ⟨-, rfl⟩ := rd_inv eb
            obtain ⟨-, rfl⟩ := wr_inv u5
            exact ⟨by simpa using l3, recombine_frame hp f2 f3 _,
              recombine_leaves hp hlr f3 g2 g3 _, recombine_kids hp hlr f3 d2 d3 _⟩

theorem range_chmax_go_default {st : List Node} {q : Nat} (hq : nd st q = {}) {x : Int}
    (hx : x ≤ LLONG_MAX) (L R : Int) :
    ∀ (k : Nat) (l r : Int) (s : List Node), range_chmax_go k st q l r L R x = .ok s → s = st := by
  intro k l r s e
  cases k with
  | zero => cases e
  | succ k =>
    unfold range_chmax_go at e
    split at e
    · cases e; rfl
    · obtain ⟨np, e1, e2⟩ := bind_inv e
      obtain ⟨-, rfl⟩ := rd_inv e1
      rw [hq, if_pos (show x ≤ ({} : Node).min1 from hx)] at e2
      cases e2; rfl

/-- A completed `range_chmax` with a 64-bit clamp value, the sentinel included, keeps
the two shapes of leaf records and leaves the records below the leaves unused. -/
theorem range_chmax_go_gen {N : Nat} {p : Nat} {l r : Int} (L R x : Int) (hx : x ≤ LLONG_MAX)
    (hs : Shape N p l r) :
    ∀ (fuel : Nat) (st st' : List Node), st.length = N → Leaves LeafGen st p l r →
      LeafKids st p l r → range_chmax_go fuel st p l r L R x = .ok st' →
    st'.length = N ∧ (∀ i, ¬ Under p i → nd st' i = nd st i) ∧ Leaves LeafGen st' p l r ∧
      LeafKids st' p l r := by
  induction hs with
  | leaf p l hp hN =>
    intro fuel st st' hl hq hk e
    cases fuel with
    | zero => cases e
    | succ k =>
      obtain ⟨k1, k2⟩ := leafKids_leaf_inv hk rfl
      unfold range_chmax_go at e
      by_cases h1 : R < l ∨ l < L
      · rw [if_pos h1] at e
        cases e
        exact ⟨hl, fun _ _ => rfl, hq, hk⟩
      · rw [if_neg h1, rd_ok (by omega), bind_ok] at e
        by_cases h2 : x ≤ (nd st p).min1
        · rw [if_pos h2] at e
          cases e
          exact ⟨hl, fun _ _ => rfl, hq, hk⟩
        · rw [if_neg h2] at e
          by_cases h3 : L ≤ l ∧ l ≤ R ∧ x < (nd st p).smin2
          · rw [if_pos h3, apply_chmax_ok (by omega)] at e
            cases e
            exact ⟨by simpa using hl, fun i hi => nd_upd_of_not_under _ hi,
              leaves_upd _ hp (by omega) (fun _ h => leafGen_apply_chmax _ _ (by omega) h) hq,
              leafKids_upd _ hp hk⟩
          · rw [if_neg h3] at e
            simp only [] at e
            rw [show push st p l l = .ok st by unfold push; rw [if_pos rfl], bind_ok,
              show (l + l) / 2 = l by omega] at e
            obtain ⟨s1, e1, u1⟩ := bind_inv e
            rw [range_chmax_go_default k1 hx L R k l l s1 e1] at u1
            obtain ⟨s2, e2, u2⟩ := bind_inv u1
            rw [range_chmax_go_default k2 hx L R k (l + 1) l s2 e2] at u2
            obtain ⟨a, ea, u3⟩ := bind_inv u2
            obtain ⟨-, rfl⟩ := rd_inv ea
            obtain ⟨b, eb, u4⟩ := bind_inv u3
            obtain ⟨-, rfl⟩ := rd_inv eb
            obtain ⟨-, rfl⟩ := wr_inv u4
            rw [k1, k2]
            refine ⟨by simpa using hl, fun i hi => nd_set_ne _
              (by intro e; subst e; exact hi (under_self _)) _,
              Leaves.leaf p l (by rw [nd_set_self (by omega)]; exact Or.inr destroyed_merge_default),
              LeafKids.leaf p l (by rw [nd_set_ne _ (by omega)]; exact k1)
                (by rw [nd_set_ne _ (by omega)]; exact k2)⟩
  | node p l r hp hN hlr hs1 hs2 ih1 ih2 =>
    intro fuel st st' hl hq hk e
    cases fuel with
    | zero => cases e
    | succ k =>
      have hb : 2 * p + 1 < st.length := by omega
      obtain ⟨q1, q2⟩ := leaves_node_inv hq hlr
      unfold range_chmax_go at e
      by_cases h1 : R < l ∨ r < L
      · rw [if_pos h1] at e
        cases e
        exact ⟨hl, fun _ _ => rfl, hq, hk⟩
      · rw [if_neg h1, rd_ok (by omega), bind_ok] at e
        by_cases h2 : x ≤ (nd st p).min1
        · rw [if_pos h2] at e
          cases e
          exact ⟨hl, fun _ _ => rfl, hq, hk⟩
        · rw [if_neg h2] at e
          by_cases h3 : L ≤ l ∧ r ≤ R ∧ x < (nd st p).smin2
          · rw [if_pos h3, apply_chmax_ok (by omega)] at e
            cases e
            exact ⟨by simpa using hl, fun i hi => nd_upd_of_not_under _ hi,
              leaves_upd _ hp (by omega) (fun e _ => by omega) hq, leafKids_upd _ hp hk⟩
          · rw [if_neg h3] at e
            simp only [] at e
            rw [push_eq hp hb (ne_of_lt hlr), bind_ok] at e
            obtain ⟨p1, p2⟩ := leaves_pushed leafGen_pushChild hp hb hlr q1 q2
            obtain ⟨c1, c2⟩ := leafKids_pushed hp hlr hk
            obtain ⟨s2, e2, u2⟩ := bind_inv e
            obtain ⟨l2, f2, g2, d2⟩ := ih1 k (pushed st p l r) s2
              (by rw [pushed_length]; exact hl) p1 c1 e2
            have p2' : Leaves LeafGen s2 (2 * p + 1) ((l + r) / 2 + 1) r :=
              leaves_frame p2 fun i hi => f2 i fun h => under_disjoint hp h hi
            have c2' : LeafKids s2 (2 * p + 1) ((l + r) / 2 + 1) r :=
              leafKids_frame c2 fun i hi => f2 i fun h => under_disjoint hp h
                (by rcases hi with hi | hi
                    · exact under_left hi
                    · exact under_right hi)
            obtain ⟨s3, e3, u3⟩ := bind_inv u2
            obtain ⟨l3, f3, g3, d3⟩ := ih2 k s2 s3 l2 p2' c2' e3
            obtain ⟨a, ea, u4⟩ := bind_inv u3
            obtain ⟨-, rfl⟩ := rd_inv ea
            obtain ⟨b, eb, u5⟩ := bind_inv u4
            obtain ⟨-, rfl⟩ := rd_inv eb
            obtain ⟨-, rfl⟩ := wr_inv u5
            exact ⟨by simpa using l3, recombine_frame hp f2 f3 _,
              recombine_leaves hp hlr f3 g2 g3 _, recombine_kids hp hlr f3 d2 d3 _⟩

theorem leaves_mono {Q Q' : Node → Prop} (hQ : ∀ c, Q c → Q' c) {st : List Node} {p : Nat}
    {l r : Int} (h : Leaves Q st p l r) : Leaves Q' st p l r := by
  induction h with
  | leaf p l hq => exact Leaves.leaf p l (hQ _ hq)
  | node p l r hlr _ _ ih1 ih2 => exact Leaves.node p l r hlr ih1 ih2

theorem range_add_go_kids {N : Nat} {p : Nat} {l r : Int} (L R v : Int) (hs : Shape N p l r) :
    ∀ (fuel : Nat) (st st' : List Node), st.length = N → LeafKids st p l r →
      range_add_go fuel st p l r L R v = .ok st' →
    st'.length = N ∧ (∀ i, ¬ Under p i → nd st' i = nd st i) ∧ LeafKids st' p l r := by
  induction hs with
  | leaf p l hp hN =>
    intro fuel st st' hl hk e
    cases fuel with
    | zero => cases e
    | succ k =>
      unfold range_add_go at e
      by_cases h1 : R < l ∨ l < L
      · rw [if_pos h1] at e
        cases e
        exact ⟨hl, fun _ _ => rfl, hk⟩
      · rw [if_neg h1, if_pos (by omega), apply_add_ok (by omega)] at e
        cases e
        exact ⟨by simpa using hl, fun i hi => nd_upd_of_not_under _ hi, leafKids_upd _ hp hk⟩
  | node p l r hp hN hlr hs1 hs2 ih1 ih2 =>
    intro fuel st st' hl hk e
    cases fuel with
    | zero => cases e
    | succ k =>
      have hb : 2 * p + 1 < st.length := by omega
      unfold range_add_go at e
      by_cases h1 : R < l ∨ r < L
      · rw [if_pos h1] at e
        cases e
        exact ⟨hl, fun _ _ => rfl, hk⟩
      · rw [if_neg h1] at e
        by_cases h3 : L ≤ l ∧ r ≤ R
        · rw [if_pos h3, apply_add_ok (by omega)] at e
          cases e
          exact ⟨by simpa using hl, fun i hi => nd_upd_of_not_under _ hi, leafKids_upd _ hp hk⟩
        · rw [if_neg h3] at e
          simp only [] at e
          rw [push_eq hp hb (ne_of_lt hlr), bind_ok] at e
          obtain ⟨c1, c2⟩ := leafKids_pushed hp hlr hk
          obtain ⟨s2, e2, u2⟩ := bind_inv e
          obtain ⟨l2, f2, d2⟩ := ih1 k (pushed st p l r) s2
            (by rw [pushed_length]; exact hl) c1 e2
          have c2' : LeafKids s2 (2 * p + 1) ((l + r) / 2 + 1) r :=
            leafKids_frame c2 fun i hi => f2 i fun h => under_disjoint hp h
              (by rcases hi with hi | hi
                  · exact under_left hi
                  · exact under_right hi)
          obtain ⟨s3, e3, u3⟩ := bind_inv u2
          obtain ⟨l3, f3, d3⟩ := ih2 k s2 s3 l2 c2' e3
          obtain ⟨a, ea, u4⟩ := bind_inv u3
          obtain ⟨-, rfl⟩ := rd_inv ea
          obtain ⟨b, eb, u5⟩ := bind_inv u4
          obtain ⟨-, rfl⟩ := rd_inv eb
          obtain ⟨-, rfl⟩ := wr_inv u5
          exact ⟨by simpa using l3, recombine_frame hp f2 f3 _, recombine_kids hp hlr f3 d2 d3 _⟩

theorem range_sum_go_kids {N : Nat} {p : Nat} {l r : Int} (L R : Int) (hs : Shape N p l r) :
    ∀ (fuel : Nat) (st : List Node) (a : Int × List Node), st.length = N → LeafKids st p l r →
      range_sum_go fuel st p l r L R = .ok a →
    a.2.length = N ∧ (∀ i, ¬ Under p i → nd a.2 i = nd st i) ∧ LeafKids a.2 p l r := by
  induction hs with
  | leaf p l hp hN =>
    intro fuel st a hl hk e
    cases fuel with
    | zero => cases e
    | succ k =>
      unfold range_sum_go at e
      by_cases h1 : R < l ∨ l < L
      · rw [if_pos h1] at e
        cases e
        exact ⟨hl, fun _ _ => rfl, hk⟩
      · rw [if_neg h1, if_pos (by omega), rd_ok (by omega)] at e
        cases e
        exact ⟨hl, fun _ _ => rfl, hk⟩
  | node p l r hp hN hlr hs1 hs2 ih1 ih2 =>
    intro fuel st a hl hk e
    cases fuel with
    | zero => cases e
    | succ k =>
      have hb : 2 * p + 1 < st.length := by omega
      unfold range_sum_go at e
      by_cases h1 : R < l ∨ r < L
      · rw [if_pos h1] at e
        cases e
        exact ⟨hl, fun _ _ => rfl, hk⟩
      · rw [if_neg h1] at e
        by_cases h3 : L ≤ l ∧ r ≤ R
        · rw [if_pos h3, rd_ok (by omega)] at e
          cases e
          exact ⟨hl, fun _ _ => rfl, hk⟩
        · rw [if_neg h3] at e
          simp only [] at e
          rw [push_eq hp hb (ne_of_lt hlr), bind_ok] at e
          obtain ⟨c1, c2⟩ := leafKids_pushed hp hlr hk
          obtain ⟨a2, e2, u2⟩ := bind_inv e
          obtain ⟨l2, f2, d2⟩ := ih1 k (pushed st p l r) a2
            (by rw [pushed_length]; exact hl) c1 e2
          have c2' : LeafKids a2.2 (2 * p + 1) ((l + r) / 2 + 1) r :=
            leafKids_frame c2 fun i hi => f2 i fun h => under_disjoint hp h
              (by rcases hi with hi | hi
                  · exact under_left hi
                  · exact under_right hi)
          obtain ⟨a3, e3, u3⟩ := bind_inv u2
          obtain ⟨l3, f3, d3⟩ := ih2 k a2.2 a3 l2 c2' e3
          cases u3
          refine ⟨l3, ?_, LeafKids.node p l r hlr (leafKids_frame d2 fun i hi => f3 i fun h =>
            under_disjoint hp (by rcases hi with hi | hi
                                  · exact under_left hi
                                  · exact under_right hi) h) d3⟩
          intro i hi
          have h0 : i ≠ p := by intro e; subst e; exact hi (under_self _)
          have h1 : ¬ Under (2 * p) i := fun h => hi (under_left h)
          have h2 : ¬ Under (2 * p + 1) i := fun h => hi (under_right h)
          show nd a3.2 i = nd st i
          rw [f3 i h2, f2 i h1]
          exact nd_pushed_other st l r h0 (by intro e; subst e; exact h1 (under_self _))
            (by intro e; subst e; exact h2 (under_self _))

theorem build_go_kids {N : Nat} {a : List Int} {p : Nat} {l r : Int} (hs : Shape N p l r) :
    ∀ (fuel : Nat) (st st' : List Node), st.length = N →
      (∀ i, Under (2 * p) i ∨ Under (2 * p + 1) i → nd st i = {}) →
      build_go fuel st p l r a = .ok st' →
    st'.length = N ∧ (∀ i, ¬ Under p i → nd st' i = nd st i) ∧ LeafKids st' p l r := by
  induction hs with
  | leaf p l hp hN =>
    intro fuel st st' hl hz e
    cases fuel with
    | zero => cases e
    | succ k =>
      unfold build_go at e
      rw [if_pos rfl] at e
      obtain ⟨v, -, u⟩ := bind_inv e
      obtain ⟨-, rfl⟩ := wr_inv u
      refine ⟨by simpa using hl, fun i hi => nd_set_ne _
        (by intro e; subst e; exact hi (under_self _)) _, LeafKids.leaf p l ?_ ?_⟩
      · rw [nd_set_ne _ (by omega)]; exact hz _ (Or.inl (under_self _))
      · rw [nd_set_ne _ (by omega)]; exact hz _ (Or.inr (under_self _))
  | node p l r hp hN hlr hs1 hs2 ih1 ih2 =>
    intro fuel st st' hl hz e
    cases fuel with
    | zero => cases e
    | succ k =>
      unfold build_go at e
      rw [if_neg (ne_of_lt hlr)] at e
      simp only [] at e
      obtain ⟨s2, e2, u2⟩ := bind_inv e
      obtain ⟨l2, f2, d2⟩ := ih1 k st s2 hl (fun i hi => hz i (Or.inl
        (by rcases hi with hi | hi
            · exact under_left hi
            · exact under_right hi))) e2
      obtain ⟨s3, e3, u3⟩ := bind_inv u2
      obtain ⟨l3, f3, d3⟩ := ih2 k s2 s3 l2 (fun i hi => by
        have hu : Under (2 * p + 1) i := by
          rcases hi with hi | hi
          · exact under_left hi
          · exact under_right hi
        rw [f2 i fun h => under_disjoint hp h hu]
        exact hz i (Or.inr hu)) e3
      obtain ⟨x, ex, u4⟩ := bind_inv u3
      obtain ⟨-, rfl⟩ := rd_inv ex
      obtain ⟨y, ey, u5⟩ := bind_inv u4
      obtain ⟨-, rfl⟩ := rd_inv ey
      obtain ⟨-, rfl⟩ := wr_inv u5
      refine ⟨by simpa using l3, ?_, recombine_kids hp hlr f3 d2 d3 _⟩
      intro i hi
      have h0 : i ≠ p := by intro e; subst e; exact hi (under_self _)
      rw [nd_set_ne _ (Ne.symm h0), f3 i (fun h => hi (under_right h)),
        f2 i (fun h => hi (under_left h))]

theorem init_nd (n : Int) (i : Nat) : nd (init n).st i = {} := by
  simp only [init, nd, List.getD_eq_getElem?_getD, List.getElem?_replicate]
  split <;> rfl

/-- In every state reached by public calls with 64-bit arguments, sentinels included,
the node vector has its initial size, every leaf record has one of the two leaf
shapes, and the records below the leaves are unused. -/
theorem reachable_gen {t : SegTreeBeats} (h : ReachableBy Op.word64 t) :
    ∃ n : Nat, 1 ≤ n ∧ t.n = n ∧ t.st.length = 4 * n + 4 ∧
      Leaves LeafGen t.st 1 0 ((n : Int) - 1) ∧ LeafKids t.st 1 0 ((n : Int) - 1) := by
  induction h with
  | build a t ha e =>
    obtain ⟨st, e', hl, hb⟩ := build_spec ha
    rw [e'] at e
    cases e
    have hn : 1 ≤ a.length := by
      cases a with
      | nil => exact absurd rfl ha
      | cons x xs => simp
    refine ⟨a.length, hn, rfl, hl, leaves_mono (fun _ h => Or.inl h) (built_leaves hb), ?_⟩
    unfold build at e'
    simp only [] at e'
    obtain ⟨s, e1, u⟩ := bind_inv e'
    cases u
    exact (build_go_kids (shape_root hn) _ _ _ (init_length _) (fun i _ => init_nd _ i) e1).2.2
  | step t op o t' _ hg _ e ih =>
    obtain ⟨n, h1, h2, h3, h4, h5⟩ := ih
    obtain ⟨tn, st⟩ := t
    simp only at h2 h3 h4 h5
    subst h2
    have hs := shape_root h1
    cases op with
    | add L R v =>
      obtain ⟨s, e1, l1, -, g1, -⟩ := range_add_go_spec LeafGen leafGen_pushChild
        leafGen_apply_add L R v hs st.length st (by omega) h3 h4
      have d1 := (range_add_go_kids L R v hs _ _ _ h3 h5 e1).2.2
      simp only [step, range_add] at e
      rw [e1] at e
      cases e
      exact ⟨n, h1, rfl, l1, g1, d1⟩
    | chmin L R x =>
      simp only [step, range_chmin] at e
      obtain ⟨t1, e1, u⟩ := bind_inv e
      obtain ⟨s, e2, u2⟩ := bind_inv e1
      cases u
      cases u2
      obtain ⟨l1, -, g1, d1⟩ := range_chmin_go_gen L R x hg.1 hs _ _ _ h3 h4 h5 e2
      exact ⟨n, h1, rfl, l1, g1, d1⟩
    | chmax L R x =>
      simp only [step, range_chmax] at e
      obtain ⟨t1, e1, u⟩ := bind_inv e
      obtain ⟨s, e2, u2⟩ := bind_inv e1
      cases u
      cases u2
      obtain ⟨l1, -, g1, d1⟩ := range_chmax_go_gen L R x hg.2 hs _ _ _ h3 h4 h5 e2
      exact ⟨n, h1, rfl, l1, g1, d1⟩
    | sum L R =>
      obtain ⟨a, s, e1, l1, -, g1⟩ := range_sum_go_leaves LeafGen leafGen_pushChild L R hs
        st.length st (by omega) h3 h4
      have d1 := (range_sum_go_kids L R hs _ _ _ h3 h5 e1).2.2
      simp only [step, range_sum] at e
      rw [e1] at e
      cases e
      exact ⟨n, h1, rfl, l1, g1, d1⟩

/-- With a clamp value above the sentinel, `range_chmin` completes; afterwards the
maximum of every node inside the addressed range is at most `x`, and the same call on
any vector that agrees with the result on the subtree changes nothing. -/
theorem range_chmin_go_idem {N : Nat} {p : Nat} {l r : Int} (L R x : Int)
    (hx : LLONG_MIN < x) (hs : Shape N p l r) :
    ∀ (fuel : Nat) (st : List Node), r - l < fuel → st.length = N →
      Leaves LeafGen st p l r →
    ∃ st', range_chmin_go fuel st p l r L R x = .ok st' ∧ st'.length = N ∧
      (∀ i, ¬ Under p i → nd st' i = nd st i) ∧ Leaves LeafGen st' p l r ∧
      (L ≤ l ∧ r ≤ R → (nd st' p).max1 ≤ x) ∧
      ∀ (fuel' : Nat) (s : List Node), r - l < fuel' → s.length = N →
        (∀ i, Under p i → nd s i = nd st' i) → range_chmin_go fuel' s p l r L R x = .ok s := by
  induction hs with
  | leaf p l hp hN =>
    intro fuel st hf hl hq
    obtain ⟨f, rfl⟩ : ∃ f, fuel = f + 1 := ⟨fuel - 1, by omega⟩
    have hq0 := leafGen_smax2 (leaves_leaf_inv hq rfl)
    rw [range_chmin_go]
    by_cases h1 : R < l ∨ l < L
    · rw [if_pos h1]
      refine ⟨st, rfl, hl, fun _ _ => rfl, hq, fun h => by omega, fun fuel' s hf' _ _ => ?_⟩
      obtain ⟨f', rfl⟩ : ∃ f', fuel' = f' + 1 := ⟨fuel' - 1, by omega⟩
      unfold range_chmin_go
      rw [if_pos h1]
    · rw [if_neg h1, rd_ok (by omega), bind_ok]
      by_cases h2 : x ≥ (nd st p).max1
      · rw [if_pos h2]
        refine ⟨st, rfl, hl, fun _ _ => rfl, hq, fun _ => h2, fun fuel' s hf' hl' ha => ?_⟩
        obtain ⟨f', rfl⟩ : ∃ f', fuel' = f' + 1 := ⟨fuel' - 1, by omega⟩
        unfold range_chmin_go
        rw [if_neg h1, rd_ok (by omega), bind_ok, ha p (under_self p), if_pos h2]
        rfl
      · rw [if_neg h2, if_pos ⟨by omega, by omega, by rw [hq0]; exact hx⟩,
          apply_chmin_ok (by omega)]
        have hm : (nd (upd st p fun a => a.apply_chmin x) p).max1 = x := by
          rw [nd_upd_self (by omega)]
          exact (apply_chmin_fields _ x).2.2.1
        refine ⟨_, rfl, by simpa using hl, fun i hi => nd_upd_of_not_under _ hi,
          leaves_upd _ hp (by omega) (fun _ h => leafGen_apply_chmin _ _ (by omega) h) hq,
          fun _ => by rw [hm], fun fuel' s hf' hl' ha => ?_⟩
        obtain ⟨f', rfl⟩ : ∃ f', fuel' = f' + 1 := ⟨fuel' - 1, by omega⟩
        unfold range_chmin_go
        rw [if_neg h1, rd_ok (by omega), bind_ok, ha p (under_self p), hm,
          if_pos (le_refl x)]
        rfl
  | node p l r hp hN hlr hs1 hs2 ih1 ih2 =>
    intro fuel st hf hl hq
    obtain ⟨f, rfl⟩ : ∃ f, fuel = f + 1 := ⟨fuel - 1, by omega⟩
    have hb : 2 * p + 1 < st.length := by omega
    obtain ⟨q1, q2⟩ := leaves_node_inv hq hlr
    rw [range_chmin_go]
    by_cases h1 : R < l ∨ r < L
    · rw [if_pos h1]
      refine ⟨st, rfl, hl, fun _ _ => rfl, hq, fun h => by omega, fun fuel' s hf' _ _ => ?_⟩
      obtain ⟨f', rfl⟩ : ∃ f', fuel' = f' + 1 := ⟨fuel' - 1, by omega⟩
      unfold range_chmin_go
      rw [if_pos h1]
    · rw [if_neg h1, rd_ok (by omega), bind_ok]
      by_cases h2 : x ≥ (nd st p).max1
      · rw [if_pos h2]
        refine ⟨st, rfl, hl, fun _ _ => rfl, hq, fun _ => h2, fun fuel' s hf' hl' ha => ?_⟩
        obtain ⟨f', rfl⟩ : ∃ f', fuel' = f' + 1 := ⟨fuel' - 1, by omega⟩
        unfold range_chmin_go
        rw [if_neg h1, rd_ok (by omega), bind_ok, ha p (under_self p), if_pos h2]
        rfl
      · rw [if_neg h2]
        by_cases h3 : L ≤ l ∧ r ≤ R ∧ x > (nd st p).smax2
        · rw [if_pos h3, apply_chmin_ok (by omega)]
          have hm : (nd (upd st p fun a => a.apply_chmin x) p).max1 = x := by
            rw [nd_upd_self (by omega)]
            exact (apply_chmin_fields _ x).2.2.1
          refine ⟨_, rfl, by simpa using hl, fun i hi => nd_upd_of_not_under _ hi,
            leaves_upd _ hp (by omega) (fun e _ => by omega) hq,
            fun _ => by rw [hm], fun fuel' s hf' hl' ha => ?_⟩
          obtain ⟨f', rfl⟩ : ∃ f', fuel' = f' + 1 := ⟨fuel' - 1, by omega⟩
          unfold range_chmin_go
          rw [if_neg h1, rd_ok (by omega), bind_ok, ha p (under_self p), hm,
            if_pos (le_refl x)]
          rfl
        · rw [if_neg h3]
          simp only []
          rw [push_eq hp hb (ne_of_lt hlr), bind_ok]
          obtain ⟨p1, p2⟩ := leaves_pushed leafGen_pushChild hp hb hlr q1 q2
          obtain ⟨s2, e2, l2, f2, g2, c2, i2⟩ := ih1 f (pushed st p l r) (by omega)
            (by rw [pushed_length]; exact hl) p1
          have p2' : Leaves LeafGen s2 (2 * p + 1) ((l + r) / 2 + 1) r :=
            leaves_frame p2 fun i hi => f2 i fun h => under_disjoint hp h hi
          obtain ⟨s3, e3, l3, f3, g3, c3, i3⟩ := ih2 f s2 (by omega) l2 p2'
          rw [e2, bind_ok, e3, bind_ok, rd_ok (by omega), bind_ok, rd_ok (by omega), bind_ok,
            wr_ok (by omega)]
          have hself : nd (s3.set p (merge (nd s3 (2 * p)) (nd s3 (2 * p + 1)))) p =
              merge (nd s3 (2 * p)) (nd s3 (2 * p + 1)) := nd_set_self (by omega) _
          have hcov : L ≤ l ∧ r ≤ R →
              (nd (s3.set p (merge (nd s3 (2 * p)) (nd s3 (2 * p + 1)))) p).max1 ≤ x := by
            intro hc
            have a1 := c2 ⟨hc.1, by omega⟩
            have a2 := c3 ⟨by omega, hc.2⟩
            rw [← f3 (2 * p) (fun h => by have := under_ge h; omega)] at a1
            rw [hself, merge_max1]
            exact max_le a1 a2
          refine ⟨_, rfl, by simpa using l3, recombine_frame hp f2 f3 _,
            recombine_leaves hp hlr f3 g2 g3 _, hcov, fun fuel' s hf' hl' ha => ?_⟩
          obtain ⟨f', rfl⟩ : ∃ f', fuel' = f' + 1 := ⟨fuel' - 1, by omega⟩
          have hsp : nd s p = merge (nd s (2 * p)) (nd s (2 * p + 1)) := by
            rw [ha p (under_self p), ha _ (under_left (under_self _)),
              ha _ (under_right (under_self _)), hself, nd_set_ne _ (by omega),
              nd_set_ne _ (by omega)]
          unfold range_chmin_go
          rw [if_neg h1, rd_ok (by omega), bind_ok]
          by_cases h2' : x ≥ (nd s p).max1
          · rw [if_pos h2']
            rfl
          · have h3' : ¬ (L ≤ l ∧ r ≤ R ∧ x > (nd s p).smax2) := by
              intro hc
              have := hcov ⟨hc.1, hc.2.1⟩
              rw [← ha p (under_self p)] at this
              omega
            rw [if_neg h2', if_neg h3']
            simp only []
            rw [push_merged hp (by omega) (ne_of_lt hlr) hsp, bind_ok]
            have a2 : range_chmin_go f' s (2 * p) l ((l + r) / 2) L R x = .ok s := by
              refine i2 f' s (by omega) hl' fun i hi => ?_
              rw [ha i (under_left hi), nd_set_ne _ (by have := under_ge hi; omega),
                f3 i fun h => under_disjoint hp hi h]
            have a3 : range_chmin_go f' s (2 * p + 1) ((l + r) / 2 + 1) r L R x = .ok s := by
              refine i3 f' s (by omega) hl' fun i hi => ?_
              rw [ha i (under_right hi), nd_set_ne _ (by have := under_ge hi; omega)]
            rw [a2, bind_ok, a3, bind_ok, rd_ok (by omega), bind_ok, rd_ok (by omega), bind_ok,
              wr_ok (by omega), ← hsp, set_nd_self (by omega)]

/-- With a clamp value below the sentinel `LLONG_MAX`, `range_chmax` completes. -/
theorem range_chmax_go_ok {N : Nat} {p : Nat} {l r : Int} (L R x : Int)
    (hx : x < LLONG_MAX) (hs : Shape N p l r) :
    ∀ (fuel : Nat) (st : List Node), r - l < fuel → st.length = N →
      Leaves LeafGen st p l r →
    ∃ st', range_chmax_go fuel st p l r L R x = .ok st' ∧ st'.length = N ∧
      (∀ i, ¬ Under p i → nd st' i = nd st i) ∧ Leaves LeafGen st' p l r := by
  induction hs with
  | leaf p l hp hN =>
    intro fuel st hf hl hq
    obtain ⟨f, rfl⟩ : ∃ f, fuel = f + 1 := ⟨fuel - 1, by omega⟩
    have hq0 := leafGen_smin2 (leaves_leaf_inv hq rfl)
    unfold range_chmax_go
    by_cases h1 : R < l ∨ l < L
    · rw [if_pos h1]
      exact ⟨st, rfl, hl, fun _ _ => rfl, hq⟩
    · rw [if_neg h1, rd_ok (by omega), bind_ok]
      by_cases h2 : x ≤ (nd st p).min1
      · rw [if_pos h2]
        exact ⟨st, rfl, hl, fun _ _ => rfl, hq⟩
      · rw [if_neg h2, if_pos ⟨by omega, by omega, by rw [hq0]; exact hx⟩,
          apply_chmax_ok (by omega)]
        exact ⟨_, rfl, by simpa using hl, fun i hi => nd_upd_of_not_under _ hi,
          leaves_upd _ hp (by omega) (fun _ h => leafGen_apply_chmax _ _ (by omega) h) hq⟩
  | node p l r hp hN hlr hs1 hs2 ih1 ih2 =>
    intro fuel st hf hl hq
    obtain ⟨f, rfl⟩ : ∃ f, fuel = f + 1 := ⟨fuel - 1, by omega⟩
    have hb : 2 * p + 1 < st.length := by omega
    obtain ⟨q1, q2⟩ := leaves_node_inv hq hlr
    unfold range_chmax_go
    by_cases h1 : R < l ∨ r < L
    · rw [if_pos h1]
      exact ⟨st, rfl, hl, fun _ _ => rfl, hq⟩
    · rw [if_neg h1, rd_ok (by omega), bind_ok]
      by_cases h2 : x ≤ (nd st p).min1
      · rw [if_pos h2]
        exact ⟨st, rfl, hl, fun _ _ => rfl, hq⟩
      · rw [if_neg h2]
        by_cases h3 : L ≤ l ∧ r ≤ R ∧ x < (nd st p).smin2
        · rw [if_pos h3, apply_chmax_ok (by omega)]
          exact ⟨_, rfl, by simpa using hl, fun i hi => nd_upd_of_not_under _ hi,
            leaves_upd _ hp (by omega) (fun e _ => by omega) hq⟩
        · rw [if_neg h3]
          simp only []
          rw [push_eq hp hb (ne_of_lt hlr), bind_ok]
          obtain ⟨p1, p2⟩ := leaves_pushed leafGen_pushChild hp hb hlr q1 q2
          obtain ⟨s2, e2, l2, f2, g2⟩ := ih1 f (pushed st p l r) (by omega)
            (by rw [pushed_length]; exact hl) p1
          have p2' : Leaves LeafGen s2 (2 * p + 1) ((l + r) / 2 + 1) r :=
            leaves_frame p2 fun i hi => f2 i fun h => under_disjoint hp h hi
          obtain ⟨s3, e3, l3, f3, g3⟩ := ih2 f s2 (by omega) l2 p2'
          rw [e2, bind_ok, e3, bind_ok, rd_ok (by omega), bind_ok, rd_ok (by omega), bind_ok,
            wr_ok (by omega)]
          exact ⟨_, rfl, by simpa using l3, recombine_frame hp f2 f3 _,
            recombine_leaves hp hlr f3 g2 g3 _⟩

theorem addStage_eq_apply_add (A len : Int) (c : Node) : addStage A len c = c.apply_add A len := by
  unfold addStage
  split_ifs with h
  · rfl
  · have h0 : A = 0 := by simpa using h
    subst h0
    cases c
    simp only [Node.apply_add, zero_mul, add_zero]
    split_ifs <;> rfl

theorem leaves_owns {Q : Node → Prop} {st : List Node} {p q : Nat} {l r a b : Int}
    (ho : Owns p l r q a b) : Leaves Q st p l r → a = b → Q (nd st q) := by
  induction ho with
  | self p l r => intro h e; exact leaves_leaf_inv h e
  | left p l r q a b hlr _ ih => intro h e; exact ih (leaves_node_inv h hlr).1 e
  | right p l r q a b hlr _ ih => intro h e; exact ih (leaves_node_inv h hlr).2 e

theorem statMax1_nil : statMax1 [] = LLONG_MIN := rfl

theorem statMin1_nil : statMin1 [] = LLONG_MAX := rfl

theorem statMax1_cons_cons (x y : Int) (xs : List Int) :
    statMax1 (x :: y :: xs) = max x (statMax1 (y :: xs)) := by
  simp [statMax1, List.max?_cons]

theorem statMax1_single (x : Int) : statMax1 [x] = x := by
  simp [statMax1, List.max?_cons]

theorem statMin1_cons_cons (x y : Int) (xs : List Int) :
    statMin1 (x :: y :: xs) = min x (statMin1 (y :: xs)) := by
  simp [statMin1, List.min?_cons]

theorem statMin1_single (x : Int) : statMin1 [x] = x := by
  simp [statMin1, List.min?_cons]

theorem max_choice (a b : Int) : max a b = a ∨ max a b = b := by omega

theorem min_choice (a b : Int) : min a b = a ∨ min a b = b := by omega

theorem statMax1_spec : ∀ (xs : List Int), xs ≠ [] →
    statMax1 xs ∈ xs ∧ ∀ v ∈ xs, v ≤ statMax1 xs := by
  intro xs
  induction xs with
  | nil => intro h; exact absurd rfl h
  | cons x xs ih =>
    intro _
    cases xs with
    | nil =>
      rw [statMax1_single]
      exact ⟨List.mem_singleton.mpr rfl, fun v hv => by
        rw [List.mem_singleton.mp hv]⟩
    | cons y ys =>
      obtain ⟨h1, h2⟩ := ih (List.cons_ne_nil _ _)
      rw [statMax1_cons_cons]
      constructor
      · rcases max_choice x (statMax1 (y :: ys)) with e | e
        · rw [e]; exact List.mem_cons_self _ _
        · rw [e]; exact List.mem_cons_of_mem _ h1
      · intro v hv
        rcases List.mem_cons.mp hv with e | e
        · rw [e]; omega
        · have := h2 v e
          omega

theorem statMax1_unique {xs : List Int} {m : Int} (hm : m ∈ xs) (h : ∀ v ∈ xs, v ≤ m) :
    statMax1 xs = m := by
  obtain ⟨h1, h2⟩ := statMax1_spec xs (List.ne_nil_of_mem hm)
  have a := h2 m hm
  have b := h _ h1
  omega

theorem statMax1_bound {xs : List Int} (h : ∀ v ∈ xs, LLONG_MIN ≤ v) : LLONG_MIN ≤ statMax1 xs := by
  cases xs with
  | nil => exact le_refl _
  | cons x xs => exact h _ (statMax1_spec _ (List.cons_ne_nil _ _)).1

theorem statMax1_append {xs ys : List Int} (hx : ∀ v ∈ xs, LLONG_MIN ≤ v)
    (hy : ∀ v ∈ ys, LLONG_MIN ≤ v) :
    statMax1 (xs ++ ys) = max (statMax1 xs) (statMax1 ys) := by
  have bx := statMax1_bound hx
  have by' := statMax1_bound hy
  by_cases ex : xs = []
  · subst ex
    rw [List.nil_append, statMax1_nil] at *
    omega
  by_cases ey : ys = []
  · subst ey
    rw [List.append_nil, statMax1_nil] at *
    omega
  obtain ⟨a1, a2⟩ := statMax1_spec xs ex
  obtain ⟨b1, b2⟩ := statMax1_spec ys ey
  apply statMax1_unique
  · rcases max_choice (statMax1 xs) (statMax1 ys) with e | e
    · rw [e]; exact List.mem_append_left _ a1
    · rw [e]; exact List.mem_append_right _ b1
  · intro v hv
    rcases List.mem_append.mp hv with e | e
    · have := a2 v e
      omega
    · have := b2 v e
      omega

theorem statCntMax_append_gt {xs ys : List Int} {m : Int} (h : ∀ v ∈ ys, v < m) :
    ((xs ++ ys).count m : Int) = xs.count m := by
  have z : ys.count m = 0 := List.count_eq_zero.mpr (fun hm => by have := h m hm; omega)
  rw [List.count_append, z, add_zero]

theorem statCntMax_append_lt {xs ys : List Int} {m : Int} (h : ∀ v ∈ xs, v < m) :
    ((xs ++ ys).count m : Int) = ys.count m := by
  have z : xs.count m = 0 := List.count_eq_zero.mpr (fun hm => by have := h m hm; omega)
  rw [List.count_append, z, zero_add]

theorem filterBelow_all {xs : List Int} {m : Int} (h : ∀ v ∈ xs, v < m) :
    xs.filter (fun e => e < m) = xs := by
  rw [List.filter_eq_self]
  intro v hv
  exact decide_eq_true (h v hv)

theorem filterBelow_bound {xs : List Int} (m : Int) (h : ∀ v ∈ xs, LLONG_MIN ≤ v) :
    ∀ v ∈ xs.filter (fun e => e < m), LLONG_MIN ≤ v :=
  fun v hv => h v (List.mem_filter.mp hv).1

theorem statSmax2_eq (xs : List Int) :
    statSmax2 xs = statMax1 (xs.filter (fun e => e < statMax1 xs)) := rfl

theorem statCntMax_eq (xs : List Int) : statCntMax xs = (xs.count (statMax1 xs) : Int) := rfl

theorem statMin1_spec : ∀ (xs : List Int), xs ≠ [] →
    statMin1 xs ∈ xs ∧ ∀ v ∈ xs, statMin1 xs ≤ v := by
  intro xs
  induction xs with
  | nil => intro h; exact absurd rfl h
  | cons x xs ih =>
    intro _
    cases xs with
    | nil =>
      rw [statMin1_single]
      exact ⟨List.mem_singleton.mpr rfl, fun v hv => by
        rw [List.mem_singleton.mp hv]⟩
    | cons y ys =>
      obtain ⟨h1, h2⟩ := ih (List.cons_ne_nil _ _)
      rw [statMin1_cons_cons]
      constructor
      · rcases min_choice x (statMin1 (y :: ys)) with e | e
        · rw [e]; exact List.mem_cons_self _ _
        · rw [e]; exact List.mem_cons_of_mem _ h1
      · intro v hv
        rcases List.mem_cons.mp hv with e | e
        · rw [e]; omega
        · have := h2 v e
          omega

theorem statMin1_unique {xs : List Int} {m : Int} (hm : m ∈ xs) (h : ∀ v ∈ xs, m ≤ v) :
    statMin1 xs = m := by
  obtain ⟨h1, h2⟩ := statMin1_spec xs (List.ne_nil_of_mem hm)
  have a := h2 m hm
  have b := h _ h1
  omega

theorem statMin1_bound {xs : List Int} (h : ∀ v ∈ xs, v ≤ LLONG_MAX) : statMin1 xs ≤ LLONG_MAX := by
  cases xs with
  | nil => exact le_refl _
  | cons x xs => exact h _ (statMin1_spec _ (List.cons_ne_nil _ _)).1

theorem statMin1_append {xs ys : List Int} (hx : ∀ v ∈ xs, v ≤ LLONG_MAX)
    (hy : ∀ v ∈ ys, v ≤ LLONG_MAX) :
    statMin1 (xs ++ ys) = min (statMin1 xs) (statMin1 ys) := by
  have bx := statMin1_bound hx
  have by' := statMin1_bound hy
  by_cases ex : xs = []
  · subst ex
    rw [List.nil_append, statMin1_nil] at *
    omega
  by_cases ey : ys = []
  · subst ey
    rw [List.append_nil, statMin1_nil] at *
    omega
  obtain ⟨a1, a2⟩ := statMin1_spec xs ex
  obtain ⟨b1, b2⟩ := statMin1_spec ys ey
  apply statMin1_unique
  · rcases min_choice (statMin1 xs) (statMin1 ys) with e | e
    · rw [e]; exact List.mem_append_left _ a1
    · rw [e]; exact List.mem_append_right _ b1
  · intro v hv
    rcases List.mem_append.mp hv with e | e
    · have := a2 v e
      omega
    · have := b2 v e
      omega

theorem statCntMin_append_gt {xs ys : List Int} {m : Int} (h : ∀ v ∈ ys, m < v) :
    ((xs ++ ys).count m : Int) = xs.count m := by
  have z : ys.count m = 0 := List.count_eq_zero.mpr (fun hm => by have := h m hm; omega)
  rw [List.count_append, z, add_zero]

theorem statCntMin_append_lt {xs ys : List Int} {m : Int} (h : ∀ v ∈ xs, m < v) :
    ((xs ++ ys).count m : Int) = ys.count m := by
  have z : xs.count m = 0 := List.count_eq_zero.mpr (fun hm => by have := h m hm; omega)
  rw [List.count_append, z, zero_add]

theorem filterAbove_all {xs : List Int} {m : Int} (h : ∀ v ∈ xs, m < v) :
    xs.filter (fun e => m < e) = xs := by
  rw [List.filter_eq_self]
  intro v hv
  exact decide_eq_true (h v hv)

theorem filterAbove_bound {xs : List Int} (m : Int) (h : ∀ v ∈ xs, v ≤ LLONG_MAX) :
    ∀ v ∈ xs.filter (fun e => m < e), v ≤ LLONG_MAX :=
  fun v hv => h v (List.mem_filter.mp hv).1

theorem statSmin2_eq (xs : List Int) :
    statSmin2 xs = statMin1 (xs.filter (fun e => statMin1 xs < e)) := rfl

theorem statCntMin_eq (xs : List Int) : statCntMin xs = (xs.count (statMin1 xs) : Int) := rfl

theorem le_statMax1 {xs : List Int} {v : Int} (h : v ∈ xs) : v ≤ statMax1 xs :=
  (statMax1_spec xs (List.ne_nil_of_mem h)).2 v h

theorem statMin1_le {xs : List Int} {v : Int} (h : v ∈ xs) : statMin1 xs ≤ v :=
  (statMin1_spec xs (List.ne_nil_of_mem h)).2 v h

theorem merge_max_view (L R : Node) :
    (R.max1 < L.max1 ∧ (merge L R).smax2 = max L.smax2 R.max1 ∧
      (merge L R).cnt_max = L.cnt_max) ∨
    (L.max1 < R.max1 ∧ (merge L R).smax2 = max R.smax2 L.max1 ∧
      (merge L R).cnt_max = R.cnt_max) ∨
    (L.max1 = R.max1 ∧ (merge L R).smax2 = max L.smax2 R.smax2 ∧
      (merge L R).cnt_max = L.cnt_max + R.cnt_max) := by
  unfold merge
  split_ifs <;>
    first
    | exact Or.inl ⟨by omega, rfl, rfl⟩
    | exact Or.inr (Or.inl ⟨by omega, rfl, rfl⟩)
    | exact Or.inr (Or.inr ⟨by omega, rfl, rfl⟩)

theorem merge_min_view (L R : Node) :
    (L.min1 < R.min1 ∧ (merge L R).smin2 = min L.smin2 R.min1 ∧
      (merge L R).cnt_min = L.cnt_min) ∨
    (R.min1 < L.min1 ∧ (merge L R).smin2 = min R.smin2 L.min1 ∧
      (merge L R).cnt_min = R.cnt_min) ∨
    (L.min1 = R.min1 ∧ (merge L R).smin2 = min L.smin2 R.smin2 ∧
      (merge L R).cnt_min = L.cnt_min + R.cnt_min) := by
  unfold merge
  split_ifs <;>
    first
    | exact Or.inl ⟨by omega, rfl, rfl⟩
    | exact Or.inr (Or.inl ⟨by omega, rfl, rfl⟩)
    | exact Or.inr (Or.inr ⟨by omega, rfl, rfl⟩)

theorem statSmax2_append {A B : List Int} (hA : Word64 A) (hB : Word64 B) :
    (statMax1 B < statMax1 A → statSmax2 (A ++ B) = max (statSmax2 A) (statMax1 B) ∧
      statCntMax (A ++ B) = statCntMax A) ∧
    (statMax1 A < statMax1 B → statSmax2 (A ++ B) = max (statSmax2 B) (statMax1 A) ∧
      statCntMax (A ++ B) = statCntMax B) ∧
    (statMax1 A = statMax1 B → statSmax2 (A ++ B) = max (statSmax2 A) (statSmax2 B) ∧
      statCntMax (A ++ B) = statCntMax A + statCntMax B) := by
  have a0 : ∀ v ∈ A, LLONG_MIN ≤ v := fun v hv => (hA v hv).1
  have b0 : ∀ v ∈ B, LLONG_MIN ≤ v := fun v hv => (hB v hv).1
  have em := statMax1_append a0 b0
  refine ⟨fun h => ?_, fun h => ?_, fun h => ?_⟩
  · have hb : ∀ v ∈ B, v < statMax1 A := fun v hv => by have := le_statMax1 hv; omega
    rw [statSmax2_eq, statCntMax_eq, em, show max (statMax1 A) (statMax1 B) = statMax1 A by omega,
      List.filter_append, filterBelow_all hb,
      statMax1_append (filterBelow_bound _ a0) b0, statCntMax_append_gt hb]
    exact ⟨rfl, rfl⟩
  · have ha : ∀ v ∈ A, v < statMax1 B := fun v hv => by have := le_statMax1 hv; omega
    rw [statSmax2_eq, statCntMax_eq, em, show max (statMax1 A) (statMax1 B) = statMax1 B by omega,
      List.filter_append, filterBelow_all ha,
      statMax1_append a0 (filterBelow_bound _ b0), statCntMax_append_lt ha, max_comm]
    exact ⟨rfl, rfl⟩
  · rw [statSmax2_eq, statCntMax_eq, em, ← h, max_self, List.filter_append,
      statMax1_append (filterBelow_bound _ a0) (filterBelow_bound _ b0), List.count_append]
    rw [statSmax2_eq A, statSmax2_eq B, statCntMax_eq A, statCntMax_eq B, ← h]
    exact ⟨rfl, by push_cast; rfl⟩

theorem statSmin2_append {A B : List Int} (hA : Word64 A) (hB : Word64 B) :
    (statMin1 A < statMin1 B → statSmin2 (A ++ B) = min (statSmin2 A) (statMin1 B) ∧
      statCntMin (A ++ B) = statCntMin A) ∧
    (statMin1 B < statMin1 A → statSmin2 (A ++ B) = min (statSmin2 B) (statMin1 A) ∧
      statCntMin (A ++ B) = statCntMin B) ∧
    (statMin1 A = statMin1 B → statSmin2 (A ++ B) = min (statSmin2 A) (statSmin2 B) ∧
      statCntMin (A ++ B) = statCntMin A + statCntMin B) := by
  have a0 : ∀ v ∈ A, v ≤ LLONG_MAX := fun v hv => (hA v hv).2
  have b0 : ∀ v ∈ B, v ≤ LLONG_MAX := fun v hv => (hB v hv).2
  have em := statMin1_append a0 b0
  refine ⟨fun h => ?_, fun h => ?_, fun h => ?_⟩
  · have hb : ∀ v ∈ B, statMin1 A < v := fun v hv => by have := statMin1_le hv; omega
    rw [statSmin2_eq, statCntMin_eq, em, show min (statMin1 A) (statMin1 B) = statMin1 A by omega,
      List.filter_append, filterAbove_all hb,
      statMin1_append (filterAbove_bound _ a0) b0, statCntMin_append_gt hb]
    exact ⟨rfl, rfl⟩
  · have ha : ∀ v ∈ A, statMin1 B < v := fun v hv => by have := statMin1_le hv; omega
    rw [statSmin2_eq, statCntMin_eq, em, show min (statMin1 A) (statMin1 B) = statMin1 B by omega,
      List.filter_append, filterAbove_all ha,
      statMin1_append a0 (filterAbove_bound _ b0), statCntMin_append_lt ha, min_comm]
    exact ⟨rfl, rfl⟩
  · rw [statSmin2_eq, statCntMin_eq, em, ← h, min_self, List.filter_append,
      statMin1_append (filterAbove_bound _ a0) (filterAbove_bound _ b0), List.count_append]
    rw [statSmin2_eq A, statSmin2_eq B, statCntMin_eq A, statCntMin_eq B, ← h]
    exact ⟨rfl, by push_cast; rfl⟩

theorem exact_make_node (v : Int) : Exact (make_node v) [v] := by
  refine ⟨?_, ?_, ?_, ?_, ?_, ?_, ?_⟩
  · simp [make_node]
  · rw [statMax1_single]; rfl
  · rw [statSmax2_eq, statMax1_single]
    simp [make_node, statMax1_nil]
  · rw [statCntMax_eq, statMax1_single]
    simp [make_node]
  · rw [statMin1_single]; rfl
  · rw [statSmin2_eq, statMin1_single]
    simp [make_node, statMin1_nil]
  · rw [statCntMin_eq, statMin1_single]
    simp [make_node]

theorem word64_small (M : List Int) (h : ∀ v ∈ M, -1000 ≤ v ∧ v ≤ 1000) : Word64 M := by
  intro v hv
  have := h v hv
  unfold LLONG_MIN LLONG_MAX
  omega

theorem exact_merge (L R : Node) (A B : List Int) (hA : Word64 A) (hB : Word64 B)
    (hL : Exact L A) (hR : Exact R B) :
    Exact (merge L R) (A ++ B) ∧ (merge L R).add = 0 := by
  obtain ⟨l1, l2, l3, l4, l5, l6, l7⟩ := hL
  obtain ⟨r1, r2, r3, r4, r5, r6, r7⟩ := hR
  obtain ⟨x1, x2, x3⟩ := statSmax2_append hA hB
  obtain ⟨y1, y2, y3⟩ := statSmin2_append hA hB
  have em := statMax1_append (fun v hv => (hA v hv).1) (fun v hv => (hB v hv).1)
  have en := statMin1_append (fun v hv => (hA v hv).2) (fun v hv => (hB v hv).2)
  refine ⟨⟨?_, ?_, ?_, ?_, ?_, ?_, ?_⟩, merge_add L R⟩
  · rw [merge_sum, l1, r1, List.sum_append]
  · rw [merge_max1, l2, r2, em]
  · rcases merge_max_view L R with ⟨c, e, -⟩ | ⟨c, e, -⟩ | ⟨c, e, -⟩
    · rw [e, (x1 (by omega)).1, l3, r2]
    · rw [e, (x2 (by omega)).1, r3, l2]
    · rw [e, (x3 (by omega)).1, l3, r3]
  · rcases merge_max_view L R with ⟨c, -, e⟩ | ⟨c, -, e⟩ | ⟨c, -, e⟩
    · rw [e, (x1 (by omega)).2, l4]
    · rw [e, (x2 (by omega)).2, r4]
    · rw [e, (x3 (by omega)).2, l4, r4]
  · rw [merge_min1, l5, r5, en]
  · rcases merge_min_view L R with ⟨c, e, -⟩ | ⟨c, e, -⟩ | ⟨c, e, -⟩
    · rw [e, (y1 (by omega)).1, l6, r5]
    · rw [e, (y2 (by omega)).1, r6, l5]
    · rw [e, (y3 (by omega)).1, l6, r6]
  · rcases merge_min_view L R with ⟨c, -, e⟩ | ⟨c, -, e⟩ | ⟨c, -, e⟩
    · rw [e, (y1 (by omega)).2, l7]
    · rw [e, (y2 (by omega)).2, r7]
    · rw [e, (y3 (by omega)).2, l7, r7]

theorem slice_single (a : List Int) (l : Int) (h0 : 0 ≤ l) (h1 : l < a.length) :
    slice a l l = [a.getD l.toNat 0] := by
  have hlt : l.toNat < a.length := by omega
  have e : (l - l + 1).toNat = 1 := by simp
  unfold slice
  rw [e, List.take_one_drop_eq_of_lt_length hlt, List.getD_eq_getElem _ _ hlt]
  simp

theorem slice_split (a : List Int) (l m r : Int) (h0 : 0 ≤ l) (h1 : l ≤ m) (h2 : m < r) :
    slice a l r = slice a l m ++ slice a (m + 1) r := by
  have e1 : (r - l + 1).toNat = (m - l + 1).toNat + (r - (m + 1) + 1).toNat := by omega
  have e2 : (m + 1).toNat = l.toNat + (m - l + 1).toNat := by omega
  unfold slice
  rw [e1, List.take_add, List.drop_drop, e2]

theorem word64_slice {a : List Int} (h : Word64 a) (l r : Int) : Word64 (slice a l r) :=
  fun v hv => h v (List.mem_of_mem_drop (List.mem_of_mem_take hv))

theorem built_exact {a : List Int} (hw : Word64 a) {st : List Node} {p : Nat} {l r : Int}
    (h : Built a st p l r) (h0 : 0 ≤ l) (h1 : r < a.length) :
    Exact (nd st p) (slice a l r) ∧ (nd st p).add = 0 := by
  induction h with
  | leaf p l hn =>
    rw [hn, slice_single a l h0 h1]
    exact ⟨exact_make_node _, rfl⟩
  | node p l r hlr _ _ hn ih1 ih2 =>
    rw [hn, slice_split a l ((l + r) / 2) r h0 (by omega) (by omega)]
    exact exact_merge _ _ _ _ (word64_slice hw _ _) (word64_slice hw _ _)
      (ih1 h0 (by omega)).1 (ih2 (by omega) h1).1

theorem built_owns {a : List Int} {st : List Node} {p q : Nat} {l r x y : Int}
    (ho : Owns p l r q x y) : Built a st p l r → Built a st q x y ∧ l ≤ x ∧ y ≤ r := by
  induction ho with
  | self p l r => exact fun h => ⟨h, le_refl _, le_refl _⟩
  | left p l r q x y hlr _ ih =>
    intro h
    cases h with
    | leaf _ _ _ => omega
    | node _ _ _ _ b1 _ _ =>
      obtain ⟨c, c1, c2⟩ := ih b1
      exact ⟨c, c1, by omega⟩
  | right p l r q x y hlr _ ih =>
    intro h
    cases h with
    | leaf _ _ _ => omega
    | node _ _ _ _ _ b2 _ =>
      obtain ⟨c, c1, c2⟩ := ih b2
      exact ⟨c, by omega, c2⟩

theorem below_max_le_smax2 {M : List Int} {v : Int} (hv : v ∈ M) (h : v < statMax1 M) :
    v ≤ statSmax2 M := by
  rw [statSmax2_eq]
  exact le_statMax1 (List.mem_filter.mpr ⟨hv, by simpa using h⟩)

theorem above_min_ge_smin2 {M : List Int} {v : Int} (hv : v ∈ M) (h : statMin1 M < v) :
    statSmin2 M ≤ v := by
  rw [statSmin2_eq]
  exact statMin1_le (List.mem_filter.mpr ⟨hv, by simpa using h⟩)

theorem clamp_sum (m x : Int) : ∀ M : List Int, (∀ v ∈ M, v = m ∨ v < x) → x < m →
    (M.map (fun v => min v x)).sum = M.sum - (m - x) * (M.count m : Int)
  | [], _, _ => by simp
  | v :: vs, h, hx => by
    have ih := clamp_sum m x vs (fun w hw => h w (List.mem_cons_of_mem _ hw)) hx
    rcases h v (List.mem_cons_self _ _) with e | e
    · subst e
      rw [List.map_cons, List.sum_cons, ih, List.sum_cons, List.count_cons_self,
        show min v x = x by omega]
      push_cast
      ring
    · rw [List.map_cons, List.sum_cons, ih, List.sum_cons,
        List.count_cons_of_ne (by omega), show min v x = v by omega]
      ring

theorem statMax1_map_add {M : List Int} (hM : M ≠ []) (d : Int) :
    statMax1 (M.map (fun v => v + d)) = statMax1 M + d := by
  obtain ⟨a, b⟩ := statMax1_spec M hM
  refine statMax1_unique (List.mem_map.mpr ⟨_, a, rfl⟩) (fun w hw => ?_)
  obtain ⟨v, hv, rfl⟩ := List.mem_map.mp hw
  have := b v hv
  omega

theorem statMin1_map_add {M : List Int} (hM : M ≠ []) (d : Int) :
    statMin1 (M.map (fun v => v + d)) = statMin1 M + d := by
  obtain ⟨a, b⟩ := statMin1_spec M hM
  refine statMin1_unique (List.mem_map.mpr ⟨_, a, rfl⟩) (fun w hw => ?_)
  obtain ⟨v, hv, rfl⟩ := List.mem_map.mp hw
  have := b v hv
  omega

theorem filterBelow_map_add (m d : Int) : ∀ M : List Int,
    (M.map (fun v => v + d)).filter (fun e => e < m + d) =
      (M.filter (fun e => e < m)).map (fun v => v + d)
  | [] => rfl
  | v :: vs => by
    have ih := filterBelow_map_add m d vs
    by_cases c : v < m
    · have c2 : v + d < m + d := by omega
      simp only [List.map_cons, List.filter_cons, c, c2, decide_True, if_true, ih]
    · have c2 : ¬ v + d < m + d := by omega
      simp only [List.map_cons, List.filter_cons, c, c2, decide_False, ih]
      rfl

theorem filterAbove_map_add (m d : Int) : ∀ M : List Int,
    (M.map (fun v => v + d)).filter (fun e => m + d < e) =
      (M.filter (fun e => m < e)).map (fun v => v + d)
  | [] => rfl
  | v :: vs => by
    have ih := filterAbove_map_add m d vs
    by_cases c : m < v
    · have c2 : m + d < v + d := by omega
      simp only [List.map_cons, List.filter_cons, c, c2, decide_True, if_true, ih]
    · have c2 : ¬ m + d < v + d := by omega
      simp only [List.map_cons, List.filter_cons, c, c2, decide_False, ih]
      rfl

theorem count_map_add (m d : Int) (M : List Int) :
    (M.map (fun v => v + d)).count (m + d) = M.count m :=
  List.count_map_of_injective M (fun v => v + d) (fun a b h => by simpa using h) m

theorem sum_map_add (d : Int) : ∀ M : List Int,
    (M.map (fun v => v + d)).sum = M.sum + d * (M.length : Int)
  | [] => by simp
  | v :: vs => by
    rw [List.map_cons, List.sum_cons, sum_map_add d vs, List.sum_cons, List.length_cons]
    push_cast
    ring

theorem statSmax2_map_add {M : List Int} (hM : M ≠ []) (hs : ∀ v ∈ M, v ≠ LLONG_MIN) (d : Int) :
    statSmax2 (M.map (fun v => v + d)) =
      (if statSmax2 M ≠ LLONG_MIN then statSmax2 M + d else statSmax2 M) := by
  rw [statSmax2_eq, statSmax2_eq, statMax1_map_add hM, filterBelow_map_add]
  by_cases c : M.filter (fun e => e < statMax1 M) = []
  · rw [c]
    simp [statMax1_nil]
  · have hm := (statMax1_spec _ c).1
    have := hs _ (List.mem_of_mem_filter hm)
    rw [statMax1_map_add c, if_pos this]

theorem statSmin2_map_add {M : List Int} (hM : M ≠ []) (hs : ∀ v ∈ M, v ≠ LLONG_MAX) (d : Int) :
    statSmin2 (M.map (fun v => v + d)) =
      (if statSmin2 M ≠ LLONG_MAX then statSmin2 M + d else statSmin2 M) := by
  rw [statSmin2_eq, statSmin2_eq, statMin1_map_add hM, filterAbove_map_add]
  by_cases c : M.filter (fun e => statMin1 M < e) = []
  · rw [c]
    simp [statMin1_nil]
  · have hm := (statMin1_spec _ c).1
    have := hs _ (List.mem_of_mem_filter hm)
    rw [statMin1_map_add c, if_pos this]

theorem apply_add_seconds (c : Node) (A len : Int) :
    (c.apply_add A len).smax2 = (if c.smax2 ≠ LLONG_MIN then c.smax2 + A else c.smax2) ∧
    (c.apply_add A len).smin2 = (if c.smin2 ≠ LLONG_MAX then c.smin2 + A else c.smin2) := by
  by_cases h1 : c.smax2 = LLONG_MIN <;> by_cases h2 : c.smin2 = LLONG_MAX <;>
    simp [Node.apply_add, h1, h2]

theorem specNegS_invol (v : Int) (h0 : LLONG_MIN ≤ v) (h1 : v ≤ LLONG_MAX)
    (h2 : v ≠ LLONG_MIN + 1) : specNegS (specNegS v) = v := by
  unfold specNegS
  unfold LLONG_MIN LLONG_MAX at *
  split_ifs <;> first | omega | contradiction

theorem node_ext {a b : Node} (h1 : a.sum = b.sum) (h2 : a.add = b.add) (h3 : a.max1 = b.max1)
    (h4 : a.smax2 = b.smax2) (h5 : a.cnt_max = b.cnt_max) (h6 : a.min1 = b.min1)
    (h7 : a.smin2 = b.smin2) (h8 : a.cnt_min = b.cnt_min) : a = b := by
  cases a
  cases b
  simp only at h1 h2 h3 h4 h5 h6 h7 h8
  subst h1 h2 h3 h4 h5 h6 h7 h8
  rfl

theorem merge_smax2 (L R : Node) : (merge L R).smax2 =
    if L.max1 > R.max1 then max L.smax2 R.max1
    else if L.max1 < R.max1 then max R.smax2 L.max1 else max L.smax2 R.smax2 := by
  unfold merge
  split_ifs <;> rfl

theorem merge_cnt_max (L R : Node) : (merge L R).cnt_max =
    if L.max1 > R.max1 then L.cnt_max
    else if L.max1 < R.max1 then R.cnt_max else L.cnt_max + R.cnt_max := by
  unfold merge
  split_ifs <;> rfl

theorem merge_smin2 (L R : Node) : (merge L R).smin2 =
    if L.min1 < R.min1 then min L.smin2 R.min1
    else if L.min1 > R.min1 then min R.smin2 L.min1 else min L.smin2 R.smin2 := by
  unfold merge
  split_ifs <;> rfl

theorem merge_cnt_min (L R : Node) : (merge L R).cnt_min =
    if L.min1 < R.min1 then L.cnt_min
    else if L.min1 > R.min1 then R.cnt_min else L.cnt_min + R.cnt_min := by
  unfold merge
  split_ifs <;> rfl

theorem merge_comm (L R : Node) : merge L R = merge R L := by
  apply node_ext
  · rw [merge_sum, merge_sum]; omega
  · rw [merge_add, merge_add]
  · rw [merge_max1, merge_max1]; omega
  · rw [merge_smax2, merge_smax2]; split_ifs <;> omega
  · rw [merge_cnt_max, merge_cnt_max]; split_ifs <;> omega
  · rw [merge_min1, merge_min1]; omega
  · rw [merge_smin2, merge_smin2]; split_ifs <;> omega
  · rw [merge_cnt_min, merge_cnt_min]; split_ifs <;> omega

theorem smax2_assoc (a b c sa sb sc : Int) :
    (if max a b > c then
        max (if a > b then max sa b else if a < b then max sb a else max sa sb) c
      else if max a b < c then max sc (max a b)
      else max (if a > b then max sa b else if a < b then max sb a else max sa sb) sc) =
    (if a > max b c then max sa (max b c)
      else if a < max b c then
        max (if b > c then max sb c else if b < c then max sc b else max sb sc) a
      else max sa (if b > c then max sb c else if b < c then max sc b else max sb sc)) := by
  rcases lt_trichotomy a b with h1 | h1 | h1 <;> rcases lt_trichotomy b c with h2 | h2 | h2 <;>
    rcases lt_trichotomy a c with h3 | h3 | h3 <;> omega

theorem cnt_max_assoc (a b c ca cb cc : Int) :
    (if max a b > c then (if a > b then ca else if a < b then cb else ca + cb)
      else if max a b < c then cc
      else (if a > b then ca else if a < b then cb else ca + cb) + cc) =
    (if a > max b c then ca
      else if a < max b c then (if b > c then cb else if b < c then cc else cb + cc)
      else ca + (if b > c then cb else if b < c then cc else cb + cc)) := by
  rcases lt_trichotomy a b with h1 | h1 | h1 <;> rcases lt_trichotomy b c with h2 | h2 | h2 <;>
    rcases lt_trichotomy a c with h3 | h3 | h3 <;> omega

theorem smin2_assoc (a b c sa sb sc : Int) :
    (if min a b < c then
        min (if a < b then min sa b else if a > b then min sb a else min sa sb) c
      else if min a b > c then min sc (min a b)
      else min (if a < b then min sa b else if a > b then min sb a else min sa sb) sc) =
    (if a < min b c then min sa (min b c)
      else if a > min b c then
        min (if b < c then min sb c else if b > c then min sc b else min sb sc) a
      else min sa (if b < c then min sb c else if b > c then min sc b else min sb sc)) := by
  rcases lt_trichotomy a b with h1 | h1 | h1 <;> rcases lt_trichotomy b c with h2 | h2 | h2 <;>
    rcases lt_trichotomy a c with h3 | h3 | h3 <;> omega

theorem cnt_min_assoc (a b c ca cb cc : Int) :
    (if min a b < c then (if a < b then ca else if a > b then cb else ca + cb)
      else if min a b > c then cc
      else (if a < b then ca else if a > b then cb else ca + cb) + cc) =
    (if a < min b c then ca
      else if a > min b c then (if b < c then cb else if b > c then cc else cb + cc)
      else ca + (if b < c then cb else if b > c then cc else cb + cc)) := by
  rcases lt_trichotomy a b with h1 | h1 | h1 <;> rcases lt_trichotomy b c with h2 | h2 | h2 <;>
    rcases lt_trichotomy a c with h3 | h3 | h3 <;> omega

theorem merge_assoc (A B C : Node) : merge (merge A B) C = merge A (merge B C) := by
  apply node_ext
  · simp only [merge_sum]; omega
  · simp only [merge_add]
  · simp only [merge_max1]; omega
  · simp only [merge_smax2, merge_max1]; exact smax2_assoc _ _ _ _ _ _
  · simp only [merge_cnt_max, merge_max1]; exact cnt_max_assoc _ _ _ _ _ _
  · simp only [merge_min1]; omega
  · simp only [merge_smin2, merge_min1]; exact smin2_assoc _ _ _ _ _ _
  · simp only [merge_cnt_min, merge_min1]; exact cnt_min_assoc _ _ _ _ _ _

theorem specNegS_min (a b : Int) :
    specNegS (min a b) = max (specNegS a) (specNegS b) := by
  unfold specNegS LLONG_MIN LLONG_MAX
  split_ifs <;> omega

theorem specNegS_max (a b : Int) :
    specNegS (max a b) = min (specNegS a) (specNegS b) := by
  unfold specNegS LLONG_MIN LLONG_MAX
  split_ifs <;> omega

theorem specNegS_plain {b : Int} (h1 : b ≠ LLONG_MIN) (h2 : b ≠ LLONG_MAX) :
    specNegS b = -b := by
  unfold specNegS
  rw [if_neg h2, if_neg h1]

theorem shape_owns {N : Nat} {p q : Nat} {l r x y : Int} (ho : Owns p l r q x y) :
    Shape N p l r → Shape N q x y := by
  induction ho with
  | self p l r => exact fun h => h
  | left p l r q x y hlr _ ih =>
    intro h
    cases h with
    | leaf _ _ _ _ => omega
    | node _ _ _ _ _ _ s1 _ => exact ih s1
  | right p l r q x y hlr _ ih =>
    intro h
    cases h with
    | leaf _ _ _ _ => omega
    | node _ _ _ _ _ _ _ s2 => exact ih s2

theorem reachableAny_mono {good good' : Op → Prop} (h : ∀ op, good op → good' op)
    {t : SegTreeBeats} (ht : ReachableAny good t) : ReachableAny good' t := by
  induction ht with
  | build a t ha e => exact ReachableAny.build a t ha e
  | step t op o t' _ hg e ih => exact ReachableAny.step t op o t' ih (h op hg) e

theorem reachableAny_gen {t : SegTreeBeats} (h : ReachableAny Op.word64 t) :
    ∃ n : Nat, 1 ≤ n ∧ t.n = n ∧ t.st.length = 4 * n + 4 ∧
      Leaves LeafGen t.st 1 0 ((n : Int) - 1) ∧ LeafKids t.st 1 0 ((n : Int) - 1) := by
  induction h with
  | build a t ha e =>
    obtain ⟨st, e', hl, hb⟩ := build_spec ha
    rw [e'] at e
    cases e
    have hn : 1 ≤ a.length := by
      cases a with
      | nil => exact absurd rfl ha
      | cons x xs => simp
    refine ⟨a.length, hn, rfl, hl, leaves_mono (fun _ h => Or.inl h) (built_leaves hb), ?_⟩
    unfold build at e'
    simp only [] at e'
    obtain ⟨s, e1, u⟩ := bind_inv e'
    cases u
    exact (build_go_kids (shape_root hn) _ _ _ (init_length _) (fun i _ => init_nd _ i) e1).2.2
  | step t op o t' _ hg e ih =>
    obtain ⟨n, h1, h2, h3, h4, h5⟩ := ih
    obtain ⟨tn, st⟩ := t
    simp only at h2 h3 h4 h5
    subst h2
    have hs := shape_root h1
    cases op with
    | add L R v =>
      obtain ⟨s, e1, l1, -, g1, -⟩ := range_add_go_spec LeafGen leafGen_pushChild
        leafGen_apply_add L R v hs st.length st (by omega) h3 h4
      have d1 := (range_add_go_kids L R v hs _ _ _ h3 h5 e1).2.2
      simp only [step, range_add] at e
      rw [e1] at e
      cases e
      exact ⟨n, h1, rfl, l1, g1, d1⟩
    | chmin L R x =>
      simp only [step, range_chmin] at e
      obtain ⟨t1, e1, u⟩ := bind_inv e
      obtain ⟨s, e2, u2⟩ := bind_inv e1
      cases u
      cases u2
      obtain ⟨l1, -, g1, d1⟩ := range_chmin_go_gen L R x hg.1 hs _ _ _ h3 h4 h5 e2
      exact ⟨n, h1, rfl, l1, g1, d1⟩
    | chmax L R x =>
      simp only [step, range_chmax] at e
      obtain ⟨t1, e1, u⟩ := bind_inv e
      obtain ⟨s, e2, u2⟩ := bind_inv e1
      cases u
      cases u2
      obtain ⟨l1, -, g1, d1⟩ := range_chmax_go_gen L R x hg.2 hs _ _ _ h3 h4 h5 e2
      exact ⟨n, h1, rfl, l1, g1, d1⟩
    | sum L R =>
      obtain ⟨a, s, e1, l1, -, g1⟩ := range_sum_go_leaves LeafGen leafGen_pushChild L R hs
        st.length st (by omega) h3 h4
      have d1 := (range_sum_go_kids L R hs _ _ _ h3 h5 e1).2.2
      simp only [step, range_sum] at e
      rw [e1] at e
      cases e
      exact ⟨n, h1, rfl, l1, g1, d1⟩

theorem not_under_one_zero : ¬ Under 1 0 := by
  rintro ⟨k, hk⟩
  simp at hk

theorem rd_err {st : List Node} {p : Nat} (h : ¬ p < st.length) :
    rd st p = .error .outOfBounds := by
  simp [rd, List.getElem?_eq_none (not_lt.mp h)]

theorem range_add_go_clamp (n L R v : Int) : ∀ (fuel : Nat) (st : List Node) (p : Nat)
    (l r : Int), 0 ≤ l → l ≤ r → r ≤ n - 1 →
    range_add_go fuel st p l r L R v =
      range_add_go fuel st p l r (max L 0) (min R (n - 1)) v := by
  intro fuel
  induction fuel with
  | zero => intro st p l r _ _ _; rfl
  | succ f ih =>
    intro st p l r h0 h1 h2
    have g1 : (R < l ∨ r < L) ↔ (min R (n - 1) < l ∨ r < max L 0) := by omega
    have g2 : (L ≤ l ∧ r ≤ R) ↔ (max L 0 ≤ l ∧ r ≤ min R (n - 1)) := by omega
    unfold range_add_go
    by_cases d : R < l ∨ r < L
    · rw [if_pos d, if_pos (g1.mp d)]
    · rw [if_neg d, if_neg (mt g1.mpr d)]
      by_cases c : L ≤ l ∧ r ≤ R
      · rw [if_pos c, if_pos (g2.mp c)]
      · rw [if_neg c, if_neg (mt g2.mpr c)]
        have hlr : l < r := by omega
        simp only [ih _ (2 * p) l ((l + r) / 2) h0 (by omega) (by omega),
          ih _ (2 * p + 1) ((l + r) / 2 + 1) r (by omega) (by omega) h2]

theorem range_sum_go_clamp (n L R : Int) : ∀ (fuel : Nat) (st : List Node) (p : Nat)
    (l r : Int), 0 ≤ l → l ≤ r → r ≤ n - 1 →
    range_sum_go fuel st p l r L R =
      range_sum_go fuel st p l r (max L 0) (min R (n - 1)) := by
  intro fuel
  induction fuel with
  | zero => intro st p l r _ _ _; rfl
  | succ f ih =>
    intro st p l r h0 h1 h2
    have g1 : (R < l ∨ r < L) ↔ (min R (n - 1) < l ∨ r < max L 0) := by omega
    have g2 : (L ≤ l ∧ r ≤ R) ↔ (max L 0 ≤ l ∧ r ≤ min R (n - 1)) := by omega
    unfold range_sum_go
    by_cases d : R < l ∨ r < L
    · rw [if_pos d, if_pos (g1.mp d)]
    · rw [if_neg d, if_neg (mt g1.mpr d)]
      by_cases c : L ≤ l ∧ r ≤ R
      · rw [if_pos c, if_pos (g2.mp c)]
      · rw [if_neg c, if_neg (mt g2.mpr c)]
        have hlr : l < r := by omega
        simp only [ih _ (2 * p) l ((l + r) / 2) h0 (by omega) (by omega),
          ih _ (2 * p + 1) ((l + r) / 2 + 1) r (by omega) (by omega) h2]

theorem range_chmin_go_unused {st : List Node} {q : Nat} (hq : nd st q = {})
    (hb : q < st.length) {x : Int} (hx : LLONG_MIN ≤ x) (k : Nat) (a b L R : Int) :
    range_chmin_go (k + 1) st q a b L R x = .ok st := by
  unfold range_chmin_go
  by_cases d : R < a ∨ b < L
  · rw [if_pos d]
  · rw [if_neg d, rd_ok hb, bind_ok, hq, if_pos (show x ≥ ({} : Node).max1 from hx)]
    rfl

theorem range_chmin_go_oob {st : List Node} {q : Nat} (hb : ¬ q < st.length) {x : Int}
    (k : Nat) {a b L R : Int} (d : ¬ (R < a ∨ b < L)) :
    range_chmin_go (k + 1) st q a b L R x = .error .outOfBounds := by
  unfold range_chmin_go
  rw [if_neg d, rd_err hb]
  rfl

theorem range_chmax_go_unused {st : List Node} {q : Nat} (hq : nd st q = {})
    (hb : q < st.length) {x : Int} (hx : x ≤ LLONG_MAX) (k : Nat) (a b L R : Int) :
    range_chmax_go (k + 1) st q a b L R x = .ok st := by
  unfold range_chmax_go
  by_cases d : R < a ∨ b < L
  · rw [if_pos d]
  · rw [if_neg d, rd_ok hb, bind_ok, hq, if_pos (show x ≤ ({} : Node).min1 from hx)]
    rfl

theorem range_chmax_go_oob {st : List Node} {q : Nat} (hb : ¬ q < st.length) {x : Int}
    (k : Nat) {a b L R : Int} (d : ¬ (R < a ∨ b < L)) :
    range_chmax_go (k + 1) st q a b L R x = .error .outOfBounds := by
  unfold range_chmax_go
  rw [if_neg d, rd_err hb]
  rfl

theorem range_chmin_go_clamp {N : Nat} (hN2 : N % 2 = 0) (n L R x : Int) (hx : LLONG_MIN ≤ x)
    {p : Nat} {l r : Int} (hs : Shape N p l r) :
    ∀ (fuel : Nat) (st : List Node), st.length = N → 0 ≤ l → r ≤ n - 1 →
      Leaves LeafGen st p l r → LeafKids st p l r →
      range_chmin_go fuel st p l r L R x =
        range_chmin_go fuel st p l r (max L 0) (min R (n - 1)) x := by
  induction hs with
  | leaf p l hp hN =>
    intro fuel st hl h0 h1 hq hk
    cases fuel with
    | zero => rfl
    | succ f =>
      obtain ⟨k1, k2⟩ := leafKids_leaf_inv hk rfl
      have g1 : (R < l ∨ l < L) ↔ (min R (n - 1) < l ∨ l < max L 0) := by omega
      have g2 : ∀ c : Prop, (L ≤ l ∧ l ≤ R ∧ c) ↔ (max L 0 ≤ l ∧ l ≤ min R (n - 1) ∧ c) := by
        intro c
        constructor
        · rintro ⟨a, b, c⟩
          exact ⟨by omega, by omega, c⟩
        · rintro ⟨a, b, c⟩
          exact ⟨by omega, by omega, c⟩
      unfold range_chmin_go
      by_cases d : R < l ∨ l < L
      · rw [if_pos d, if_pos (g1.mp d)]
      · rw [if_neg d, if_neg (mt g1.mpr d)]
        simp only [rd_ok (show p < st.length by omega), bind_ok]
        by_cases c1 : x ≥ (nd st p).max1
        · rw [if_pos c1, if_pos c1]
        · rw [if_neg c1, if_neg c1]
          by_cases c2 : L ≤ l ∧ l ≤ R ∧ x > (nd st p).smax2
          · rw [if_pos c2, if_pos ((g2 _).mp c2)]
          · rw [if_neg c2, if_neg (mt (g2 _).mpr c2)]
            have hpush : push st p l l = .ok st := by
              unfold push
              rw [if_pos rfl]
            have hm : (l + l) / 2 = l := by omega
            simp only [hpush, bind_ok, hm]
            cases f with
            | zero => rfl
            | succ k =>
              by_cases hb2 : 2 * p < st.length
              · have hb3 : 2 * p + 1 < st.length := by omega
                simp only [range_chmin_go_unused k1 hb2 hx, range_chmin_go_unused k2 hb3 hx,
                  bind_ok]
              · rw [range_chmin_go_oob hb2 k (show ¬ (R < l ∨ l < L) from d),
                  range_chmin_go_oob hb2 k
                    (show ¬ (min R (n - 1) < l ∨ l < max L 0) from mt g1.mpr d)]
                rfl
  | node p l r hp hN hlr hs1 hs2 ih1 ih2 =>
    intro fuel st hl h0 h1 hq hk
    cases fuel with
    | zero => rfl
    | succ f =>
      have hb : 2 * p + 1 < st.length := by omega
      obtain ⟨q1, q2⟩ := leaves_node_inv hq hlr
      have g1 : (R < l ∨ r < L) ↔ (min R (n - 1) < l ∨ r < max L 0) := by omega
      have g2 : ∀ c : Prop, (L ≤ l ∧ r ≤ R ∧ c) ↔ (max L 0 ≤ l ∧ r ≤ min R (n - 1) ∧ c) := by
        intro c
        constructor
        · rintro ⟨a, b, c⟩
          exact ⟨by omega, by omega, c⟩
        · rintro ⟨a, b, c⟩
          exact ⟨by omega, by omega, c⟩
      unfold range_chmin_go
      by_cases d : R < l ∨ r < L
      · rw [if_pos d, if_pos (g1.mp d)]
      · rw [if_neg d, if_neg (mt g1.mpr d)]
        simp only [rd_ok (show p < st.length by omega), bind_ok]
        by_cases c1 : x ≥ (nd st p).max1
        · rw [if_pos c1, if_pos c1]
        · rw [if_neg c1, if_neg c1]
          by_cases c2 : L ≤ l ∧ r ≤ R ∧ x > (nd st p).smax2
          · rw [if_pos c2, if_pos ((g2 _).mp c2)]
          · rw [if_neg c2, if_neg (mt (g2 _).mpr c2)]
            simp only [push_eq hp hb (ne_of_lt hlr), bind_ok]
            obtain ⟨p1, p2⟩ := leaves_pushed leafGen_pushChild hp hb hlr q1 q2
            obtain ⟨d1, d2⟩ := leafKids_pushed hp hlr hk
            have l1 : (pushed st p l r).length = N := by rw [pushed_length]; exact hl
            rw [ih1 f (pushed st p l r) l1 h0 (by omega) p1 d1]
            cases e2 : range_chmin_go f (pushed st p l r) (2 * p) l ((l + r) / 2)
                (max L 0) (min R (n - 1)) x with
            | error e => rfl
            | ok s2 =>
              obtain ⟨l2, f2, -, -⟩ := range_chmin_go_gen (max L 0) (min R (n - 1)) x hx hs1
                f _ _ l1 p1 d1 e2
              have p2' : Leaves LeafGen s2 (2 * p + 1) ((l + r) / 2 + 1) r :=
                leaves_frame p2 fun i hi => f2 i fun h => under_disjoint hp h hi
              have d2' : LeafKids s2 (2 * p + 1) ((l + r) / 2 + 1) r :=
                leafKids_frame d2 fun i hi => f2 i fun h => by
                  rcases hi with hi | hi
                  · exact under_disjoint hp h (under_left hi)
                  · exact under_disjoint hp h (under_right hi)
              simp only [bind_ok]
              rw [ih2 f s2 l2 (by omega) h1 p2' d2']

theorem range_chmax_go_clamp {N : Nat} (hN2 : N % 2 = 0) (n L R x : Int) (hx : x ≤ LLONG_MAX)
    {p : Nat} {l r : Int} (hs : Shape N p l r) :
    ∀ (fuel : Nat) (st : List Node), st.length = N → 0 ≤ l → r ≤ n - 1 →
      Leaves LeafGen st p l r → LeafKids st p l r →
      range_chmax_go fuel st p l r L R x =
        range_chmax_go fuel st p l r (max L 0) (min R (n - 1)) x := by
  induction hs with
  | leaf p l hp hN =>
    intro fuel st hl h0 h1 hq hk
    cases fuel with
    | zero => rfl
    | succ f =>
      obtain ⟨k1, k2⟩ := leafKids_leaf_inv hk rfl
      have g1 : (R < l ∨ l < L) ↔ (min R (n - 1) < l ∨ l < max L 0) := by omega
      have g2 : ∀ c : Prop, (L ≤ l ∧ l ≤ R ∧ c) ↔ (max L 0 ≤ l ∧ l ≤ min R (n - 1) ∧ c) := by
        intro c
        constructor
        · rintro ⟨a, b, c⟩
          exact ⟨by omega, by omega, c⟩
        · rintro ⟨a, b, c⟩
          exact ⟨by omega, by omega, c⟩
      unfold range_chmax_go
      by_cases d : R < l ∨ l < L
      · rw [if_pos d, if_pos (g1.mp d)]
      · rw [if_neg d, if_neg (mt g1.mpr d)]
        simp only [rd_ok (show p < st.length by omega), bind_ok]
        by_cases c1 : x ≤ (nd st p).min1
        · rw [if_pos c1, if_pos c1]
        · rw [if_neg c1, if_neg c1]
          by_cases c2 : L ≤ l ∧ l ≤ R ∧ x < (nd st p).smin2
          · rw [if_pos c2, if_pos ((g2 _).mp c2)]
          · rw [if_neg c2, if_neg (mt (g2 _).mpr c2)]
            have hpush : push st p l l = .ok st := by
              unfold push
              rw [if_pos rfl]
            have hm : (l + l) / 2 = l := by omega
            simp only [hpush, bind_ok, hm]
            cases f with
            | zero => rfl
            | succ k =>
              by_cases hb2 : 2 * p < st.length
              · have hb3 : 2 * p + 1 < st.length := by omega
                simp only [range_chmax_go_unused k1 hb2 hx, range_chmax_go_unused k2 hb3 hx,
                  bind_ok]
              · rw [range_chmax_go_oob hb2 k (show ¬ (R < l ∨ l < L) from d),
                  range_chmax_go_oob hb2 k
                    (show ¬ (min R (n - 1) < l ∨ l < max L 0) from mt g1.mpr d)]
                rfl
  | node p l r hp hN hlr hs1 hs2 ih1 ih2 =>
    intro fuel st hl h0 h1 hq hk
    cases fuel with
    | zero => rfl
    | succ f =>
      have hb : 2 * p + 1 < st.length := by omega
      obtain ⟨q1, q2⟩ := leaves_node_inv hq hlr
      have g1 : (R < l ∨ r < L) ↔ (min R (n - 1) < l ∨ r < max L 0) := by omega
      have g2 : ∀ c : Prop, (L ≤ l ∧ r ≤ R ∧ c) ↔ (max L 0 ≤ l ∧ r ≤ min R (n - 1) ∧ c) := by
        intro c
        constructor
        · rintro ⟨a, b, c⟩
          exact ⟨by omega, by omega, c⟩
        · rintro ⟨a, b, c⟩
          exact ⟨by omega, by omega, c⟩
      unfold range_chmax_go
      by_cases d : R < l ∨ r < L
      · rw [if_pos d, if_pos (g1.mp d)]
      · rw [if_neg d, if_neg (mt g1.mpr d)]
        simp only [rd_ok (show p < st.length by omega), bind_ok]
        by_cases c1 : x ≤ (nd st p).min1
        · rw [if_pos c1, if_pos c1]
        · rw [if_neg c1, if_neg c1]
          by_cases c2 : L ≤ l ∧ r ≤ R ∧ x < (nd st p).smin2
          · rw [if_pos c2, if_pos ((g2 _).mp c2)]
          · rw [if_neg c2, if_neg (mt (g2 _).mpr c2)]
            simp only [push_eq hp hb (ne_of_lt hlr), bind_ok]
            obtain ⟨p1, p2⟩ := leaves_pushed leafGen_pushChild hp hb hlr q1 q2
            obtain ⟨d1, d2⟩ := leafKids_pushed hp hlr hk
            have l1 : (pushed st p l r).length = N := by rw [pushed_length]; exact hl
            rw [ih1 f (pushed st p l r) l1 h0 (by omega) p1 d1]
            cases e2 : range_chmax_go f (pushed st p l r) (2 * p) l ((l + r) / 2)
                (max L 0) (min R (n - 1)) x with
            | error e => rfl
            | ok s2 =>
              obtain ⟨l2, f2, -, -⟩ := range_chmax_go_gen (max L 0) (min R (n - 1)) x hx hs1
                f _ _ l1 p1 d1 e2
              have p2' : Leaves LeafGen s2 (2 * p + 1) ((l + r) / 2 + 1) r :=
                leaves_frame p2 fun i hi => f2 i fun h => under_disjoint hp h hi
              have d2' : LeafKids s2 (2 * p + 1) ((l + r) / 2 + 1) r :=
                leafKids_frame d2 fun i hi => f2 i fun h => by
                  rcases hi with hi | hi
                  · exact under_disjoint hp h (under_left hi)
                  · exact under_disjoint hp h (under_right hi)
              simp only [bind_ok]
              rw [ih2 f s2 l2 (by omega) h1 p2' d2']

theorem sim_frame {sb sb' : List Node} {sc sc' : List ChminSum.Node} {p : Nat} {l r : Int}
    (h : Sim sb sc p l r) (hb : ∀ i, Under p i → nd sb' i = nd sb i)
    (hc : ∀ i, Under p i → vnd sc' i = vnd sc i) : Sim sb' sc' p l r := by
  induction h with
  | leaf p l h1 h2 h3 =>
    exact Sim.leaf p l (by rw [hb p (under_self p)]; exact h1)
      (by rw [hb p (under_self p), hc p (under_self p)]; exact h2)
      (by rw [hb p (under_self p)]; exact h3)
  | node p l r hlr _ _ h1 h2 k1 k2 ih1 ih2 =>
    refine Sim.node p l r hlr
      (ih1 (fun i hi => hb i (under_left hi)) (fun i hi => hc i (under_left hi)))
      (ih2 (fun i hi => hb i (under_right hi)) (fun i hi => hc i (under_right hi))) ?_ ?_ ?_ ?_
    · rw [hb p (under_self p)]; exact h1
    · rw [hb p (under_self p), hc p (under_self p)]; exact h2
    · rw [hb p (under_self p), hb _ (under_left (under_self _))]; exact k1
    · rw [hb p (under_self p), hb _ (under_right (under_self _))]; exact k2

theorem sim_root {sb : List Node} {sc : List ChminSum.Node} {p : Nat} {l r : Int}
    (h : Sim sb sc p l r) : NodeOK (nd sb p) ∧ vnd sc p = proj (nd sb p) := by
  cases h with
  | leaf _ _ h1 h2 _ => exact ⟨h1, h2⟩
  | node _ _ _ _ _ _ h1 h2 _ _ => exact ⟨h1, h2⟩

theorem sim_leaf_inv {sb : List Node} {sc : List ChminSum.Node} {p : Nat} {l r : Int}
    (h : Sim sb sc p l r) (e : l = r) : (nd sb p).smax2 = LLONG_MIN := by
  cases h with
  | leaf _ _ _ _ h3 => exact h3
  | node _ _ _ hlr _ _ _ _ _ _ => omega

theorem sim_node_inv {sb : List Node} {sc : List ChminSum.Node} {p : Nat} {l r : Int}
    (h : Sim sb sc p l r) (e : l < r) :
    Sim sb sc (2 * p) l ((l + r) / 2) ∧ Sim sb sc (2 * p + 1) ((l + r) / 2 + 1) r ∧
      LinkOK (nd sb p) (nd sb (2 * p)) ∧ LinkOK (nd sb p) (nd sb (2 * p + 1)) := by
  cases h with
  | leaf _ _ _ _ _ => omega
  | node _ _ _ _ s1 s2 _ _ k1 k2 => exact ⟨s1, s2, k1, k2⟩

theorem sim_set_root {sb sb' : List Node} {sc sc' : List ChminSum.Node} {p : Nat} {l r : Int}
    (h : Sim sb sc p l r)
    (hb : ∀ i, Under (2 * p) i ∨ Under (2 * p + 1) i → nd sb' i = nd sb i)
    (hc : ∀ i, Under (2 * p) i ∨ Under (2 * p + 1) i → vnd sc' i = vnd sc i)
    (h1 : NodeOK (nd sb' p)) (h2 : vnd sc' p = proj (nd sb' p))
    (h3 : (nd sb' p).smax2 = (nd sb p).smax2) (h4 : (nd sb' p).min1 ≤ (nd sb p).min1) :
    Sim sb' sc' p l r := by
  cases h with
  | leaf _ _ _ _ g3 => exact Sim.leaf p l h1 h2 (by rw [h3]; exact g3)
  | node _ _ _ hlr s1 s2 _ _ k1 k2 =>
    refine Sim.node p l r hlr
      (sim_frame s1 (fun i hi => hb i (Or.inl hi)) (fun i hi => hc i (Or.inl hi)))
      (sim_frame s2 (fun i hi => hb i (Or.inr hi)) (fun i hi => hc i (Or.inr hi))) h1 h2 ?_ ?_
    · rw [hb _ (Or.inl (under_self _))]
      exact ⟨le_trans h4 k1.1, by rw [h3]; exact k1.2⟩
    · rw [hb _ (Or.inr (under_self _))]
      exact ⟨le_trans h4 k2.1, by rw [h3]; exact k2.2⟩

theorem cs_node_ext {a b : ChminSum.Node} (h1 : a.sum = b.sum) (h2 : a.max1 = b.max1)
    (h3 : a.smax2 = b.smax2) (h4 : a.cnt_max = b.cnt_max) : a = b := by
  cases a
  cases b
  simp only at h1 h2 h3 h4
  subst h1 h2 h3 h4
  rfl

theorem add_zero_eta (N : Node) (h : N.add = 0) : { N with add := 0 } = N := by
  cases N
  simp only at h
  subst h
  rfl

theorem nodeOK_apply_chmin {N : Node} {x : Int} (h : NodeOK N) (h1 : N.smax2 ≤ x)
    (h2 : x < N.max1) :
    NodeOK (N.apply_chmin x) ∧ (N.apply_chmin x).smax2 = N.smax2 ∧
      (N.apply_chmin x).min1 ≤ N.min1 ∧
      (N.min1 ≤ (N.apply_chmin x).min1 ∨ (N.apply_chmin x).min1 = x) ∧
      proj (N.apply_chmin x) = ChminSum.capN x (proj N) := by
  obtain ⟨f1, f2, f3, f4, f5, -, f7, -⟩ := apply_chmin_fields N x
  obtain ⟨a1, a2, a3, a4⟩ := h
  refine ⟨⟨by rw [f2]; exact a1, ?_, by rw [f7, f3]; exact h1, ?_⟩, f7, ?_, ?_, ?_⟩
  · rw [f4, f3]
    split_ifs <;> omega
  · rw [f4, f3, f7]
    split_ifs <;> omega
  · rw [f4]
    split_ifs <;> omega
  · rw [f4]
    split_ifs <;> omega
  · apply cs_node_ext
    · show (N.apply_chmin x).sum = (ChminSum.capN x (proj N)).sum
      unfold ChminSum.capN
      rw [if_neg (show ¬ x ≥ (proj N).max1 from not_le.mpr h2), f1]
      rfl
    · show (N.apply_chmin x).max1 = (ChminSum.capN x (proj N)).max1
      unfold ChminSum.capN
      rw [if_neg (show ¬ x ≥ (proj N).max1 from not_le.mpr h2), f3]
    · show (N.apply_chmin x).smax2 = (ChminSum.capN x (proj N)).smax2
      unfold ChminSum.capN
      rw [if_neg (show ¬ x ≥ (proj N).max1 from not_le.mpr h2), f7]
      rfl
    · show (N.apply_chmin x).cnt_max = (ChminSum.capN x (proj N)).cnt_max
      unfold ChminSum.capN
      rw [if_neg (show ¬ x ≥ (proj N).max1 from not_le.mpr h2), f5]
      rfl

theorem pushChild_ok {P c : Node} (len : Int) (hP : NodeOK P) (hc : NodeOK c)
    (hk : LinkOK P c) :
    NodeOK (pushChild P c len) ∧ (pushChild P c len).smax2 = c.smax2 ∧
      (pushChild P c len).min1 ≤ c.min1 ∧ P.min1 ≤ (pushChild P c len).min1 ∧
      proj (pushChild P c len) = ChminSum.capN P.max1 (proj c) := by
  by_cases g : c.max1 > P.max1
  · obtain ⟨b1, b2, b3, b4, b5⟩ :=
      nodeOK_apply_chmin hc (show c.smax2 ≤ P.max1 from le_trans hk.2 hP.2.2.1) g
    have h3 : ¬ (c.apply_chmin P.max1).min1 < P.min1 := by
      have := hk.1
      have := hP.2.1
      omega
    have e : pushChild P c len = c.apply_chmin P.max1 := by
      simp only [pushChild, hP.1, ne_eq, not_true_eq_false, if_false, g, if_true]
      rw [if_neg h3]
    rw [e]
    exact ⟨b1, b2, b3, by omega, b5⟩
  · have e : pushChild P c len = c := pushChild_id len hP.1 (by omega) hk.1
    rw [e]
    exact ⟨hc, rfl, le_refl _, hk.1, (cs_capN_id (N := proj c) g).symm⟩

theorem nodeOK_merge {L R : Node} (hL : NodeOK L) (hR : NodeOK R) :
    NodeOK (merge L R) ∧ LinkOK (merge L R) L ∧ LinkOK (merge L R) R ∧
      proj (merge L R) = ChminSum.merge (proj L) (proj R) := by
  obtain ⟨a1, a2, a3, a4⟩ := hL
  obtain ⟨b1, b2, b3, b4⟩ := hR
  have m1 := merge_max1 L R
  have m2 := merge_min1 L R
  have m3 := merge_sum L R
  refine ⟨⟨merge_add L R, by omega, ?_, ?_⟩, ⟨by omega, ?_⟩, ⟨by omega, ?_⟩, ?_⟩
  · rcases merge_max_view L R with ⟨c, e, -⟩ | ⟨c, e, -⟩ | ⟨c, e, -⟩ <;> omega
  · rcases merge_max_view L R with ⟨c, e, -⟩ | ⟨c, e, -⟩ | ⟨c, e, -⟩ <;> omega
  · rcases merge_max_view L R with ⟨c, e, -⟩ | ⟨c, e, -⟩ | ⟨c, e, -⟩ <;> omega
  · rcases merge_max_view L R with ⟨c, e, -⟩ | ⟨c, e, -⟩ | ⟨c, e, -⟩ <;> omega
  · rcases merge_max_view L R with ⟨c, e, e'⟩ | ⟨c, e, e'⟩ | ⟨c, e, e'⟩
    · have z : ChminSum.merge (proj L) (proj R) =
          { sum := L.sum + R.sum, max1 := L.max1, cnt_max := L.cnt_max,
            smax2 := max L.smax2 R.max1 } := by
        unfold ChminSum.merge
        rw [if_pos (show (proj L).max1 > (proj R).max1 from c)]
        rfl
      rw [z]
      apply cs_node_ext
      · exact m3
      · show (merge L R).max1 = L.max1
        omega
      · exact e
      · exact e'
    · have z : ChminSum.merge (proj L) (proj R) =
          { sum := L.sum + R.sum, max1 := R.max1, cnt_max := R.cnt_max,
            smax2 := max R.smax2 L.max1 } := by
        unfold ChminSum.merge
        rw [if_neg (show ¬ (proj L).max1 > (proj R).max1 from by show ¬ L.max1 > R.max1; omega),
          if_pos (show (proj L).max1 < (proj R).max1 from c)]
        rfl
      rw [z]
      apply cs_node_ext
      · exact m3
      · show (merge L R).max1 = R.max1
        omega
      · exact e
      · exact e'
    · have z : ChminSum.merge (proj L) (proj R) =
          { sum := L.sum + R.sum, max1 := L.max1, cnt_max := L.cnt_max + R.cnt_max,
            smax2 := max L.smax2 R.smax2 } := by
        unfold ChminSum.merge
        rw [if_neg (show ¬ (proj L).max1 > (proj R).max1 from by show ¬ L.max1 > R.max1; omega),
          if_neg (show ¬ (proj L).max1 < (proj R).max1 from by show ¬ L.max1 < R.max1; omega)]
        rfl
      rw [z]
      apply cs_node_ext
      · exact m3
      · show (merge L R).max1 = L.max1
        omega
      · exact e
      · exact e'

theorem sim_pushed {sb : List Node} {sc : List ChminSum.Node} {p : Nat} {l r : Int}
    (hp : 1 ≤ p) (hB : 2 * p + 1 < sb.length) (hC : 2 * p + 1 < sc.length) (hlr : l < r)
    (h : Sim sb sc p l r) :
    Sim (pushed sb p l r) (ChminSum.pushed sc p) p l r ∧ nd (pushed sb p l r) p = nd sb p := by
  obtain ⟨hP, pe⟩ := sim_root h
  obtain ⟨s1, s2, k1, k2⟩ := sim_node_inv h hlr
  obtain ⟨hc1, pe1⟩ := sim_root s1
  obtain ⟨hc2, pe2⟩ := sim_root s2
  have er : nd (pushed sb p l r) p = nd sb p := by
    rw [nd_pushed_self l r hp hB]
    exact add_zero_eta _ hP.1
  have ec : vnd (ChminSum.pushed sc p) p = vnd sc p :=
    cs_pushed_other sc (by omega) (by omega)
  obtain ⟨a1, a2, a3, a4, a5⟩ := pushChild_ok ((l + r) / 2 - l + 1) hP hc1 k1
  obtain ⟨b1, b2, b3, b4, b5⟩ := pushChild_ok (r - (l + r) / 2) hP hc2 k2
  have el := nd_pushed_left l r hp hB
  have erx := nd_pushed_right l r hp hB
  have t1 : Sim (pushed sb p l r) (ChminSum.pushed sc p) (2 * p) l ((l + r) / 2) := by
    refine sim_set_root s1 (fun i hi => ?_) (fun i hi => ?_) ?_ ?_ ?_ ?_
    · have := under_child_ne hp (2 * p) (Or.inl rfl) hi
      exact nd_pushed_other sb l r this.1 this.2.1 this.2.2
    · have := under_child_ne hp (2 * p) (Or.inl rfl) hi
      exact cs_pushed_other sc this.2.1 this.2.2
    · rw [el]; exact a1
    · rw [el, cs_pushed_left hC, pe, pe1, a5]
      rfl
    · rw [el]; exact a2
    · rw [el]; exact a3
  have t2 : Sim (pushed sb p l r) (ChminSum.pushed sc p) (2 * p + 1) ((l + r) / 2 + 1) r := by
    refine sim_set_root s2 (fun i hi => ?_) (fun i hi => ?_) ?_ ?_ ?_ ?_
    · have := under_child_ne hp (2 * p + 1) (Or.inr rfl) hi
      exact nd_pushed_other sb l r this.1 this.2.1 this.2.2
    · have := under_child_ne hp (2 * p + 1) (Or.inr rfl) hi
      exact cs_pushed_other sc this.2.1 this.2.2
    · rw [erx]; exact b1
    · rw [erx, cs_pushed_right hC, pe, pe2, b5]
      rfl
    · rw [erx]; exact b2
    · rw [erx]; exact b3
  refine ⟨Sim.node p l r hlr t1 t2 (by rw [er]; exact hP) (by rw [er, ec]; exact pe) ?_ ?_, er⟩
  · rw [er, el]
    exact ⟨a4, by rw [a2]; exact k1.2⟩
  · rw [er, erx]
    exact ⟨b4, by rw [b2]; exact k2.2⟩

theorem sim_recombine {s2b s3b : List Node} {s2c s3c : List ChminSum.Node} {p : Nat}
    {l r : Int} (hp : 1 ≤ p) (hlr : l < r) (hB : 2 * p + 1 < s3b.length)
    (hC : 2 * p + 1 < s3c.length)
    (f3b : ∀ i, ¬ Under (2 * p + 1) i → nd s3b i = nd s2b i)
    (f3c : ∀ i, ¬ Under (2 * p + 1) i → vnd s3c i = vnd s2c i)
    (h1 : Sim s2b s2c (2 * p) l ((l + r) / 2))
    (h2 : Sim s3b s3c (2 * p + 1) ((l + r) / 2 + 1) r) :
    Sim (s3b.set p (merge (nd s3b (2 * p)) (nd s3b (2 * p + 1))))
      (s3c.set p (ChminSum.merge (vnd s3c (2 * p)) (vnd s3c (2 * p + 1)))) p l r := by
  have h1' : Sim s3b s3c (2 * p) l ((l + r) / 2) :=
    sim_frame h1 (fun i hi => f3b i fun h => under_disjoint hp hi h)
      (fun i hi => f3c i fun h => under_disjoint hp hi h)
  obtain ⟨c1, pe1⟩ := sim_root h1'
  obtain ⟨c2, pe2⟩ := sim_root h2
  obtain ⟨m1, m2, m3, m4⟩ := nodeOK_merge c1 c2
  have n1 : nd (s3b.set p (merge (nd s3b (2 * p)) (nd s3b (2 * p + 1)))) p =
      merge (nd s3b (2 * p)) (nd s3b (2 * p + 1)) := nd_set_self (by omega) _
  refine Sim.node p l r hlr
    (sim_frame h1' (fun i hi => nd_set_ne _ (by have := under_ge hi; omega) _)
      (fun i hi => vnd_set_ne _ (by have := under_ge hi; omega) _))
    (sim_frame h2 (fun i hi => nd_set_ne _ (by have := under_ge hi; omega) _)
      (fun i hi => vnd_set_ne _ (by have := under_ge hi; omega) _)) ?_ ?_ ?_ ?_
  · rw [n1]; exact m1
  · rw [n1, vnd_set_self (by omega), pe1, pe2, m4]
  · rw [n1, nd_set_ne _ (by omega)]; exact m2
  · rw [n1, nd_set_ne _ (by omega)]; exact m3

theorem sim_chmin {N : Nat} {p : Nat} {l r : Int} (L R x : Int) (hx : LLONG_MIN < x)
    (hs : Shape N p l r) :
    ∀ (fuel : Nat) (sb : List Node) (sc : List ChminSum.Node), r - l < fuel →
      sb.length = N → sc.length = N → Sim sb sc p l r →
    ∃ sb' sc', range_chmin_go fuel sb p l r L R x = .ok sb' ∧
      ChminSum.range_chmin_go fuel sc p l r L R x = .ok sc' ∧
      sb'.length = N ∧ sc'.length = N ∧
      (∀ i, ¬ Under p i → nd sb' i = nd sb i) ∧ (∀ i, ¬ Under p i → vnd sc' i = vnd sc i) ∧
      Sim sb' sc' p l r := by
  have tag : ∀ (p : Nat) (l r : Int) (sb : List Node) (sc : List ChminSum.Node),
      1 ≤ p → p < sb.length → p < sc.length → Sim sb sc p l r → ¬ x ≥ (nd sb p).max1 →
      x > (nd sb p).smax2 →
      Sim (upd sb p (fun a => a.apply_chmin x)) (vupd sc p (ChminSum.capN x)) p l r := by
    intro p l r sb sc hp hb hc h h2 h3
    obtain ⟨hP, pe⟩ := sim_root h
    obtain ⟨b1, b2, b3, -, b5⟩ := nodeOK_apply_chmin hP (le_of_lt h3) (not_le.mp h2)
    refine sim_set_root h (fun i hi => ?_) (fun i hi => ?_) ?_ ?_ ?_ ?_
    · exact nd_upd_ne _ (by rcases hi with hi | hi <;> have := under_ge hi <;> omega) _
    · exact vnd_vupd_ne _ (by rcases hi with hi | hi <;> have := under_ge hi <;> omega) _
    · rw [nd_upd_self hb]; exact b1
    · rw [nd_upd_self hb, vnd_vupd_self hc, pe, b5]
    · rw [nd_upd_self hb]; exact b2
    · rw [nd_upd_self hb]; exact b3
  induction hs with
  | leaf p l hp hN =>
    intro fuel sb sc hf hlb hlc h
    obtain ⟨f, rfl⟩ : ∃ f, fuel = f + 1 := ⟨fuel - 1, by omega⟩
    obtain ⟨hP, pe⟩ := sim_root h
    have hq0 := sim_leaf_inv h rfl
    have em : (vnd sc p).max1 = (nd sb p).max1 := by rw [pe]; rfl
    have es : (vnd sc p).smax2 = (nd sb p).smax2 := by rw [pe]; rfl
    by_cases h1 : R < l ∨ l < L
    · refine ⟨sb, sc, ?_, ?_, hlb, hlc, fun _ _ => rfl, fun _ _ => rfl, h⟩
      · unfold range_chmin_go
        rw [if_pos h1]
      · unfold ChminSum.range_chmin_go
        rw [if_pos h1]
    · by_cases h2 : x ≥ (nd sb p).max1
      · refine ⟨sb, sc, ?_, ?_, hlb, hlc, fun _ _ => rfl, fun _ _ => rfl, h⟩
        · unfold range_chmin_go
          rw [if_neg h1, rd_ok (by omega), bind_ok, if_pos h2]
          rfl
        · unfold ChminSum.range_chmin_go
          rw [if_neg h1, vrd_ok (by omega), bind_ok, if_pos (by rw [em]; exact h2)]
          rfl
      · have h3 : x > (nd sb p).smax2 := by rw [hq0]; exact hx
        refine ⟨_, _, ?_, ?_, by simpa using hlb, by simpa using hlc,
          fun i hi => nd_upd_of_not_under _ hi,
          fun i hi => vnd_vupd_ne _ (by intro e; subst e; exact hi (under_self _)) _,
          tag p l l sb sc hp (by omega) (by omega) h h2 h3⟩
        · unfold range_chmin_go
          rw [if_neg h1, rd_ok (by omega), bind_ok, if_neg h2,
            if_pos ⟨by omega, by omega, h3⟩, apply_chmin_ok (by omega)]
        · unfold ChminSum.range_chmin_go
          rw [if_neg h1, vrd_ok (by omega), bind_ok, if_neg (by rw [em]; exact h2),
            if_pos ⟨by omega, by omega, by rw [es]; exact h3⟩, cs_apply_chmin_ok (by omega)]
  | node p l r hp hN hlr hs1 hs2 ih1 ih2 =>
    intro fuel sb sc hf hlb hlc h
    obtain ⟨f, rfl⟩ : ∃ f, fuel = f + 1 := ⟨fuel - 1, by omega⟩
    have hbB : 2 * p + 1 < sb.length := by omega
    have hbC : 2 * p + 1 < sc.length := by omega
    obtain ⟨hP, pe⟩ := sim_root h
    have em : (vnd sc p).max1 = (nd sb p).max1 := by rw [pe]; rfl
    have es : (vnd sc p).smax2 = (nd sb p).smax2 := by rw [pe]; rfl
    by_cases h1 : R < l ∨ r < L
    · refine ⟨sb, sc, ?_, ?_, hlb, hlc, fun _ _ => rfl, fun _ _ => rfl, h⟩
      · unfold range_chmin_go
        rw [if_pos h1]
      · unfold ChminSum.range_chmin_go
        rw [if_pos h1]
    · by_cases h2 : x ≥ (nd sb p).max1
      · refine ⟨sb, sc, ?_, ?_, hlb, hlc, fun _ _ => rfl, fun _ _ => rfl, h⟩
        · unfold range_chmin_go
          rw [if_neg h1, rd_ok (by omega), bind_ok, if_pos h2]
          rfl
        · unfold ChminSum.range_chmin_go
          rw [if_neg h1, vrd_ok (by omega), bind_ok, if_pos (by rw [em]; exact h2)]
          rfl
      · by_cases h3 : L ≤ l ∧ r ≤ R ∧ x > (nd sb p).smax2
        · refine ⟨_, _, ?_, ?_, by simpa using hlb, by simpa using hlc,
            fun i hi => nd_upd_of_not_under _ hi,
            fun i hi => vnd_vupd_ne _ (by intro e; subst e; exact hi (under_self _)) _,
            tag p l r sb sc hp (by omega) (by omega) h h2 h3.2.2⟩
          · unfold range_chmin_go
            rw [if_neg h1, rd_ok (by omega), bind_ok, if_neg h2, if_pos h3,
              apply_chmin_ok (by omega)]
          · unfold ChminSum.range_chmin_go
            rw [if_neg h1, vrd_ok (by omega), bind_ok, if_neg (by rw [em]; exact h2),
              if_pos ⟨h3.1, h3.2.1, by rw [es]; exact h3.2.2⟩, cs_apply_chmin_ok (by omega)]
        · obtain ⟨hs', -⟩ := sim_pushed hp hbB hbC hlr h
          obtain ⟨t1, t2, -, -⟩ := sim_node_inv hs' hlr
          have l1b : (pushed sb p l r).length = N := by rw [pushed_length]; exact hlb
          have l1c : (ChminSum.pushed sc p).length = N := by rw [cs_pushed_length]; exact hlc
          obtain ⟨s2b, s2c, e2b, e2c, l2b, l2c, f2b, f2c, g2⟩ :=
            ih1 f _ _ (by omega) l1b l1c t1
          have t2' : Sim s2b s2c (2 * p + 1) ((l + r) / 2 + 1) r :=
            sim_frame t2 (fun i hi => f2b i fun h => under_disjoint hp h hi)
              (fun i hi => f2c i fun h => under_disjoint hp h hi)
          obtain ⟨s3b, s3c, e3b, e3c, l3b, l3c, f3b, f3c, g3⟩ :=
            ih2 f _ _ (by omega) l2b l2c t2'
          refine ⟨_, _, ?_, ?_, ?_, ?_, ?_, ?_,
            sim_recombine hp hlr (by omega) (by omega) f3b f3c g2 g3⟩
          · unfold range_chmin_go
            rw [if_neg h1, rd_ok (by omega), bind_ok, if_neg h2, if_neg h3]
            simp only []
            rw [push_eq hp hbB (ne_of_lt hlr), bind_ok, e2b, bind_ok, e3b, bind_ok,
              rd_ok (by omega), bind_ok, rd_ok (by omega), bind_ok, wr_ok (by omega)]
          · unfold ChminSum.range_chmin_go
            rw [if_neg h1, vrd_ok (by omega), bind_ok, if_neg (by rw [em]; exact h2),
              if_neg (by rw [es]; exact h3)]
            simp only []
            rw [cs_push_eq hp hbC, bind_ok, e2c, bind_ok, e3c, bind_ok,
              vrd_ok (by omega), bind_ok, vrd_ok (by omega), bind_ok, vwr_ok (by omega)]
          · simpa using l3b
          · simpa using l3c
          · exact recombine_frame hp f2b f3b _
          · intro i hi
            have h0 : i ≠ p := by intro e; subst e; exact hi (under_self _)
            have u1 : ¬ Under (2 * p) i := fun h => hi (under_left h)
            have u2 : ¬ Under (2 * p + 1) i := fun h => hi (under_right h)
            rw [vnd_set_ne _ (Ne.symm h0), f3c i u2, f2c i u1]
            exact cs_pushed_other sc (by intro e; subst e; exact u1 (under_self _))
              (by intro e; subst e; exact u2 (under_self _))

theorem sim_sum {N : Nat} {p : Nat} {l r : Int} (L R : Int) (hs : Shape N p l r) :
    ∀ (fuel : Nat) (sb : List Node) (sc : List ChminSum.Node), r - l < fuel →
      sb.length = N → sc.length = N → Sim sb sc p l r →
    ∃ s sb' sc', range_sum_go fuel sb p l r L R = .ok (s, sb') ∧
      ChminSum.range_sum_go fuel sc p l r L R = .ok (s, sc') ∧
      sb'.length = N ∧ sc'.length = N ∧
      (∀ i, ¬ Under p i → nd sb' i = nd sb i) ∧ (∀ i, ¬ Under p i → vnd sc' i = vnd sc i) ∧
      Sim sb' sc' p l r ∧ nd sb' p = nd sb p := by
  induction hs with
  | leaf p l hp hN =>
    intro fuel sb sc hf hlb hlc h
    obtain ⟨f, rfl⟩ : ∃ f, fuel = f + 1 := ⟨fuel - 1, by omega⟩
    obtain ⟨hP, pe⟩ := sim_root h
    by_cases h1 : R < l ∨ l < L
    · refine ⟨0, sb, sc, ?_, ?_, hlb, hlc, fun _ _ => rfl, fun _ _ => rfl, h, rfl⟩
      · unfold range_sum_go
        rw [if_pos h1]
      · unfold ChminSum.range_sum_go
        rw [if_pos h1]
    · refine ⟨(nd sb p).sum, sb, sc, ?_, ?_, hlb, hlc, fun _ _ => rfl, fun _ _ => rfl, h, rfl⟩
      · unfold range_sum_go
        rw [if_neg h1, if_pos (by omega), rd_ok (by omega), bind_ok]
        rfl
      · unfold ChminSum.range_sum_go
        rw [if_neg h1, if_pos (by omega), vrd_ok (by omega), bind_ok, pe]
        rfl
  | node p l r hp hN hlr hs1 hs2 ih1 ih2 =>
    intro fuel sb sc hf hlb hlc h
    obtain ⟨f, rfl⟩ : ∃ f, fuel = f + 1 := ⟨fuel - 1, by omega⟩
    have hbB : 2 * p + 1 < sb.length := by omega
    have hbC : 2 * p + 1 < sc.length := by omega
    obtain ⟨hP, pe⟩ := sim_root h
    by_cases h1 : R < l ∨ r < L
    · refine ⟨0, sb, sc, ?_, ?_, hlb, hlc, fun _ _ => rfl, fun _ _ => rfl, h, rfl⟩
      · unfold range_sum_go
        rw [if_pos h1]
      · unfold ChminSum.range_sum_go
        rw [if_pos h1]
    · by_cases h2 : L ≤ l ∧ r ≤ R
      · refine ⟨(nd sb p).sum, sb, sc, ?_, ?_, hlb, hlc, fun _ _ => rfl, fun _ _ => rfl,
          h, rfl⟩
        · unfold range_sum_go
          rw [if_neg h1, if_pos h2, rd_ok (by omega), bind_ok]
          rfl
        · unfold ChminSum.range_sum_go
          rw [if_neg h1, if_pos h2, vrd_ok (by omega), bind_ok, pe]
          rfl
      · obtain ⟨hs', er⟩ := sim_pushed hp hbB hbC hlr h
        obtain ⟨hP', pe'⟩ := sim_root hs'
        obtain ⟨t1, t2, k1, k2⟩ := sim_node_inv hs' hlr
        have l1b : (pushed sb p l r).length = N := by rw [pushed_length]; exact hlb
        have l1c : (ChminSum.pushed sc p).length = N := by rw [cs_pushed_length]; exact hlc
        obtain ⟨a1, s2b, s2c, e2b, e2c, l2b, l2c, f2b, f2c, g2, r2⟩ :=
          ih1 f _ _ (by omega) l1b l1c t1
        have t2' : Sim s2b s2c (2 * p + 1) ((l + r) / 2 + 1) r :=
          sim_frame t2 (fun i hi => f2b i fun h => under_disjoint hp h hi)
            (fun i hi => f2c i fun h => under_disjoint hp h hi)
        obtain ⟨a2, s3b, s3c, e3b, e3c, l3b, l3c, f3b, f3c, g3, r3⟩ :=
          ih2 f _ _ (by omega) l2b l2c t2'
        have np1 : ¬ Under (2 * p) p := fun h => by have := under_ge h; omega
        have np2 : ¬ Under (2 * p + 1) p := fun h => by have := under_ge h; omega
        have nq : ¬ Under (2 * p + 1) (2 * p) := fun h => by have := under_ge h; omega
        have nq' : ¬ Under (2 * p) (2 * p + 1) :=
          fun h => under_disjoint hp h (under_self _)
        have ep : nd s3b p = nd (pushed sb p l r) p := by rw [f3b p np2, f2b p np1]
        have epc : vnd s3c p = vnd (ChminSum.pushed sc p) p := by rw [f3c p np2, f2c p np1]
        have el : nd s3b (2 * p) = nd (pushed sb p l r) (2 * p) := by rw [f3b _ nq, r2]
        have erx : nd s3b (2 * p + 1) = nd (pushed sb p l r) (2 * p + 1) := by
          rw [r3, f2b _ nq']
        refine ⟨a1 + a2, s3b, s3c, ?_, ?_, l3b, l3c, ?_, ?_, ?_, by rw [ep, er]⟩
        · unfold range_sum_go
          rw [if_neg h1, if_neg h2]
          simp only []
          rw [push_eq hp hbB (ne_of_lt hlr), bind_ok, e2b, bind_ok]
          simp only []
          rw [e3b, bind_ok]
          rfl
        · unfold ChminSum.range_sum_go
          rw [if_neg h1, if_neg h2]
          simp only []
          rw [cs_push_eq hp hbC, bind_ok, e2c, bind_ok]
          simp only []
          rw [e3c, bind_ok]
          rfl
        · intro i hi
          have h0 : i ≠ p := by intro e; subst e; exact hi (under_self _)
          have u1 : ¬ Under (2 * p) i := fun h => hi (under_left h)
          have u2 : ¬ Under (2 * p + 1) i := fun h => hi (under_right h)
          rw [f3b i u2, f2b i u1]
          exact nd_pushed_other sb l r h0 (by intro e; subst e; exact u1 (under_self _))
            (by intro e; subst e; exact u2 (under_self _))
        · intro i hi
          have u1 : ¬ Under (2 * p) i := fun h => hi (under_left h)
          have u2 : ¬ Under (2 * p + 1) i := fun h => hi (under_right h)
          rw [f3c i u2, f2c i u1]
          exact cs_pushed_other sc (by intro e; subst e; exact u1 (under_self _))
            (by intro e; subst e; exact u2 (under_self _))
        · refine Sim.node p l r hlr
            (sim_frame g2 (fun i hi => f3b i fun h => under_disjoint hp hi h)
              (fun i hi => f3c i fun h => under_disjoint hp hi h)) g3 ?_ ?_ ?_ ?_
          · rw [ep]; exact hP'
          · rw [ep, epc]; exact pe'
          · rw [ep, el]; exact k1
          · rw [ep, erx]; exact k2

theorem sim_build {N : Nat} {a : List Int} (hty : ∀ v ∈ a, LLONG_MIN ≤ v) {p : Nat}
    {l r : Int} (hs : Shape N p l r) :
    ∀ (fuel : Nat) (sb : List Node) (sc : List ChminSum.Node), r - l < fuel →
      sb.length = N → sc.length = N → 0 ≤ l → r < a.length →
    ∃ sb' sc', build_go fuel sb p l r a = .ok sb' ∧
      ChminSum.build_go fuel sc p l r a = .ok sc' ∧ sb'.length = N ∧ sc'.length = N ∧
      (∀ i, ¬ Under p i → nd sb' i = nd sb i) ∧ (∀ i, ¬ Under p i → vnd sc' i = vnd sc i) ∧
      Sim sb' sc' p l r := by
  induction hs with
  | leaf p l hp hN =>
    intro fuel sb sc hf hlb hlc h0 h1
    obtain ⟨f, rfl⟩ : ∃ f, fuel = f + 1 := ⟨fuel - 1, by omega⟩
    have hv : LLONG_MIN ≤ a.getD l.toNat 0 := by
      have hlt : l.toNat < a.length := by omega
      rw [List.getD_eq_getElem _ _ hlt]
      exact hty _ (List.getElem_mem _)
    refine ⟨sb.set p (make_node (a.getD l.toNat 0)),
      sc.set p (ChminSum.make_node (a.getD l.toNat 0)), ?_, ?_, by simpa using hlb,
      by simpa using hlc, ?_, ?_, ?_⟩
    · simp only [build_go, if_true, rdVal_ok h0 h1, bind_ok]
      exact wr_ok (by omega) _
    · simp only [ChminSum.build_go, if_true, rdVal_ok h0 h1, bind_ok]
      exact vwr_ok (by omega) _
    · intro i hi
      exact nd_set_ne sb (by intro e; subst e; exact hi (under_self _)) _
    · intro i hi
      exact vnd_set_ne sc (by intro e; subst e; exact hi (under_self _)) _
    · refine Sim.leaf p l ?_ ?_ ?_
      · rw [nd_set_self (by omega)]
        exact ⟨rfl, le_refl _, hv, Or.inl rfl⟩
      · rw [nd_set_self (by omega), vnd_set_self (by omega)]
        rfl
      · rw [nd_set_self (by omega)]
        rfl
  | node p l r hp hN hlr hs1 hs2 ih1 ih2 =>
    intro fuel sb sc hf hlb hlc h0 h1
    obtain ⟨f, rfl⟩ : ∃ f, fuel = f + 1 := ⟨fuel - 1, by omega⟩
    obtain ⟨s2b, s2c, e2b, e2c, l2b, l2c, f2b, f2c, g2⟩ :=
      ih1 f sb sc (by omega) hlb hlc h0 (by omega)
    obtain ⟨s3b, s3c, e3b, e3c, l3b, l3c, f3b, f3c, g3⟩ :=
      ih2 f s2b s2c (by omega) l2b l2c (by omega) h1
    refine ⟨_, _, ?_, ?_, ?_, ?_, ?_, ?_,
      sim_recombine hp hlr (by omega) (by omega) f3b f3c g2 g3⟩
    · simp only [build_go, if_neg (ne_of_lt hlr), e2b, e3b, bind_ok]
      rw [rd_ok (by omega), bind_ok, rd_ok (by omega), bind_ok, wr_ok (by omega)]
    · simp only [ChminSum.build_go, if_neg (ne_of_lt hlr), e2c, e3c, bind_ok]
      rw [vrd_ok (by omega), bind_ok, vrd_ok (by omega), bind_ok, vwr_ok (by omega)]
    · simpa using l3b
    · simpa using l3c
    · intro i hi
      have h0 : i ≠ p := by intro e; subst e; exact hi (under_self _)
      rw [nd_set_ne _ (Ne.symm h0), f3b i (fun h => hi (under_right h)),
        f2b i (fun h => hi (under_left h))]
    · intro i hi
      have h0 : i ≠ p := by intro e; subst e; exact hi (under_self _)
      rw [vnd_set_ne _ (Ne.symm h0), f3c i (fun h => hi (under_right h)),
        f2c i (fun h => hi (under_left h))]

theorem sim_run {n : Nat} (hn : 1 ≤ n) : ∀ (ops : List ChminSum.Op) (sb : List Node)
    (sc : List ChminSum.Node), sb.length = 4 * n + 4 → sc.length = 4 * n + 4 →
    Sim sb sc 1 0 ((n : Int) - 1) → (∀ op ∈ ops, op.clampOK) →
    ∃ outs tb' tc', run ⟨n, sb⟩ (ops.map toOp) = .ok (outs, tb') ∧
      ChminSum.run ⟨n, sc⟩ ops = .ok (outs, tc') := by
  intro ops
  induction ops with
  | nil => intro sb sc _ _ _ _; exact ⟨[], _, _, rfl, rfl⟩
  | cons op ops ih =>
    intro sb sc hlb hlc h hops
    have hop := hops op (List.mem_cons_self _ _)
    have hrest : ∀ o ∈ ops, o.clampOK := fun o ho => hops o (List.mem_cons_of_mem _ ho)
    have hs := shape_root hn
    cases op with
    | chmin L R x =>
      obtain ⟨s2b, s2c, e2b, e2c, l2b, l2c, -, -, g2⟩ :=
        sim_chmin L R x hop hs sb.length sb sc (by omega) hlb hlc h
      obtain ⟨outs, tb', tc', r1, r2⟩ := ih s2b s2c l2b l2c g2 hrest
      rw [hlb] at e2b
      rw [hlb, ← hlc] at e2c
      refine ⟨outs, tb', tc', ?_, ?_⟩
      · simp only [List.map_cons, toOp, run, step, range_chmin, hlb, e2b, bind_ok, pure_eq_ok,
          r1, Option.toList, List.nil_append]
      · simp only [ChminSum.run, ChminSum.step, ChminSum.range_chmin, e2c, bind_ok, pure_eq_ok,
          r2, Option.toList, List.nil_append]
    | sum L R =>
      obtain ⟨a, s2b, s2c, e2b, e2c, l2b, l2c, -, -, g2, -⟩ :=
        sim_sum L R hs sb.length sb sc (by omega) hlb hlc h
      obtain ⟨outs, tb', tc', r1, r2⟩ := ih s2b s2c l2b l2c g2 hrest
      rw [hlb] at e2b
      rw [hlb, ← hlc] at e2c
      refine ⟨a :: outs, tb', tc', ?_, ?_⟩
      · simp only [List.map_cons, toOp, run, step, range_sum, hlb, e2b, bind_ok, pure_eq_ok,
          r1, Option.toList, List.singleton_append]
      · simp only [ChminSum.run, ChminSum.step, ChminSum.range_sum, e2c, bind_ok, pure_eq_ok,
          r2, Option.toList, List.singleton_append]

theorem sumF_zero : ∀ (k : Nat) (l : Int), sumF (fun _ => 0) l k = 0 := by
  intro k
  induction k with
  | zero => intro l; rfl
  | succ k ih => intro l; simp only [sumF, ih, add_zero]

theorem rsum_zero (l r : Int) : rsum (fun _ => 0) l r = 0 := sumF_zero _ _

theorem sumF_sub_mul (f g : Int → Int) (c : Int) : ∀ (k : Nat) (l : Int),
    sumF (fun i => f i - c * g i) l k = sumF f l k - c * sumF g l k := by
  intro k
  induction k with
  | zero => intro l; simp [sumF]
  | succ k ih =>
    intro l
    simp only [sumF, ih]
    ring

theorem rsum_sub_mul (f g : Int → Int) (c : Int) (l r : Int) :
    rsum (fun i => f i - c * g i) l r = rsum f l r - c * rsum g l r :=
  sumF_sub_mul f g c _ _

theorem sumF_add_const (f : Int → Int) (d : Int) : ∀ (k : Nat) (l : Int),
    sumF (fun i => f i + d) l k = sumF f l k + d * k := by
  intro k
  induction k with
  | zero => intro l; simp [sumF]
  | succ k ih =>
    intro l
    simp only [sumF, ih]
    push_cast
    ring

theorem rsum_add_const (f : Int → Int) (d : Int) {l r : Int} (h : l ≤ r) :
    rsum (fun i => f i + d) l r = rsum f l r + d * (r - l + 1) := by
  unfold rsum
  rw [sumF_add_const, show (((r - l + 1).toNat : Nat) : Int) = r - l + 1 by omega]

theorem bgood_congr {N : Node} {f f' : Int → Int} {l r : Int} (h : BGood N f l r)
    (hf : ∀ i, l ≤ i → i ≤ r → f' i = f i) : BGood N f' l r := by
  obtain ⟨g1, g2, g3, ⟨i4, a4, b4, e4⟩, ⟨i5, a5, b5, e5⟩, g6, g7⟩ := h
  refine ⟨?_, fun i a b => by rw [hf i a b]; exact g2 i a b, g3,
    ⟨i4, a4, b4, by rw [hf i4 a4 b4]; exact e4⟩, ⟨i5, a5, b5, by rw [hf i5 a5 b5]; exact e5⟩,
    ?_, ?_⟩
  · rw [g1]
    exact rsum_congr fun i a b => (hf i a b).symm
  · rcases g6 with g6 | ⟨i6, a6, b6, e6⟩
    · exact Or.inl g6
    · exact Or.inr ⟨i6, a6, b6, by rw [hf i6 a6 b6]; exact e6⟩
  · rw [g7]
    exact rsum_congr fun i a b => by simp only [hf i a b]

theorem bgood_le {N : Node} {f : Int → Int} {l r : Int} (h : BGood N f l r) : l ≤ r := by
  obtain ⟨i, a, b, -⟩ := h.2.2.2.1
  omega

theorem bgood_ub {N : Node} {f : Int → Int} {l r : Int} (h : BGood N f l r) (i : Int)
    (a : l ≤ i) (b : i ≤ r) : f i ≤ N.max1 := by
  have := (h.2.1 i a b).2.2
  have := h.2.2.1
  omega

theorem bgood_add_irrel {N : Node} {f : Int → Int} {l r : Int} (h : BGood N f l r) (A : Int) :
    BGood { N with add := A } f l r := h

theorem bgood_make_node {f : Int → Int} {l : Int} {v : Int} (hv : LLONG_MIN < v)
    (hf : f l = v) : BGood (make_node v) f l l := by
  refine ⟨?_, fun i a b => ?_, hv, ⟨l, le_refl _, le_refl _, hf⟩, ⟨l, le_refl _, le_refl _, hf⟩,
    Or.inl rfl, ?_⟩
  · rw [rsum_single, hf]; rfl
  · have e : i = l := by omega
    subst e
    rw [hf]
    exact ⟨hv, le_refl _, Or.inl rfl⟩
  · rw [rsum_single, hf]
    show (1 : Int) = if v = v then 1 else 0
    rw [if_pos rfl]

theorem bgood_leaf_smax2 {N : Node} {f : Int → Int} {l : Int} (h : BGood N f l l) :
    N.smax2 = LLONG_MIN := by
  obtain ⟨-, -, g3, ⟨i4, a4, b4, e4⟩, -, g6, -⟩ := h
  rcases g6 with g6 | ⟨i6, a6, b6, e6⟩
  · exact g6
  · have : i4 = i6 := by omega
    subst this
    omega

theorem bgood_cap {N : Node} {f : Int → Int} {l r : Int} (h : BGood N f l r) {x : Int}
    (h1 : N.smax2 ≤ x) (h2 : x ≤ N.max1) :
    rsum (fun i => min (f i) x) l r = N.sum - (N.max1 - x) * N.cnt_max := by
  obtain ⟨g1, g2, g3, -, -, -, g7⟩ := h
  rw [g1, g7, ← rsum_sub_mul]
  refine rsum_congr fun i a b => ?_
  rcases (g2 i a b).2.2 with e | e
  · simp only [e, if_true]
    rw [min_eq_right h2]
    ring
  · have ne : f i ≠ N.max1 := by omega
    simp only [if_neg ne]
    rw [min_eq_left (by omega)]
    ring

theorem bgood_add {N : Node} {f : Int → Int} {l r : Int} (h : BGood N f l r) (d : Int)
    (hd : ∀ i, l ≤ i → i ≤ r → LLONG_MIN < f i + d) :
    BGood (N.apply_add d (r - l + 1)) (fun i => f i + d) l r := by
  have hlr := bgood_le h
  obtain ⟨g1, g2, g3, ⟨i4, a4, b4, e4⟩, ⟨i5, a5, b5, e5⟩, g6, g7⟩ := h
  obtain ⟨f1, -, f3, f4, f5, -⟩ := apply_add_fields N d (r - l + 1)
  have f7 := (apply_add_seconds N d (r - l + 1)).1
  refine ⟨?_, fun i a b => ⟨hd i a b, ?_, ?_⟩, ?_, ⟨i4, a4, b4, ?_⟩, ⟨i5, a5, b5, ?_⟩, ?_, ?_⟩ <;>
    beta_reduce
  · rw [f1, g1, rsum_add_const f d hlr]
  · rw [f4]
    have := (g2 i a b).2.1
    omega
  · rw [f3, f7]
    have := g2 i a b
    by_cases c : N.smax2 = LLONG_MIN
    · rw [if_neg (not_not.mpr c)]
      left
      omega
    · rw [if_pos c]
      omega
  · rw [f3, f7]
    by_cases c : N.smax2 = LLONG_MIN
    · rw [if_neg (not_not.mpr c), c]
      have := hd i4 a4 b4
      omega
    · rw [if_pos c]
      omega
  · show f i4 + d = _
    rw [f3, e4]
  · show f i5 + d = _
    rw [f4, e5]
  · rw [f7]
    by_cases c : N.smax2 = LLONG_MIN
    · rw [if_neg (not_not.mpr c)]
      exact Or.inl c
    · rw [if_pos c]
      rcases g6 with g6 | ⟨i6, a6, b6, e6⟩
      · exact absurd g6 c
      · exact Or.inr ⟨i6, a6, b6, by show f i6 + d = _; rw [e6]⟩
  · rw [f5, g7, f3]
    refine rsum_congr fun i a b => ?_
    by_cases c : f i = N.max1
    · rw [if_pos c, if_pos (by omega)]
    · rw [if_neg c, if_neg (by omega)]

theorem bgood_chmin {N : Node} {f : Int → Int} {l r : Int} (h : BGood N f l r) {x : Int}
    (h1 : N.smax2 < x) (h2 : x < N.max1) (hx : LLONG_MIN < x) :
    BGood (N.apply_chmin x) (fun i => min (f i) x) l r := by
  have hcap := bgood_cap h (le_of_lt h1) (le_of_lt h2)
  have hub := bgood_ub h
  obtain ⟨g1, g2, g3, ⟨i4, a4, b4, e4⟩, ⟨i5, a5, b5, e5⟩, g6, g7⟩ := h
  obtain ⟨f1, -, f3, f4, f5, -, f7, -⟩ := apply_chmin_fields N x
  have hne : N.min1 ≠ N.max1 → N.min1 ≤ N.smax2 := fun c => by
    have := (g2 i5 a5 b5).2.2
    omega
  refine ⟨?_, fun i a b => ⟨?_, ?_, ?_⟩, ?_, ⟨i4, a4, b4, ?_⟩, ?_, ?_, ?_⟩ <;> beta_reduce
  · rw [f1, hcap]
  · have := (g2 i a b).1
    show LLONG_MIN < min (f i) x
    omega
  · rw [f4]
    have := g2 i a b
    have := hub i a b
    show _ ≤ min (f i) x
    by_cases c : N.min1 = N.max1
    · rw [if_pos c]
      omega
    · rw [if_neg c]
      have := hne c
      omega
  · rw [f3, f7]
    have := (g2 i a b).2.2
    show min (f i) x = x ∨ min (f i) x ≤ N.smax2
    omega
  · rw [f7, f3]
    exact h1
  · show min (f i4) x = _
    rw [f3]
    omega
  · rw [f4]
    by_cases c : N.min1 = N.max1
    · rw [if_pos c]
      refine ⟨i4, a4, b4, ?_⟩
      show min (f i4) x = x
      omega
    · rw [if_neg c]
      refine ⟨i5, a5, b5, ?_⟩
      have := hne c
      show min (f i5) x = N.min1
      omega
  · rw [f7]
    rcases g6 with g6 | ⟨i6, a6, b6, e6⟩
    · exact Or.inl g6
    · refine Or.inr ⟨i6, a6, b6, ?_⟩
      show min (f i6) x = N.smax2
      omega
  · rw [f5, g7, f3]
    refine rsum_congr fun i a b => ?_
    have := (g2 i a b).2.2
    by_cases c : f i = N.max1
    · rw [if_pos c, if_pos (by omega)]
    · rw [if_neg c, if_neg (by omega)]

theorem bgood_merge {A B : Node} {f : Int → Int} {l m r : Int} (hA : BGood A f l m)
    (hB : BGood B f (m + 1) r) :
    BGood (merge A B) f l r ∧ A.smax2 ≤ (merge A B).smax2 ∧ B.smax2 ≤ (merge A B).smax2 := by
  have h1 := bgood_le hA
  have h2 := bgood_le hB
  have ubA := bgood_ub hA
  have ubB := bgood_ub hB
  obtain ⟨a1, a2, a3, ⟨i4, p4, q4, e4⟩, ⟨i5, p5, q5, e5⟩, a6, a7⟩ := hA
  obtain ⟨b1, b2, b3, ⟨j4, s4, t4, d4⟩, ⟨j5, s5, t5, d5⟩, b6, b7⟩ := hB
  have m1 := merge_max1 A B
  have m2 := merge_min1 A B
  have split := fun g : Int → Int => rsum_split g (A := l) (M := m) (B := r) (by omega) (by omega)
  have zero_right : ∀ M : Int, B.max1 < M →
      rsum (fun i => if f i = M then 1 else 0) (m + 1) r = 0 := fun M hM => by
    refine (rsum_congr fun i a b => ?_).trans (rsum_zero (m + 1) r)
    have := ubB i a b
    exact if_neg (by omega)
  have zero_left : ∀ M : Int, A.max1 < M →
      rsum (fun i => if f i = M then 1 else 0) l m = 0 := fun M hM => by
    refine (rsum_congr fun i a b => ?_).trans (rsum_zero l m)
    have := ubA i a b
    exact if_neg (by omega)
  have hs : A.smax2 ≤ (merge A B).smax2 ∧ B.smax2 ≤ (merge A B).smax2 ∧
      (merge A B).smax2 < (merge A B).max1 := by
    rcases merge_max_view A B with ⟨c, e, -⟩ | ⟨c, e, -⟩ | ⟨c, e, -⟩ <;> omega
  refine ⟨⟨?_, fun i a b => ?_, hs.2.2, ?_, ?_, ?_, ?_⟩, hs.1, hs.2.1⟩
  · rw [merge_sum, a1, b1, split]
  · by_cases c : i ≤ m
    · have := a2 i a c
      refine ⟨this.1, by omega, ?_⟩
      rcases merge_max_view A B with ⟨c, e, -⟩ | ⟨c, e, -⟩ | ⟨c, e, -⟩ <;> omega
    · have := b2 i (by omega) b
      refine ⟨this.1, by omega, ?_⟩
      rcases merge_max_view A B with ⟨c, e, -⟩ | ⟨c, e, -⟩ | ⟨c, e, -⟩ <;> omega
  · by_cases c : B.max1 ≤ A.max1
    · exact ⟨i4, p4, by omega, by omega⟩
    · exact ⟨j4, by omega, t4, by omega⟩
  · by_cases c : A.min1 ≤ B.min1
    · exact ⟨i5, p5, by omega, by omega⟩
    · exact ⟨j5, by omega, t5, by omega⟩
  · have hA6 : A.smax2 = LLONG_MIN ∨ ∃ i, l ≤ i ∧ i ≤ r ∧ f i = A.smax2 := by
      rcases a6 with a6 | ⟨i, a, b, e⟩
      · exact Or.inl a6
      · exact Or.inr ⟨i, a, by omega, e⟩
    have hB6 : B.smax2 = LLONG_MIN ∨ ∃ i, l ≤ i ∧ i ≤ r ∧ f i = B.smax2 := by
      rcases b6 with b6 | ⟨i, a, b, e⟩
      · exact Or.inl b6
      · exact Or.inr ⟨i, by omega, b, e⟩
    have hA4 : ∃ i, l ≤ i ∧ i ≤ r ∧ f i = A.max1 := ⟨i4, p4, by omega, e4⟩
    have hB4 : ∃ i, l ≤ i ∧ i ≤ r ∧ f i = B.max1 := ⟨j4, by omega, t4, d4⟩
    rcases merge_max_view A B with ⟨c, e, -⟩ | ⟨c, e, -⟩ | ⟨c, e, -⟩
    · rw [e]
      rcases max_choice A.smax2 B.max1 with z | z
      · rw [z]; exact hA6
      · rw [z]; exact Or.inr hB4
    · rw [e]
      rcases max_choice B.smax2 A.max1 with z | z
      · rw [z]; exact hB6
      · rw [z]; exact Or.inr hA4
    · rw [e]
      rcases max_choice A.smax2 B.smax2 with z | z
      · rw [z]; exact hA6
      · rw [z]; exact hB6
  · rw [split]
    rcases merge_max_view A B with ⟨c, -, e⟩ | ⟨c, -, e⟩ | ⟨c, -, e⟩
    · rw [e, a7, show (merge A B).max1 = A.max1 by omega, zero_right A.max1 c, add_zero]
    · rw [e, b7, show (merge A B).max1 = B.max1 by omega, zero_left B.max1 c, zero_add]
    · rw [e, a7, b7, show (merge A B).max1 = A.max1 by omega, ← c]

theorem shiftS_min (d : Int) : shiftS LLONG_MIN d = LLONG_MIN := by
  unfold shiftS
  rw [if_neg (not_not.mpr rfl)]

theorem shiftS_ne {s : Int} (h : s ≠ LLONG_MIN) (d : Int) : shiftS s d = s + d := by
  unfold shiftS
  rw [if_pos h]

theorem shiftS_zero (s : Int) : shiftS s 0 = s := by
  unfold shiftS
  split_ifs <;> omega

theorem apply_add_smax2 (c : Node) (A len : Int) :
    (c.apply_add A len).smax2 = shiftS c.smax2 A := (apply_add_seconds c A len).1

theorem brep_good {st : List Node} {p : Nat} {l r : Int} {f : Int → Int}
    (h : BRep st p l r f) : BGood (nd st p) f l r := by
  cases h with
  | leaf _ _ _ hg => exact hg
  | node _ _ _ _ _ _ _ _ _ hg _ _ => exact hg

theorem brep_congr {st : List Node} {p : Nat} {l r : Int} {f : Int → Int}
    (h : BRep st p l r f) {f' : Int → Int} (hf : ∀ i, l ≤ i → i ≤ r → f' i = f i) :
    BRep st p l r f' := by
  cases h with
  | leaf _ _ _ hg => exact BRep.leaf p l f' (bgood_congr hg hf)
  | node _ _ _ _ g hlr h1 h2 hg hgood k1 k2 =>
    exact BRep.node p l r f' g hlr h1 h2 (fun i a b => by rw [hf i a b, hg i a b])
      (bgood_congr hgood hf) k1 k2

theorem brep_frame {st st' : List Node} {p : Nat} {l r : Int} {f : Int → Int}
    (h : BRep st p l r f) (hf : ∀ i, Under p i → nd st' i = nd st i) :
    BRep st' p l r f := by
  induction h with
  | leaf p l f hg => exact BRep.leaf p l f (by rw [hf p (under_self p)]; exact hg)
  | node p l r f g hlr _ _ hg hgood k1 k2 ih1 ih2 =>
    refine BRep.node p l r f g hlr (ih1 fun i hi => hf i (under_left hi))
      (ih2 fun i hi => hf i (under_right hi)) ?_ ?_ ?_ ?_
    · rw [hf p (under_self p)]; exact hg
    · rw [hf p (under_self p)]; exact hgood
    · rw [hf p (under_self p), hf _ (under_left (under_self _))]; exact k1
    · rw [hf p (under_self p), hf _ (under_right (under_self _))]; exact k2

/-- Among the values of a node, those of a child have a second maximum that is not
above the second maximum of the node. -/
theorem link_of_good {P c : Node} {f : Int → Int} {l r a b : Int} (hP : BGood P f l r)
    (hc : BGood c f a b) (ha : l ≤ a) (hb : b ≤ r) : c.smax2 ≤ P.smax2 := by
  have ub := bgood_ub hP
  obtain ⟨-, p2, -, -, -, p6, -⟩ := hP
  obtain ⟨-, -, c3, ⟨i4, a4, b4, e4⟩, -, c6, -⟩ := hc
  have h4 := ub i4 (by omega) (by omega)
  rcases c6 with c6 | ⟨j, ja, jb, je⟩
  · rcases p6 with p6 | ⟨k, ka, kb, ke⟩
    · omega
    · have := (p2 k ka kb).1
      omega
  · have := (p2 j (by omega) (by omega)).2.2
    omega

/-- An internal node without a pending addition whose record summarises what its two
children stand for. -/
theorem brep_node_plain {st : List Node} {p : Nat} {l r : Int} {f : Int → Int} (hlr : l < r)
    (h1 : BRep st (2 * p) l ((l + r) / 2) f) (h2 : BRep st (2 * p + 1) ((l + r) / 2 + 1) r f)
    (hP : BGood (nd st p) f l r) (h0 : (nd st p).add = 0) : BRep st p l r f := by
  refine BRep.node p l r f f hlr h1 h2 (fun i a b => ?_) hP ?_ ?_
  · have := bgood_ub hP i a b
    rw [h0]
    omega
  · rw [h0, shiftS_zero]
    exact link_of_good hP (brep_good h1) (le_refl _) (by omega)
  · rw [h0, shiftS_zero]
    exact link_of_good hP (brep_good h2) (by omega) (le_refl _)

theorem link_add {P c : Node} {f g : Int → Int} {l r a b : Int} (d : Int)
    (hP : BGood P f l r) (hc : BGood c g a b) (ha : l ≤ a) (hb : b ≤ r)
    (hg : ∀ i, l ≤ i → i ≤ r → f i = min (g i + P.add) P.max1)
    (hd : ∀ i, l ≤ i → i ≤ r → LLONG_MIN < f i + d)
    (hk : shiftS c.smax2 P.add ≤ P.smax2) :
    shiftS c.smax2 (P.add + d) ≤ shiftS P.smax2 d := by
  obtain ⟨-, p2, -, -, -, p6, -⟩ := hP
  obtain ⟨-, -, -, -, -, c6, -⟩ := hc
  by_cases c1 : c.smax2 = LLONG_MIN
  · rw [c1, shiftS_min]
    by_cases p1 : P.smax2 = LLONG_MIN
    · rw [p1, shiftS_min]
    · rw [shiftS_ne p1]
      rcases p6 with p6 | ⟨k, ka, kb, ke⟩
      · exact absurd p6 p1
      · have := hd k ka kb
        omega
  · rw [shiftS_ne c1] at hk ⊢
    rcases c6 with c6 | ⟨j, ja, jb, je⟩
    · exact absurd c6 c1
    · have e1 := hg j (by omega) (by omega)
      have e2 := (p2 j (by omega) (by omega)).1
      by_cases p1 : P.smax2 = LLONG_MIN
      · omega
      · rw [shiftS_ne p1]
        omega

/-- The effect of `apply_add` on what a subtree stands for. -/
theorem brep_add {st st' : List Node} {p : Nat} {l r : Int} {f : Int → Int}
    (h : BRep st p l r f) (d : Int) (hd : ∀ i, l ≤ i → i ≤ r → LLONG_MIN < f i + d)
    (h0 : nd st' p = (nd st p).apply_add d (r - l + 1))
    (hf : ∀ i, Under (2 * p) i ∨ Under (2 * p + 1) i → nd st' i = nd st i) :
    BRep st' p l r (fun i => f i + d) := by
  obtain ⟨-, f2, f3, -⟩ := apply_add_fields (nd st p) d (r - l + 1)
  have f7 := apply_add_smax2 (nd st p) d (r - l + 1)
  rw [← h0] at f2 f3 f7
  cases h with
  | leaf _ _ _ hg =>
    refine BRep.leaf p l _ ?_
    rw [h0]
    exact bgood_add hg d hd
  | node _ _ _ _ g hlr h1 h2 hg hgood k1 k2 =>
    refine BRep.node p l r _ g hlr (brep_frame h1 fun i hi => hf i (Or.inl hi))
      (brep_frame h2 fun i hi => hf i (Or.inr hi)) ?_ ?_ ?_ ?_
    · intro i a b
      have := hg i a b
      rw [f2, f3]
      show f i + d = _
      omega
    · rw [h0]
      exact bgood_add hgood d hd
    · rw [f2, f7, hf _ (Or.inl (under_self _))]
      exact link_add d hgood (brep_good h1) (le_refl _) (by omega) hg hd k1
    · rw [f2, f7, hf _ (Or.inr (under_self _))]
      exact link_add d hgood (brep_good h2) (by omega) (le_refl _) hg hd k2

/-- The effect of `apply_chmin` with a cap between `smax2` and `max1` on what a
subtree stands for. -/
theorem brep_chmin {st st' : List Node} {p : Nat} {l r : Int} {f : Int → Int}
    (h : BRep st p l r f) (x : Int) (hx1 : (nd st p).smax2 < x) (hx2 : x < (nd st p).max1)
    (hx : LLONG_MIN < x) (h0 : nd st' p = (nd st p).apply_chmin x)
    (hf : ∀ i, Under (2 * p) i ∨ Under (2 * p + 1) i → nd st' i = nd st i) :
    BRep st' p l r (fun i => min (f i) x) := by
  obtain ⟨-, f2, f3, -, -, -, f7, -⟩ := apply_chmin_fields (nd st p) x
  rw [← h0] at f2 f3 f7
  cases h with
  | leaf _ _ _ hg =>
    refine BRep.leaf p l _ ?_
    rw [h0]
    exact bgood_chmin hg hx1 hx2 hx
  | node _ _ _ _ g hlr h1 h2 hg hgood k1 k2 =>
    refine BRep.node p l r _ g hlr (brep_frame h1 fun i hi => hf i (Or.inl hi))
      (brep_frame h2 fun i hi => hf i (Or.inr hi)) ?_ ?_ ?_ ?_
    · intro i a b
      have := hg i a b
      rw [f2, f3]
      show min (f i) x = _
      omega
    · rw [h0]
      exact bgood_chmin hgood hx1 hx2 hx
    · rw [f2, f7, hf _ (Or.inl (under_self _))]
      exact k1
    · rw [f2, f7, hf _ (Or.inr (under_self _))]
      exact k2

/-- What `push` does to the record of a child: the pending addition, then the cap
from above where the child exceeds it; the clamp from below never fires. -/
theorem pushChild_view {P c : Node} {f g : Int → Int} {l r a b : Int} (hP : BGood P f l r)
    (hc : BGood c g a b) (ha : l ≤ a) (hb : b ≤ r)
    (hg : ∀ i, l ≤ i → i ≤ r → f i = min (g i + P.add) P.max1)
    (hk : shiftS c.smax2 P.add ≤ P.smax2) :
    (pushChild P c (b - a + 1) = c.apply_add P.add (b - a + 1) ∧
      ∀ i, a ≤ i → i ≤ b → f i = g i + P.add) ∨
    (pushChild P c (b - a + 1) = (c.apply_add P.add (b - a + 1)).apply_chmin P.max1 ∧
      (c.apply_add P.add (b - a + 1)).smax2 < P.max1 ∧
      P.max1 < (c.apply_add P.add (b - a + 1)).max1 ∧ LLONG_MIN < P.max1) := by
  have hd : ∀ i, a ≤ i → i ≤ b → LLONG_MIN < g i + P.add := fun i x y => by
    have := hg i (by omega) (by omega)
    have := (hP.2.1 i (by omega) (by omega)).1
    omega
  have g1 := bgood_add hc P.add hd
  have ub1 := bgood_ub g1
  have s1 := apply_add_smax2 c P.add (b - a + 1)
  have hmax : LLONG_MIN < P.max1 := by
    obtain ⟨i, x, y, e⟩ := hP.2.2.2.1
    have := (hP.2.1 i x y).1
    omega
  have p3 := hP.2.2.1
  rw [pushChild_eq, addStage_eq_apply_add]
  unfold minStage
  by_cases c1 : (c.apply_add P.add (b - a + 1)).max1 > P.max1
  · rw [if_pos c1]
    have g2 := bgood_chmin g1 (show (c.apply_add P.add (b - a + 1)).smax2 < P.max1 by
      rw [s1]; omega) c1 hmax
    obtain ⟨j, x, y, e⟩ := g2.2.2.2.2.1
    have e' : min (g j + P.add) P.max1 = _ := e
    have := hg j (by omega) (by omega)
    have := (hP.2.1 j (by omega) (by omega)).2.1
    right
    refine ⟨?_, by rw [s1]; omega, c1, hmax⟩
    unfold maxStage
    rw [if_neg (by omega)]
  · rw [if_neg c1]
    obtain ⟨j, x, y, e⟩ := g1.2.2.2.2.1
    have e' : g j + P.add = _ := e
    have := hg j (by omega) (by omega)
    have := (hP.2.1 j (by omega) (by omega)).2.1
    have := ub1 j x y
    have u' : g j + P.add ≤ _ := this
    left
    refine ⟨?_, fun i x y => ?_⟩
    · unfold maxStage
      rw [if_neg (by omega)]
    · have := hg i (by omega) (by omega)
      have := ub1 i x y
      have u'' : g i + P.add ≤ _ := this
      omega

/-- After `push` both children stand for the values of their parent. -/
theorem brep_pushed {st : List Node} {p : Nat} {l r : Int} {f : Int → Int}
    (h : BRep st p l r f) (hlr : l < r) (hp : 1 ≤ p) (hb : 2 * p + 1 < st.length) :
    BRep (pushed st p l r) (2 * p) l ((l + r) / 2) f ∧
    BRep (pushed st p l r) (2 * p + 1) ((l + r) / 2 + 1) r f := by
  have key : ∀ (c : Nat) (a b : Int) (g : Int → Int), c = 2 * p ∨ c = 2 * p + 1 →
      BRep st c a b g → l ≤ a → b ≤ r →
      (∀ i, l ≤ i → i ≤ r → f i = min (g i + (nd st p).add) (nd st p).max1) →
      shiftS (nd st c).smax2 (nd st p).add ≤ (nd st p).smax2 →
      nd (pushed st p l r) c = pushChild (nd st p) (nd st c) (b - a + 1) →
      BRep (pushed st p l r) c a b f := by
    intro c a b g hc h1 ha hb' hg hk e0
    have hfr : ∀ i, Under (2 * c) i ∨ Under (2 * c + 1) i →
        nd (pushed st p l r) i = nd st i := fun i hi => by
      have := under_child_ne hp c hc hi
      exact nd_pushed_other st l r this.1 this.2.1 this.2.2
    have hd : ∀ i, a ≤ i → i ≤ b → LLONG_MIN < g i + (nd st p).add := fun i x y => by
      have := hg i (by omega) (by omega)
      have := ((brep_good h).2.1 i (by omega) (by omega)).1
      omega
    have hcl : c < st.length := by omega
    rcases pushChild_view (brep_good h) (brep_good h1) ha hb' hg hk with ⟨e, q⟩ | ⟨e, q1, q2, q3⟩
    · refine brep_congr (brep_add h1 (nd st p).add hd (by rw [e0, e]) hfr) q
    · have s1 : BRep (upd st c (fun x => x.apply_add (nd st p).add (b - a + 1))) c a b
          (fun i => g i + (nd st p).add) :=
        brep_add h1 (nd st p).add hd (nd_upd_self hcl _) fun i hi =>
          nd_upd_ne _ (by rcases hi with hi | hi <;> have := under_ge hi <;> omega) _
      have e1 := nd_upd_self hcl (fun x : Node => x.apply_add (nd st p).add (b - a + 1))
      refine brep_congr (brep_chmin s1 (nd st p).max1 (by rw [e1]; exact q1)
        (by rw [e1]; exact q2) q3 (by rw [e0, e, e1]) fun i hi => ?_)
        fun i x y => hg i (by omega) (by omega)
      rw [hfr i hi]
      exact (nd_upd_ne _ (by rcases hi with hi | hi <;> have := under_ge hi <;> omega) _).symm
  cases h with
  | leaf => omega
  | node _ _ _ _ g _ h1 h2 hg hgood k1 k2 =>
    constructor
    · exact key (2 * p) l ((l + r) / 2) g (Or.inl rfl) h1 (le_refl _) (by omega) hg k1
        (nd_pushed_left l r hp hb)
    · refine key (2 * p + 1) ((l + r) / 2 + 1) r g (Or.inr rfl) h2 (by omega) (le_refl _) hg k2 ?_
      rw [nd_pushed_right l r hp hb, show r - ((l + r) / 2 + 1) + 1 = r - (l + r) / 2 by ring]

/-- Re-merging a node whose two children stand for `f`. -/
theorem brep_merge {s : List Node} {p : Nat} {l r : Int} {f : Int → Int}
    (hp : 1 ≤ p) (hb : 2 * p + 1 < s.length) (hlr : l < r)
    (h1 : BRep s (2 * p) l ((l + r) / 2) f)
    (h2 : BRep s (2 * p + 1) ((l + r) / 2 + 1) r f) :
    BRep (s.set p (merge (nd s (2 * p)) (nd s (2 * p + 1)))) p l r f := by
  have g1 := (bgood_merge (brep_good h1) (brep_good h2)).1
  have e0 : nd (s.set p (merge (nd s (2 * p)) (nd s (2 * p + 1)))) p =
      merge (nd s (2 * p)) (nd s (2 * p + 1)) := nd_set_self (by omega) _
  refine brep_node_plain hlr
    (brep_frame h1 fun i hi => nd_set_ne _ (by have := under_ge hi; omega) _)
    (brep_frame h2 fun i hi => nd_set_ne _ (by have := under_ge hi; omega) _) ?_ ?_
  · rw [e0]; exact g1
  · rw [e0]; exact merge_add _ _

theorem range_add_go_rep {N : Nat} {p : Nat} {l r : Int} (L R v : Int) (hs : Shape N p l r) :
    ∀ (fuel : Nat) (st : List Node) (f : Int → Int), r - l < fuel → st.length = N →
      BRep st p l r f → (∀ i, l ≤ i → i ≤ r → L ≤ i → i ≤ R → LLONG_MIN < f i + v) →
    ∃ st', range_add_go fuel st p l r L R v = .ok st' ∧ st'.length = N ∧
      (∀ i, ¬ Under p i → nd st' i = nd st i) ∧
      BRep st' p l r (fun i => if L ≤ i ∧ i ≤ R then f i + v else f i) := by
  have whole : ∀ (p : Nat) (l r : Int) (st : List Node) (f : Int → Int), 1 ≤ p → p < st.length →
      BRep st p l r f → (∀ i, l ≤ i → i ≤ r → L ≤ i → i ≤ R → LLONG_MIN < f i + v) →
      L ≤ l ∧ r ≤ R →
      BRep (upd st p (fun x => x.apply_add v (r - l + 1))) p l r
        (fun i => if L ≤ i ∧ i ≤ R then f i + v else f i) := by
    intro p l r st f hp hb hr hv h2
    refine brep_congr (brep_add hr v (fun i a b => hv i a b (by omega) (by omega))
      (nd_upd_self hb _) fun i hi => ?_) fun i a b => by rw [if_pos ⟨by omega, by omega⟩]
    exact nd_upd_ne _ (by rcases hi with hi | hi <;> have := under_ge hi <;> omega) _
  induction hs with
  | leaf p l hp hN =>
    intro fuel st f hf hl hr hv
    obtain ⟨k, rfl⟩ : ∃ k, fuel = k + 1 := ⟨fuel - 1, by omega⟩
    unfold range_add_go
    by_cases h1 : R < l ∨ l < L
    · rw [if_pos h1]
      exact ⟨st, rfl, hl, fun _ _ => rfl, brep_congr hr fun i a b => by
        rw [if_neg (by omega)]⟩
    · rw [if_neg h1, if_pos ⟨by omega, by omega⟩, apply_add_ok (by omega)]
      exact ⟨_, rfl, by simpa [upd] using hl, fun i hi => nd_upd_of_not_under _ hi,
        whole p l l st f hp (by omega) hr hv ⟨by omega, by omega⟩⟩
  | node p l r hp hN hlr hs1 hs2 ih1 ih2 =>
    intro fuel st f hf hl hr hv
    obtain ⟨k, rfl⟩ : ∃ k, fuel = k + 1 := ⟨fuel - 1, by omega⟩
    unfold range_add_go
    by_cases h1 : R < l ∨ r < L
    · rw [if_pos h1]
      exact ⟨st, rfl, hl, fun _ _ => rfl, brep_congr hr fun i a b => by
        rw [if_neg (by omega)]⟩
    · rw [if_neg h1]
      by_cases h2 : L ≤ l ∧ r ≤ R
      · rw [if_pos h2, apply_add_ok (by omega)]
        exact ⟨_, rfl, by simpa [upd] using hl, fun i hi => nd_upd_of_not_under _ hi,
          whole p l r st f hp (by omega) hr hv h2⟩
      · rw [if_neg h2]
        have hb : 2 * p + 1 < st.length := by omega
        obtain ⟨r1, r2⟩ := brep_pushed hr hlr hp hb
        simp only []
        rw [push_eq hp hb (ne_of_lt hlr), bind_ok]
        obtain ⟨s2, e2, l2, f2, q2⟩ := ih1 k (pushed st p l r) f (by omega)
          (by rw [pushed_length]; exact hl) r1 (fun i a b c d => hv i a (by omega) c d)
        have r2' : BRep s2 (2 * p + 1) ((l + r) / 2 + 1) r f :=
          brep_frame r2 fun i hi => f2 i fun h => under_disjoint hp h hi
        obtain ⟨s3, e3, l3, f3, q3⟩ := ih2 k s2 f (by omega) l2 r2'
          (fun i a b c d => hv i (by omega) b c d)
        rw [e2, bind_ok, e3, bind_ok, rd_ok (by omega), bind_ok, rd_ok (by omega), bind_ok,
          wr_ok (by omega)]
        have q2' : BRep s3 (2 * p) l ((l + r) / 2)
            (fun i => if L ≤ i ∧ i ≤ R then f i + v else f i) :=
          brep_frame q2 fun i hi => f3 i fun h => under_disjoint hp hi h
        refine ⟨_, rfl, by simpa using l3, ?_, brep_merge hp (by omega) hlr q2' q3⟩
        intro i hi
        have h0 : i ≠ p := by intro e; subst e; exact hi (under_self _)
        have h1 : ¬ Under (2 * p) i := fun h => hi (under_left h)
        have h2 : ¬ Under (2 * p + 1) i := fun h => hi (under_right h)
        rw [nd_set_ne _ (Ne.symm h0), f3 i h2, f2 i h1]
        exact nd_pushed_other st l r h0 (by intro e; subst e; exact h1 (under_self _))
          (by intro e; subst e; exact h2 (under_self _))

theorem range_chmin_go_rep {N : Nat} {p : Nat} {l r : Int} (L R x : Int) (hx : LLONG_MIN < x)
    (hs : Shape N p l r) :
    ∀ (fuel : Nat) (st : List Node) (f : Int → Int), r - l < fuel → st.length = N →
      BRep st p l r f →
    ∃ st', range_chmin_go fuel st p l r L R x = .ok st' ∧ st'.length = N ∧
      (∀ i, ¬ Under p i → nd st' i = nd st i) ∧
      BRep st' p l r (fun i => if L ≤ i ∧ i ≤ R then min (f i) x else f i) := by
  have whole : ∀ (p : Nat) (l r : Int) (st : List Node) (f : Int → Int), 1 ≤ p → p < st.length →
      BRep st p l r f → ¬ x ≥ (nd st p).max1 → x > (nd st p).smax2 → L ≤ l ∧ r ≤ R →
      BRep (upd st p (fun a => a.apply_chmin x)) p l r
        (fun i => if L ≤ i ∧ i ≤ R then min (f i) x else f i) := by
    intro p l r st f hp hb hr h2 h3 h4
    refine brep_congr (brep_chmin hr x h3 (not_le.mp h2) hx (nd_upd_self hb _) fun i hi => ?_)
      fun i a b => by rw [if_pos ⟨by omega, by omega⟩]
    exact nd_upd_ne _ (by rcases hi with hi | hi <;> have := under_ge hi <;> omega) _
  have same : ∀ (p : Nat) (l r : Int) (st : List Node) (f : Int → Int),
      BRep st p l r f → x ≥ (nd st p).max1 →
      BRep st p l r (fun i => if L ≤ i ∧ i ≤ R then min (f i) x else f i) := by
    intro p l r st f hr h2
    refine brep_congr hr fun i a b => ?_
    have := bgood_ub (brep_good hr) i a b
    split <;> omega
  induction hs with
  | leaf p l hp hN =>
    intro fuel st f hf hl hr
    obtain ⟨k, rfl⟩ : ∃ k, fuel = k + 1 := ⟨fuel - 1, by omega⟩
    unfold range_chmin_go
    by_cases h1 : R < l ∨ l < L
    · rw [if_pos h1]
      exact ⟨st, rfl, hl, fun _ _ => rfl, brep_congr hr fun i a b => by
        rw [if_neg (by omega)]⟩
    · rw [if_neg h1, rd_ok (by omega), bind_ok]
      by_cases h2 : x ≥ (nd st p).max1
      · rw [if_pos h2]
        exact ⟨st, rfl, hl, fun _ _ => rfl, same p l l st f hr h2⟩
      · rw [if_neg h2]
        have h3 : x > (nd st p).smax2 := by
          rw [bgood_leaf_smax2 (brep_good hr)]
          exact hx
        rw [if_pos ⟨by omega, by omega, h3⟩, apply_chmin_ok (by omega)]
        exact ⟨_, rfl, by simpa [upd] using hl, fun i hi => nd_upd_of_not_under _ hi,
          whole p l l st f hp (by omega) hr h2 h3 ⟨by omega, by omega⟩⟩
  | node p l r hp hN hlr hs1 hs2 ih1 ih2 =>
    intro fuel st f hf hl hr
    obtain ⟨k, rfl⟩ : ∃ k, fuel = k + 1 := ⟨fuel - 1, by omega⟩
    unfold range_chmin_go
    by_cases h1 : R < l ∨ r < L
    · rw [if_pos h1]
      exact ⟨st, rfl, hl, fun _ _ => rfl, brep_congr hr fun i a b => by
        rw [if_neg (by omega)]⟩
    · rw [if_neg h1, rd_ok (by omega), bind_ok]
      by_cases h2 : x ≥ (nd st p).max1
      · rw [if_pos h2]
        exact ⟨st, rfl, hl, fun _ _ => rfl, same p l r st f hr h2⟩
      · rw [if_neg h2]
        by_cases h3 : L ≤ l ∧ r ≤ R ∧ x > (nd st p).smax2
        · rw [if_pos h3, apply_chmin_ok (by omega)]
          exact ⟨_, rfl, by simpa [upd] using hl, fun i hi => nd_upd_of_not_under _ hi,
            whole p l r st f hp (by omega) hr h2 h3.2.2 ⟨h3.1, h3.2.1⟩⟩
        · rw [if_neg h3]
          have hb : 2 * p + 1 < st.length := by omega
          obtain ⟨r1, r2⟩ := brep_pushed hr hlr hp hb
          simp only []
          rw [push_eq hp hb (ne_of_lt hlr), bind_ok]
          obtain ⟨s2, e2, l2, f2, q2⟩ := ih1 k (pushed st p l r) f (by omega)
            (by rw [pushed_length]; exact hl) r1
          have r2' : BRep s2 (2 * p + 1) ((l + r) / 2 + 1) r f :=
            brep_frame r2 fun i hi => f2 i fun h => under_disjoint hp h hi
          obtain ⟨s3, e3, l3, f3, q3⟩ := ih2 k s2 f (by omega) l2 r2'
          rw [e2, bind_ok, e3, bind_ok, rd_ok (by omega), bind_ok, rd_ok (by omega), bind_ok,
            wr_ok (by omega)]
          have q2' : BRep s3 (2 * p) l ((l + r) / 2)
              (fun i => if L ≤ i ∧ i ≤ R then min (f i) x else f i) :=
            brep_frame q2 fun i hi => f3 i fun h => under_disjoint hp hi h
          refine ⟨_, rfl, by simpa using l3, ?_, brep_merge hp (by omega) hlr q2' q3⟩
          intro i hi
          have h0 : i ≠ p := by intro e; subst e; exact hi (under_self _)
          have h1 : ¬ Under (2 * p) i := fun h => hi (under_left h)
          have h2 : ¬ Under (2 * p + 1) i := fun h => hi (under_right h)
          rw [nd_set_ne _ (Ne.symm h0), f3 i h2, f2 i h1]
          exact nd_pushed_other st l r h0 (by intro e; subst e; exact h1 (under_self _))
            (by intro e; subst e; exact h2 (under_self _))

theorem range_sum_go_rep {N : Nat} {p : Nat} {l r : Int} (L R : Int) (hs : Shape N p l r) :
    ∀ (fuel : Nat) (st : List Node) (f : Int → Int), r - l < fuel → st.length = N →
      BRep st p l r f →
    ∃ st', range_sum_go fuel st p l r L R = .ok (rsum f (max l L) (min r R), st') ∧
      st'.length = N ∧ (∀ i, ¬ Under p i → nd st' i = nd st i) ∧ BRep st' p l r f := by
  induction hs with
  | leaf p l hp hN =>
    intro fuel st f hf hl hr
    obtain ⟨k, rfl⟩ : ∃ k, fuel = k + 1 := ⟨fuel - 1, by omega⟩
    unfold range_sum_go
    by_cases h1 : R < l ∨ l < L
    · rw [if_pos h1, rsum_empty f (by omega)]
      exact ⟨st, rfl, hl, fun _ _ => rfl, hr⟩
    · rw [if_neg h1, if_pos (by omega), rd_ok (by omega), bind_ok, pure_eq_ok,
        (brep_good hr).1, show max l L = l by omega, show min l R = l by omega]
      exact ⟨st, rfl, hl, fun _ _ => rfl, hr⟩
  | node p l r hp hN hlr hs1 hs2 ih1 ih2 =>
    intro fuel st f hf hl hr
    obtain ⟨k, rfl⟩ : ∃ k, fuel = k + 1 := ⟨fuel - 1, by omega⟩
    unfold range_sum_go
    by_cases h1 : R < l ∨ r < L
    · rw [if_pos h1, rsum_empty f (by omega)]
      exact ⟨st, rfl, hl, fun _ _ => rfl, hr⟩
    · rw [if_neg h1]
      by_cases h2 : L ≤ l ∧ r ≤ R
      · rw [if_pos h2, rd_ok (by omega), bind_ok, pure_eq_ok, (brep_good hr).1,
          show max l L = l by omega, show min r R = r by omega]
        exact ⟨st, rfl, hl, fun _ _ => rfl, hr⟩
      · rw [if_neg h2]
        have hb : 2 * p + 1 < st.length := by omega
        obtain ⟨r1, r2⟩ := brep_pushed hr hlr hp hb
        simp only []
        rw [push_eq hp hb (ne_of_lt hlr), bind_ok]
        obtain ⟨s2, e2, l2, f2, q2⟩ := ih1 k (pushed st p l r) f (by omega)
          (by rw [pushed_length]; exact hl) r1
        have r2' : BRep s2 (2 * p + 1) ((l + r) / 2 + 1) r f :=
          brep_frame r2 fun i hi => f2 i fun h => under_disjoint hp h hi
        obtain ⟨s3, e3, l3, f3, q3⟩ := ih2 k s2 f (by omega) l2 r2'
        rw [e2, bind_ok]
        simp only []
        rw [e3, bind_ok]
        have hP : nd s3 p = { nd st p with add := 0 } := by
          rw [f3 p (fun h => by have := under_ge h; omega),
            f2 p (fun h => by have := under_ge h; omega)]
          exact nd_pushed_self l r hp hb
        have q2' : BRep s3 (2 * p) l ((l + r) / 2) f :=
          brep_frame q2 fun i hi => f3 i fun h => under_disjoint hp hi h
        refine ⟨s3, ?_, l3, ?_, ?_⟩
        · simp only [pure_eq_ok]
          congr 2
          by_cases c1 : R ≤ (l + r) / 2
          · rw [rsum_empty f (show min r R < max ((l + r) / 2 + 1) L by omega), add_zero,
              show min ((l + r) / 2) R = min r R by omega]
          · by_cases c2 : (l + r) / 2 < L
            · rw [rsum_empty f (show min ((l + r) / 2) R < max l L by omega), zero_add,
                show max ((l + r) / 2 + 1) L = max l L by omega]
            · rw [rsum_split f (show max l L ≤ (l + r) / 2 + 1 by omega)
                (show (l + r) / 2 ≤ min r R by omega),
                show min ((l + r) / 2) R = (l + r) / 2 by omega,
                show max ((l + r) / 2 + 1) L = (l + r) / 2 + 1 by omega]
        · intro i hi
          have h0 : i ≠ p := by intro e; subst e; exact hi (under_self _)
          have h1 : ¬ Under (2 * p) i := fun h => hi (under_left h)
          have h2 : ¬ Under (2 * p + 1) i := fun h => hi (under_right h)
          rw [f3 i h2, f2 i h1]
          exact nd_pushed_other st l r h0 (by intro e; subst e; exact h1 (under_self _))
            (by intro e; subst e; exact h2 (under_self _))
        · refine brep_node_plain hlr q2' q3 ?_ ?_
          · rw [hP]
            exact bgood_add_irrel (brep_good hr) 0
          · rw [hP]

theorem built_brep {a : List Int} (hty : ∀ v ∈ a, LLONG_MIN < v) {st : List Node} {p : Nat}
    {l r : Int} (h : Built a st p l r) : 0 ≤ l → r < a.length → BRep st p l r (elemAt a) := by
  induction h with
  | leaf p l hn =>
    intro h0 h1
    refine BRep.leaf p l _ ?_
    rw [hn]
    exact bgood_make_node (hty _ (elemAt_mem h0 h1)) rfl
  | node p l r hlr _ _ hn ih1 ih2 =>
    intro h0 h1
    have q1 := ih1 h0 (by omega)
    have q2 := ih2 (by omega) h1
    refine brep_node_plain hlr q1 q2 ?_ ?_
    · rw [hn]
      exact (bgood_merge (brep_good q1) (brep_good q2)).1
    · rw [hn]
      exact merge_add _ _

theorem noSentinel_head {a : List Int} {ops : List Op} (h : NoSentinel a ops) :
    ∀ v ∈ a, LLONG_MIN < v := by
  cases ops with
  | nil => exact h a (List.mem_singleton_self a)
  | cons op ops => exact h a (List.mem_cons_self _ _)

theorem noSentinel_tail {a : List Int} {op : Op} {ops : List Op}
    (h : NoSentinel a (op :: ops)) : NoSentinel (naiveStep a op).2 ops :=
  fun b hb => h b (List.mem_cons_of_mem _ hb)

theorem beats_range_add_rep {n : Nat} (hn : 1 ≤ n) {st : List Node} {A : List Int}
    (hl : st.length = 4 * n + 4) (hA : A.length = n)
    (hr : BRep st 1 0 ((n : Int) - 1) (elemAt A)) (L R v : Int)
    (hv : ∀ w ∈ naiveMap (fun e => e + v) L R 0 A, LLONG_MIN < w) :
    ∃ st', range_add ⟨n, st⟩ L R v = .ok ⟨n, st'⟩ ∧ st'.length = 4 * n + 4 ∧
      BRep st' 1 0 ((n : Int) - 1) (elemAt (naiveMap (fun e => e + v) L R 0 A)) := by
  obtain ⟨s, e, l2, -, q⟩ := range_add_go_rep L R v (shape_root hn) st.length st _
    (by omega) hl hr (fun i a b c d => by
      have h1 := hv _ (elemAt_mem (a := naiveMap (fun e => e + v) L R 0 A) (i := i) a
        (by rw [length_naiveMap]; omega))
      rw [elemAt_naiveMap _ L R A i a (by omega), if_pos ⟨c, d⟩] at h1
      exact h1)
  refine ⟨s, ?_, l2, brep_congr q fun i a b => ?_⟩
  · unfold range_add
    simp only []
    rw [e]
    rfl
  · rw [elemAt_naiveMap _ L R A i a (by omega)]

theorem beats_range_chmin_rep {n : Nat} (hn : 1 ≤ n) {st : List Node} {A : List Int}
    (hl : st.length = 4 * n + 4) (hA : A.length = n)
    (hr : BRep st 1 0 ((n : Int) - 1) (elemAt A)) (L R x : Int) (hx : LLONG_MIN < x) :
    ∃ st', range_chmin ⟨n, st⟩ L R x = .ok ⟨n, st'⟩ ∧ st'.length = 4 * n + 4 ∧
      BRep st' 1 0 ((n : Int) - 1) (elemAt (naiveMap (fun e => min e x) L R 0 A)) := by
  obtain ⟨s, e, l2, -, q⟩ := range_chmin_go_rep L R x hx (shape_root hn) st.length st _
    (by omega) hl hr
  refine ⟨s, ?_, l2, brep_congr q fun i a b => ?_⟩
  · unfold range_chmin
    simp only []
    rw [e]
    rfl
  · rw [elemAt_naiveMap _ L R A i a (by omega)]

theorem beats_range_sum_rep {n : Nat} (hn : 1 ≤ n) {st : List Node} {A : List Int}
    (hl : st.length = 4 * n + 4)
    (hr : BRep st 1 0 ((n : Int) - 1) (elemAt A)) (L R : Int)
    (h0 : 0 ≤ L) (h2 : R ≤ (n : Int) - 1) :
    ∃ st', range_sum ⟨n, st⟩ L R = .ok (rangeSum A L R, ⟨n, st'⟩) ∧
      st'.length = 4 * n + 4 ∧ BRep st' 1 0 ((n : Int) - 1) (elemAt A) := by
  obtain ⟨s, e, l2, -, q⟩ := range_sum_go_rep L R (shape_root hn) st.length st _ (by omega) hl hr
  refine ⟨s, ?_, l2, q⟩
  unfold range_sum
  simp only []
  rw [e, rangeSum_eq_rsum, show max 0 L = L by omega, show min ((n : Int) - 1) R = R by omega]
  rfl

theorem beats_run_rep {n : Nat} (hn : 1 ≤ n) : ∀ (ops : List Op) (st : List Node)
    (A : List Int), st.length = 4 * n + 4 → A.length = n →
    BRep st 1 0 ((n : Int) - 1) (elemAt A) →
    (∀ op ∈ ops, op.inRange n ∧ op.clampOK ∧ op.noChmax) → NoSentinel A ops →
    ∃ t', run ⟨n, st⟩ ops = .ok ((naiveRun A ops).1, t') := by
  intro ops
  induction ops with
  | nil => intro st A _ _ _ _ _; exact ⟨_, rfl⟩
  | cons op ops ih =>
    intro st A hl hA hr hops hs
    have hop := hops op (List.mem_cons_self _ _)
    have hrest : ∀ o ∈ ops, o.inRange n ∧ o.clampOK ∧ o.noChmax :=
      fun o ho => hops o (List.mem_cons_of_mem _ ho)
    have hs' := noSentinel_tail hs
    cases op with
    | add L R v =>
      obtain ⟨s, e, l2, q⟩ := beats_range_add_rep hn hl hA hr L R v (noSentinel_head hs')
      obtain ⟨t', e'⟩ := ih s (naiveMap (fun e => e + v) L R 0 A) l2
        (by rw [length_naiveMap]; exact hA) q hrest hs'
      refine ⟨t', ?_⟩
      simp only [run, step, e, bind_ok, pure_eq_ok, e', naiveRun, naiveStep, Option.toList,
        List.nil_append]
    | chmin L R x =>
      obtain ⟨s, e, l2, q⟩ := beats_range_chmin_rep hn hl hA hr L R x hop.2.1
      obtain ⟨t', e'⟩ := ih s (naiveMap (fun e => min e x) L R 0 A) l2
        (by rw [length_naiveMap]; exact hA) q hrest hs'
      refine ⟨t', ?_⟩
      simp only [run, step, e, bind_ok, pure_eq_ok, e', naiveRun, naiveStep, Option.toList,
        List.nil_append]
    | chmax L R x => exact absurd hop.2.2 (fun h => h)
    | sum L R =>
      obtain ⟨s, e, l2, q⟩ := beats_range_sum_rep hn hl hr L R hop.1.1 hop.1.2.2
      obtain ⟨t', e'⟩ := ih s A l2 hA q hrest hs'
      refine ⟨t', ?_⟩
      simp only [run, step, e, bind_ok, pure_eq_ok, e', naiveRun, naiveStep, Option.toList,
        List.singleton_append]

theorem rd_set0 (st : List Node) (X : Node) {p : Nat} (hp : 1 ≤ p) :
    rd (st.set 0 X) p = rd st p := by
  unfold rd
  rw [List.getElem?_set_ne (by omega)]

theorem same0_ok (X : Node) (s : List Node) : Same0 X (.ok s) (.ok (s.set 0 X)) := by
  intro s' e
  cases e
  rfl

theorem same0_pure (X : Node) (s : List Node) : Same0 X (pure s) (pure (s.set 0 X)) :=
  same0_ok X s

theorem same0_bind {X : Node} {m m' : Res (List Node)} {f f' : List Node → Res (List Node)}
    (h1 : Same0 X m m') (h2 : ∀ s, Same0 X (f s) (f' (s.set 0 X))) :
    Same0 X (m >>= f) (m' >>= f') := by
  intro s e
  obtain ⟨a, e1, e2⟩ := bind_inv e
  rw [h1 a e1]
  exact h2 a s e2

theorem same0_val {α : Type} {X : Node} {m : Res α} {f f' : α → Res (List Node)}
    (h : ∀ a, Same0 X (f a) (f' a)) : Same0 X (m >>= f) (m >>= f') := by
  intro s e
  obtain ⟨a, e1, e2⟩ := bind_inv e
  rw [e1]
  exact h a s e2

theorem same0_rd {X : Node} {st : List Node} {p : Nat} (hp : 1 ≤ p)
    {f f' : Node → Res (List Node)} (h : ∀ a, Same0 X (f a) (f' a)) :
    Same0 X (rd st p >>= f) (rd (st.set 0 X) p >>= f') := by
  rw [rd_set0 st X hp]
  exact same0_val h

theorem same0_ite {X : Node} {c : Prop} [Decidable c] {a a' b b' : Res (List Node)}
    (h1 : Same0 X a a') (h2 : Same0 X b b') :
    Same0 X (if c then a else b) (if c then a' else b') := by
  split
  · exact h1
  · exact h2

theorem same0_wr {X : Node} {st : List Node} {p : Nat} (hp : 1 ≤ p) (y : Node) :
    Same0 X (wr st p y) (wr (st.set 0 X) p y) := by
  intro s e
  obtain ⟨hb, rfl⟩ := wr_inv e
  rw [wr_ok (by simpa using hb), List.set_comm _ _ _ (by omega)]

theorem same0_apply_add {X : Node} {st : List Node} {p : Nat} (hp : 1 ≤ p) (v len : Int) :
    Same0 X (apply_add st p v len) (apply_add (st.set 0 X) p v len) :=
  same0_rd hp fun _ => same0_wr hp _

theorem same0_apply_chmin {X : Node} {st : List Node} {p : Nat} (hp : 1 ≤ p) (x : Int) :
    Same0 X (apply_chmin st p x) (apply_chmin (st.set 0 X) p x) :=
  same0_rd hp fun _ => same0_wr hp _

theorem same0_apply_chmax {X : Node} {st : List Node} {p : Nat} (hp : 1 ≤ p) (x : Int) :
    Same0 X (apply_chmax st p x) (apply_chmax (st.set 0 X) p x) :=
  same0_rd hp fun _ => same0_wr hp _

theorem same0_push {X : Node} {st : List Node} {p : Nat} (hp : 1 ≤ p) (l r : Int) :
    Same0 X (push st p l r) (push (st.set 0 X) p l r) := by
  have h1 : 1 ≤ 2 * p := by omega
  have h2 : 1 ≤ 2 * p + 1 := by omega
  unfold push
  split
  · exact same0_ok X st
  · exact same0_rd hp fun np => same0_bind
      (same0_ite (same0_bind (same0_wr hp _) fun s1 =>
        same0_bind (same0_apply_add h1 _ _) fun s2 => same0_apply_add h2 _ _)
        (same0_pure X st))
      fun s1 => same0_rd hp fun _ => same0_rd h1 fun _ =>
      same0_bind (same0_ite (same0_apply_chmin h1 _) (same0_pure X s1)) fun s2 =>
      same0_rd h2 fun _ =>
      same0_bind (same0_ite (same0_apply_chmin h2 _) (same0_pure X s2)) fun s3 =>
      same0_rd hp fun _ => same0_rd h1 fun _ =>
      same0_bind (same0_ite (same0_apply_chmax h1 _) (same0_pure X s3)) fun s4 =>
      same0_rd h2 fun _ =>
      same0_bind (same0_ite (same0_apply_chmax h2 _) (same0_pure X s4)) fun s5 =>
      same0_pure X s5

theorem range_add_go_set0 (X : Node) (L R v : Int) : ∀ (fuel : Nat) (st : List Node) (p : Nat)
    (l r : Int), 1 ≤ p →
    Same0 X (range_add_go fuel st p l r L R v) (range_add_go fuel (st.set 0 X) p l r L R v) := by
  intro fuel
  induction fuel with
  | zero => intro st p l r _ s e; cases e
  | succ k ih =>
    intro st p l r hp
    unfold range_add_go
    exact same0_ite (same0_ok X st) (same0_ite (same0_apply_add hp _ _)
      (same0_bind (same0_push hp l r) fun s1 =>
        same0_bind (ih s1 (2 * p) _ _ (by omega)) fun s2 =>
        same0_bind (ih s2 (2 * p + 1) _ _ (by omega)) fun s3 =>
        same0_rd (by omega) fun _ => same0_rd (by omega) fun _ => same0_wr hp _))

theorem range_chmin_go_set0 (X : Node) (L R x : Int) : ∀ (fuel : Nat) (st : List Node)
    (p : Nat) (l r : Int), 1 ≤ p →
    Same0 X (range_chmin_go fuel st p l r L R x)
      (range_chmin_go fuel (st.set 0 X) p l r L R x) := by
  intro fuel
  induction fuel with
  | zero => intro st p l r _ s e; cases e
  | succ k ih =>
    intro st p l r hp
    unfold range_chmin_go
    exact same0_ite (same0_ok X st) (same0_rd hp fun np =>
      same0_ite (same0_pure X st) (same0_ite (same0_apply_chmin hp _)
        (same0_bind (same0_push hp l r) fun s1 =>
          same0_bind (ih s1 (2 * p) _ _ (by omega)) fun s2 =>
          same0_bind (ih s2 (2 * p + 1) _ _ (by omega)) fun s3 =>
          same0_rd (by omega) fun _ => same0_rd (by omega) fun _ => same0_wr hp _)))

theorem range_chmax_go_set0 (X : Node) (L R x : Int) : ∀ (fuel : Nat) (st : List Node)
    (p : Nat) (l r : Int), 1 ≤ p →
    Same0 X (range_chmax_go fuel st p l r L R x)
      (range_chmax_go fuel (st.set 0 X) p l r L R x) := by
  intro fuel
  induction fuel with
  | zero => intro st p l r _ s e; cases e
  | succ k ih =>
    intro st p l r hp
    unfold range_chmax_go
    exact same0_ite (same0_ok X st) (same0_rd hp fun np =>
      same0_ite (same0_pure X st) (same0_ite (same0_apply_chmax hp _)
        (same0_bind (same0_push hp l r) fun s1 =>
          same0_bind (ih s1 (2 * p) _ _ (by omega)) fun s2 =>
          same0_bind (ih s2 (2 * p + 1) _ _ (by omega)) fun s3 =>
          same0_rd (by omega) fun _ => same0_rd (by omega) fun _ => same0_wr hp _)))

theorem build_go_set0 (X : Node) (a : List Int) : ∀ (fuel : Nat) (st : List Node) (p : Nat)
    (l r : Int), 1 ≤ p →
    Same0 X (build_go fuel st p l r a) (build_go fuel (st.set 0 X) p l r a) := by
  intro fuel
  induction fuel with
  | zero => intro st p l r _ s e; cases e
  | succ k ih =>
    intro st p l r hp
    unfold build_go
    exact same0_ite (same0_val fun _ => same0_wr hp _)
      (same0_bind (ih st (2 * p) _ _ (by omega)) fun s2 =>
        same0_bind (ih s2 (2 * p + 1) _ _ (by omega)) fun s3 =>
        same0_rd (by omega) fun _ => same0_rd (by omega) fun _ => same0_wr hp _)

theorem range_sum_go_set0 (X : Node) (L R : Int) : ∀ (fuel : Nat) (st : List Node) (p : Nat)
    (l r : Int), 1 ≤ p → ∀ (v : Int) (s : List Node),
    range_sum_go fuel st p l r L R = .ok (v, s) →
    range_sum_go fuel (st.set 0 X) p l r L R = .ok (v, s.set 0 X) := by
  intro fuel
  induction fuel with
  | zero => intro st p l r _ v s e; cases e
  | succ k ih =>
    intro st p l r hp v s e
    unfold range_sum_go at e ⊢
    by_cases c1 : R < l ∨ r < L
    · rw [if_pos c1] at e ⊢
      cases e
      rfl
    · rw [if_neg c1] at e ⊢
      by_cases c2 : L ≤ l ∧ r ≤ R
      · rw [if_pos c2] at e ⊢
        rw [rd_set0 st X hp]
        obtain ⟨np, e1, e2⟩ := bind_inv e
        rw [e1, bind_ok]
        cases e2
        rfl
      · rw [if_neg c2] at e ⊢
        simp only [] at e ⊢
        obtain ⟨s1, e1, e⟩ := bind_inv e
        obtain ⟨⟨a, s2⟩, e2, e⟩ := bind_inv e
        obtain ⟨⟨b, s3⟩, e3, e⟩ := bind_inv e
        cases e
        rw [same0_push hp l r s1 e1, bind_ok, ih _ _ _ _ (by omega) _ _ e2, bind_ok]
        simp only []
        rw [ih _ _ _ _ (by omega) _ _ e3]
        rfl

/-- A public call neither reads nor writes the record at position 0: with any other
record `X` there, it returns the same value and leaves the same records, `X` still
being at position 0. -/
theorem step_set0 (X : Node) {t t' : SegTreeBeats} {op : Op} {o : Option Int}
    (h : step t op = .ok (o, t')) :
    step { t with st := t.st.set 0 X } op = .ok (o, { t' with st := t'.st.set 0 X }) := by
  obtain ⟨n, st⟩ := t
  cases op with
  | add L R v =>
    simp only [step, range_add] at h ⊢
    obtain ⟨t1, e1, e2⟩ := bind_inv h
    obtain ⟨s, e3, e4⟩ := bind_inv e1
    cases e4
    cases e2
    rw [List.length_set, range_add_go_set0 X L R v _ _ _ _ _ (le_refl 1) s e3]
    rfl
  | chmin L R x =>
    simp only [step, range_chmin] at h ⊢
    obtain ⟨t1, e1, e2⟩ := bind_inv h
    obtain ⟨s, e3, e4⟩ := bind_inv e1
    cases e4
    cases e2
    rw [List.length_set, range_chmin_go_set0 X L R x _ _ _ _ _ (le_refl 1) s e3]
    rfl
  | chmax L R x =>
    simp only [step, range_chmax] at h ⊢
    obtain ⟨t1, e1, e2⟩ := bind_inv h
    obtain ⟨s, e3, e4⟩ := bind_inv e1
    cases e4
    cases e2
    rw [List.length_set, range_chmax_go_set0 X L R x _ _ _ _ _ (le_refl 1) s e3]
    rfl
  | sum L R =>
    simp only [step, range_sum] at h ⊢
    obtain ⟨⟨v, t1⟩, e1, e2⟩ := bind_inv h
    obtain ⟨⟨w, s⟩, e3, e4⟩ := bind_inv e1
    cases e4
    cases e2
    rw [List.length_set, range_sum_go_set0 X L R _ _ _ _ _ (le_refl 1) _ _ e3]
    rfl

/-- Public calls with 64-bit arguments and clamp values other than the sentinels
complete in every state reached by such calls, the node vector keeps its size, and the
record at position 0 keeps its value. -/
theorem indices_in_bounds_core :
    (∀ a : List Int, a ≠ [] → ∃ t, build a = .ok t ∧ t.n = a.length ∧
      t.st.length = 4 * a.length + 4 ∧ nd t.st 0 = {}) ∧
    (∀ t, ReachableAny (fun op => op.word64 ∧ op.clampOK) t →
      ∀ op : Op, op.word64 → op.clampOK →
        ∃ o t', step t op = .ok (o, t') ∧ t'.n = t.n ∧ (t'.st.length : Int) = 4 * t.n + 4 ∧
          t'.st.length = t.st.length ∧ nd t'.st 0 = nd t.st 0) := by
  constructor
  · intro a ha
    obtain ⟨st, e, hl, -⟩ := build_spec ha
    have hn : 1 ≤ a.length := by
      cases a with
      | nil => exact absurd rfl ha
      | cons x xs => simp
    refine ⟨_, e, rfl, hl, ?_⟩
    unfold build at e
    simp only [] at e
    obtain ⟨s, e1, u⟩ := bind_inv e
    cases u
    obtain ⟨-, f1, -⟩ := build_go_kids (shape_root hn) _ _ _ (init_length _)
      (fun i _ => init_nd _ i) e1
    rw [f1 0 not_under_one_zero]
    exact init_nd _ 0
  · intro t ht op hw hc
    obtain ⟨n, hn, e1, hl, hq, -⟩ := reachableAny_gen (reachableAny_mono (fun _ h => h.1) ht)
    obtain ⟨tn, st⟩ := t
    simp only at e1 hl hq
    subst e1
    have hs := shape_root hn
    cases op with
    | add L R v =>
      obtain ⟨s, e, l1, f1, -⟩ := range_add_go_spec LeafGen leafGen_pushChild leafGen_apply_add
        L R v hs st.length st (by omega) hl hq
      refine ⟨none, ⟨n, s⟩, ?_, rfl, ?_, by rw [l1, hl], f1 0 not_under_one_zero⟩
      · simp only [step, range_add]
        rw [e]
        rfl
      · simp only [l1]
        push_cast
        ring
    | chmin L R x =>
      obtain ⟨s, e, l1, f1, -⟩ := range_chmin_go_idem L R x hc hs st.length st (by omega) hl hq
      refine ⟨none, ⟨n, s⟩, ?_, rfl, ?_, by rw [l1, hl], f1 0 not_under_one_zero⟩
      · simp only [step, range_chmin]
        rw [e]
        rfl
      · simp only [l1]
        push_cast
        ring
    | chmax L R x =>
      obtain ⟨s, e, l1, f1, -⟩ := range_chmax_go_ok L R x hc hs st.length st (by omega) hl hq
      refine ⟨none, ⟨n, s⟩, ?_, rfl, ?_, by rw [l1, hl], f1 0 not_under_one_zero⟩
      · simp only [step, range_chmax]
        rw [e]
        rfl
      · simp only [l1]
        push_cast
        ring
    | sum L R =>
      obtain ⟨a, s, e, l1, f1, -⟩ := range_sum_go_leaves LeafGen leafGen_pushChild L R hs
        st.length st (by omega) hl hq
      refine ⟨some a, ⟨n, s⟩, ?_, rfl, ?_, by rw [l1, hl], f1 0 not_under_one_zero⟩
      · simp only [step, range_sum]
        rw [e]
        rfl
      · simp only [l1]
        push_cast
        ring

theorem wrapInt32_id {x : Int} (h0 : -2147483648 ≤ x) (h1 : x ≤ 2147483647) :
    wrapInt32 x = x := by
  unfold wrapInt32
  omega

/-- Where `L + R` fits in an `int`, the machine arithmetic of `sum_i` is exact. -/
theorem sum_i_int32_eq {L R : Int} (h0 : 0 ≤ L) (h : L ≤ R) (hb : L + R ≤ INT_MAX) :
    AP.sum_i_int32 L R = AP.sum_i L R := by
  unfold INT_MAX at hb
  unfold AP.sum_i_int32 AP.sum_i
  simp only []
  rw [wrapInt32_id (x := R - L) (by omega) (by omega),
    wrapInt32_id (x := L + R) (by omega) (by omega)]

/-- Where `L + R` does not fit in an `int`, `sum_i` misses the sum by `2^31 * (R - L + 1)`. -/
theorem sum_i_int32_wraps {L R : Int} (h : L ≤ R) (h1 : R ≤ INT_MAX)
    (hb : INT_MAX < L + R) :
    AP.sum_i_int32 L R = rsum (fun i => i) L R - 2147483648 * (R - L + 1) := by
  unfold INT_MAX at h1 hb
  have h2 := two_sumF_id (R - L + 1).toNat L
  rw [show (((R - L + 1).toNat : Nat) : Int) = R - L + 1 by omega] at h2
  unfold AP.sum_i_int32
  simp only []
  rw [wrapInt32_id (x := R - L) (by omega) (by omega),
    show wrapInt32 (L + R) = L + R - 4294967296 by unfold wrapInt32; omega,
    show (L + R - 4294967296) * (R - L + 1) =
      2 * (rsum (fun i => i) L R - 2147483648 * (R - L + 1)) by unfold rsum; linear_combination -h2]
  exact Int.mul_tdiv_cancel_left _ (by decide)

/-! ## The claims -/

/-- C3: for every non-empty array `a` of length `n` and all `0 <= L <= R <= n-1`,
`range_sum(L, R)` on the tree returned by `build(a)` completes and returns
`a[L] + ... + a[R]`. -/
theorem build_range_sum (a : List Int) (ha : a ≠ []) (L R : Int)
    (h0 : 0 ≤ L) (h1 : L ≤ R) (h2 : R ≤ (a.length : Int) - 1) :
    ∃ t t', build a = .ok t ∧ range_sum t L R = .ok (rangeSum a L R, t') := by
  obtain ⟨st, e, hl, hb⟩ := build_spec ha
  have h := range_sum_built ha hl hb L R
  rw [show max 0 L = L by omega, show min ((a.length : Int) - 1) R = R by omega] at h
  exact ⟨_, _, e, h⟩

/-- C6: in every state reachable from `build` by public calls, `range_add(L, R, delta)`
with in-range `L <= R` completes, and afterwards the point query `range_sum(i, i)`
returns the value it would have returned before the call plus `delta` for every
index `i` in `L..R`, and the unchanged value for every other index. -/
theorem range_add_pointwise (t : SegTreeBeats) (ht : Reachable t) (L R delta : Int)
    (h0 : 0 ≤ L) (h1 : L ≤ R) (h2 : R ≤ t.n - 1) (i : Int) (hi0 : 0 ≤ i) (hi1 : i ≤ t.n - 1) :
    ∃ e t1 t' t2, range_sum t i i = .ok (e, t1) ∧ range_add t L R delta = .ok t' ∧
      range_sum t' i i = .ok (if L ≤ i ∧ i ≤ R then e + delta else e, t2) := by
  obtain ⟨n, hn, e1, hl⟩ := reachable_size ht
  obtain ⟨tn, st⟩ := t
  simp only at e1 hl hi1 h2
  subst e1
  obtain ⟨s1, q1⟩ := range_sum_point hn hl hi0 hi1
  obtain ⟨s, e2, l2, -, -, v2⟩ := range_add_go_spec (fun _ => True) (fun _ _ _ => trivial)
    (fun _ _ _ => trivial) L R delta (shape_root hn) st.length st (by omega) hl
    (trivial_leaves st (shape_root hn))
  obtain ⟨s3, q3⟩ := range_sum_point hn l2 hi0 hi1
  refine ⟨_, _, ⟨n, s⟩, ⟨n, s3⟩, q1, ?_, ?_⟩
  · unfold range_add
    simp only []
    rw [e2]
    rfl
  · rw [q3, v2 i hi0 hi1 (4 * n + 4) (by omega)]

/-- C5 (amended): in every state reachable from `build` by public calls whose clamp
values are not sentinels, `range_chmax(L, R, x)` with in-range `L <= R` and
`x < LLONG_MAX` completes, and afterwards the point query `range_sum(i, i)` returns
`max(e_i, x)` for every index `i` in `L..R` and `e_i` for every other index, `e_i`
being the value that query would have returned before the call. -/
theorem range_chmax_pointwise (t : SegTreeBeats) (ht : ReachableBy Op.clampOK t)
    (L R x : Int) (hx : x < LLONG_MAX)
    (h0 : 0 ≤ L) (h1 : L ≤ R) (h2 : R ≤ t.n - 1) (i : Int) (hi0 : 0 ≤ i) (hi1 : i ≤ t.n - 1) :
    ∃ e t1 t' t2, range_sum t i i = .ok (e, t1) ∧ range_chmax t L R x = .ok t' ∧
      range_sum t' i i = .ok (if L ≤ i ∧ i ≤ R then max e x else e, t2) := by
  obtain ⟨n, hn, e1, hl, hq⟩ := reachable_leaves ht
  obtain ⟨tn, st⟩ := t
  simp only at e1 hl hi1 h2 hq
  subst e1
  obtain ⟨s1, q1⟩ := range_sum_point hn hl hi0 hi1
  obtain ⟨s, e2, l2, -, -, v2⟩ := range_chmax_go_spec L R x hx (shape_root hn) st.length st
    (by omega) hl hq
  obtain ⟨s3, q3⟩ := range_sum_point hn l2 hi0 hi1
  refine ⟨_, _, ⟨n, s⟩, ⟨n, s3⟩, q1, ?_, ?_⟩
  · unfold range_chmax
    simp only []
    rw [e2]
    rfl
  · rw [q3, v2 i hi0 hi1 (4 * n + 4) (by omega)]

/-- C2: the scenario of the test `main`.  On the tree built from `[5,4,3,2,1,6,7,8]`,
`range_chmin(0,4,3)` makes `range_sum(0,7)` return 33, then `range_chmax(2,6,5)` makes it
return 42, then `range_add(1,3,2)` makes it return 48. -/
theorem local_test_scenario :
    (do
      let t ← build [5, 4, 3, 2, 1, 6, 7, 8]
      let t ← range_chmin t 0 4 3
      let (s1, t) ← range_sum t 0 7
      let t ← range_chmax t 2 6 5
      let (s2, t) ← range_sum t 0 7
      let t ← range_add t 1 3 2
      let (s3, _) ← range_sum t 0 7
      pure [s1, s2, s3]) = (.ok [33, 42, 48] : Res (List Int)) := by
  decide

/-- C1 (evidence): on `[1, 5]`, after `range_chmin(0,1,3)` and `range_chmax(0,1,4)` the
tree answers `range_sum(0,1)` with 7, the naive reference model with 8. -/
theorem refinement_fails :
    (do
      let t ← build [1, 5]
      let (outs, _) ← run t [.chmin 0 1 3, .chmax 0 1 4, .sum 0 1]
      pure outs) = (.ok [7] : Res (List Int)) ∧
    (naiveRun [1, 5] [.chmin 0 1 3, .chmax 0 1 4, .sum 0 1]).1 = [8] := by
  decide

/-- C4 (evidence): on `[1, 5]` after `range_chmax(0,1,3)` the point queries read 3 and 5;
after a further `range_chmin(0,1,2)` they read 3 and 3, not `min(3,2)` and `min(5,2)`. -/
theorem range_chmin_pointwise_fails :
    (do
      let t ← build [1, 5]
      let t ← range_chmax t 0 1 3
      let (e0, _) ← range_sum t 0 0
      let (e1, _) ← range_sum t 1 1
      let t' ← range_chmin t 0 1 2
      let (f0, _) ← range_sum t' 0 0
      let (f1, _) ← range_sum t' 1 1
      pure [e0, e1, f0, f1]) = (.ok [3, 5, 3, 3] : Res (List Int)) := by
  decide

/-- C5 (counterexample): on `[5]`, `range_chmax(0,0,LLONG_MAX)` replaces the leaf by the
merge of two unused records, and the point query then reads 0, not `max(5, LLONG_MAX)`. -/
theorem range_chmax_sentinel_counterexample :
    (do
      let t ← build [5]
      let (e0, _) ← range_sum t 0 0
      let t' ← range_chmax t 0 0 LLONG_MAX
      let (f0, _) ← range_sum t' 0 0
      pure (e0, f0)) = (.ok (5, 0) : Res (Int × Int)) ∧ max 5 LLONG_MAX ≠ 0 := by
  decide

/-- C9 (evidence): on `[1, 5]`, after `range_chmin(0,1,3)` and `range_chmax(0,1,4)` the
root record, which owns the range `[0, 1]`, has `min1 = 4` above `max1 = 3`. -/
theorem node_invariant_fails :
    (do
      let t ← build [1, 5]
      let t ← range_chmin t 0 1 3
      let t ← range_chmax t 0 1 4
      pure ((nd t.st 1).min1, (nd t.st 1).max1)) = (.ok (4, 3) : Res (Int × Int)) ∧
    ¬ ((4 : Int) ≤ 3) := by
  decide

/-- C10 (evidence): on `[1, 5]`, after `range_chmin(0,1,3)` the root record keeps
`smin2 = 5`, while the array of the naive model is `[1, 3]`, whose smallest element
strictly above the minimum is 3. -/
theorem root_statistics_fail :
    (do
      let t ← build [1, 5]
      let t ← range_chmin t 0 1 3
      pure (nd t.st 1).smin2) = (.ok 5 : Res Int) ∧
    (naiveRun [1, 5] [.chmin 0 1 3]).2 = [1, 3] ∧ statSmin2 [1, 3] = 3 := by
  decide

/-- C7 (counterexample): on `[5]`, `range_sum(0,0)` is 5, not the empty sum 0
of a half-open range. -/
theorem half_open_counterexample :
    (do
      let t ← build [5]
      let (s, _) ← range_sum t 0 0
      pure s) = (.ok 5 : Res Int) ∧ (5 : Int) ≠ 0 := by
  decide

/-- C8 (counterexample): on `[5]`, `range_add(-1, 0, 10)` is not rejected: it
completes and changes the sum held by the root record from 5 to 15. -/
theorem out_of_range_counterexample :
    (do
      let t ← build [5]
      let t' ← range_add t (-1) 0 10
      pure ((nd t.st 1).sum, (nd t'.st 1).sum)) = (.ok (5, 15) : Res (Int × Int)) := by
  decide

/-- C7 (amended): the public operations use the inclusive convention.  On the tree
built from a non-empty array `a` of length `n`, `range_sum(l, l)` is `a[l]` for every
index `l`, `range_sum(0, n-1)` is the sum of the whole array, and the sum of the
half-open range `[l, r)` with `0 <= l < r <= n` is returned by `range_sum(l, r-1)`. -/
theorem range_sum_inclusive (a : List Int) (ha : a ≠ []) :
    ∃ t, build a = .ok t ∧
      (∀ l : Int, 0 ≤ l → l ≤ (a.length : Int) - 1 →
        ∃ t', range_sum t l l = .ok (a.getD l.toNat 0, t')) ∧
      (∃ t', range_sum t 0 ((a.length : Int) - 1) = .ok (a.sum, t')) ∧
      (∀ l r : Int, 0 ≤ l → l < r → r ≤ a.length →
        ∃ t', range_sum t l (r - 1) = .ok (sumFrom a l (r - l).toNat, t')) := by
  obtain ⟨st, e, hl, hb⟩ := build_spec ha
  refine ⟨_, e, ?_, ?_, ?_⟩
  · intro l h0 h1
    have h := range_sum_built ha hl hb l l
    rw [show max 0 l = l by omega, show min ((a.length : Int) - 1) l = l by omega,
      rangeSum_single] at h
    exact ⟨_, h⟩
  · have h := range_sum_built ha hl hb 0 ((a.length : Int) - 1)
    rw [show max (0 : Int) 0 = 0 by omega,
      show min ((a.length : Int) - 1) ((a.length : Int) - 1) = (a.length : Int) - 1 by omega] at h
    unfold rangeSum at h
    rw [show ((a.length : Int) - 1 - 0 + 1).toNat = a.length by omega, sumFrom_all] at h
    exact ⟨_, h⟩
  · intro l r h0 h1 h2
    have h := range_sum_built ha hl hb l (r - 1)
    rw [show max 0 l = l by omega, show min ((a.length : Int) - 1) (r - 1) = r - 1 by omega] at h
    unfold rangeSum at h
    rw [show (r - 1 - l + 1).toNat = (r - l).toNat by omega] at h
    exact ⟨_, h⟩

/-- C8 (amended): indices are not validated.  On a tree over `n >= 1` elements whose
node vector has the size `init` gives it, `range_add` and `range_sum` complete for all
integers `L`, `R`; and a call of any of the four operations whose range misses the
array entirely (`R < 0` or `L > n-1`) completes without changing any node, `range_sum`
returning 0. -/
theorem out_of_range_not_rejected (n : Nat) (hn : 1 ≤ n) (st : List Node)
    (hl : st.length = 4 * n + 4) (L R v : Int) :
    (∃ t', range_add ⟨n, st⟩ L R v = .ok t') ∧
    (∃ s t', range_sum ⟨n, st⟩ L R = .ok (s, t')) ∧
    (R < 0 ∨ (n : Int) - 1 < L →
      range_add ⟨n, st⟩ L R v = .ok ⟨n, st⟩ ∧ range_chmin ⟨n, st⟩ L R v = .ok ⟨n, st⟩ ∧
      range_chmax ⟨n, st⟩ L R v = .ok ⟨n, st⟩ ∧ range_sum ⟨n, st⟩ L R = .ok (0, ⟨n, st⟩)) := by
  have hs := shape_root hn
  refine ⟨?_, ?_, ?_⟩
  · obtain ⟨s, e, -⟩ := range_add_go_spec (fun _ => True) (fun _ _ _ => trivial)
      (fun _ _ _ => trivial) L R v hs st.length st (by omega) hl (trivial_leaves st hs)
    refine ⟨⟨n, s⟩, ?_⟩
    unfold range_add
    simp only []
    rw [e]
    rfl
  · obtain ⟨a, s, e, -⟩ := range_sum_go_leaves (fun _ => True) (fun _ _ _ => trivial) L R hs
      st.length st (by omega) hl (trivial_leaves st hs)
    refine ⟨a, ⟨n, s⟩, ?_⟩
    unfold range_sum
    simp only []
    rw [e]
    rfl
  · intro h
    obtain ⟨f, hf⟩ : ∃ f, st.length = f + 1 := ⟨st.length - 1, by omega⟩
    have h' : R < 0 ∨ (n : Int) - 1 < L := h
    refine ⟨?_, ?_, ?_, ?_⟩
    · simp only [range_add, hf, range_add_go, if_pos h']; rfl
    · simp only [range_chmin, hf, range_chmin_go, if_pos h']; rfl
    · simp only [range_chmax, hf, range_chmax_go, if_pos h']; rfl
    · simp only [range_sum, hf, range_sum_go, if_pos h']; rfl

/-- Witness of `build_range_sum`. -/
theorem build_range_sum_witness :
    ∃ t t', build [5, 4, 3] = .ok t ∧ range_sum t 1 2 = .ok (rangeSum [5, 4, 3] 1 2, t') :=
  build_range_sum [5, 4, 3] (by decide) 1 2 (by decide) (by decide) (by decide)

/-- Witness of `range_sum_inclusive`. -/
theorem range_sum_inclusive_witness :
    ∃ t, build [5, 4, 3] = .ok t ∧
      (∀ l : Int, 0 ≤ l → l ≤ (([5, 4, 3] : List Int).length : Int) - 1 →
        ∃ t', range_sum t l l = .ok (([5, 4, 3] : List Int).getD l.toNat 0, t')) ∧
      (∃ t', range_sum t 0 ((([5, 4, 3] : List Int).length : Int) - 1) =
        .ok (([5, 4, 3] : List Int).sum, t')) ∧
      (∀ l r : Int, 0 ≤ l → l < r → r ≤ ([5, 4, 3] : List Int).length →
        ∃ t', range_sum t l (r - 1) = .ok (sumFrom [5, 4, 3] l (r - l).toNat, t')) :=
  range_sum_inclusive [5, 4, 3] (by decide)

/-- Witness of `out_of_range_not_rejected`. -/
theorem out_of_range_not_rejected_witness :
    (∃ t', range_add tree15 (-3) 7 1 = .ok t') ∧
    (∃ s t', range_sum tree15 (-3) 7 = .ok (s, t')) ∧
    ((7 : Int) < 0 ∨ ((2 : Nat) : Int) - 1 < -3 →
      range_add tree15 (-3) 7 1 = .ok tree15 ∧ range_chmin tree15 (-3) 7 1 = .ok tree15 ∧
      range_chmax tree15 (-3) 7 1 = .ok tree15 ∧ range_sum tree15 (-3) 7 = .ok (0, tree15)) :=
  out_of_range_not_rejected 2 (by decide) tree15.st (by decide) (-3) 7 1

/-- Witness of `range_add_pointwise`. -/
theorem range_add_pointwise_witness :
    ∃ e t1 t' t2, range_sum tree15 1 1 = .ok (e, t1) ∧ range_add tree15 0 1 7 = .ok t' ∧
      range_sum t' 1 1 = .ok (if (0 : Int) ≤ 1 ∧ (1 : Int) ≤ 1 then e + 7 else e, t2) :=
  range_add_pointwise tree15 (ReachableBy.build [1, 5] tree15 (by decide) (by decide)) 0 1 7
    (by decide) (by decide) (by decide) 1 (by decide) (by decide)

/-- Witness of `range_chmax_pointwise`. -/
theorem range_chmax_pointwise_witness :
    ∃ e t1 t' t2, range_sum tree15 0 0 = .ok (e, t1) ∧ range_chmax tree15 0 1 4 = .ok t' ∧
      range_sum t' 0 0 = .ok (if (0 : Int) ≤ 0 ∧ (0 : Int) ≤ 1 then max e 4 else e, t2) :=
  range_chmax_pointwise tree15 (ReachableBy.build [1, 5] tree15 (by decide) (by decide)) 0 1 4
    (by decide) (by decide) (by decide) (by decide) 0 (by decide) (by decide)

/-! ## Further claims -/

/-- C11 (evidence): the tree built from `[1, 5]` is taken by `range_chmax(0,1,3)` to a
reachable state in which `range_chmin(0,1,2)` completes, and afterwards the point
queries at the addressed indices 0 and 1 both read 3, which is above 2. -/
theorem range_chmin_upper_bound_fails :
    (do
      let t ← build [1, 5]
      let t ← range_chmax t 0 1 3
      let t' ← range_chmin t 0 1 2
      let (f0, _) ← range_sum t' 0 0
      let (f1, _) ← range_sum t' 1 1
      pure [f0, f1]) = (.ok [3, 3] : Res (List Int)) ∧ ¬ ((3 : Int) ≤ 2) := by
  decide

/-- C12 (counterexample): on `[7]`, `range_chmax(0,0,LLONG_MAX)` completes and the
point query at index 0 then reads 0, which is below `LLONG_MAX`; and in the state this
call leaves, `range_chmax(0,0,5)` completes and the point query still reads 0, which
is below 5. -/
theorem range_chmax_lower_bound_counterexample :
    (do
      let t ← build [7]
      let t' ← range_chmax t 0 0 LLONG_MAX
      let (f0, _) ← range_sum t' 0 0
      let t'' ← range_chmax t' 0 0 5
      let (g0, _) ← range_sum t'' 0 0
      pure (f0, g0)) = (.ok (0, 0) : Res (Int × Int)) ∧ ¬ (LLONG_MAX ≤ (0 : Int)) ∧
    ¬ ((5 : Int) ≤ 0) := by
  decide

/-- C12 (amended): in every state reachable from `build` by public calls whose clamp
values are not sentinels, `range_chmax(L, R, x)` with in-range `L <= R` and
`x < LLONG_MAX` completes, and afterwards the point query `range_sum(i, i)` completes
with a value that is at least `x`, for every index `i` in `L..R`. -/
theorem range_chmax_lower_bound (t : SegTreeBeats) (ht : ReachableBy Op.clampOK t)
    (L R x : Int) (hx : x < LLONG_MAX) (h0 : 0 ≤ L) (h2 : R ≤ t.n - 1)
    (i : Int) (hi0 : L ≤ i) (hi1 : i ≤ R) :
    ∃ t' f t2, range_chmax t L R x = .ok t' ∧ range_sum t' i i = .ok (f, t2) ∧ x ≤ f := by
  obtain ⟨n, hn, e1, hl, hq⟩ := reachable_leaves ht
  obtain ⟨tn, st⟩ := t
  simp only at e1 hl h2 hq
  subst e1
  obtain ⟨s, e2, l2, -, -, v2⟩ := range_chmax_go_spec L R x hx (shape_root hn) st.length st
    (by omega) hl hq
  obtain ⟨s3, q3⟩ := range_sum_point hn l2 (i := i) (by omega) (by omega)
  refine ⟨⟨n, s⟩, _, ⟨n, s3⟩, ?_, q3, ?_⟩
  · unfold range_chmax
    simp only []
    rw [e2]
    rfl
  · rw [v2 i (by omega) (by omega) (4 * n + 4) (by omega)]
    simp only [hi0, hi1, and_self, if_true]
    exact le_max_right _ _

/-- Witness of `range_chmax_lower_bound`. -/
theorem range_chmax_lower_bound_witness :
    ∃ t' f t2, range_chmax tree15 0 1 4 = .ok t' ∧ range_sum t' 0 0 = .ok (f, t2) ∧
      (4 : Int) ≤ f :=
  range_chmax_lower_bound tree15 (ReachableBy.build [1, 5] tree15 (by decide) (by decide))
    0 1 4 (by decide) (by decide) (by decide) 0 (by decide) (by decide)

/-- C15 (evidence): on the empty sequence the recursive `build(1, 0, -1, a)` never
reaches a range with `l == r`: it exhausts every amount of fuel, from any node
position and vector, and so the public `build` produces no tree.  On a non-empty
sequence `build` completes. -/
theorem build_empty_diverges :
    (∀ (fuel : Nat) (st : List Node) (p : Nat),
      build_go fuel st p 0 (-1) [] = .error .outOfFuel) ∧
    build [] = .error .outOfFuel ∧
    (∀ a : List Int, a ≠ [] → ∃ t, build a = .ok t) := by
  refine ⟨build_go_empty [], by decide, fun a ha => ?_⟩
  obtain ⟨st, e, -⟩ := build_spec ha
  exact ⟨_, e⟩

/-- C16 (counterexample): with the sentinel as clamp value a leaf is not the end of
the recursion.  On the tree built from `[5]`, whose root range `[0, 0]` has width
one, the recursive `range_chmin` with `x = LLONG_MIN` does not finish with one unit
of fuel, because the leaf calls itself on the range `[0, 0]` again; and on the tree
built from eleven zeros, `range_chmin(7, 7, LLONG_MIN)` reads a record beyond the end
of the node vector and does not complete. -/
theorem sentinel_recursion_counterexample :
    (do
      let t ← build [5]
      range_chmin_go 1 t.st 1 0 0 0 0 LLONG_MIN) = .error .outOfFuel ∧
    (do
      let t ← build (List.replicate 11 0)
      range_chmin t 7 7 LLONG_MIN) = .error .outOfBounds := by
  decide

/-- C20: on the `SegTreeAP` built from a non-empty array `a`, every sequence of
`range_add_ap(l, r, v)`, `range_add_ap_step(l, r, v, d)` and `range_sum(l, r)` calls with
`0 <= l <= r <= n-1` completes, and the queries return what they return on the plain
array on which each update performs `a[i] += v + d*(i - l)` for every `i` in `[l, r]`
(`d = 1` for `range_add_ap`), namely the sum over the inclusive range.  On eight zeros,
`range_add_ap(2,6,5)` makes the total 35, then `range_add_ap_step(0,3,1,2)` makes the total
51 and `range_sum(2,4)` return 30. -/
theorem ap_refines_naive :
    (∀ (a : List Int) (ops : List AP.Op), a ≠ [] → (∀ op ∈ ops, op.inRange a.length) →
      ∃ t t', AP.build a = .ok t ∧ AP.run t ops = .ok ((AP.naiveRun a ops).1, t')) ∧
    (do
      let t ← AP.build [0, 0, 0, 0, 0, 0, 0, 0]
      let t ← AP.range_add_ap t 2 6 5
      let (s1, t) ← AP.range_sum t 0 7
      let t ← AP.range_add_ap_step t 0 3 1 2
      let (s2, t) ← AP.range_sum t 0 7
      let (s3, _) ← AP.range_sum t 2 4
      pure [s1, s2, s3]) = (.ok [35, 51, 30] : Res (List Int)) := by
  refine ⟨fun a ops ha hops => ?_, by decide⟩
  have hn : 1 ≤ a.length := by
    cases a with
    | nil => exact absurd rfl ha
    | cons x xs => simp
  obtain ⟨st, e, hl, hb⟩ := ap_build_spec ha
  obtain ⟨t', e'⟩ := ap_run_spec hn ops st a hl rfl hb hops
  exact ⟨_, t', e, e'⟩

/-- Witness of `ap_refines_naive`. -/
theorem ap_refines_naive_witness :
    ∃ t t', AP.build [4, 0, 7] = .ok t ∧
      AP.run t [.add_ap 0 2 5, .sum 1 2, .add_ap_step 1 2 3 (-2), .sum 0 2] =
        .ok ((AP.naiveRun [4, 0, 7] [.add_ap 0 2 5, .sum 1 2, .add_ap_step 1 2 3 (-2),
          .sum 0 2]).1, t') :=
  ap_refines_naive.1 [4, 0, 7] [.add_ap 0 2 5, .sum 1 2, .add_ap_step 1 2 3 (-2), .sum 0 2]
    (by decide) (by decide)

/-- C18 (counterexample): on the `SegTreeChminSum` built from `[5,4,3,2,1,6,7,8]`, after
`range_chmin(0,4,3)` the total is 33, and after a further `range_chmin(2,6,5)` the total
is 30, not 27: the last element, at index 7, lies outside `[2, 6]` and keeps the value 8. -/
theorem chmin_sum_scenario_counterexample :
    (do
      let t ← ChminSum.build [5, 4, 3, 2, 1, 6, 7, 8]
      let t ← ChminSum.range_chmin t 0 4 3
      let t ← ChminSum.range_chmin t 2 6 5
      let (s2, t) ← ChminSum.range_sum t 0 7
      let (e7, _) ← ChminSum.range_sum t 7 7
      pure (s2, e7)) = (.ok (30, 8) : Res (Int × Int)) ∧ (30 : Int) ≠ 27 := by
  decide

/-- C18 (amended): on the `SegTreeChminSum` built from `[5,4,3,2,1,6,7,8]`,
`range_chmin(0,4,3)` followed by `range_sum(0,7)` gives 33, and a further
`range_chmin(2,6,5)` followed by `range_sum(0,7)` gives 30, the array of the naive model
then being `[3,3,3,2,1,5,5,8]`. -/
theorem chmin_sum_scenario :
    (do
      let t ← ChminSum.build [5, 4, 3, 2, 1, 6, 7, 8]
      let t ← ChminSum.range_chmin t 0 4 3
      let (s1, t) ← ChminSum.range_sum t 0 7
      let t ← ChminSum.range_chmin t 2 6 5
      let (s2, _) ← ChminSum.range_sum t 0 7
      pure [s1, s2]) = (.ok [33, 30] : Res (List Int)) ∧
    (ChminSum.naiveRun [5, 4, 3, 2, 1, 6, 7, 8] [.chmin 0 4 3, .chmin 2 6 5]).2 =
      [3, 3, 3, 2, 1, 5, 5, 8] := by
  decide

/-- C19: on the `SegTreeChminSum` built from a non-empty array `a` of 64-bit values
(none below `LLONG_MIN`), every sequence of `range_chmin(l, r, x)` and `range_sum(l, r)`
calls with `0 <= l <= r <= n-1` and `x` above the "minus infinity" sentinel completes,
and the queries return what they return on the plain array on which each update
performs `a[i] = min(a[i], x)` for every `i` in `[l, r]`, namely the sum over the
inclusive range. -/
theorem chmin_sum_refines_naive (a : List Int) (ha : a ≠ [])
    (hty : ∀ v ∈ a, LLONG_MIN ≤ v) (ops : List ChminSum.Op)
    (hops : ∀ op ∈ ops, op.inRange a.length ∧ op.clampOK) :
    ∃ t t', ChminSum.build a = .ok t ∧
      ChminSum.run t ops = .ok ((ChminSum.naiveRun a ops).1, t') := by
  have hn : 1 ≤ a.length := by
    cases a with
    | nil => exact absurd rfl ha
    | cons x xs => simp
  obtain ⟨st, e, hl, hb⟩ := cs_build_spec ha hty
  obtain ⟨t', e'⟩ := cs_run_spec hn ops st a hl rfl hb hops
  exact ⟨_, t', e, e'⟩

/-- Witness of `chmin_sum_refines_naive`. -/
theorem chmin_sum_refines_naive_witness :
    ∃ t t', ChminSum.build [5, 1, 9] = .ok t ∧
      ChminSum.run t [.chmin 0 2 4, .sum 0 1, .chmin 1 2 2, .sum 0 2] =
        .ok ((ChminSum.naiveRun [5, 1, 9] [.chmin 0 2 4, .sum 0 1, .chmin 1 2 2,
          .sum 0 2]).1, t') :=
  chmin_sum_refines_naive [5, 1, 9] (by decide) (by decide)
    [.chmin 0 2 4, .sum 0 1, .chmin 1 2 2, .sum 0 2] (by decide)

/-- C14 (counterexample): on the tree built from ten ones, `range_chmin(5, 5, LLONG_MIN)`
descends below the leaf of index 5 and reads a record beyond the end of the node
vector: the call does not complete, so that it has no resulting state. -/
theorem range_chmin_sentinel_counterexample :
    (do
      let t ← build (List.replicate 10 1)
      range_chmin t 5 5 LLONG_MIN) = .error .outOfBounds := by
  decide

/-- C14 (amended): in every state reachable from `build` by public calls with 64-bit
arguments, `range_chmin(L, R, x)` with `x` above the sentinel `LLONG_MIN` completes, and
the same call on the resulting state completes and leaves the node vector exactly as
it is. -/
theorem range_chmin_idempotent (t : SegTreeBeats) (ht : ReachableBy Op.word64 t)
    (L R x : Int) (hx : LLONG_MIN < x) :
    ∃ t', range_chmin t L R x = .ok t' ∧ range_chmin t' L R x = .ok t' := by
  obtain ⟨n, hn, e1, hl, hq, -⟩ := reachable_gen ht
  obtain ⟨tn, st⟩ := t
  simp only at e1 hl hq
  subst e1
  obtain ⟨s, e2, l2, -, -, -, i2⟩ := range_chmin_go_idem L R x hx (shape_root hn) st.length st
    (by omega) hl hq
  refine ⟨⟨n, s⟩, ?_, ?_⟩
  · unfold range_chmin
    simp only []
    rw [e2]
    rfl
  · unfold range_chmin
    simp only []
    rw [i2 s.length s (by omega) l2 fun _ _ => rfl]
    rfl

/-- Witness of `range_chmin_idempotent`. -/
theorem range_chmin_idempotent_witness :
    ∃ t', range_chmin tree15 0 1 3 = .ok t' ∧ range_chmin t' 0 1 3 = .ok t' :=
  range_chmin_idempotent tree15 (ReachableBy.build [1, 5] tree15 (by decide) (by decide))
    0 1 3 (by decide)

/-- C16 (amended): in every state reachable from `build` by public calls with 64-bit
arguments, each of the four operations completes for all integers `L`, `R`, provided
the clamp value of `range_chmin` is above `LLONG_MIN` and that of `range_chmax` is below
`LLONG_MAX`.  The recursive procedures complete with any fuel that exceeds the width
`n - 1` of the root range: the nesting of the recursive calls is bounded by the width of
the node range, which shrinks at every call.  The public entry points complete as well. -/
theorem operations_terminate (t : SegTreeBeats) (ht : ReachableBy Op.word64 t)
    (L R v : Int) (fuel : Nat) (hf : t.n - 1 < fuel) :
    (∃ s, range_add_go fuel t.st 1 0 (t.n - 1) L R v = .ok s) ∧
    (LLONG_MIN < v → ∃ s, range_chmin_go fuel t.st 1 0 (t.n - 1) L R v = .ok s) ∧
    (v < LLONG_MAX → ∃ s, range_chmax_go fuel t.st 1 0 (t.n - 1) L R v = .ok s) ∧
    (∃ a, range_sum_go fuel t.st 1 0 (t.n - 1) L R = .ok a) ∧
    (∃ t', range_add t L R v = .ok t') ∧
    (LLONG_MIN < v → ∃ t', range_chmin t L R v = .ok t') ∧
    (v < LLONG_MAX → ∃ t', range_chmax t L R v = .ok t') ∧
    (∃ a, range_sum t L R = .ok a) := by
  obtain ⟨n, hn, e1, hl, hq, -⟩ := reachable_gen ht
  obtain ⟨tn, st⟩ := t
  simp only at e1 hl hq hf
  subst e1
  have hs := shape_root hn
  have A : ∀ k : Nat, (n : Int) - 1 < k →
      ∃ s, range_add_go k st 1 0 ((n : Int) - 1) L R v = .ok s := fun k hk => by
    obtain ⟨s, e, -⟩ := range_add_go_spec LeafGen leafGen_pushChild leafGen_apply_add L R v hs
      k st (by omega) hl hq
    exact ⟨s, e⟩
  have B : LLONG_MIN < v → ∀ k : Nat, (n : Int) - 1 < k →
      ∃ s, range_chmin_go k st 1 0 ((n : Int) - 1) L R v = .ok s := fun hv k hk => by
    obtain ⟨s, e, -⟩ := range_chmin_go_idem L R v hv hs k st (by omega) hl hq
    exact ⟨s, e⟩
  have C : v < LLONG_MAX → ∀ k : Nat, (n : Int) - 1 < k →
      ∃ s, range_chmax_go k st 1 0 ((n : Int) - 1) L R v = .ok s := fun hv k hk => by
    obtain ⟨s, e, -⟩ := range_chmax_go_ok L R v hv hs k st (by omega) hl hq
    exact ⟨s, e⟩
  have D : ∀ k : Nat, (n : Int) - 1 < k →
      ∃ a, range_sum_go k st 1 0 ((n : Int) - 1) L R = .ok a := fun k hk => by
    obtain ⟨a, s, e, -⟩ := range_sum_go_leaves LeafGen leafGen_pushChild L R hs k st
      (by omega) hl hq
    exact ⟨_, e⟩
  refine ⟨A fuel hf, fun hv => B hv fuel hf, fun hv => C hv fuel hf, D fuel hf, ?_, ?_, ?_, ?_⟩
  · obtain ⟨s, e⟩ := A st.length (by omega)
    exact ⟨⟨n, s⟩, by unfold range_add; simp only []; rw [e]; rfl⟩
  · intro hv
    obtain ⟨s, e⟩ := B hv st.length (by omega)
    exact ⟨⟨n, s⟩, by unfold range_chmin; simp only []; rw [e]; rfl⟩
  · intro hv
    obtain ⟨s, e⟩ := C hv st.length (by omega)
    exact ⟨⟨n, s⟩, by unfold range_chmax; simp only []; rw [e]; rfl⟩
  · obtain ⟨a, e⟩ := D st.length (by omega)
    exact ⟨(a.1, ⟨n, a.2⟩), by unfold range_sum; simp only []; rw [e]; rfl⟩

/-- Witness of `operations_terminate`. -/
theorem operations_terminate_witness :
    (∃ s, range_add_go 2 tree15.st 1 0 (tree15.n - 1) (-3) 7 4 = .ok s) ∧
    (LLONG_MIN < 4 → ∃ s, range_chmin_go 2 tree15.st 1 0 (tree15.n - 1) (-3) 7 4 = .ok s) ∧
    ((4 : Int) < LLONG_MAX →
      ∃ s, range_chmax_go 2 tree15.st 1 0 (tree15.n - 1) (-3) 7 4 = .ok s) ∧
    (∃ a, range_sum_go 2 tree15.st 1 0 (tree15.n - 1) (-3) 7 = .ok a) ∧
    (∃ t', range_add tree15 (-3) 7 4 = .ok t') ∧
    (LLONG_MIN < 4 → ∃ t', range_chmin tree15 (-3) 7 4 = .ok t') ∧
    ((4 : Int) < LLONG_MAX → ∃ t', range_chmax tree15 (-3) 7 4 = .ok t') ∧
    (∃ a, range_sum tree15 (-3) 7 = .ok a) :=
  operations_terminate tree15 (ReachableBy.build [1, 5] tree15 (by decide) (by decide))
    (-3) 7 4 2 (by decide)

/-- C26: for an internal node `p` (children inside the vector, range `l < r`) whose
record has `min1 <= max1`, `push(p, l, r)` completes, and afterwards both children
have their `min1` at least the `min1` of `p` and their `max1` at most the `max1` of `p`. -/
theorem push_ceiling_floor (st : List Node) (p : Nat) (l r : Int) (hp : 1 ≤ p)
    (hb : 2 * p + 1 < st.length) (hlr : l < r) (h : (nd st p).min1 ≤ (nd st p).max1) :
    ∃ st', push st p l r = .ok st' ∧
      (nd st' p).min1 ≤ (nd st' (2 * p)).min1 ∧ (nd st' (2 * p)).max1 ≤ (nd st' p).max1 ∧
      (nd st' p).min1 ≤ (nd st' (2 * p + 1)).min1 ∧
      (nd st' (2 * p + 1)).max1 ≤ (nd st' p).max1 := by
  have key : ∀ (c : Node) (len : Int),
      (nd st p).min1 ≤ (pushChild (nd st p) c len).min1 ∧
      (pushChild (nd st p) c len).max1 ≤ (nd st p).max1 := by
    intro c len
    rw [pushChild_eq]
    generalize addStage (nd st p).add len c = c1
    obtain ⟨-, v1⟩ := minStage_view (nd st p).max1 c1
    obtain ⟨-, v2⟩ := maxStage_view (nd st p).min1 (minStage (nd st p).max1 c1)
    rcases v1 with v1 | v1 | v1 <;> rcases v2 with v2 | v2 | v2 <;> constructor <;> omega
  refine ⟨pushed st p l r, push_eq hp hb (ne_of_lt hlr), ?_⟩
  rw [nd_pushed_self l r hp hb, nd_pushed_left l r hp hb, nd_pushed_right l r hp hb]
  exact ⟨(key _ _).1, (key _ _).2, (key _ _).1, (key _ _).2⟩

/-- Witness of `push_ceiling_floor`. -/
theorem push_ceiling_floor_witness :
    ∃ st', push tree15.st 1 0 1 = .ok st' ∧
      (nd st' 1).min1 ≤ (nd st' (2 * 1)).min1 ∧ (nd st' (2 * 1)).max1 ≤ (nd st' 1).max1 ∧
      (nd st' 1).min1 ≤ (nd st' (2 * 1 + 1)).min1 ∧
      (nd st' (2 * 1 + 1)).max1 ≤ (nd st' 1).max1 :=
  push_ceiling_floor tree15.st 1 0 1 (by decide) (by decide) (by decide) (by decide)

/-- C27: `push(p, l, r)` on an internal node completes; of the record of `p` it changes
only `add`, which becomes 0; every record other than those of `p` and its two children
is unchanged; and the new record of each child is its old record after `apply_add` with
the old pending `add` of `p` and the child's length, followed by the clamp from above
with `max1` of `p` and then the clamp from below with `min1` of `p`. -/
theorem push_frame (st : List Node) (p : Nat) (l r : Int) (hp : 1 ≤ p)
    (hb : 2 * p + 1 < st.length) (hlr : l < r) :
    ∃ st', push st p l r = .ok st' ∧ st'.length = st.length ∧
      nd st' p = { nd st p with add := 0 } ∧
      (∀ i, i ≠ p → i ≠ 2 * p → i ≠ 2 * p + 1 → nd st' i = nd st i) ∧
      nd st' (2 * p) = maxStage (nd st p).min1 (minStage (nd st p).max1
        ((nd st (2 * p)).apply_add (nd st p).add ((l + r) / 2 - l + 1))) ∧
      nd st' (2 * p + 1) = maxStage (nd st p).min1 (minStage (nd st p).max1
        ((nd st (2 * p + 1)).apply_add (nd st p).add (r - (l + r) / 2))) := by
  refine ⟨pushed st p l r, push_eq hp hb (ne_of_lt hlr), pushed_length st p l r,
    nd_pushed_self l r hp hb, fun i h0 h1 h2 => nd_pushed_other st l r h0 h1 h2, ?_, ?_⟩
  · rw [nd_pushed_left l r hp hb, pushChild_eq, addStage_eq_apply_add]
  · rw [nd_pushed_right l r hp hb, pushChild_eq, addStage_eq_apply_add]

/-- Witness of `push_frame`. -/
theorem push_frame_witness :
    ∃ st', push tree15.st 1 0 1 = .ok st' ∧ st'.length = tree15.st.length ∧
      nd st' 1 = { nd tree15.st 1 with add := 0 } ∧
      (∀ i, i ≠ 1 → i ≠ 2 * 1 → i ≠ 2 * 1 + 1 → nd st' i = nd tree15.st i) ∧
      nd st' (2 * 1) = maxStage (nd tree15.st 1).min1 (minStage (nd tree15.st 1).max1
        ((nd tree15.st (2 * 1)).apply_add (nd tree15.st 1).add ((0 + 1) / 2 - 0 + 1))) ∧
      nd st' (2 * 1 + 1) = maxStage (nd tree15.st 1).min1 (minStage (nd tree15.st 1).max1
        ((nd tree15.st (2 * 1 + 1)).apply_add (nd tree15.st 1).add (1 - (0 + 1) / 2))) :=
  push_frame tree15.st 1 0 1 (by decide) (by decide) (by decide)

/-- C28: on every tree whose node vector holds the root record, for all `L`, `R`:
if `x >= st[1].max1` then `range_chmin(L, R, x)` completes and returns the tree
unchanged, and if `x <= st[1].min1` then `range_chmax(L, R, x)` completes and returns
the tree unchanged. -/
theorem root_fast_exit (t : SegTreeBeats) (hl : 2 ≤ t.st.length) (L R x : Int) :
    (x ≥ (nd t.st 1).max1 → range_chmin t L R x = .ok t) ∧
    (x ≤ (nd t.st 1).min1 → range_chmax t L R x = .ok t) := by
  obtain ⟨f, hf⟩ : ∃ f, t.st.length = f + 1 := ⟨t.st.length - 1, by omega⟩
  constructor
  · intro h
    unfold range_chmin
    rw [hf, range_chmin_go]
    split
    · rfl
    · rw [rd_ok (by omega), bind_ok, if_pos h]
      rfl
  · intro h
    unfold range_chmax
    rw [hf, range_chmax_go]
    split
    · rfl
    · rw [rd_ok (by omega), bind_ok, if_pos h]
      rfl

/-- Witness of `root_fast_exit`. -/
theorem root_fast_exit_witness :
    ((5 : Int) ≥ (nd tree15.st 1).max1 → range_chmin tree15 0 1 5 = .ok tree15) ∧
    ((5 : Int) ≤ (nd tree15.st 1).min1 → range_chmax tree15 0 1 5 = .ok tree15) :=
  root_fast_exit tree15 (by decide) 0 1 5

/-- C29: on a tree over `n >= 1` elements whose root record has `smax2 < x < max1`,
`range_chmin(0, n-1, x)` completes; the resulting vector differs from the old one only
at the root, whose record is `apply_chmin` of the old one: its `max1` is `x` and its
`sum` is the old `sum` lowered by `(old max1 - x) * cnt_max`. -/
theorem root_local_apply (n : Nat) (hn : 1 ≤ n) (st : List Node) (hl : 2 ≤ st.length)
    (x : Int) (h1 : (nd st 1).smax2 < x) (h2 : x < (nd st 1).max1) :
    ∃ st', range_chmin ⟨n, st⟩ 0 ((n : Int) - 1) x = .ok ⟨n, st'⟩ ∧
      st'.length = st.length ∧ (∀ i, i ≠ 1 → nd st' i = nd st i) ∧
      nd st' 1 = (nd st 1).apply_chmin x ∧ (nd st' 1).max1 = x ∧
      (nd st' 1).sum = (nd st 1).sum - ((nd st 1).max1 - x) * (nd st 1).cnt_max := by
  obtain ⟨f, hf⟩ : ∃ f, st.length = f + 1 := ⟨st.length - 1, by omega⟩
  refine ⟨upd st 1 (fun a => a.apply_chmin x), ?_, by simp,
    fun i hi => nd_upd_ne st (Ne.symm hi) _, nd_upd_self (by omega) _, ?_, ?_⟩
  · unfold range_chmin
    simp only []
    rw [hf, range_chmin_go, if_neg (by omega), rd_ok (by omega), bind_ok, if_neg (by omega),
      if_pos ⟨le_refl _, le_refl _, h1⟩, apply_chmin_ok (by omega)]
    rfl
  · rw [nd_upd_self (by omega)]
    exact (apply_chmin_fields _ x).2.2.1
  · rw [nd_upd_self (by omega)]
    exact (apply_chmin_fields _ x).1

/-- Witness of `root_local_apply`. -/
theorem root_local_apply_witness :
    ∃ st', range_chmin ⟨(2 : Nat), tree15.st⟩ 0 (((2 : Nat) : Int) - 1) 3 = .ok ⟨(2 : Nat), st'⟩ ∧
      st'.length = tree15.st.length ∧ (∀ i, i ≠ 1 → nd st' i = nd tree15.st i) ∧
      nd st' 1 = (nd tree15.st 1).apply_chmin 3 ∧ (nd st' 1).max1 = 3 ∧
      (nd st' 1).sum = (nd tree15.st 1).sum - ((nd tree15.st 1).max1 - 3) *
        (nd tree15.st 1).cnt_max :=
  root_local_apply 2 (by decide) tree15.st (by decide) 3 (by decide) (by decide)

/-- C30: in every state reachable from `build` on a non-empty array by public calls
whose clamp values are not sentinels, every leaf of the tree (a node owning a range of
size one) has `max1 = min1 = sum`, `cnt_max = cnt_min = 1`, `smax2 = LLONG_MIN` and
`smin2 = LLONG_MAX`. -/
theorem reachable_leaf_invariant (t : SegTreeBeats) (ht : ReachableBy Op.clampOK t)
    (q : Nat) (i : Int) (ho : Owns 1 0 (t.n - 1) q i i) :
    (nd t.st q).max1 = (nd t.st q).sum ∧ (nd t.st q).min1 = (nd t.st q).sum ∧
    (nd t.st q).cnt_max = 1 ∧ (nd t.st q).cnt_min = 1 ∧
    (nd t.st q).smax2 = LLONG_MIN ∧ (nd t.st q).smin2 = LLONG_MAX := by
  obtain ⟨n, hn, e1, hl, hq⟩ := reachable_leaves ht
  rw [e1] at ho
  exact leaves_owns ho hq rfl

/-- Witness of `reachable_leaf_invariant`. -/
theorem reachable_leaf_invariant_witness :
    (nd tree15.st 3).max1 = (nd tree15.st 3).sum ∧ (nd tree15.st 3).min1 = (nd tree15.st 3).sum ∧
    (nd tree15.st 3).cnt_max = 1 ∧ (nd tree15.st 3).cnt_min = 1 ∧
    (nd tree15.st 3).smax2 = LLONG_MIN ∧ (nd tree15.st 3).smin2 = LLONG_MAX :=
  reachable_leaf_invariant tree15 (ReachableBy.build [1, 5] tree15 (by decide) (by decide))
    3 1 (Owns.right 1 0 1 3 1 1 (by decide) (Owns.self 3 1 1))

/-- C21: if `L` and `R` hold the exact statistics of two multisets `A` and `B` of
64-bit values (in particular of non-empty multisets of non-sentinel values), then
`merge(L, R)` holds the exact statistics of their union `A ++ B` and has `add = 0`. -/
theorem merge_exact (L R : Node) (A B : List Int) (hA : Word64 A) (hB : Word64 B)
    (hL : Exact L A) (hR : Exact R B) :
    Exact (merge L R) (A ++ B) ∧ (merge L R).add = 0 :=
  exact_merge L R A B hA hB hL hR

/-- Witness of `merge_exact`. -/
theorem merge_exact_witness :
    Exact (merge (make_node 3) (make_node 5)) ([3] ++ [5]) ∧
      (merge (make_node 3) (make_node 5)).add = 0 :=
  merge_exact (make_node 3) (make_node 5) [3] [5]
    (word64_small _ (by decide)) (word64_small _ (by decide))
    (exact_make_node 3) (exact_make_node 5)

/-- C22: `build(a)` on a non-empty array of 64-bit values returns a tree in which
every node owning a range `[x, y]` holds the exact statistics of `a[x..y]` (sum,
maximum, strict second maximum or sentinel, count of the maximum, and the same on the
minimum side) and has `add = 0`. -/
theorem build_exact (a : List Int) (ha : a ≠ []) (hw : Word64 a) :
    ∃ t, build a = .ok t ∧ ∀ q x y, Owns 1 0 (t.n - 1) q x y →
      Exact (nd t.st q) (slice a x y) ∧ (nd t.st q).add = 0 := by
  obtain ⟨st, e, -, hb⟩ := build_spec ha
  refine ⟨_, e, fun q x y ho => ?_⟩
  obtain ⟨c, c1, c2⟩ := built_owns ho hb
  exact built_exact hw c c1 (by simp only at c2; omega)

/-- Witness of `build_exact`. -/
theorem build_exact_witness :
    ∃ t, build [3, 1, 2] = .ok t ∧ ∀ q x y, Owns 1 0 (t.n - 1) q x y →
      Exact (nd t.st q) (slice [3, 1, 2] x y) ∧ (nd t.st q).add = 0 :=
  build_exact [3, 1, 2] (by decide) (word64_small _ (by decide))

/-- C23: for a node `N` holding the exact statistics of a non-empty multiset `M` and
every `x` with `smax2 < x < max1`, the node `apply_chmin(N, x)` has `sum` equal to the
sum of `min(v, x)` over `M`, `max1 = x`, `smax2` and `cnt_max` unchanged, and `min1`
equal to the minimum of the clamped multiset, which is `x` if `M` was uniform and the
old `min1` otherwise; `min1 <= max1` holds afterwards. -/
theorem apply_chmin_exact (N : Node) (M : List Int) (x : Int) (hM : M ≠ []) (hN : Exact N M)
    (h1 : N.smax2 < x) (h2 : x < N.max1) :
    (N.apply_chmin x).sum = (M.map (fun v => min v x)).sum ∧
    (N.apply_chmin x).max1 = x ∧
    (N.apply_chmin x).smax2 = N.smax2 ∧ (N.apply_chmin x).cnt_max = N.cnt_max ∧
    (N.apply_chmin x).min1 = statMin1 (M.map (fun v => min v x)) ∧
    (N.apply_chmin x).min1 = (if statMin1 M = statMax1 M then x else N.min1) ∧
    (N.apply_chmin x).min1 ≤ (N.apply_chmin x).max1 := by
  obtain ⟨e1, e2, e3, e4, e5, -, -⟩ := hN
  obtain ⟨f1, -, f3, f4, f5, -, f7, -⟩ := apply_chmin_fields N x
  obtain ⟨mx, gmx⟩ := statMax1_spec M hM
  obtain ⟨mn, gmn⟩ := statMin1_spec M hM
  have key : ∀ v ∈ M, v = statMax1 M ∨ v < x := fun v hv => by
    have a := gmx v hv
    by_cases c : v = statMax1 M
    · exact Or.inl c
    · have := below_max_le_smax2 hv (by omega)
      right; omega
  have hmin : (N.apply_chmin x).min1 = statMin1 (M.map (fun v => min v x)) := by
    rw [f4]
    symm
    by_cases c : N.min1 = N.max1
    · rw [if_pos c]
      refine statMin1_unique (List.mem_map.mpr ⟨statMax1 M, mx, by omega⟩) (fun w hw => ?_)
      obtain ⟨v, hv, rfl⟩ := List.mem_map.mp hw
      have := gmx v hv
      have := gmn v hv
      omega
    · rw [if_neg c]
      have lt : statMin1 M < statMax1 M := by
        have := gmx _ mn
        omega
      have le := below_max_le_smax2 mn lt
      refine statMin1_unique (List.mem_map.mpr ⟨statMin1 M, mn, by omega⟩) (fun w hw => ?_)
      obtain ⟨v, hv, rfl⟩ := List.mem_map.mp hw
      have := gmn v hv
      omega
  refine ⟨?_, f3, f7, f5, hmin, ?_, ?_⟩
  · rw [f1, clamp_sum (statMax1 M) x M key (by omega), e1, e2, e4, statCntMax_eq]
  · rw [f4, e5, e2]
  · rw [f4, f3]
    by_cases c : N.min1 = N.max1
    · rw [if_pos c]
    · rw [if_neg c]
      have lt : statMin1 M < statMax1 M := by
        have := gmx _ mn
        omega
      have le := below_max_le_smax2 mn lt
      omega

/-- Witness of `apply_chmin_exact`. -/
theorem apply_chmin_exact_witness :
    ((merge (make_node 3) (make_node 5)).apply_chmin 4).sum =
        (([3] ++ [5]).map (fun v => min v 4)).sum ∧
    ((merge (make_node 3) (make_node 5)).apply_chmin 4).max1 = 4 ∧
    ((merge (make_node 3) (make_node 5)).apply_chmin 4).smax2 =
        (merge (make_node 3) (make_node 5)).smax2 ∧
    ((merge (make_node 3) (make_node 5)).apply_chmin 4).cnt_max =
        (merge (make_node 3) (make_node 5)).cnt_max ∧
    ((merge (make_node 3) (make_node 5)).apply_chmin 4).min1 =
        statMin1 (([3] ++ [5]).map (fun v => min v 4)) ∧
    ((merge (make_node 3) (make_node 5)).apply_chmin 4).min1 =
        (if statMin1 ([3] ++ [5]) = statMax1 ([3] ++ [5]) then 4
          else (merge (make_node 3) (make_node 5)).min1) ∧
    ((merge (make_node 3) (make_node 5)).apply_chmin 4).min1 ≤
        ((merge (make_node 3) (make_node 5)).apply_chmin 4).max1 :=
  apply_chmin_exact (merge (make_node 3) (make_node 5)) ([3] ++ [5]) 4 (by decide)
    (exact_merge _ _ _ _ (word64_small _ (by decide)) (word64_small _ (by decide))
      (exact_make_node 3) (exact_make_node 5)).1 (by decide) (by decide)

/-- C24: for a node `N` holding the exact statistics of a multiset `M` of `len`
values, none of them a sentinel, and every `delta`, the node `apply_add(N, delta, len)`
holds the exact statistics of the translated multiset: `sum` grows by `delta * len`,
`max1`, `min1` and the non-sentinel `smax2`, `smin2` grow by `delta`, sentinels and
counts are unchanged, and the pending `add` grows by `delta`.  A multiset that has a
maximum is not empty. -/
theorem apply_add_exact (N : Node) (M : List Int) (len delta : Int) (hM : M ≠ [])
    (hlen : len = M.length) (hs : ∀ v ∈ M, v ≠ LLONG_MIN ∧ v ≠ LLONG_MAX) (hN : Exact N M) :
    Exact (N.apply_add delta len) (M.map (fun v => v + delta)) ∧
    (N.apply_add delta len).add = N.add + delta ∧
    (N.apply_add delta len).sum = N.sum + delta * len ∧
    (N.apply_add delta len).max1 = N.max1 + delta ∧
    (N.apply_add delta len).min1 = N.min1 + delta ∧
    (N.apply_add delta len).smax2 =
      (if N.smax2 = LLONG_MIN then LLONG_MIN else N.smax2 + delta) ∧
    (N.apply_add delta len).smin2 =
      (if N.smin2 = LLONG_MAX then LLONG_MAX else N.smin2 + delta) ∧
    (N.apply_add delta len).cnt_max = N.cnt_max ∧
    (N.apply_add delta len).cnt_min = N.cnt_min := by
  obtain ⟨e1, e2, e3, e4, e5, e6, e7⟩ := hN
  obtain ⟨f1, f2, f3, f4, f5, f6⟩ := apply_add_fields N delta len
  obtain ⟨g1, g2⟩ := apply_add_seconds N delta len
  refine ⟨⟨?_, ?_, ?_, ?_, ?_, ?_, ?_⟩, f2, f1, f3, f4, ?_, ?_, f5, f6⟩
  · rw [f1, sum_map_add, e1, hlen]
  · rw [f3, statMax1_map_add hM, e2]
  · rw [g1, statSmax2_map_add hM (fun v hv => (hs v hv).1), e3]
  · rw [f5, e4, statCntMax_eq, statCntMax_eq, statMax1_map_add hM, count_map_add]
  · rw [f4, statMin1_map_add hM, e5]
  · rw [g2, statSmin2_map_add hM (fun v hv => (hs v hv).2), e6]
  · rw [f6, e7, statCntMin_eq, statCntMin_eq, statMin1_map_add hM, count_map_add]
  · rw [g1]
    by_cases c : N.smax2 = LLONG_MIN
    · rw [if_pos c, if_neg (not_not.mpr c), c]
    · rw [if_neg c, if_pos c]
  · rw [g2]
    by_cases c : N.smin2 = LLONG_MAX
    · rw [if_pos c, if_neg (not_not.mpr c), c]
    · rw [if_neg c, if_pos c]

/-- C25, the claim as stated fails: for the node of the two values `LLONG_MIN + 1` and
`0`, whose second maximum is `LLONG_MIN + 1`, and `x = 5`, `apply_chmax(node, x)` is
not `neg(apply_chmin(neg(node), -x))`. -/
theorem apply_chmax_mirror_counterexample :
    ¬ ((merge (make_node (-9223372036854775807)) (make_node 0)).apply_chmax 5 =
      specNeg ((specNeg (merge (make_node (-9223372036854775807)) (make_node 0))).apply_chmin
        (-5))) := by
  decide

/-- C25, amended: `apply_chmax(node, x) = neg(apply_chmin(neg(node), -x))` for every
`x` and every node whose `smax2` and `smin2` are 64-bit values other than
`LLONG_MIN + 1`. -/
theorem apply_chmax_mirror (a : Node) (x : Int)
    (h1 : LLONG_MIN ≤ a.smax2 ∧ a.smax2 ≤ LLONG_MAX) (h2 : a.smax2 ≠ LLONG_MIN + 1)
    (h3 : LLONG_MIN ≤ a.smin2 ∧ a.smin2 ≤ LLONG_MAX) (h4 : a.smin2 ≠ LLONG_MIN + 1) :
    a.apply_chmax x = specNeg ((specNeg a).apply_chmin (-x)) := by
  obtain ⟨f1, f2, f3, f4, f5, f6, f7, f8⟩ := apply_chmax_fields a x
  obtain ⟨g1, g2, g3, g4, g5, g6, g7, g8⟩ := apply_chmin_fields (specNeg a) (-x)
  apply node_ext
  · rw [f1]
    show _ = -((specNeg a).apply_chmin (-x)).sum
    rw [g1]
    show _ = -(-a.sum - (-a.min1 - -x) * a.cnt_min)
    ring
  · rw [f2]
    show _ = -((specNeg a).apply_chmin (-x)).add
    rw [g2]
    show _ = - -a.add
    ring
  · rw [f4]
    show _ = -((specNeg a).apply_chmin (-x)).min1
    rw [g4]
    show _ = -(if -a.max1 = -a.min1 then -x else -a.max1)
    by_cases c : a.max1 = a.min1
    · rw [if_pos c, if_pos (by omega)]; omega
    · rw [if_neg c, if_neg (by omega)]; omega
  · rw [f7]
    show _ = specNegS ((specNeg a).apply_chmin (-x)).smin2
    rw [g8]
    exact (specNegS_invol _ h1.1 h1.2 h2).symm
  · rw [f5]
    show _ = ((specNeg a).apply_chmin (-x)).cnt_min
    rw [g6]
    rfl
  · rw [f3]
    show _ = -((specNeg a).apply_chmin (-x)).max1
    rw [g3]
    omega
  · rw [f8]
    show _ = specNegS ((specNeg a).apply_chmin (-x)).smax2
    rw [g7]
    exact (specNegS_invol _ h3.1 h3.2 h4).symm
  · rw [f6]
    show _ = ((specNeg a).apply_chmin (-x)).cnt_max
    rw [g5]
    rfl

/-- Witness of `apply_chmax_mirror`. -/
theorem apply_chmax_mirror_witness :
    (merge (make_node 3) (make_node 5)).apply_chmax 4 =
      specNeg ((specNeg (merge (make_node 3) (make_node 5))).apply_chmin (-4)) :=
  apply_chmax_mirror (merge (make_node 3) (make_node 5)) 4 (by decide) (by decide)
    (by decide) (by decide)

/-- Witness of `apply_add_exact`. -/
theorem apply_add_exact_witness :
    Exact ((merge (make_node 3) (make_node 5)).apply_add 10 2)
      (([3] ++ [5]).map (fun v => v + 10)) ∧
    ((merge (make_node 3) (make_node 5)).apply_add 10 2).add =
      (merge (make_node 3) (make_node 5)).add + 10 :=
  have h := apply_add_exact (merge (make_node 3) (make_node 5)) ([3] ++ [5]) 2 10 (by decide)
    (by decide) (by decide)
    (exact_merge _ _ _ _ (word64_small _ (by decide)) (word64_small _ (by decide))
      (exact_make_node 3) (exact_make_node 5)).1
  ⟨h.1, h.2.1⟩

/-- C37: `merge` is commutative and associative on all node records, the integers
being exact. -/
theorem merge_comm_assoc (A B C L R : Node) :
    merge L R = merge R L ∧ merge (merge A B) C = merge A (merge B C) :=
  ⟨merge_comm L R, merge_assoc A B C⟩

/-- C36, the claim as stated fails: for the records of the single elements `0` and
`LLONG_MAX`, `merge(neg(L), neg(R))` has `smax2 = LLONG_MIN + 1` while
`neg(merge(L, R))` has the sentinel `LLONG_MIN`. -/
theorem merge_mirror_counterexample :
    ¬ (merge (specNeg (make_node 0)) (specNeg (make_node 9223372036854775807)) =
      specNeg (merge (make_node 0) (make_node 9223372036854775807))) := by
  decide

/-- C36, amended: `merge(neg(L), neg(R)) = neg(merge(L, R))` for all node records `L`
and `R` whose `max1` and `min1` are not sentinel values. -/
theorem merge_mirror (L R : Node)
    (hL1 : L.max1 ≠ LLONG_MIN ∧ L.max1 ≠ LLONG_MAX) (hL2 : L.min1 ≠ LLONG_MIN ∧ L.min1 ≠ LLONG_MAX)
    (hR1 : R.max1 ≠ LLONG_MIN ∧ R.max1 ≠ LLONG_MAX)
    (hR2 : R.min1 ≠ LLONG_MIN ∧ R.min1 ≠ LLONG_MAX) :
    merge (specNeg L) (specNeg R) = specNeg (merge L R) := by
  have a1 := specNegS_plain hL1.1 hL1.2
  have a2 := specNegS_plain hL2.1 hL2.2
  have a3 := specNegS_plain hR1.1 hR1.2
  have a4 := specNegS_plain hR2.1 hR2.2
  apply node_ext
  · rw [merge_sum]
    show -L.sum + -R.sum = -(merge L R).sum
    rw [merge_sum]
    ring
  · rw [merge_add]
    show 0 = -(merge L R).add
    rw [merge_add]
    rfl
  · rw [merge_max1]
    show max (-L.min1) (-R.min1) = -(merge L R).min1
    rw [merge_min1]
    omega
  · rw [merge_smax2]
    show (if -L.min1 > -R.min1 then max (specNegS L.smin2) (-R.min1)
      else if -L.min1 < -R.min1 then max (specNegS R.smin2) (-L.min1)
      else max (specNegS L.smin2) (specNegS R.smin2)) = specNegS (merge L R).smin2
    rw [merge_smin2, ← a2, ← a4]
    by_cases c1 : L.min1 < R.min1
    · rw [if_pos c1, specNegS_min, if_pos (by rw [a2, a4]; omega)]
    · by_cases c2 : L.min1 > R.min1
      · rw [if_neg c1, if_pos c2, specNegS_min, if_neg (by rw [a2, a4]; omega),
          if_pos (by rw [a2, a4]; omega)]
      · rw [if_neg c1, if_neg c2, specNegS_min, if_neg (by rw [a2, a4]; omega),
          if_neg (by rw [a2, a4]; omega)]
  · rw [merge_cnt_max]
    show (if -L.min1 > -R.min1 then L.cnt_min else if -L.min1 < -R.min1 then R.cnt_min
      else L.cnt_min + R.cnt_min) = (merge L R).cnt_min
    rw [merge_cnt_min]
    split_ifs <;> omega
  · rw [merge_min1]
    show min (-L.max1) (-R.max1) = -(merge L R).max1
    rw [merge_max1]
    omega
  · rw [merge_smin2]
    show (if -L.max1 < -R.max1 then min (specNegS L.smax2) (-R.max1)
      else if -L.max1 > -R.max1 then min (specNegS R.smax2) (-L.max1)
      else min (specNegS L.smax2) (specNegS R.smax2)) = specNegS (merge L R).smax2
    rw [merge_smax2, ← a1, ← a3]
    by_cases c1 : L.max1 > R.max1
    · rw [if_pos c1, specNegS_max, if_pos (by rw [a1, a3]; omega)]
    · by_cases c2 : L.max1 < R.max1
      · rw [if_neg c1, if_pos c2, specNegS_max, if_neg (by rw [a1, a3]; omega),
          if_pos (by rw [a1, a3]; omega)]
      · rw [if_neg c1, if_neg c2, specNegS_max, if_neg (by rw [a1, a3]; omega),
          if_neg (by rw [a1, a3]; omega)]
  · rw [merge_cnt_min]
    show (if -L.max1 < -R.max1 then L.cnt_max else if -L.max1 > -R.max1 then R.cnt_max
      else L.cnt_max + R.cnt_max) = (merge L R).cnt_max
    rw [merge_cnt_max]
    split_ifs <;> omega

/-- Witness of `merge_mirror`. -/
theorem merge_mirror_witness :
    merge (specNeg (make_node 3)) (specNeg (make_node 5)) =
      specNeg (merge (make_node 3) (make_node 5)) :=
  merge_mirror (make_node 3) (make_node 5) (by decide) (by decide) (by decide) (by decide)

/-- C35: for every non-empty array `a` and all `L`, `R`, the call `range_sum(L, R)` on
the tree returned by `build(a)` completes and returns the tree itself, every record as
it was; and `push` at any internal node of that tree returns the node vector
unchanged. -/
theorem fresh_query_read_only (a : List Int) (ha : a ≠ []) (L R : Int) :
    ∃ t s, build a = .ok t ∧ range_sum t L R = .ok (s, t) ∧
      ∀ q x y, Owns 1 0 (t.n - 1) q x y → x < y → push t.st q x y = .ok t.st := by
  have hn : 1 ≤ a.length := by
    cases a with
    | nil => exact absurd rfl ha
    | cons x xs => simp
  obtain ⟨st, e, hl, hb⟩ := build_spec ha
  refine ⟨_, _, e, range_sum_built ha hl hb L R, fun q x y ho hxy => ?_⟩
  have hs : Shape st.length q x y := by
    rw [hl]
    exact shape_owns ho (shape_root hn)
  obtain ⟨hq, -, -⟩ := built_owns ho hb
  cases hs with
  | leaf _ _ _ _ => omega
  | node _ _ _ hp hN _ _ _ =>
    cases hq with
    | leaf _ _ _ => omega
    | node _ _ _ _ _ _ hm => exact push_merged hp hN (ne_of_lt hxy) hm

/-- Witness of `fresh_query_read_only`. -/
theorem fresh_query_read_only_witness :
    ∃ t s, build [3, 1, 2] = .ok t ∧ range_sum t (-1) 1 = .ok (s, t) ∧
      ∀ q x y, Owns 1 0 (t.n - 1) q x y → x < y → push t.st q x y = .ok t.st :=
  fresh_query_read_only [3, 1, 2] (by decide) (-1) 1

/-- C33: `build` on a non-empty array completes on the vector of `4n + 4` records that
`init` allocates, and in every state reached from it by public calls with 64-bit
arguments and clamp values other than the sentinels, whatever their index arguments,
every such call completes: no checked access to the node vector falls outside
`[0, 4n + 4)`.  The vector keeps its size, and position 0 is neither read nor written:
its record stays as it is, and with any other record `X` in its place the recursive
`build` and every such call give the same result and the same records, `X` remaining at
position 0. -/
theorem node_indices_in_bounds :
    (∀ a : List Int, a ≠ [] → ∃ t, build a = .ok t ∧ t.n = a.length ∧
      t.st.length = 4 * a.length + 4 ∧ nd t.st 0 = {} ∧
      ∀ X : Node, build_go (init a.length).st.length ((init a.length).st.set 0 X) 1 0
        ((a.length : Int) - 1) a = .ok (t.st.set 0 X)) ∧
    (∀ t, ReachableAny (fun op => op.word64 ∧ op.clampOK) t →
      ∀ op : Op, op.word64 → op.clampOK →
        ∃ o t', step t op = .ok (o, t') ∧ t'.n = t.n ∧ (t'.st.length : Int) = 4 * t.n + 4 ∧
          t'.st.length = t.st.length ∧ nd t'.st 0 = nd t.st 0 ∧
          ∀ X : Node, step { t with st := t.st.set 0 X } op =
            .ok (o, { t' with st := t'.st.set 0 X })) := by
  constructor
  · intro a ha
    obtain ⟨t, e, h1, h2, h3⟩ := indices_in_bounds_core.1 a ha
    refine ⟨t, e, h1, h2, h3, fun X => ?_⟩
    unfold build at e
    simp only [] at e
    obtain ⟨s, e1, u⟩ := bind_inv e
    cases u
    exact build_go_set0 X a _ _ _ _ _ (le_refl 1) s e1
  · intro t ht op hw hc
    obtain ⟨o, t', e, h1, h2, h3, h4⟩ := indices_in_bounds_core.2 t ht op hw hc
    exact ⟨o, t', e, h1, h2, h3, h4, fun X => step_set0 X e⟩

/-- Witness of `node_indices_in_bounds`. -/
theorem node_indices_in_bounds_witness :
    (∃ t, build [1, 5] = .ok t ∧ t.n = ([1, 5] : List Int).length ∧
      t.st.length = 4 * ([1, 5] : List Int).length + 4 ∧ nd t.st 0 = {} ∧
      ∀ X : Node, build_go (init ([1, 5] : List Int).length).st.length
        ((init ([1, 5] : List Int).length).st.set 0 X) 1 0
        ((([1, 5] : List Int).length : Int) - 1) [1, 5] = .ok (t.st.set 0 X)) ∧
    ∃ o t', step tree15 (.chmin (-3) 9 3) = .ok (o, t') ∧ t'.n = tree15.n ∧
      (t'.st.length : Int) = 4 * tree15.n + 4 ∧ t'.st.length = tree15.st.length ∧
      nd t'.st 0 = nd tree15.st 0 ∧
      ∀ X : Node, step { tree15 with st := tree15.st.set 0 X } (.chmin (-3) 9 3) =
        .ok (o, { t' with st := t'.st.set 0 X }) :=
  ⟨node_indices_in_bounds.1 [1, 5] (by decide),
    node_indices_in_bounds.2 tree15 (ReachableAny.build [1, 5] tree15 (by decide) (by decide))
      (.chmin (-3) 9 3) (by decide) (by decide)⟩

/-- C32: in every state reached from `build` on a non-empty array by public calls
with 64-bit arguments, whatever their index arguments, and for all integers `L`, `R`
and every 64-bit value `v`, each of `range_add`, `range_chmin`, `range_chmax` and
`range_sum` called with `(L, R)` has exactly the outcome (resulting node vector and
returned value, or failure) of the same call with `(max(L, 0), min(R, n-1))`. -/
theorem out_of_range_clamped (t : SegTreeBeats) (ht : ReachableAny Op.word64 t) (L R v : Int)
    (hv : LLONG_MIN ≤ v ∧ v ≤ LLONG_MAX) :
    range_add t L R v = range_add t (max L 0) (min R (t.n - 1)) v ∧
    range_chmin t L R v = range_chmin t (max L 0) (min R (t.n - 1)) v ∧
    range_chmax t L R v = range_chmax t (max L 0) (min R (t.n - 1)) v ∧
    range_sum t L R = range_sum t (max L 0) (min R (t.n - 1)) := by
  obtain ⟨n, hn, e1, hl, hq, hk⟩ := reachableAny_gen ht
  obtain ⟨tn, st⟩ := t
  simp only at e1 hl hq hk
  subst e1
  have hs := shape_root hn
  refine ⟨?_, ?_, ?_, ?_⟩
  · unfold range_add
    simp only []
    rw [range_add_go_clamp n L R v _ st 1 0 (n - 1) (by omega) (by omega) (by omega)]
  · unfold range_chmin
    simp only []
    rw [range_chmin_go_clamp (by omega) n L R v hv.1 hs _ st hl (by omega) (by omega) hq hk]
  · unfold range_chmax
    simp only []
    rw [range_chmax_go_clamp (by omega) n L R v hv.2 hs _ st hl (by omega) (by omega) hq hk]
  · unfold range_sum
    simp only []
    rw [range_sum_go_clamp n L R _ st 1 0 (n - 1) (by omega) (by omega) (by omega)]

/-- Witness of `out_of_range_clamped`. -/
theorem out_of_range_clamped_witness :
    range_add tree15 (-3) 9 4 = range_add tree15 (max (-3) 0) (min 9 (tree15.n - 1)) 4 ∧
    range_chmin tree15 (-3) 9 4 = range_chmin tree15 (max (-3) 0) (min 9 (tree15.n - 1)) 4 ∧
    range_chmax tree15 (-3) 9 4 = range_chmax tree15 (max (-3) 0) (min 9 (tree15.n - 1)) 4 ∧
    range_sum tree15 (-3) 9 = range_sum tree15 (max (-3) 0) (min 9 (tree15.n - 1)) :=
  out_of_range_clamped tree15 (ReachableAny.build [1, 5] tree15 (by decide) (by decide))
    (-3) 9 4 (by decide)

/-- C34: for every non-empty array `a` of 64-bit values and every sequence of
`range_chmin` and `range_sum` calls whose clamp values are above the "minus infinity"
sentinel (in particular with in-range indices), the `SegTreeBeats` built from `a` and
the `SegTreeChminSum` built from `a` both complete the sequence and return the same
value for every `range_sum` call. -/
theorem beats_refines_chmin_sum (a : List Int) (ha : a ≠ []) (hty : ∀ v ∈ a, LLONG_MIN ≤ v)
    (ops : List ChminSum.Op) (hops : ∀ op ∈ ops, op.clampOK) :
    ∃ tb tc outs tb' tc', build a = .ok tb ∧ ChminSum.build a = .ok tc ∧
      run tb (ops.map toOp) = .ok (outs, tb') ∧ ChminSum.run tc ops = .ok (outs, tc') := by
  have hn : 1 ≤ a.length := by
    cases a with
    | nil => exact absurd rfl ha
    | cons x xs => simp
  obtain ⟨sb, sc, eb, ec, lb, lc, -, -, g⟩ := sim_build hty (shape_root hn)
    (init (a.length : Int)).st.length (init (a.length : Int)).st
    (ChminSum.init (a.length : Int)).st (by rw [init_length]; omega) (init_length _)
    (cs_init_length _) (le_refl _) (by omega)
  obtain ⟨outs, tb', tc', r1, r2⟩ := sim_run hn ops sb sc lb lc g hops
  refine ⟨⟨a.length, sb⟩, ⟨a.length, sc⟩, outs, tb', tc', ?_, ?_, r1, r2⟩
  · unfold build
    simp only []
    rw [show (init (a.length : Int)).n = (a.length : Int) from rfl, eb]
    rfl
  · unfold ChminSum.build
    simp only []
    rw [show (ChminSum.init (a.length : Int)).n = (a.length : Int) from rfl,
      show (ChminSum.init (a.length : Int)).st.length = (init (a.length : Int)).st.length from by
        rw [cs_init_length, init_length], ec]
    rfl

/-- Witness of `beats_refines_chmin_sum`. -/
theorem beats_refines_chmin_sum_witness :
    ∃ tb tc outs tb' tc', build [5, 4, 3] = .ok tb ∧ ChminSum.build [5, 4, 3] = .ok tc ∧
      run tb ([ChminSum.Op.chmin 0 2 4, ChminSum.Op.sum 0 1].map toOp) = .ok (outs, tb') ∧
      ChminSum.run tc [ChminSum.Op.chmin 0 2 4, ChminSum.Op.sum 0 1] = .ok (outs, tc') :=
  beats_refines_chmin_sum [5, 4, 3] (by decide)
    (fun v hv => (word64_small [5, 4, 3] (by decide) v hv).1)
    [ChminSum.Op.chmin 0 2 4, ChminSum.Op.sum 0 1] (by decide)

/-- C31 (counterexample): the array `[LLONG_MIN, 0]` holds the value that the records
use as "no second maximum".  After `range_add(0,1,4611686018427387903)` and
`range_add(0,1,6)` the naive array is `[-4611686018427387899, 4611686018427387909]`;
`range_chmin(0,1,-4611686018427387898)` makes it
`[-4611686018427387899, -4611686018427387898]`, and
`range_chmin(0,1,-4611686018427387904)` lowers both elements, so that the naive sum is
`-9223372036854775808`.  All operations are in range, none is `range_chmax`, both
clamp values are above the sentinel, and all values involved are 64-bit values; yet
`range_sum(0,1)` returns `-9223372036854775803` on the structure. -/
theorem chmax_free_refinement_counterexample :
    (∀ op ∈ [Op.add 0 1 4611686018427387903, .add 0 1 6, .chmin 0 1 (-4611686018427387898),
        .chmin 0 1 (-4611686018427387904), .sum 0 1],
      op.inRange 2 ∧ op.clampOK ∧ op.noChmax ∧ op.word64) ∧
    (∀ b ∈ naiveTrace [LLONG_MIN, 0] [.add 0 1 4611686018427387903, .add 0 1 6,
        .chmin 0 1 (-4611686018427387898), .chmin 0 1 (-4611686018427387904), .sum 0 1],
      ∀ v ∈ b, LLONG_MIN ≤ v ∧ v ≤ LLONG_MAX) ∧
    (do
      let t ← build [LLONG_MIN, 0]
      let (outs, _) ← run t [.add 0 1 4611686018427387903, .add 0 1 6,
        .chmin 0 1 (-4611686018427387898), .chmin 0 1 (-4611686018427387904), .sum 0 1]
      pure outs) = (.ok [-9223372036854775803] : Res (List Int)) ∧
    (naiveRun [LLONG_MIN, 0] [.add 0 1 4611686018427387903, .add 0 1 6,
        .chmin 0 1 (-4611686018427387898), .chmin 0 1 (-4611686018427387904),
        .sum 0 1]).1 = [-9223372036854775808] := by
  decide

/-- C31 (amended): on the tree built from a non-empty array `a`, every sequence of
`range_add`, `range_chmin` and `range_sum` calls with in-range indices and clamp values
above the sentinel completes, and every `range_sum` returns the value the naive array
model returns, provided that no element of the naive array equals the sentinel
`LLONG_MIN` initially or after any of the operations (arithmetic being exact). -/
theorem chmax_free_refines_naive (a : List Int) (ha : a ≠ []) (ops : List Op)
    (hops : ∀ op ∈ ops, op.inRange a.length ∧ op.clampOK ∧ op.noChmax)
    (hs : NoSentinel a ops) :
    ∃ t t', build a = .ok t ∧ run t ops = .ok ((naiveRun a ops).1, t') := by
  have hn : 1 ≤ a.length := by
    cases a with
    | nil => exact absurd rfl ha
    | cons x xs => simp
  obtain ⟨st, e, hl, hb⟩ := build_spec ha
  obtain ⟨t', e'⟩ := beats_run_rep hn ops st a hl rfl
    (built_brep (noSentinel_head hs) hb (le_refl _) (by omega)) hops hs
  exact ⟨_, t', e, e'⟩

/-- Witness of `chmax_free_refines_naive`. -/
theorem chmax_free_refines_naive_witness :
    ∃ t t', build [3, 1, 2] = .ok t ∧
      run t [.add 0 1 2, .chmin 0 2 4, .sum 0 2, .add 2 2 (-7), .sum 1 2] =
        .ok ((naiveRun [3, 1, 2] [.add 0 1 2, .chmin 0 2 4, .sum 0 2, .add 2 2 (-7),
          .sum 1 2]).1, t') :=
  chmax_free_refines_naive [3, 1, 2] (by decide)
    [.add 0 1 2, .chmin 0 2 4, .sum 0 2, .add 2 2 (-7), .sum 1 2] (by decide) (by decide)

/-- C38 (counterexample): `L = R = 1073741824` satisfies `0 <= L <= R` and both are
values of an `int`, but `L + R` wraps to `-2147483648` in 32-bit arithmetic, so that
`sum_i(L, R)` is `-1073741824` while the sum `L + ... + R` is `1073741824`. -/
theorem sum_i_exact_counterexample :
    (0 : Int) ≤ 1073741824 ∧ (1073741824 : Int) ≤ 1073741824 ∧ (1073741824 : Int) ≤ INT_MAX ∧
    AP.sum_i_int32 1073741824 1073741824 = -1073741824 ∧
    rsum (fun i => i) 1073741824 1073741824 = 1073741824 := by
  decide

/-- C38 (amended): for all integers `0 <= L <= R` with `L + R <= INT_MAX`, the value
`sum_i(L, R)`, computed with the 32-bit addition of the source, is the sum
`L + (L+1) + ... + R`, and the division by 2 in it is exact: twice the quotient is the
product `(L + R) * (R - L + 1)`, which is even. -/
theorem sum_i_exact (L R : Int) (h0 : 0 ≤ L) (h : L ≤ R) (hb : L + R ≤ INT_MAX) :
    AP.sum_i_int32 L R = rsum (fun i => i) L R ∧
      2 * AP.sum_i_int32 L R = (L + R) * (R - L + 1) ∧ (L + R) * (R - L + 1) % 2 = 0 := by
  rw [sum_i_int32_eq h0 h hb]
  have e := sum_i_eq h
  have h2 := two_sumF_id (R - L + 1).toNat L
  rw [show (((R - L + 1).toNat : Nat) : Int) = R - L + 1 by omega] at h2
  have e2 : 2 * AP.sum_i L R = (L + R) * (R - L + 1) := by
    rw [e]
    unfold rsum
    rw [h2]
    ring
  refine ⟨e, e2, ?_⟩
  rw [← e2]
  omega

/-- Witness of `sum_i_exact`. -/
theorem sum_i_exact_witness :
    AP.sum_i_int32 3 7 = rsum (fun i => i) 3 7 ∧
      2 * AP.sum_i_int32 3 7 = (3 + 7) * (7 - 3 + 1) ∧
      ((3 : Int) + 7) * (7 - 3 + 1) % 2 = 0 :=
  sum_i_exact 3 7 (by decide) (by decide) (by decide)

end Beats
